import Mathlib

/-! LibGeoDecomp: partition manager geometry.

A shallow embedding of `src/geometry/partitionmanager.h` (class `PartitionManager`).
The class is a template over the topology. The headers of `Region`, `CoordBox`, `Partition`
and of the topology classes are not among the embedded sources, so these types are modelled
from the specification (each such definition says so in its doc comment).
-/

namespace LibGeoDecomp

/-! ## Coordinates, boxes, regions -/

/-- Modelled from the spec: `Coord<DIM>` (header absent), a DIM-tuple of signed integers. -/
abbrev Coord (D : Nat) := Fin D → Int

/-- Modelled from the spec: `Region<DIM>` (header `region.h` absent), a canonical set of
lattice points. Canonical form is unique, so a region is its point set. `a & b` is `a ∩ b`,
`a - b` is `a \ b`, `a | b` is `a ∪ b`, and `empty()` is `a = ∅`. -/
abbrev Region (D : Nat) := Finset (Coord D)

/-- Modelled from the spec: `CoordBox<DIM>` (header absent), an origin plus extents. -/
structure CoordBox (D : Nat) where
  origin : Coord D
  dimensions : Coord D

/-- Modelled from the spec: the topology descriptor (header absent), carrying one wrap flag
per axis. A cube topology wraps no axis, a torus wraps every axis. -/
structure Topology (D : Nat) where
  wrapsAxis : Fin D → Bool

/-- The cube topology of dimension `D`: no axis wraps. -/
def Topology.cube (D : Nat) : Topology D := ⟨fun _ => false⟩

/-- The torus topology of dimension `D`: every axis wraps. -/
def Topology.torus (D : Nat) : Topology D := ⟨fun _ => true⟩

/-- Manhattan length of an offset. -/
def manhattanNorm {D : Nat} (o : Coord D) : Nat := ∑ a, (o a).natAbs

/-- The `k`-ball of the stencil: all offsets of Manhattan length at most `k`. -/
def stencilBall (D k : Nat) : Finset (Coord D) :=
  (Fintype.piFinset fun _ => Finset.Icc (-(k : Int)) (k : Int)).filter
    (fun o => manhattanNorm o ≤ k)

/-- A coordinate lies in the box of extents `dimensions` at the origin. This is the
simulation box as the partition manager uses it: of its simulation area it only ever reads
`simulationArea.dimensions`, which it hands to `expandWithTopology`. -/
def inBounds {D : Nat} (dimensions c : Coord D) : Prop :=
  ∀ a, 0 ≤ c a ∧ c a < dimensions a

instance {D : Nat} (dimensions c : Coord D) : Decidable (inBounds dimensions c) :=
  inferInstanceAs (Decidable (∀ a, 0 ≤ c a ∧ c a < dimensions a))

/-- Wrapping of a coordinate: on a wrapping axis the component is taken modulo the extent,
on the other axes it is left alone. -/
def Topology.normalize {D : Nat} (T : Topology D) (dimensions c : Coord D) : Coord D :=
  fun a => if T.wrapsAxis a then c a % dimensions a else c a

/-- Modelled from the spec: `Region::expandWithTopology(width, dimensions, topology)`
(header `region.h` absent). The Minkowski sum of the region with the `width`-ball of the
stencil (one step is one Manhattan step), wrapped on the wrapping axes and clipped to the
box of extents `dimensions` on the others. The adjacency argument of the source is only
read by unstructured topologies and is left out. -/
def expandWithTopology {D : Nat} (width : Nat) (dimensions : Coord D) (T : Topology D)
    (r : Region D) : Region D :=
  ((r ×ˢ stencilBall D width).image (fun p => T.normalize dimensions (p.1 + p.2))).filter
    (inBounds dimensions)

/-- Modelled from the spec: `Region::boundingBox()` (header absent), the smallest box that
holds every point of the region; the empty region has the empty box at the origin. -/
def boundingBox {D : Nat} (r : Region D) : CoordBox D :=
  if h : r.Nonempty then
    { origin := fun a => (r.image (fun c => c a)).min' (h.image _)
      dimensions := fun a =>
        (r.image (fun c => c a)).max' (h.image _) - (r.image (fun c => c a)).min' (h.image _) + 1 }
  else
    { origin := fun _ => 0, dimensions := fun _ => 0 }

/-- Modelled from the spec: `CoordBox::intersects` (header absent): the two boxes share a
cell. -/
def CoordBox.intersects {D : Nat} (b other : CoordBox D) : Bool :=
  decide (∀ a, max (b.origin a) (other.origin a) <
    min (b.origin a + b.dimensions a) (other.origin a + other.dimensions a))

/-- Modelled from the spec: the `Partition` contract (header absent), reduced to the one
method the partition manager geometry reads: `getRegion(node)`. -/
structure Partition (D : Nat) where
  getRegion : Nat → Region D

/-! ## Containers -/

/-- The type `RegionVecMap`, a `std::map<int, std::vector<Region<DIM> > >`, as an
association list; a key is looked up at its first entry. -/
abbrev RegionVecMap (D : Nat) := List (Int × List (Region D))

/-- Entry of a map under a key (`find`). -/
def RegionVecMap.lookup {D : Nat} (m : RegionVecMap D) (k : Int) : Option (List (Region D)) :=
  match m with
  | [] => none
  | e :: rest => if e.1 = k then some e.2 else RegionVecMap.lookup rest k

/-- Number of entries under a key (`std::map::count`). -/
def RegionVecMap.count {D : Nat} (m : RegionVecMap D) (k : Int) : Nat :=
  if (m.lookup k).isSome then 1 else 0

/-- Assignment `m[k] = v`: the entry is replaced where the key exists and is put at its
place in ascending key order otherwise. -/
def RegionVecMap.insert {D : Nat} (m : RegionVecMap D) (k : Int) (v : List (Region D)) :
    RegionVecMap D :=
  match m with
  | [] => [(k, v)]
  | e :: rest =>
    if k < e.1 then (k, v) :: e :: rest
    else if k = e.1 then (k, v) :: rest
    else e :: RegionVecMap.insert rest k v

/-- The reference `m[k]` read as a value: a key that is absent yields the
default-constructed (empty) vector. -/
def RegionVecMap.get {D : Nat} (m : RegionVecMap D) (k : Int) : List (Region D) :=
  (m.lookup k).getD []

/-- The call `v.resize(n)` on a vector of regions: surplus entries are dropped, missing ones
are default-constructed (empty regions). -/
def resize {D : Nat} (v : List (Region D)) (n : Nat) : List (Region D) :=
  v.take n ++ List.replicate (n - v.length) ∅

/-- Element access `v[i]`. An index past the end is undefined behaviour in the source; the
model reads the empty region there. -/
def vecAt {D : Nat} (v : List (Region D)) (i : Nat) : Region D := v.getD i ∅

/-- Last element `v.back()`. -/
def vecBack {D : Nat} (v : List (Region D)) : Region D := vecAt v (v.length - 1)

/-! ## The partition manager -/

/-- The pseudo-rank `OUTGROUP = -1` of the enum `AccessCode`. -/
def OUTGROUP : Int := -1

/-- The data members of `PartitionManager<TOPOLOGY>`. Ranks and the ghost zone width are
`unsigned` in the source and natural numbers here; the model covers ghost zone widths below
`2^31`, for which neither `getGhostZoneWidth() + 1` nor the `int` counter of the rim loop
wraps around (a wider ghost zone would need more than `2^31` regions per stack). -/
structure PartitionManager (D : Nat) where
  partition : Partition D
  simulationArea : CoordBox D
  outerRim : Region D
  volatileKernel : Region D
  innerRim : Region D
  regions : RegionVecMap D
  outerGhostZoneFragments : RegionVecMap D
  innerGhostZoneFragments : RegionVecMap D
  ownRims : List (Region D)
  ownInnerSets : List (Region D)
  myRank : Nat
  ghostZoneWidth : Nat
  boundingBoxes : List (CoordBox D)

namespace PartitionManager

variable {D : Nat}

/-- The accessor `getGhostZoneWidth()`. -/
def getGhostZoneWidth (pm : PartitionManager D) : Nat := pm.ghostZoneWidth

/-- The accessor `ownRegion(expansionWidth)`: `regions[myRank][expansionWidth]`. -/
def ownRegion (pm : PartitionManager D) (expansionWidth : Nat) : Region D :=
  vecAt (pm.regions.get pm.myRank) expansionWidth

/-- The accessor `ownExpandedRegion()`: `regions[myRank].back()`. -/
def ownExpandedRegion (pm : PartitionManager D) : Region D :=
  vecBack (pm.regions.get pm.myRank)

/-- The accessor `rim(dist)`: `ownRims[dist]`. -/
def rim (pm : PartitionManager D) (dist : Nat) : Region D := vecAt pm.ownRims dist

/-- The accessor `innerSet(dist)`: `ownInnerSets[dist]`. -/
def innerSet (pm : PartitionManager D) (dist : Nat) : Region D := vecAt pm.ownInnerSets dist

/-- The accessor `getOuterRim()`. -/
def getOuterRim (pm : PartitionManager D) : Region D := pm.outerRim

/-- The accessor `getVolatileKernel()`. -/
def getVolatileKernel (pm : PartitionManager D) : Region D := pm.volatileKernel

/-- The accessor `getInnerRim()`. -/
def getInnerRim (pm : PartitionManager D) : Region D := pm.innerRim

/-- The accessor `getOuterGhostZoneFragments()`. -/
def getOuterGhostZoneFragments (pm : PartitionManager D) : RegionVecMap D :=
  pm.outerGhostZoneFragments

/-- The accessor `getInnerGhostZoneFragments()`. -/
def getInnerGhostZoneFragments (pm : PartitionManager D) : RegionVecMap D :=
  pm.innerGhostZoneFragments

/-- The accessor `getInnerOutgroupGhostZoneFragment()`. -/
def getInnerOutgroupGhostZoneFragment (pm : PartitionManager D) : Region D :=
  vecBack (pm.innerGhostZoneFragments.get OUTGROUP)

/-- The accessor `getOuterOutgroupGhostZoneFragment()`. -/
def getOuterOutgroupGhostZoneFragment (pm : PartitionManager D) : Region D :=
  vecBack (pm.outerGhostZoneFragments.get OUTGROUP)

/-- The private method `fillRegion(node)`: the stack `regions[node]` gets `G + 1` entries,
entry 0 is the partition's region and entry `i` the one-step expansion of entry `i - 1`. -/
def fillRegion (T : Topology D) (pm : PartitionManager D) (node : Nat) : PartitionManager D :=
  let regionExpansion := resize (pm.regions.get node) (pm.getGhostZoneWidth + 1)
  let regionExpansion := regionExpansion.set 0 (pm.partition.getRegion node)
  let regionExpansion := (List.range' 1 pm.getGhostZoneWidth).foldl
    (fun v i => v.set i (expandWithTopology 1 pm.simulationArea.dimensions T (vecAt v (i - 1))))
    regionExpansion
  { pm with regions := pm.regions.insert node regionExpansion }

/-- The private method `fillOwnRegion()`. -/
def fillOwnRegion (T : Topology D) (pm0 : PartitionManager D) : PartitionManager D :=
  let pm := fillRegion T pm0 pm0.myRank
  let dims := pm.simulationArea.dimensions
  let surface := expandWithTopology 1 dims T (pm.ownRegion 0) \ pm.ownRegion 0
  let kernel := pm.ownRegion 0 \ expandWithTopology pm.getGhostZoneWidth dims T surface
  let outerRim := pm.ownExpandedRegion \ pm.ownRegion 0
  let ownRims := resize pm.ownRims (pm.getGhostZoneWidth + 1)
  let ownInnerSets := resize pm.ownInnerSets (pm.getGhostZoneWidth + 1)
  let ownRims := ownRims.set (ownRims.length - 1) (pm.ownRegion 0 \ kernel)
  let ownRims := (List.range pm.getGhostZoneWidth).reverse.foldl
    (fun v i => v.set i (expandWithTopology 1 dims T (vecAt v (i + 1)))) ownRims
  let ownInnerSets := ownInnerSets.set 0 (pm.ownRegion 0)
  let minuend := expandWithTopology 1 dims T surface
  let loop := (List.range' 1 pm.getGhostZoneWidth).foldl
    (fun (s : List (Region D) × Region D) i =>
      (s.1.set i (vecAt s.1 (i - 1) \ s.2), expandWithTopology 1 dims T s.2))
    (ownInnerSets, minuend)
  let ownInnerSets := loop.1
  { pm with
    outerRim := outerRim
    ownRims := ownRims
    ownInnerSets := ownInnerSets
    volatileKernel := vecBack ownInnerSets ∩ vecAt ownRims 0
    innerRim := vecBack ownInnerSets ∩ vecAt ownRims 0 }

/-- The method `resetRegions(newSimulationArea, newPartition, newRank, newGhostZoneWidth)`. -/
def resetRegions (T : Topology D) (pm : PartitionManager D) (newSimulationArea : CoordBox D)
    (newPartition : Partition D) (newRank newGhostZoneWidth : Nat) : PartitionManager D :=
  fillOwnRegion T
    { pm with
      partition := newPartition
      simulationArea := newSimulationArea
      myRank := newRank
      ghostZoneWidth := newGhostZoneWidth
      regions := []
      outerGhostZoneFragments := []
      innerGhostZoneFragments := [] }

/-- The method `getRegion(node, expansionWidth)`: the region stack of a node is built on
first use; the call returns the region and the manager with its region cache. -/
def getRegion (T : Topology D) (pm : PartitionManager D) (node expansionWidth : Nat) :
    Region D × PartitionManager D :=
  let pm1 := if pm.regions.count node = 0 then fillRegion T pm node else pm
  (vecAt (pm1.regions.get node) expansionWidth, pm1)

/-- One pass of the loop body of `intersect(node)` at index `i`; the state is the manager
and the two fragment stacks under construction. -/
def intersectStep (T : Topology D) (node : Nat)
    (s : PartitionManager D × List (Region D) × List (Region D)) (i : Nat) :
    PartitionManager D × List (Region D) × List (Region D) :=
  let a := getRegion T s.1 s.1.myRank i
  let b := getRegion T a.2 node 0
  let outerGhosts := s.2.1.set i (a.1 ∩ b.1)
  let c := getRegion T b.2 b.2.myRank 0
  let d := getRegion T c.2 node i
  let innerGhosts := s.2.2.set i (c.1 ∩ d.1)
  (d.2, outerGhosts, innerGhosts)

/-- The private method `intersect(node)`. -/
def intersect (T : Topology D) (pm : PartitionManager D) (node : Nat) : PartitionManager D :=
  let outerGhosts := resize (pm.outerGhostZoneFragments.get node) (pm.getGhostZoneWidth + 1)
  let innerGhosts := resize (pm.innerGhostZoneFragments.get node) (pm.getGhostZoneWidth + 1)
  let s := (List.range (pm.getGhostZoneWidth + 1)).foldl (intersectStep T node)
    (pm, outerGhosts, innerGhosts)
  { s.1 with
    outerGhostZoneFragments := s.1.outerGhostZoneFragments.insert node s.2.1
    innerGhostZoneFragments := s.1.innerGhostZoneFragments.insert node s.2.2 }

/-- The body of the first loop of `resetGhostZones` for rank `i`: the peer is intersected
when it is not the own rank, its bounding box meets the own one and one of the two
width-`G` fragments is not empty (the conditions are evaluated left to right and short-cut
as in the source). -/
def ghostZoneStep (T : Topology D) (ownBoundingBox : CoordBox D) (pm : PartitionManager D)
    (i : Nat) : PartitionManager D :=
  if i ≠ pm.myRank ∧
      ((pm.boundingBoxes.getD i ⟨fun _ => 0, fun _ => 0⟩).intersects ownBoundingBox) = true then
    let a := getRegion T pm pm.myRank pm.ghostZoneWidth
    let b := getRegion T a.2 i 0
    if a.1 ∩ b.1 ≠ ∅ then intersect T b.2 i
    else
      let c := getRegion T b.2 i b.2.ghostZoneWidth
      let d := getRegion T c.2 c.2.myRank 0
      if c.1 ∩ d.1 ≠ ∅ then intersect T d.2 i else d.2
  else pm

/-- The subtraction loops of `resetGhostZones`: the back fragment of every entry other than
`OUTGROUP` is taken away from the start region. -/
def subtractPeerFragments (m : RegionVecMap D) (start : Region D) : Region D :=
  m.foldl (fun acc e => if e.1 ≠ OUTGROUP then acc \ vecBack e.2 else acc) start

/-- The method `resetGhostZones(newBoundingBoxes)`. -/
def resetGhostZones (T : Topology D) (pm0 : PartitionManager D)
    (newBoundingBoxes : List (CoordBox D)) : PartitionManager D :=
  let pm1 := { pm0 with boundingBoxes := newBoundingBoxes }
  let ownBoundingBox := boundingBox pm1.ownExpandedRegion
  let pm := (List.range pm1.boundingBoxes.length).foldl (ghostZoneStep T ownBoundingBox) pm1
  let outer := subtractPeerFragments pm.outerGhostZoneFragments pm.outerRim
  let inner := subtractPeerFragments pm.innerGhostZoneFragments (pm.rim pm.getGhostZoneWidth)
  { pm with
    outerGhostZoneFragments :=
      pm.outerGhostZoneFragments.insert OUTGROUP (List.replicate (pm.getGhostZoneWidth + 1) outer)
    innerGhostZoneFragments :=
      pm.innerGhostZoneFragments.insert OUTGROUP (List.replicate (pm.getGhostZoneWidth + 1) inner) }

end PartitionManager


/-! ## Closed forms used by the proofs -/

/-- The region after `w` successive one-step expansions. -/
def expandSteps {D : Nat} (dims : Coord D) (T : Topology D) (w : Nat) (r : Region D) :
    Region D :=
  (expandWithTopology 1 dims T)^[w] r

/-- The stack of the expansions of widths `0..G` of a region. -/
def regionStack {D : Nat} (dims : Coord D) (T : Topology D) (G : Nat) (r : Region D) :
    List (Region D) :=
  (List.range (G + 1)).map (fun w => expandSteps dims T w r)

/-- The one-step surface of a region: its one-step expansion without the region itself. -/
def surfaceOf {D : Nat} (dims : Coord D) (T : Topology D) (own : Region D) : Region D :=
  expandWithTopology 1 dims T own \ own

/-- The kernel of a region for ghost zone width `G`: the region without the width-`G`
expansion of its surface. -/
def kernelOf {D : Nat} (dims : Coord D) (T : Topology D) (G : Nat) (own : Region D) :
    Region D :=
  own \ expandWithTopology G dims T (surfaceOf dims T own)

/-- Closed form of `rim(d)`: the rim of width `G` expanded `G - d` times by one step. -/
def rimOf {D : Nat} (dims : Coord D) (T : Topology D) (G : Nat) (own : Region D) (d : Nat) :
    Region D :=
  expandSteps dims T (G - d) (own \ kernelOf dims T G own)

/-- Closed form of `innerSet(d)`: the region without the first `d` iterated one-step
expansions of its surface. -/
def innerSetOf {D : Nat} (dims : Coord D) (T : Topology D) (own : Region D) : Nat → Region D
  | 0 => own
  | d + 1 => innerSetOf dims T own d \ expandSteps dims T (d + 1) (surfaceOf dims T own)

/-- Every materialized region stack is the stack of the iterated expansions of the
partition's region of that node. -/
def StacksOK {D : Nat} (T : Topology D) (part : Partition D) (dims : Coord D) (G : Nat)
    (R : RegionVecMap D) : Prop :=
  ∀ (n : Nat) (st : List (Region D)), R.lookup n = some st →
    st = regionStack dims T G (part.getRegion n)

/-- Closed form of the outer fragment stack of peer `i`: entry `w` is the own region
expanded `w` times intersected with the peer's region. -/
def outerStack {D : Nat} (T : Topology D) (part : Partition D) (dims : Coord D) (G me : Nat)
    (i : Nat) : List (Region D) :=
  (List.range (G + 1)).map
    (fun w => expandSteps dims T w (part.getRegion me) ∩ part.getRegion i)

/-- Closed form of the inner fragment stack of peer `i`: entry `w` is the own region
intersected with the peer's region expanded `w` times. -/
def innerStack {D : Nat} (T : Topology D) (part : Partition D) (dims : Coord D) (G me : Nat)
    (i : Nat) : List (Region D) :=
  (List.range (G + 1)).map
    (fun w => part.getRegion me ∩ expandSteps dims T w (part.getRegion i))

/-- The test of the first loop of `resetGhostZones` for rank `i`, on the closed forms. -/
def sharesGhostZone {D : Nat} (T : Topology D) (part : Partition D) (dims : Coord D)
    (G me : Nat) (boxes : List (CoordBox D)) (ownBoundingBox : CoordBox D) (i : Nat) : Prop :=
  (i ≠ me ∧ ((boxes.getD i ⟨fun _ => 0, fun _ => 0⟩).intersects ownBoundingBox) = true) ∧
    (expandSteps dims T G (part.getRegion me) ∩ part.getRegion i ≠ ∅ ∨
      expandSteps dims T G (part.getRegion i) ∩ part.getRegion me ≠ ∅)

instance {D : Nat} (T : Topology D) (part : Partition D) (dims : Coord D)
    (G me : Nat) (boxes : List (CoordBox D)) (ownBoundingBox : CoordBox D) (i : Nat) :
    Decidable (sharesGhostZone T part dims G me boxes ownBoundingBox i) :=
  inferInstanceAs (Decidable
    ((i ≠ me ∧ ((boxes.getD i ⟨fun _ => 0, fun _ => 0⟩).intersects ownBoundingBox) = true) ∧
      (expandSteps dims T G (part.getRegion me) ∩ part.getRegion i ≠ ∅ ∨
        expandSteps dims T G (part.getRegion i) ∩ part.getRegion me ≠ ∅)))

/-- Closed form of a fragment map after the first loop of `resetGhostZones` has handled the
ranks below `k`: the stack of every rank that passes the test has been assigned. -/
def peerFragments {D : Nat} (test : Nat → Prop) [DecidablePred test]
    (stack : Nat → List (Region D)) (m : RegionVecMap D) : Nat → RegionVecMap D
  | 0 => m
  | k + 1 =>
    if test k then (peerFragments test stack m k).insert k (stack k)
    else peerFragments test stack m k

/-- The union over the recorded peers (every key other than `OUTGROUP`) of their fragment
of width `w`. -/
def peerUnion {D : Nat} (m : RegionVecMap D) (w : Nat) : Region D :=
  m.foldr (fun e acc => if e.1 ≠ OUTGROUP then vecAt e.2 w ∪ acc else acc) ∅

/-- Closed form of the outer fragment map after `resetRegions` and the first loop of
`resetGhostZones(boxes)`. -/
def outerPeers {D : Nat} (T : Topology D) (part : Partition D) (sa : CoordBox D) (G me : Nat)
    (boxes : List (CoordBox D)) : RegionVecMap D :=
  peerFragments
    (sharesGhostZone T part sa.dimensions G me boxes
      (boundingBox (expandSteps sa.dimensions T G (part.getRegion me))))
    (outerStack T part sa.dimensions G me) [] boxes.length

/-- Closed form of the inner fragment map after `resetRegions` and the first loop of
`resetGhostZones(boxes)`. -/
def innerPeers {D : Nat} (T : Topology D) (part : Partition D) (sa : CoordBox D) (G me : Nat)
    (boxes : List (CoordBox D)) : RegionVecMap D :=
  peerFragments
    (sharesGhostZone T part sa.dimensions G me boxes
      (boundingBox (expandSteps sa.dimensions T G (part.getRegion me))))
    (innerStack T part sa.dimensions G me) [] boxes.length

/-! ## A one-dimensional example decomposition -/

namespace Example

/-- The cell `x` of a one-dimensional grid. -/
def cell (x : Int) : Coord 1 := fun _ => x

/-- The one-dimensional region with the listed cells. -/
def cells (l : List Int) : Region 1 := (l.map cell).toFinset

/-- A manager before the first `resetRegions`: every member is empty. -/
def blank : PartitionManager 1 :=
  { partition := ⟨fun _ => ∅⟩
    simulationArea := ⟨fun _ => 0, fun _ => 0⟩
    outerRim := ∅
    volatileKernel := ∅
    innerRim := ∅
    regions := []
    outerGhostZoneFragments := []
    innerGhostZoneFragments := []
    ownRims := []
    ownInnerSets := []
    myRank := 0
    ghostZoneWidth := 0
    boundingBoxes := [] }

/-- The simulation box of ten cells `0..9`. -/
def box10 : CoordBox 1 := ⟨fun _ => 0, fun _ => 10⟩

/-- Two stripes of five cells: rank 0 owns `0..4`, rank 1 owns `5..9`. -/
def stripes : Partition 1 :=
  ⟨fun n => if n = 0 then cells [0, 1, 2, 3, 4] else if n = 1 then cells [5, 6, 7, 8, 9] else ∅⟩

/-- The bounding boxes of the two stripes, as the ranks gather them. -/
def stripeBoxes : List (CoordBox 1) :=
  [boundingBox (stripes.getRegion 0), boundingBox (stripes.getRegion 1)]

/-- Rank 0 of the two stripes with ghost zone width 2, after `resetRegions`. -/
def rank0Regions : PartitionManager 1 :=
  PartitionManager.resetRegions (Topology.cube 1) blank box10 stripes 0 2

/-- Rank 0 of the two stripes with ghost zone width 2, after `resetGhostZones`. -/
def rank0 : PartitionManager 1 :=
  PartitionManager.resetGhostZones (Topology.cube 1) rank0Regions stripeBoxes

/-- The simulation box of five cells `0..4`. -/
def box5 : CoordBox 1 := ⟨fun _ => 0, fun _ => 5⟩

/-- A partition with a stray cell: rank 0 owns `0..2`, rank 1 owns cell `3` and the cell
`-1`, which lies outside the box of five cells. -/
def stray : Partition 1 :=
  ⟨fun n => if n = 0 then cells [0, 1, 2] else if n = 1 then cells [-1, 3] else ∅⟩

/-- The bounding boxes of the two regions of the partition with the stray cell. -/
def strayBoxes : List (CoordBox 1) :=
  [boundingBox (stray.getRegion 0), boundingBox (stray.getRegion 1)]

/-- Rank 0 of the partition with the stray cell, ghost zone width 1, after
`resetRegions` and `resetGhostZones`. -/
def strayRank0 : PartitionManager 1 :=
  PartitionManager.resetGhostZones (Topology.cube 1)
    (PartitionManager.resetRegions (Topology.cube 1) blank box5 stray 0 1) strayBoxes

/-- Rank 1 of the partition with the stray cell, ghost zone width 1, after
`resetRegions`. -/
def strayRank1 : PartitionManager 1 :=
  PartitionManager.resetRegions (Topology.cube 1) blank box5 stray 1 1

end Example

/-! ## Predicates on the containers used by the proofs -/

/-- The keys of a map are strictly ascending, as `std::map` keeps them. -/
def KeysSorted {D : Nat} (m : RegionVecMap D) : Prop :=
  m.Pairwise (fun a b => a.1 < b.1)

/-- Relation between the region cache before and after a run that calls `getRegion` for the
nodes in `touched`: no entry is lost, every touched node has an entry afterwards, and the
cache is unchanged when every touched node had an entry before. -/
def CacheStep {D : Nat} (R R2 : RegionVecMap D) (touched : Nat → Prop) : Prop :=
  (∀ k : Int, (R.lookup k).isSome = true → (R2.lookup k).isSome = true) ∧
    (∀ n : Nat, touched n → (R2.lookup (n : Int)).isSome = true) ∧
    ((∀ n : Nat, touched n → (R.lookup (n : Int)).isSome = true) → R2 = R)

/-- The members of a manager that `getRegion` and `intersect` leave alone: everything but
the region cache and the two fragment maps. -/
def SameSetup {D : Nat} (pm pm2 : PartitionManager D) : Prop :=
  pm2.partition = pm.partition ∧ pm2.simulationArea = pm.simulationArea ∧
    pm2.myRank = pm.myRank ∧ pm2.ghostZoneWidth = pm.ghostZoneWidth ∧
    pm2.boundingBoxes = pm.boundingBoxes

/-! ## Boxes of cells, slabs and the striping partition -/

/-- The cells of the box with the given origin and extents. -/
def boxCells {D : Nat} (origin dimensions : Coord D) : Region D :=
  Fintype.piFinset (fun a => Finset.Ico (origin a) (origin a + dimensions a))

/-- The slab of the box of extents `dimensions` across axis `k`: the cells of the box whose
coordinate on axis `k` lies in `[a, b)`. -/
def slab {D : Nat} (dimensions : Coord D) (k : Fin D) (a b : Int) : Region D :=
  (boxCells (fun _ => 0) dimensions).filter (fun c => a ≤ c k ∧ c k < b)

/-- The full rows `[a, b)` of the two-dimensional box of width `W` and height `H`. -/
def rows (W H a b : Int) : Region 2 := slab ![W, H] 1 a b

/-- Modelled from the spec: `CoordBox::size()` (header `coordbox.h` absent), the number of
cells of the box. -/
def CoordBox.size {D : Nat} (b : CoordBox D) : Nat := ∏ a, (b.dimensions a).toNat

/-- Modelled from the spec: the linearized index (row-major, x innermost) of a cell given
relative to the origin of a box of extents `dimensions`. -/
def linearIndex {D : Nat} (dimensions c : Coord D) : Int :=
  ∑ a : Fin D, c a * ∏ b in Finset.univ.filter (fun b => b < a), dimensions b

/-- Modelled from the spec: `StripingPartition(origin, dimensions, offset, weights)` (header
`stripingpartition.h` absent). Node `i` gets the cells of the box whose linearized index
lies in `[offset + sum(w[0..i]), offset + sum(w[0..i+1]))`. -/
def stripingPartition {D : Nat} (origin dimensions : Coord D) (offset : Nat)
    (weights : List Nat) : Partition D :=
  ⟨fun node => (boxCells origin dimensions).filter (fun c =>
    ((offset + (weights.take node).sum : Nat) : Int) ≤ linearIndex dimensions (c - origin) ∧
      linearIndex dimensions (c - origin) <
        ((offset + (weights.take (node + 1)).sum : Nat) : Int))⟩

namespace PartitionManager

/-- The members of a manager before the body of the constructor runs: the containers and
regions are default-constructed (empty); the two `unsigned` members are not initialized in
the source and are overwritten by `resetRegions` before they are read. -/
def fresh (D : Nat) : PartitionManager D :=
  { partition := ⟨fun _ => ∅⟩
    simulationArea := ⟨fun _ => 0, fun _ => 0⟩
    outerRim := ∅
    volatileKernel := ∅
    innerRim := ∅
    regions := []
    outerGhostZoneFragments := []
    innerGhostZoneFragments := []
    ownRims := []
    ownInnerSets := []
    myRank := 0
    ghostZoneWidth := 0
    boundingBoxes := [] }

/-- The constructor `PartitionManager(simulationArea)`: one weight, the size of the box; a
striping partition of the box with offset 0; `resetRegions` for rank 0 with ghost zone
width 1; `resetGhostZones` with one default-constructed bounding box. The body has no
`throw` and no check of its argument, so the outcome is always a manager. -/
def construct {D : Nat} (T : Topology D) (simulationArea : CoordBox D) :
    Except String (PartitionManager D) :=
  let weights := [simulationArea.size]
  let partition := stripingPartition (fun _ => 0) simulationArea.dimensions 0 weights
  let pm := resetRegions T (fresh D) simulationArea partition 0 1
  Except.ok (resetGhostZones T pm [⟨fun _ => 0, fun _ => 0⟩])

end PartitionManager

namespace Example

/-- The extents of the grid of the unit test: 20 columns, 400 rows. -/
def testDimensions : Coord 2 := ![20, 400]

/-- The weights of the nine ranks of the unit test, in cells: stripes of 30 rows, but 40
rows for rank 3 and 20 rows for rank 5. -/
def testWeights : List Nat := [600, 600, 600, 800, 600, 400, 600, 600, 600]

/-- The striping partition of the unit test: the first stripe starts at row 130. -/
def testPartition : Partition 2 :=
  stripingPartition (fun _ => 0) testDimensions 2600 testWeights

/-- The helper `startingLine(node)` of the unit test: the first row of the stripe of a
rank. -/
def startingLine (node : Nat) : Int :=
  ((2600 + (testWeights.take node).sum : Nat) : Int) / 20

/-- The simulation box of scenario 4 of the spec: 100 columns, one row. -/
def box100 : CoordBox 2 := ⟨fun _ => 0, ![100, 1]⟩

/-- The striping partition of scenario 4: four ranks with 25 cells each. -/
def quarters : Partition 2 :=
  stripingPartition (fun _ => 0) box100.dimensions 0 [25, 25, 25, 25]

/-- The first column of the stripe of rank `r` in scenario 4. -/
def quarterStart (r : Nat) : Int := 25 * (r : Int)

/-- The bounding boxes of the four ranks of scenario 4. -/
def quarterBoxes : List (CoordBox 2) :=
  (List.range 4).map (fun i => boundingBox (quarters.getRegion i))

/-- Rank 0 of scenario 4 with ghost zone width 2, after `resetRegions` and
`resetGhostZones` with the four bounding boxes. -/
def quarterRank0 : PartitionManager 2 :=
  PartitionManager.resetGhostZones (Topology.cube 2)
    (PartitionManager.resetRegions (Topology.cube 2) (PartitionManager.fresh 2) box100
      quarters 0 2) quarterBoxes

end Example

/-- A decomposition of the box of extents `dims` into `K` stripes across the axis `k`: rank
`r < K` owns the layers `[s r, s (r + 1))`, every stripe has at least `G` layers and at
least one, the stripes lie in the box and the box has cells. -/
structure Striped {D : Nat} (dims : Coord D) (k : Fin D) (part : Partition D) (K G : Nat)
    (s : Nat → Int) : Prop where
  region : ∀ r, r < K → part.getRegion r = slab dims k (s r) (s (r + 1))
  layers : ∀ r, r < K → s r + G ≤ s (r + 1)
  nonempty : ∀ r, r < K → s r < s (r + 1)
  first : 0 ≤ s 0
  last : s K ≤ dims k
  positive : ∀ a, 0 < dims a

namespace Example

/-- A striping partition of the box of one column and three rows whose two stripes have one
row each: rank 0 owns row 1, rank 1 owns row 2, row 0 belongs to no rank. -/
def thin : Partition 2 := stripingPartition (fun _ => 0) ![1, 3] 1 [1, 1]

/-- Rank 0 of the thin stripes with ghost zone width 1, after `resetRegions` and
`resetGhostZones` with the bounding boxes of the two regions. -/
def thinRank0 : PartitionManager 2 :=
  PartitionManager.resetGhostZones (Topology.cube 2)
    (PartitionManager.resetRegions (Topology.cube 2) (PartitionManager.fresh 2)
      ⟨fun _ => 0, ![1, 3]⟩ thin 0 1)
    ((List.range 2).map (fun i => boundingBox (thin.getRegion i)))

end Example

/-! ## Grid -/

/-- Modelled from the spec: `Streak<DIM>` (header `streak.h` absent): the cells from
`origin` along the x axis up to, not including, the x coordinate `endX`. -/
structure Streak (D : Nat) where
  origin : Coord D
  endX : Int

/-- Modelled from the spec: `CoordBox::inBounds(coord)` (header `coordbox.h` absent): the
coordinate is a cell of the box. -/
def CoordBox.inBounds {D : Nat} (b : CoordBox D) (c : Coord D) : Prop :=
  ∀ a, b.origin a ≤ c a ∧ c a < b.origin a + b.dimensions a

instance {D : Nat} (b : CoordBox D) (c : Coord D) : Decidable (b.inBounds c) :=
  inferInstanceAs (Decidable (∀ a, b.origin a ≤ c a ∧ c a < b.origin a + b.dimensions a))

/-- Modelled from the spec: `Topology::locate(grid, coord)` (header `topologies.h` absent).
The coordinate is wrapped on the wrapping axes; the result is the cell of the array it then
names, or `none`, which stands for the edge cell of the grid, when it is still out of
bounds. -/
def Topology.locate {D : Nat} (T : Topology D) (dimensions coord : Coord D) :
    Option (Coord D) :=
  if inBounds dimensions (T.normalize dimensions coord) then
    some (T.normalize dimensions coord)
  else none

/-- The data members of `Grid<CELL_TYPE, TOPOLOGY>`. The dense array `cellMatrix` is a
function of the coordinate; only its values at the coordinates inside the extents are
cells of the array, and only those are ever read or written. -/
structure Grid (CELL : Type) (D : Nat) where
  dimensions : Coord D
  cellMatrix : Coord D → CELL
  edgeCell : CELL

namespace Grid

variable {CELL : Type} {D : Nat}

/-- The accessor `getEdgeCell()`. -/
def getEdgeCell (g : Grid CELL D) : CELL := g.edgeCell

/-- The reference `(*this)[coord]`, which is `Topology::locate(*this, coord)`, read as a
value. -/
def read (T : Topology D) (g : Grid CELL D) (coord : Coord D) : CELL :=
  match T.locate g.dimensions coord with
  | some c => g.cellMatrix c
  | none => g.edgeCell

/-- The assignment `(*this)[coord] = cell` through the reference that
`Topology::locate(*this, coord)` returns. -/
def assign (T : Topology D) (g : Grid CELL D) (coord : Coord D) (cell : CELL) :
    Grid CELL D :=
  match T.locate g.dimensions coord with
  | some c => { g with cellMatrix := Function.update g.cellMatrix c cell }
  | none => { g with edgeCell := cell }

/-- The method `set(coord, cell)`. -/
def set (T : Topology D) (g : Grid CELL D) (coord : Coord D) (cell : CELL) : Grid CELL D :=
  assign T g coord cell

/-- The method `get(coord)`. -/
def get (T : Topology D) (g : Grid CELL D) (coord : Coord D) : CELL :=
  read T g coord

/-- The method `setEdge(cell)`. -/
def setEdge (g : Grid CELL D) (cell : CELL) : Grid CELL D := { g with edgeCell := cell }

/-- The method `getEdge()`. -/
def getEdge (g : Grid CELL D) : CELL := g.getEdgeCell

/-- The method `getDimensions()`. -/
def getDimensions (g : Grid CELL D) : Coord D := g.dimensions

/-- The method `boundingBox()`. -/
def boundingBox (g : Grid CELL D) : CoordBox D := ⟨fun _ => 0, g.dimensions⟩

/-- The cursor of the streak loops after `k` increments of its x coordinate. -/
def cursor [NeZero D] (streak : Streak D) (k : Nat) : Coord D :=
  Function.update streak.origin 0 (streak.origin 0 + (k : Int))

/-- The number of passes of the streak loops `for (; cursor.x() < streak.endX; ++cursor.x())`
from `cursor = streak.origin`. -/
def passes [NeZero D] (streak : Streak D) : Nat := (streak.endX - streak.origin 0).toNat

/-- The method `set(streak, cells)`: pass `k` assigns `cells[k]` to the cell at the cursor.
The buffer is a list; the source reads past the end of a buffer that is shorter than the
streak, which is undefined there and yields the default cell here. -/
def setStreak [NeZero D] [Inhabited CELL] (T : Topology D) (g : Grid CELL D)
    (streak : Streak D) (cells : List CELL) : Grid CELL D :=
  (List.range (passes streak)).foldl
    (fun grid k => assign T grid (cursor streak k) (cells.getD k default)) g

/-- The method `get(streak, cells)`: pass `k` stores the cell at the cursor in `cells[k]`;
the result is the buffer afterwards. The source writes past the end of a buffer that is
shorter than the streak, which is undefined there and stores nothing here. -/
def getStreak [NeZero D] (T : Topology D) (g : Grid CELL D) (streak : Streak D)
    (cells : List CELL) : List CELL :=
  (List.range (passes streak)).foldl
    (fun buffer k => buffer.set k (read T g (cursor streak k))) cells

end Grid

namespace Example

/-- A one-dimensional grid of four cells that hold their x coordinate; the edge cell holds
99. -/
def lineGrid : Grid Nat 1 := ⟨fun _ => 4, fun c => (c 0).toNat, 99⟩

/-- The streak of the cells 1 and 2 of a one-dimensional grid. -/
def lineStreak : Streak 1 := ⟨cell 1, 3⟩

end Example

/-! ## Update group -/

/-- Modelled from the spec: one schedule `(firstSyncStep, lastSyncStep, stride)` that a
patch link is charged with (header `patchlink.h` absent); no last step stands for
`lastSyncStep = ∞`. -/
structure Charge where
  first : Int
  last : Option Int
  stride : Nat
deriving DecidableEq

/-- Modelled from the spec: the constant `PatchLink::ENDLESS`, the last step `∞`. -/
def ENDLESS : Option Int := none

/-- Modelled from the spec: the steps at which a link with this schedule fires,
`{firstSyncStep + k·stride : k ∈ ℕ, ≤ lastSyncStep}`. -/
def Charge.fires (c : Charge) (step : Int) : Prop :=
  (∃ k : Nat, step = c.first + (k : Int) * (c.stride : Int)) ∧
    c.last.all (fun l => decide (step ≤ l)) = true

instance (c : Charge) (step : Int) : Decidable (c.fires step) :=
  decidable_of_iff
    ((c.first ≤ step ∧ (step - c.first) % (c.stride : Int) = 0) ∧
      c.last.all (fun l => decide (step ≤ l)) = true)
    (by
      unfold Charge.fires
      refine and_congr_left (fun _ => ⟨?_, ?_⟩)
      · rintro ⟨h1, h2⟩
        obtain ⟨q, hq⟩ := Int.dvd_of_emod_eq_zero h2
        rcases Nat.eq_zero_or_pos c.stride with h0 | h0
        · refine ⟨0, ?_⟩
          rw [h0] at hq
          simp only [Nat.cast_zero, zero_mul] at hq ⊢
          omega
        · have hq0 : 0 ≤ q := by
            by_contra hneg
            have hs : (1 : Int) ≤ (c.stride : Int) := by exact_mod_cast h0
            have : (c.stride : Int) * q ≤ (c.stride : Int) * (-1) :=
              mul_le_mul_of_nonneg_left (by omega) (by omega)
            omega
          refine ⟨q.toNat, ?_⟩
          rw [Int.toNat_of_nonneg hq0, mul_comm]
          omega
      · rintro ⟨k, hk⟩
        have hnn : (0 : Int) ≤ (k : Int) * (c.stride : Int) :=
          mul_nonneg (Int.ofNat_nonneg k) (Int.ofNat_nonneg c.stride)
        refine ⟨by omega, ?_⟩
        have : step - c.first = (k : Int) * (c.stride : Int) := by omega
        rw [this]
        exact Int.mul_emod_left _ _)

/-- The two classes of patch links: `PatchLink::Accepter` sends a region to a peer,
`PatchLink::Provider` receives one. -/
inductive LinkKind where
  | accepter
  | provider
deriving DecidableEq

/-- Modelled from the spec: a patch link (header `patchlink.h` absent) as the update group
sees it: its class, the region and the peer rank it was constructed with, and the
schedules of the calls of `charge` so far. The transport arguments of the constructor
(tag, MPI datatype, communicator) are handed through unchanged and left out. -/
structure PatchLink (D : Nat) where
  kind : LinkKind
  region : Region D
  peer : Int
  charges : List Charge
deriving DecidableEq

/-- Modelled from the spec: the call `link->charge(first, last, stride)`. -/
def PatchLink.charge {D : Nat} (link : PatchLink D) (first : Int) (last : Option Int)
    (stride : Nat) : PatchLink D :=
  { link with charges := link.charges ++ [⟨first, last, stride⟩] }

/-- The patch types `Stepper::GHOST` and `Stepper::INNER_SET`. -/
inductive PatchType where
  | GHOST
  | INNER_SET
deriving DecidableEq

/-- A `PatchAccepterPtr`: an accepter supplied by the caller or a link of the update
group. -/
inductive PatchAccepterPtr (A : Type) (D : Nat) where
  | external (accepter : A)
  | link (l : PatchLink D)

/-- A `PatchProviderPtr`: a provider supplied by the caller or a link of the update
group. -/
inductive PatchProviderPtr (P : Type) (D : Nat) where
  | external (provider : P)
  | link (l : PatchLink D)

/-- Modelled from the spec: the part of the `Initializer` contract (header
`initializer.h` absent) that the update group and the initializer proxy read. -/
structure Initializer (D : Nat) where
  gridDimensions : Coord D
  gridBox : CoordBox D
  startStep : Nat
  maxSteps : Nat

/-- Modelled from the spec: the MPI layer (header `mpilayer.h` absent) as one process sees
it: its rank, the number of ranks, and the bounding boxes the other ranks contribute to
the all-gather. -/
structure MPILayer (D : Nat) where
  rank : Nat
  size : Nat
  peerBoxes : Nat → CoordBox D

/-- Modelled from the spec: `allGather(own, &result)`: one entry per rank, the own value at
the own rank. -/
def MPILayer.allGather {D : Nat} (layer : MPILayer D) (own : CoordBox D) :
    List (CoordBox D) :=
  (List.range layer.size).map (fun i => if i = layer.rank then own else layer.peerBoxes i)

/-- Modelled from the spec: the state of a stepper (headers `stepper.h`,
`vanillastepper.h` absent) as far as the update group touches it: the partition manager,
the initializer, the two lists of patch accepters it is constructed with, and the patch
providers with their patch types in the order of their registration. -/
structure Stepper (A P : Type) (D : Nat) where
  partitionManager : PartitionManager D
  initializer : Initializer D
  ghostPatchAccepters : List (PatchAccepterPtr A D)
  innerPatchAccepters : List (PatchAccepterPtr A D)
  patchProviders : List (PatchProviderPtr P D × PatchType)

/-- Modelled from the spec: the constructor of the stepper; no provider is registered
yet. -/
def Stepper.construct {A P : Type} {D : Nat} (partitionManager : PartitionManager D)
    (initializer : Initializer D)
    (ghostPatchAccepters innerPatchAccepters : List (PatchAccepterPtr A D)) :
    Stepper A P D :=
  ⟨partitionManager, initializer, ghostPatchAccepters, innerPatchAccepters, []⟩

/-- Modelled from the spec: `Stepper::addPatchProvider(provider, type)`: the provider is
registered after the ones registered before. -/
def Stepper.addPatchProvider {A P : Type} {D : Nat} (s : Stepper A P D)
    (patchProvider : PatchProviderPtr P D) (patchType : PatchType) : Stepper A P D :=
  { s with patchProviders := s.patchProviders ++ [(patchProvider, patchType)] }

/-- The data members of `UpdateGroup<CELL_TYPE, STEPPER>` (the MPI datatype is left
out). -/
structure UpdateGroup (A P : Type) (D : Nat) where
  stepper : Stepper A P D
  partitionManager : PartitionManager D
  patchLinks : List (PatchLink D)
  ghostZoneWidth : Nat
  initializer : Initializer D
  mpiLayer : MPILayer D
  rank : Nat

namespace UpdateGroup

variable {A P : Type} {D : Nat}

/-- The method `addPatchProvider(patchProvider, patchType)`. -/
def addPatchProvider (ug : UpdateGroup A P D) (patchProvider : PatchProviderPtr P D)
    (patchType : PatchType) : UpdateGroup A P D :=
  { ug with stepper := ug.stepper.addPatchProvider patchProvider patchType }

/-- The body of the first loop of the constructor for the map entry `i`: a sender link for
a fragment that is not empty. The link is shared by the lists it is appended to, so the
charge that follows the appends shows in each of them. -/
def senderStep (firstSyncPoint : Int) (ghostZoneWidth : Nat)
    (s : List (PatchAccepterPtr A D) × List (PatchLink D)) (i : Int × List (Region D)) :
    List (PatchAccepterPtr A D) × List (PatchLink D) :=
  if vecBack i.2 ≠ ∅ then
    let link := (PatchLink.mk LinkKind.accepter (vecBack i.2) i.1 []).charge
      firstSyncPoint ENDLESS ghostZoneWidth
    (s.1 ++ [PatchAccepterPtr.link link], s.2 ++ [link])
  else s

/-- The body of the second loop of the constructor for the map entry `i`: a receiver link
for a fragment that is not empty, registered as a `GHOST` provider. -/
def receiverStep (firstSyncPoint : Int) (ghostZoneWidth : Nat)
    (s : Stepper A P D × List (PatchLink D)) (i : Int × List (Region D)) :
    Stepper A P D × List (PatchLink D) :=
  if vecBack i.2 ≠ ∅ then
    let link := (PatchLink.mk LinkKind.provider (vecBack i.2) i.1 []).charge
      firstSyncPoint ENDLESS ghostZoneWidth
    (s.1.addPatchProvider (PatchProviderPtr.link link) PatchType.GHOST, s.2 ++ [link])
  else s

/-- The constructor of `UpdateGroup`; `nanoSteps` is `CELL_TYPE::nanoSteps()` and the
topology is `CELL_TYPE::Topology`. The first sync point
`initializer->startStep() * CELL_TYPE::nanoSteps() + ghostZoneWidth` has `unsigned`
operands, so the product and the sum are computed modulo `2^32` (reducing after the
product already does not change the value); the result, which is below `2^32`, is then
widened to `long`. -/
def construct (T : Topology D) (nanoSteps : Nat) (partition : Partition D)
    (box : CoordBox D) (ghostZoneWidth : Nat) (initializer : Initializer D)
    (patchAcceptersGhost patchAcceptersInner : List A)
    (patchProvidersGhost patchProvidersInner : List P) (mpiLayer : MPILayer D) :
    Except String (UpdateGroup A P D) := do
  let rank := mpiLayer.rank
  let constructed ← PartitionManager.construct T ⟨fun _ => 0, fun _ => 0⟩
  let partitionManager :=
    PartitionManager.resetRegions T constructed box partition rank ghostZoneWidth
  let ownBoundingBox := LibGeoDecomp.boundingBox (partitionManager.ownRegion 0)
  let boundingBoxes := mpiLayer.allGather ownBoundingBox
  let partitionManager := PartitionManager.resetGhostZones T partitionManager boundingBoxes
  let firstSyncPoint : Int :=
    (((initializer.startStep * nanoSteps + ghostZoneWidth) % 2 ^ 32 : Nat) : Int)
  let sent := partitionManager.getInnerGhostZoneFragments.foldl
    (senderStep firstSyncPoint ghostZoneWidth) (([] : List (PatchAccepterPtr A D)), [])
  let stepper : Stepper A P D := Stepper.construct partitionManager initializer
    (patchAcceptersGhost.map PatchAccepterPtr.external ++ sent.1)
    (patchAcceptersInner.map PatchAccepterPtr.external)
  let received := partitionManager.getOuterGhostZoneFragments.foldl
    (receiverStep firstSyncPoint ghostZoneWidth) (stepper, sent.2)
  let ug : UpdateGroup A P D :=
    { stepper := received.1
      partitionManager := partitionManager
      patchLinks := received.2
      ghostZoneWidth := ghostZoneWidth
      initializer := initializer
      mpiLayer := mpiLayer
      rank := rank }
  let ug := patchProvidersGhost.foldl
    (fun g i => g.addPatchProvider (PatchProviderPtr.external i) PatchType.GHOST) ug
  let ug := patchProvidersInner.foldl
    (fun g i => g.addPatchProvider (PatchProviderPtr.external i) PatchType.INNER_SET) ug
  return ug

/-! ### Closed forms used by the proofs -/

/-- The first sync point: the `unsigned` value of
`startStep * nanoSteps + ghostZoneWidth`, that is, the sum modulo `2^32`. -/
def firstSync (initializer : Initializer D) (nanoSteps ghostZoneWidth : Nat) : Int :=
  (((initializer.startStep * nanoSteps + ghostZoneWidth) % 2 ^ 32 : Nat) : Int)

/-- The links of one class for a fragment map, in the order of its keys: one for every
entry whose back fragment is not empty, charged once. -/
def fragmentLinks (kind : LinkKind) (firstSyncPoint : Int) (ghostZoneWidth : Nat)
    (m : RegionVecMap D) : List (PatchLink D) :=
  (m.filter (fun e => vecBack e.2 ≠ ∅)).map
    (fun e => ⟨kind, vecBack e.2, e.1, [⟨firstSyncPoint, ENDLESS, ghostZoneWidth⟩]⟩)

/-- The sender links of the inner fragment map. -/
def senderLinks (firstSyncPoint : Int) (ghostZoneWidth : Nat) (m : RegionVecMap D) :
    List (PatchLink D) :=
  fragmentLinks LinkKind.accepter firstSyncPoint ghostZoneWidth m

/-- The receiver links of the outer fragment map. -/
def receiverLinks (firstSyncPoint : Int) (ghostZoneWidth : Nat) (m : RegionVecMap D) :
    List (PatchLink D) :=
  fragmentLinks LinkKind.provider firstSyncPoint ghostZoneWidth m

/-- The partition manager of an update group: `resetRegions` for the own rank, then
`resetGhostZones` with the gathered bounding boxes. -/
def managerOf (T : Topology D) (partition : Partition D) (box : CoordBox D)
    (ghostZoneWidth : Nat) (mpiLayer : MPILayer D) : PartitionManager D :=
  PartitionManager.resetGhostZones T
    (PartitionManager.resetRegions T (PartitionManager.fresh D) box partition mpiLayer.rank
      ghostZoneWidth)
    (mpiLayer.allGather (LibGeoDecomp.boundingBox (partition.getRegion mpiLayer.rank)))

end UpdateGroup

namespace Example

/-- The initializer of the example update groups: the box of ten cells, start step 0. -/
def pairInitializer : Initializer 1 := ⟨box10.dimensions, box10, 0, 10⟩

/-- The MPI layer of rank 0 of two ranks; rank 1 contributes the bounding box of its
stripe. -/
def pairLayer : MPILayer 1 := ⟨0, 2, fun i => boundingBox (stripes.getRegion i)⟩

/-- The update group of rank 0 of the two stripes with ghost zone width 2 for a cell with
three nano steps per step, without external accepters and providers. -/
def pairGroup : Except String (UpdateGroup Unit Unit 1) :=
  UpdateGroup.construct (Topology.cube 1) 3 stripes box10 2 pairInitializer [] [] [] []
    pairLayer

end Example

/-! ## Resizing a grid -/

namespace Grid

variable {CELL : Type} {D : Nat}

/-- The call `cellMatrix.resize(extents)` of the cell array (a `boost::multi_array`): a cell
that lies inside the old and inside the new extents keeps its content, every other cell of
the new array is default-constructed. -/
def resizeMatrix [Inhabited CELL] (oldExtents newExtents : Coord D) (m : Coord D → CELL) :
    Coord D → CELL :=
  fun c => if inBounds oldExtents c ∧ inBounds newExtents c then m c else default

/-- The method `resize(newDim)`: the array is resized to the extents of the
default-constructed coordinate `tempDim` (all zero) first, then to the new extents. -/
def resize [Inhabited CELL] (g : Grid CELL D) (newDim : Coord D) : Grid CELL D :=
  let tempDim : Coord D := fun _ => 0
  let shrunk := resizeMatrix g.dimensions tempDim g.cellMatrix
  { g with
    dimensions := newDim
    cellMatrix := resizeMatrix tempDim newDim shrunk }

end Grid

/-! ## Neighborhood adapter -/

/-- A coordinate of `D` axes extended by a last axis. -/
def Coord.snoc {D : Nat} (c : Coord D) (x : Int) : Coord (D + 1) :=
  fun a => if h : a.val < D then c ⟨a.val, h⟩ else x

/-- The first `D` axes of a coordinate of `D + 1` axes. -/
def Coord.init {D : Nat} (c : Coord (D + 1)) : Coord D :=
  fun a => c ⟨a.val, Nat.lt_succ_of_lt a.isLt⟩

/-- Modelled from the spec: the coordinates of a box in the order in which
`CoordBox::Iterator` visits them (header `coordbox.h` absent): row-major with the x axis
innermost, that is, the last axis changes slowest. -/
def CoordBox.coords : {D : Nat} → CoordBox D → List (Coord D)
  | 0, _ => [fun _ => 0]
  | D + 1, b =>
    (List.range (b.dimensions (Fin.last D)).toNat).flatMap (fun k =>
      (@CoordBox.coords D ⟨Coord.init b.origin, Coord.init b.dimensions⟩).map
        (fun c => Coord.snoc c (b.origin (Fin.last D) + (k : Int))))

/-- The class `NeighborhoodAdapter<NEIGHBORHOOD, DIM, COLLECTION_INTERFACE>`. Neighborhood
and collection interface are template parameters; `neighbors c id` is the value of
`COLLECTION_INTERFACE()((*neighbors)[c])[id]`, the pointer to the cargo that the container
of the cell at the relative coordinate `c` stores under `id`, or `none` for the null
pointer. -/
structure NeighborhoodAdapter (Key Cargo : Type) (D : Nat) where
  neighbors : Coord D → Key → Option Cargo

namespace NeighborhoodAdapter

variable {Key Cargo : Type} {D : Nat}

/-- The loop of `operator[]`, from the iterator position at the head of the list on: the
centre is skipped, the first container that holds `id` ends the loop (`return *res`), and
`none` is the fall through the end of the loop. -/
def search (hood : NeighborhoodAdapter Key Cargo D) (id : Key) :
    List (Coord D) → Option Cargo
  | [] => none
  | i :: rest =>
    if i ≠ (fun _ => 0) then
      match hood.neighbors i id with
      | some res => some res
      | none => search hood id rest
    else search hood id rest

/-- The method `operator[](id)`; `Except.error` is the `std::logic_error` it throws, with
the message of the exception. -/
def subscript (hood : NeighborhoodAdapter Key Cargo D) (id : Key) : Except String Cargo :=
  match hood.neighbors (fun _ => 0) id with
  | some res => Except.ok res
  | none =>
    match search hood id (CoordBox.coords ⟨fun _ => -1, fun _ => 3⟩) with
    | some res => Except.ok res
    | none => Except.error "id not found"

end NeighborhoodAdapter

/-! ## Initializer proxy -/

/-- The data members of `VarStepInitializerProxy<CELL>`: the wrapped initializer and the
`unsigned` member `newMaxSteps`. Values of type `unsigned` are natural numbers below
`2^32`. -/
structure VarStepInitializerProxy (D : Nat) where
  proxyObj : Initializer D
  newMaxSteps : Nat

namespace VarStepInitializerProxy

variable {D : Nat}

/-- The constructor `VarStepInitializerProxy(proxyObj)`. -/
def construct (proxyObj : Initializer D) : VarStepInitializerProxy D :=
  { proxyObj := proxyObj, newMaxSteps := proxyObj.maxSteps }

/-- The method `setMaxSteps(steps)`. -/
def setMaxSteps (p : VarStepInitializerProxy D) (steps : Nat) : VarStepInitializerProxy D :=
  { p with newMaxSteps := steps }

/-- The method `getMaxSteps()`. -/
def getMaxSteps (p : VarStepInitializerProxy D) : Nat := p.newMaxSteps

/-- The method `getInitializer()`. -/
def getInitializer (p : VarStepInitializerProxy D) : Initializer D := p.proxyObj

/-- The method `gridDimensions()`. -/
def gridDimensions (p : VarStepInitializerProxy D) : Coord D := p.proxyObj.gridDimensions

/-- The method `gridBox()`. -/
def gridBox (p : VarStepInitializerProxy D) : CoordBox D := p.proxyObj.gridBox

/-- The method `startStep()`. -/
def startStep (p : VarStepInitializerProxy D) : Nat := p.proxyObj.startStep

/-- The method `maxSteps()`: the sum `proxyObj->startStep() + newMaxSteps` of two `unsigned`
values, which is taken modulo `2^32`. -/
def maxSteps (p : VarStepInitializerProxy D) : Nat :=
  (p.proxyObj.startStep + p.newMaxSteps) % 2 ^ 32

end VarStepInitializerProxy

namespace Example

/-- A partition with a region outside the box of five cells: rank 0 owns the cells `0..2`,
rank 1 owns the cell `-1` only. -/
def outside : Partition 1 :=
  ⟨fun n => if n = 0 then cells [0, 1, 2] else if n = 1 then cells [-1] else ∅⟩

/-- The bounding boxes of the two regions of the partition with the outside region. -/
def outsideBoxes : List (CoordBox 1) :=
  [boundingBox (outside.getRegion 0), boundingBox (outside.getRegion 1)]

/-- Rank 0 of the partition with the outside region, ghost zone width 1, after
`resetRegions` and `resetGhostZones`. -/
def outsideRank0 : PartitionManager 1 :=
  PartitionManager.resetGhostZones (Topology.cube 1)
    (PartitionManager.resetRegions (Topology.cube 1) blank box5 outside 0 1) outsideBoxes

end Example

namespace Example

/-- The MPI layer of a single rank. -/
def soloLayer : MPILayer 1 := ⟨0, 1, fun _ => ⟨fun _ => 0, fun _ => 0⟩⟩

/-- The update group of rank 0 of the two stripes with ghost zone width 2 in a layer of one
rank: no rank contributes the bounding box of the second stripe. -/
def soloGroup : Except String (UpdateGroup Unit Unit 1) :=
  UpdateGroup.construct (Topology.cube 1) 3 stripes box10 2 pairInitializer [] [] [] []
    soloLayer

end Example

/-- The state of a manager between calls of `resetGhostZones`: the region cache is
consistent, every peer entry of the two fragment maps holds the closed-form stacks of its
rank, and a rank has an entry in both maps or in none. -/
def PeersOK {D : Nat} (T : Topology D) (pm : PartitionManager D) : Prop :=
  StacksOK T pm.partition pm.simulationArea.dimensions pm.ghostZoneWidth pm.regions ∧
    (∀ (i : Nat) (st : List (Region D)), pm.outerGhostZoneFragments.lookup (i : Int) = some st →
      st = outerStack T pm.partition pm.simulationArea.dimensions pm.ghostZoneWidth pm.myRank i) ∧
    (∀ (i : Nat) (st : List (Region D)), pm.innerGhostZoneFragments.lookup (i : Int) = some st →
      st = innerStack T pm.partition pm.simulationArea.dimensions pm.ghostZoneWidth pm.myRank i) ∧
    (∀ i : Nat, (pm.outerGhostZoneFragments.lookup (i : Int)).isSome =
      (pm.innerGhostZoneFragments.lookup (i : Int)).isSome)

namespace Example

/-- Rank 0 of the two stripes after a second call of `resetGhostZones`, with an empty list
of bounding boxes. -/
def rank0Again : PartitionManager 1 :=
  PartitionManager.resetGhostZones (Topology.cube 1) rank0 []

end Example

namespace Example

/-- The grid of the test `testBoxCell`: 10 × 5 containers that are empty, but for the one
of the cell `(0, 0)`, which stores a cargo (here the number 7) under the id 1024; the edge
cell is an empty container. A container is the function from the ids to the cargo stored
under them. -/
def boxCellGrid : Grid (Nat → Option Nat) 2 :=
  { dimensions := ![10, 5]
    cellMatrix := fun c =>
      if c = ![0, 0] then (fun id => if id = 1024 then some 7 else none) else fun _ => none
    edgeCell := fun _ => none }

/-- The neighbourhood of the cell `p` of the grid of the test: the relative coordinate `o`
names the cell `p + o` of the grid. -/
def boxCellHood (p : Coord 2) : NeighborhoodAdapter Nat Nat 2 :=
  ⟨fun o => boxCellGrid.get (Topology.cube 2) (p + o)⟩

end Example

/-! ## String operations and the command server -/

namespace StringOps

/-- The call `boost::split(ret, string, boost::is_any_of(delimiters),
boost::token_compress_on)` of the Boost string algorithms, from the position at the head of
the list on. The characters of the token under construction are in `current` (in reverse);
`inRun` says that the previous character was a delimiter. A delimiter ends the token, a
run of adjacent delimiters counts as one, and the end of the input ends the last token, so
the result of the split always has one token more than the input has delimiter runs. -/
def splitFrom (isDelimiter : Char → Bool) : List Char → List Char → Bool → List (List Char)
  | [], current, _ => [current.reverse]
  | c :: rest, current, inRun =>
    if isDelimiter c then
      if inRun then splitFrom isDelimiter rest [] true
      else current.reverse :: splitFrom isDelimiter rest [] true
    else splitFrom isDelimiter rest (c :: current) false

/-- The call `boost::split` with `boost::is_any_of(delimiters)` and
`boost::token_compress_on`. -/
def split (string delimiters : List Char) : List (List Char) :=
  splitFrom (fun c => decide (c ∈ delimiters)) string [] false

/-- The function `del(vec, obj)` of the container overloads: every element equal to `obj`
is removed. -/
def del (vec : List (List Char)) (obj : List Char) : List (List Char) :=
  vec.filter (fun e => decide (e ≠ obj))

/-- The function `StringOps::tokenize(string, delimiters)`. -/
def tokenize (string delimiters : List Char) : List (List Char) :=
  del (split string delimiters) []

/-- The loop body of `StringOps::join`: the delimiter is written before every token but the
first. -/
def joinStep (delimiter : List Char) (state : List Char × Bool) (token : List Char) :
    List Char × Bool :=
  ((if state.2 then state.1 else state.1 ++ delimiter) ++ token, false)

/-- The function `StringOps::join(tokens, delimiter)`; the state of the loop is the buffer
and the flag `i == tokens.begin()`. -/
def join (tokens : List (List Char)) (delimiter : List Char) : List Char :=
  (tokens.foldl (joinStep delimiter) ([], true)).1

/-- The maximal non-empty runs of characters that are not delimiters, in the words of
the specification: the pieces between the delimiter characters, without the empty
pieces. -/
def tokenRuns (string delimiters : List Char) : List (List Char) :=
  (string.splitOnP (fun c => decide (c ∈ delimiters))).filter (fun t => decide (t ≠ []))

end StringOps

/-- What `CommandServer::handleInput` does to the outside: a message sent to the client
(`sendMessage(message)`) or the invocation of a registered action with its parameters
(`(*actions[command])(parameters, *pipe)`). -/
inductive ServerEvent (ACTION : Type) where
  | sent (message : List Char)
  | invoked (action : ACTION) (parameters : List (List Char))
  deriving DecidableEq

/-- The part of the state of `CommandServer<CELL_TYPE>` that `addAction` and `handleInput`
touch: the map `actions` from keys to actions, as an association list looked up at the
first entry of a key, and the record of the messages sent and the actions invoked so
far. -/
structure CommandServer (ACTION : Type) where
  actions : List (List Char × ACTION)
  events : List (ServerEvent ACTION)

namespace CommandServer

variable {ACTION : Type}

/-- The method `addAction(action)`, with `key` the value of `action->key()`: the assignment
`actions[key] = action` replaces an entry under the same key. -/
def addAction (s : CommandServer ACTION) (key : List Char) (action : ACTION) :
    CommandServer ACTION :=
  { s with actions := (key, action) :: s.actions.filter (fun e => decide (e.1 ≠ key)) }

/-- The string `zeroString` of `handleInput`: the single character with code 0. -/
def zeroString : List Char := [Char.ofNat 0]

/-- The text that `handleInput` appends to the message for an unknown command: a line
feed, the words `try "help"` (the character with code 34 is the double quote) and a line
feed. -/
def helpHint : List Char :=
  "\ntry ".toList ++ [Char.ofNat 34] ++ "help".toList ++ [Char.ofNat 34] ++ "\n".toList

/-- The body of the loop of `handleInput` for one line. -/
def handleLine (s : CommandServer ACTION) (line : List Char) : CommandServer ACTION :=
  let parameters := StringOps.tokenize line " \n\r".toList
  if line = zeroString then s
  else
    match parameters with
    | [] => { s with events := s.events ++ [ServerEvent.sent "no command given\n".toList] }
    | command :: parameters =>
      match s.actions.lookup command with
      | none =>
        let message := "command not found: ".toList ++ command
        let message := message ++ helpHint
        { s with events := s.events ++ [ServerEvent.sent message] }
      | some action =>
        { s with events := s.events ++ [ServerEvent.invoked action parameters] }

/-- The method `handleInput(input)`. -/
def handleInput (s : CommandServer ACTION) (input : List Char) : CommandServer ACTION :=
  (StringOps.tokenize input "\n".toList).foldl handleLine s

end CommandServer

/-! ## Array filter -/

/-- The class `SimpleArrayFilter<CELL, MEMBER, EXTERNAL, ARITY>` with its two pure virtual
methods. `load(source, target)` and `save(source, target)` fill the `ARITY` entries of
their target array from the `ARITY` entries of their source array; they are functions from
the source array to the target array here. -/
structure SimpleArrayFilter (MEMBER EXTERNAL : Type) (ARITY : Nat) where
  load : (Fin ARITY → EXTERNAL) → (Fin ARITY → MEMBER)
  save : (Fin ARITY → MEMBER) → (Fin ARITY → EXTERNAL)

namespace SimpleArrayFilter

variable {MEMBER EXTERNAL : Type} {ARITY : Nat}

/-- The array of `ARITY` entries that starts at index `start` of a memory area, as the
pointer `&area[start]` names it. -/
def window {α : Type} (area : Nat → α) (start : Nat) : Fin ARITY → α :=
  fun j => area (start + j.val)

/-- A memory area after an array of `ARITY` entries has been stored from index `start`
on. -/
def store {α : Type} (area : Nat → α) (start : Nat) (values : Fin ARITY → α) : Nat → α :=
  fun x => if h : start ≤ x ∧ x < start + ARITY then values ⟨x - start, by omega⟩ else area x

/-- The method `copyStreakInImpl(source, _, target, _, num, stride)`; the result is the
target area afterwards. Memory areas are functions of the index; the indices are of type
`std::size_t` and are natural numbers here (no index of an area that fits the address space
wraps around). -/
def copyStreakInImpl (f : SimpleArrayFilter MEMBER EXTERNAL ARITY) (source : Nat → EXTERNAL)
    (target : Nat → MEMBER) (num stride : Nat) : Nat → MEMBER :=
  (List.range num).foldl
    (fun (area : Nat → MEMBER) (i : Nat) =>
      let buffer := f.load (window source (i * ARITY))
      (List.finRange ARITY).foldl
        (fun (t : Nat → MEMBER) (j : Fin ARITY) =>
          Function.update t (i + j.val * stride) (buffer j)) area)
    target

/-- The method `copyStreakOutImpl(source, _, target, _, num, stride)`; the result is the
target area afterwards. -/
def copyStreakOutImpl (f : SimpleArrayFilter MEMBER EXTERNAL ARITY) (source : Nat → MEMBER)
    (target : Nat → EXTERNAL) (num stride : Nat) : Nat → EXTERNAL :=
  (List.range num).foldl
    (fun (area : Nat → EXTERNAL) (i : Nat) =>
      let buffer : Fin ARITY → MEMBER := fun j => source (i + j.val * stride)
      store area (i * ARITY) (f.save buffer))
    target

end SimpleArrayFilter

namespace Example

/-- A command server with two registered actions, number 1 under the key `ping` and number
2 under the key `get`, that has not sent or invoked anything yet. -/
def server : CommandServer Nat :=
  (CommandServer.addAction (CommandServer.addAction ⟨[], []⟩ "ping".toList 1) "get".toList 2)

/-- An input of five lines: a command with two parameters, an empty line, a line of blanks,
an unknown command, and the line that holds the single character with code 0. -/
def serverInput : List Char :=
  "get a  b\n\n  \r\nstop now\n".toList ++ CommandServer.zeroString ++ "\nping".toList

end Example

namespace Example

/-- An array filter of arity 2 between natural numbers: the external value is the member
value plus one. -/
def shiftFilter : SimpleArrayFilter Nat Nat 2 :=
  { load := fun source j => source j - 1
    save := fun source j => source j + 1 }

end Example

/-! # Theorems -/

section ExpansionLemmas

variable {D : Nat}

theorem natAbs_le_manhattanNorm (o : Coord D) (a : Fin D) : (o a).natAbs ≤ manhattanNorm o := by
  unfold manhattanNorm
  exact Finset.single_le_sum (f := fun a => (o a).natAbs) (fun _ _ => Nat.zero_le _) (Finset.mem_univ a)

theorem mem_stencilBall {k : Nat} {o : Coord D} : o ∈ stencilBall D k ↔ manhattanNorm o ≤ k := by
  unfold stencilBall
  rw [Finset.mem_filter, Fintype.mem_piFinset]
  constructor
  · exact fun h => h.2
  · intro h
    refine ⟨fun a => ?_, h⟩
    have := natAbs_le_manhattanNorm o a
    rw [Finset.mem_Icc]
    omega

theorem manhattanNorm_zero : manhattanNorm (0 : Coord D) = 0 := by
  simp [manhattanNorm]

theorem manhattanNorm_neg (o : Coord D) : manhattanNorm (-o) = manhattanNorm o := by
  simp [manhattanNorm]

theorem manhattanNorm_add_le (o p : Coord D) :
    manhattanNorm (o + p) ≤ manhattanNorm o + manhattanNorm p := by
  unfold manhattanNorm
  rw [← Finset.sum_add_distrib]
  exact Finset.sum_le_sum (fun a _ => Int.natAbs_add_le (o a) (p a))

theorem mem_expandWithTopology {k : Nat} {dims : Coord D} {T : Topology D} {r : Region D}
    {y : Coord D} :
    y ∈ expandWithTopology k dims T r ↔
      inBounds dims y ∧ ∃ c ∈ r, ∃ o, manhattanNorm o ≤ k ∧ T.normalize dims (c + o) = y := by
  unfold expandWithTopology
  rw [Finset.mem_filter, Finset.mem_image]
  constructor
  · rintro ⟨⟨⟨c, o⟩, hp, rfl⟩, hb⟩
    rw [Finset.mem_product] at hp
    exact ⟨hb, c, hp.1, o, mem_stencilBall.1 hp.2, rfl⟩
  · rintro ⟨hb, c, hc, o, ho, rfl⟩
    exact ⟨⟨(c, o), Finset.mem_product.2 ⟨hc, mem_stencilBall.2 ho⟩, rfl⟩, hb⟩

theorem normalize_of_inBounds {dims : Coord D} (T : Topology D) {c : Coord D}
    (h : inBounds dims c) : T.normalize dims c = c := by
  funext a
  unfold Topology.normalize
  split
  · exact Int.emod_eq_of_lt (h a).1 (h a).2
  · rfl

theorem normalize_normalize_add {dims : Coord D} (T : Topology D) (c o : Coord D) :
    T.normalize dims (T.normalize dims c + o) = T.normalize dims (c + o) := by
  funext a
  unfold Topology.normalize
  by_cases h : T.wrapsAxis a
  · simp [h, Int.emod_add_emod]
  · simp [h]

theorem inBounds_of_mem_expand {k : Nat} {dims : Coord D} {T : Topology D} {r : Region D}
    {y : Coord D} (h : y ∈ expandWithTopology k dims T r) : inBounds dims y :=
  (mem_expandWithTopology.1 h).1

theorem expand_mono {k : Nat} {dims : Coord D} {T : Topology D} {r s : Region D}
    (h : r ⊆ s) : expandWithTopology k dims T r ⊆ expandWithTopology k dims T s := by
  intro y hy
  rw [mem_expandWithTopology] at hy ⊢
  obtain ⟨hb, c, hc, o, ho, rfl⟩ := hy
  exact ⟨hb, c, h hc, o, ho, rfl⟩

theorem expand_mono_width {k l : Nat} {dims : Coord D} {T : Topology D} {r : Region D}
    (h : k ≤ l) : expandWithTopology k dims T r ⊆ expandWithTopology l dims T r := by
  intro y hy
  rw [mem_expandWithTopology] at hy ⊢
  obtain ⟨hb, c, hc, o, ho, rfl⟩ := hy
  exact ⟨hb, c, hc, o, le_trans ho h, rfl⟩

theorem mem_expand_of_mem {k : Nat} {dims : Coord D} {T : Topology D} {r : Region D}
    {c : Coord D} (hc : c ∈ r) (hb : inBounds dims c) : c ∈ expandWithTopology k dims T r := by
  rw [mem_expandWithTopology]
  refine ⟨hb, c, hc, 0, ?_, ?_⟩
  · rw [manhattanNorm_zero]; exact Nat.zero_le _
  · rw [add_zero]; exact normalize_of_inBounds T hb

theorem expand_expand_subset {i j : Nat} {dims : Coord D} {T : Topology D} {r : Region D} :
    expandWithTopology j dims T (expandWithTopology i dims T r) ⊆
      expandWithTopology (i + j) dims T r := by
  intro y hy
  rw [mem_expandWithTopology] at hy
  obtain ⟨hb, x, hx, o2, ho2, rfl⟩ := hy
  rw [mem_expandWithTopology] at hx
  obtain ⟨_, c, hc, o1, ho1, rfl⟩ := hx
  rw [mem_expandWithTopology]
  refine ⟨hb, c, hc, o1 + o2, ?_, ?_⟩
  · exact le_trans (manhattanNorm_add_le o1 o2) (Nat.add_le_add ho1 ho2)
  · rw [normalize_normalize_add, add_assoc]

/-- A cell in bounds from which a cell of the region is reached in at most `k` steps lies in
the `k`-expansion of the region: the stencil is symmetric. -/
theorem mem_expand_of_step_to {k : Nat} {dims : Coord D} {T : Topology D} {r : Region D}
    {x o : Coord D} (hx : inBounds dims x) (ho : manhattanNorm o ≤ k)
    (hc : T.normalize dims (x + o) ∈ r) : x ∈ expandWithTopology k dims T r := by
  rw [mem_expandWithTopology]
  refine ⟨hx, _, hc, -o, ?_, ?_⟩
  · rw [manhattanNorm_neg]; exact ho
  · rw [normalize_normalize_add, add_neg_cancel_right]; exact normalize_of_inBounds T hx

end ExpansionLemmas


section VectorLemmas

variable {D : Nat}

theorem resize_length (v : List (Region D)) (n : Nat) : (resize v n).length = n := by
  unfold resize
  simp only [List.length_append, List.length_take, List.length_replicate]
  omega

theorem vecAt_set_self {v : List (Region D)} {i : Nat} (x : Region D) (h : i < v.length) :
    vecAt (v.set i x) i = x := by
  unfold vecAt
  simp [List.getD_eq_getElem?_getD, List.getElem?_set, h]

theorem vecAt_set_ne {v : List (Region D)} {i j : Nat} (x : Region D) (h : i ≠ j) :
    vecAt (v.set i x) j = vecAt v j := by
  unfold vecAt
  simp [List.getD_eq_getElem?_getD, List.getElem?_set, h]

theorem vecAt_map_range {n j : Nat} (f : Nat → Region D) (h : j < n) :
    vecAt ((List.range n).map f) j = f j := by
  unfold vecAt
  simp [List.getD_eq_getElem?_getD, h]

theorem eq_map_range_of_vecAt {v : List (Region D)} {n : Nat} (f : Nat → Region D)
    (hl : v.length = n) (h : ∀ j, j < n → vecAt v j = f j) : v = (List.range n).map f := by
  apply List.ext_getElem
  · simp [hl]
  · intro j h1 h2
    have hj : j < n := by omega
    have := h j hj
    unfold vecAt at this
    simp only [List.getD_eq_getElem?_getD, List.getElem?_eq_getElem h1, Option.getD_some] at this
    simp [this]

theorem vecBack_map_range (n : Nat) (f : Nat → Region D) :
    vecBack ((List.range (n + 1)).map f) = f n := by
  unfold vecBack
  rw [List.length_map, List.length_range, Nat.add_sub_cancel]
  exact vecAt_map_range f (Nat.lt_succ_self n)

/-- The ascending loop `for i = 1..n: v[i] = g(v[i - 1])`. -/
theorem ascendingLoop_spec (g : Region D → Region D) (L : Nat) :
    ∀ (n : Nat) (v : List (Region D)), v.length = L → n < L →
      ((List.range' 1 n).foldl (fun v i => v.set i (g (vecAt v (i - 1)))) v).length = L ∧
      ∀ j, j ≤ n →
        vecAt ((List.range' 1 n).foldl (fun v i => v.set i (g (vecAt v (i - 1)))) v) j =
          g^[j] (vecAt v 0) := by
  intro n
  induction n with
  | zero =>
    intro v hl _
    refine ⟨by simpa using hl, ?_⟩
    intro j hj
    have : j = 0 := by omega
    subst this
    simp
  | succ n ih =>
    intro v hl hn
    obtain ⟨ihl, ihv⟩ := ih v hl (by omega)
    rw [List.range'_1_concat, List.foldl_append]
    simp only [List.foldl_cons, List.foldl_nil]
    refine ⟨by rw [List.length_set]; exact ihl, ?_⟩
    intro j hj
    by_cases hjn : j = n + 1
    · subst hjn
      rw [show 1 + n = n + 1 by omega, vecAt_set_self _ (by rw [ihl]; exact hn)]
      rw [Nat.add_sub_cancel, ihv n (le_refl n), Function.iterate_succ_apply']
    · rw [show 1 + n = n + 1 by omega, vecAt_set_ne _ (by omega)]
      exact ihv j (by omega)

/-- The descending loop `for i = n-1..0: v[i] = g(v[i + 1])`. -/
theorem descendingLoop_spec (g : Region D → Region D) (L : Nat) :
    ∀ (n : Nat) (v : List (Region D)), v.length = L → n < L →
      ((List.range n).reverse.foldl (fun v i => v.set i (g (vecAt v (i + 1)))) v).length = L ∧
      ∀ j, j ≤ n →
        vecAt ((List.range n).reverse.foldl (fun v i => v.set i (g (vecAt v (i + 1)))) v) j =
          g^[n - j] (vecAt v n) := by
  intro n
  induction n with
  | zero =>
    intro v hl _
    refine ⟨by simpa using hl, ?_⟩
    intro j hj
    have : j = 0 := by omega
    subst this
    simp
  | succ n ih =>
    intro v hl hn
    rw [List.range_succ, List.reverse_append, List.reverse_singleton, List.singleton_append,
      List.foldl_cons]
    have hl2 : (v.set n (g (vecAt v (n + 1)))).length = L := by rw [List.length_set]; exact hl
    obtain ⟨ihl, ihv⟩ := ih (v.set n (g (vecAt v (n + 1)))) hl2 (by omega)
    refine ⟨ihl, ?_⟩
    intro j hj
    by_cases hjn : j = n + 1
    · subst hjn
      have key : ∀ (m : Nat) (w : List (Region D)), n + 1 < w.length →
          vecAt ((List.range m).reverse.foldl (fun v i => v.set i (g (vecAt v (i + 1)))) w) (n + 1)
            = vecAt w (n + 1) ∨ n + 1 < m := by
        intro m
        induction m with
        | zero => intro w _; left; simp
        | succ m ihm =>
          intro w hw
          by_cases hm : n + 1 < m + 1
          · right; exact hm
          · left
            rw [List.range_succ, List.reverse_append, List.reverse_singleton,
              List.singleton_append, List.foldl_cons]
            rcases ihm (w.set m (g (vecAt w (m + 1)))) (by rw [List.length_set]; exact hw) with h | h
            · rw [h, vecAt_set_ne _ (by omega)]
            · omega
      rcases key n (v.set n (g (vecAt v (n + 1)))) (by rw [hl2]; exact hn) with h | h
      · rw [h, vecAt_set_ne _ (by omega)]; simp
      · omega
    · rw [ihv j (by omega), vecAt_set_self _ (by omega)]
      rw [show n + 1 - j = (n - j) + 1 by omega, Function.iterate_succ_apply]

/-- The loop of the inner sets: `for i = 1..n: v[i] = v[i - 1] - m; m = g(m)`. -/
theorem innerLoop_spec (g : Region D → Region D) (L : Nat) :
    ∀ (n : Nat) (v : List (Region D)) (m : Region D), v.length = L → n < L →
      ((List.range' 1 n).foldl
        (fun (s : List (Region D) × Region D) i => (s.1.set i (vecAt s.1 (i - 1) \ s.2), g s.2))
        (v, m)).1.length = L ∧
      ((List.range' 1 n).foldl
        (fun (s : List (Region D) × Region D) i => (s.1.set i (vecAt s.1 (i - 1) \ s.2), g s.2))
        (v, m)).2 = g^[n] m ∧
      ∀ j, j ≤ n →
        vecAt ((List.range' 1 n).foldl
          (fun (s : List (Region D) × Region D) i => (s.1.set i (vecAt s.1 (i - 1) \ s.2), g s.2))
          (v, m)).1 j =
          Nat.rec (vecAt v 0) (fun d acc => acc \ g^[d] m) j := by
  intro n
  induction n with
  | zero =>
    intro v m hl _
    refine ⟨by simpa using hl, by simp, ?_⟩
    intro j hj
    have : j = 0 := by omega
    subst this
    simp
  | succ n ih =>
    intro v m hl hn
    obtain ⟨ihl, ihm, ihv⟩ := ih v m hl (by omega)
    rw [List.range'_1_concat, List.foldl_append]
    simp only [List.foldl_cons, List.foldl_nil]
    refine ⟨by rw [List.length_set]; exact ihl, ?_, ?_⟩
    · rw [ihm, Function.iterate_succ_apply']
    · intro j hj
      by_cases hjn : j = n + 1
      · subst hjn
        rw [show 1 + n = n + 1 by omega, vecAt_set_self _ (by rw [ihl]; exact hn)]
        rw [Nat.add_sub_cancel, ihv n (le_refl n), ihm]
      · rw [show 1 + n = n + 1 by omega, vecAt_set_ne _ (by omega)]
        exact ihv j (by omega)

end VectorLemmas

section MapLemmas

variable {D : Nat}

theorem RegionVecMap.lookup_insert (m : RegionVecMap D) (k k2 : Int) (v : List (Region D)) :
    (m.insert k v).lookup k2 = if k2 = k then some v else m.lookup k2 := by
  induction m with
  | nil =>
    simp only [RegionVecMap.insert, RegionVecMap.lookup]
    by_cases h : k = k2
    · simp [h]
    · have h2 : ¬ k2 = k := fun e => h e.symm
      simp [h, h2]
  | cons e rest ih =>
    simp only [RegionVecMap.insert]
    by_cases h1 : k < e.1
    · simp only [h1, if_true, RegionVecMap.lookup]
      by_cases h : k = k2
      · simp [h]
      · have h2 : ¬ k2 = k := fun e => h e.symm
        simp [h, h2]
    · simp only [h1, if_false]
      by_cases h3 : k = e.1
      · simp only [h3, if_true, RegionVecMap.lookup]
        by_cases h : e.1 = k2
        · simp [h]
        · have h2 : ¬ k2 = e.1 := fun e => h e.symm
          simp [h, h2]
      · simp only [h3, if_false, RegionVecMap.lookup, ih]
        by_cases h : e.1 = k2
        · have h2 : ¬ k2 = k := fun e2 => h3 (by rw [h, e2])
          simp [h, h2]
        · simp [h]

theorem RegionVecMap.mem_insert {m : RegionVecMap D} {k : Int} {v : List (Region D)}
    {e : Int × List (Region D)} (h : e ∈ m.insert k v) : e = (k, v) ∨ e ∈ m := by
  induction m with
  | nil =>
    simp only [RegionVecMap.insert, List.mem_singleton] at h
    exact Or.inl h
  | cons e2 rest ih =>
    simp only [RegionVecMap.insert] at h
    by_cases h1 : k < e2.1
    · simp only [h1, if_true, List.mem_cons] at h
      rcases h with h | h | h
      · exact Or.inl h
      · exact Or.inr (by simp [h])
      · exact Or.inr (by simp [h])
    · simp only [h1, if_false] at h
      by_cases h3 : k = e2.1
      · simp only [h3, if_true, List.mem_cons] at h
        rcases h with h | h
        · left; rw [h, h3]
        · exact Or.inr (by simp [h])
      · simp only [h3, if_false, List.mem_cons] at h
        rcases h with h | h
        · exact Or.inr (by simp [h])
        · rcases ih h with h | h
          · exact Or.inl h
          · exact Or.inr (by simp [h])

theorem RegionVecMap.mem_of_lookup {m : RegionVecMap D} {k : Int} {v : List (Region D)}
    (h : m.lookup k = some v) : (k, v) ∈ m := by
  induction m with
  | nil => simp [RegionVecMap.lookup] at h
  | cons e rest ih =>
    simp only [RegionVecMap.lookup] at h
    by_cases h1 : e.1 = k
    · simp only [h1, if_true, Option.some.injEq] at h
      rw [← h, ← h1]
      simp
    · simp only [h1, if_false] at h
      exact List.mem_cons_of_mem _ (ih h)

theorem RegionVecMap.lookup_isSome_of_mem {m : RegionVecMap D} {k : Int} {v : List (Region D)}
    (h : (k, v) ∈ m) : (m.lookup k).isSome = true := by
  induction m with
  | nil => simp at h
  | cons e rest ih =>
    simp only [RegionVecMap.lookup]
    by_cases h1 : e.1 = k
    · simp [h1]
    · simp only [h1, if_false]
      rcases List.mem_cons.1 h with h | h
      · exact absurd (by rw [← h]) h1
      · exact ih h

theorem RegionVecMap.get_insert_self (m : RegionVecMap D) (k : Int) (v : List (Region D)) :
    (m.insert k v).get k = v := by
  simp [RegionVecMap.get, RegionVecMap.lookup_insert]

end MapLemmas

namespace PartitionManager

variable {D : Nat}

theorem vecAt_regionStack (dims : Coord D) (T : Topology D) {G w : Nat} (r : Region D)
    (h : w ≤ G) : vecAt (regionStack dims T G r) w = expandSteps dims T w r :=
  vecAt_map_range _ (by omega)

theorem vecBack_regionStack (dims : Coord D) (T : Topology D) (G : Nat) (r : Region D) :
    vecBack (regionStack dims T G r) = expandSteps dims T G r :=
  vecBack_map_range G _

/-- The stack that `fillRegion` builds is the stack of the iterated one-step expansions. -/
theorem fillRegion_eq (T : Topology D) (pm : PartitionManager D) (node : Nat) :
    fillRegion T pm node =
      { pm with regions := (pm.regions.insert node
          (regionStack pm.simulationArea.dimensions T pm.ghostZoneWidth
            (pm.partition.getRegion node))) } := by
  have hl : ((resize (pm.regions.get node) (pm.ghostZoneWidth + 1)).set 0
      (pm.partition.getRegion node)).length = pm.ghostZoneWidth + 1 := by
    rw [List.length_set, resize_length]
  obtain ⟨h1, h2⟩ := ascendingLoop_spec (expandWithTopology 1 pm.simulationArea.dimensions T)
    (pm.ghostZoneWidth + 1) pm.ghostZoneWidth _ hl (Nat.lt_succ_self _)
  have key := eq_map_range_of_vecAt
    (fun w => expandSteps pm.simulationArea.dimensions T w (pm.partition.getRegion node)) h1 (by
      intro j hj
      rw [h2 j (by omega), vecAt_set_self _ (by rw [resize_length]; omega)]
      rfl)
  unfold fillRegion getGhostZoneWidth
  simp only [key]
  rfl

/-- Closed form of the state after `resetRegions`. -/
theorem resetRegions_eq (T : Topology D) (pm : PartitionManager D) (sa : CoordBox D)
    (part : Partition D) (me G : Nat) :
    resetRegions T pm sa part me G =
      { partition := part
        simulationArea := sa
        outerRim := expandSteps sa.dimensions T G (part.getRegion me) \ part.getRegion me
        volatileKernel := innerSetOf sa.dimensions T (part.getRegion me) G ∩
          rimOf sa.dimensions T G (part.getRegion me) 0
        innerRim := innerSetOf sa.dimensions T (part.getRegion me) G ∩
          rimOf sa.dimensions T G (part.getRegion me) 0
        regions := [((me : Int), regionStack sa.dimensions T G (part.getRegion me))]
        outerGhostZoneFragments := []
        innerGhostZoneFragments := []
        ownRims := (List.range (G + 1)).map (rimOf sa.dimensions T G (part.getRegion me))
        ownInnerSets := (List.range (G + 1)).map (innerSetOf sa.dimensions T (part.getRegion me))
        myRank := me
        ghostZoneWidth := G
        boundingBoxes := pm.boundingBoxes } := by
  unfold resetRegions fillOwnRegion
  rw [fillRegion_eq]
  simp only [ownRegion, ownExpandedRegion, getGhostZoneWidth, RegionVecMap.insert,
    RegionVecMap.get, RegionVecMap.lookup, if_true, Option.getD_some,
    vecAt_regionStack _ _ _ (Nat.zero_le G), vecBack_regionStack]
  have e0 : expandSteps sa.dimensions T 0 (part.getRegion me) = part.getRegion me := rfl
  rw [e0]
  set own := part.getRegion me with hown
  set E := expandWithTopology 1 sa.dimensions T with hE
  -- the rims
  have hlr : ((resize pm.ownRims (G + 1)).set ((resize pm.ownRims (G + 1)).length - 1)
      (own \ (own \ expandWithTopology G sa.dimensions T (E own \ own)))).length = G + 1 := by
    rw [List.length_set, resize_length]
  obtain ⟨r1, r2⟩ := descendingLoop_spec E (G + 1) G _ hlr (Nat.lt_succ_self _)
  have hrims := eq_map_range_of_vecAt (rimOf sa.dimensions T G own) r1 (by
    intro j hj
    rw [r2 j (by omega), resize_length, Nat.add_sub_cancel,
      vecAt_set_self _ (by rw [resize_length]; omega)]
    rfl)
  -- the inner sets
  have hli : ((resize pm.ownInnerSets (G + 1)).set 0 own).length = G + 1 := by
    rw [List.length_set, resize_length]
  obtain ⟨i1, _, i3⟩ := innerLoop_spec E (G + 1) G _ (E (E own \ own)) hli (Nat.lt_succ_self _)
  have hinner := eq_map_range_of_vecAt (innerSetOf sa.dimensions T own) i1 (by
    intro j hj
    rw [i3 j (by omega), vecAt_set_self _ (by rw [resize_length]; omega)]
    clear hj
    induction j with
    | zero => rfl
    | succ d ih =>
      simp only [innerSetOf]
      rw [← ih]
      simp only [expandSteps, surfaceOf, Function.iterate_succ_apply, hE])
  rw [hrims, hinner]
  simp only [vecBack_map_range, vecAt_map_range _ (Nat.succ_pos G)]

end PartitionManager

namespace PartitionManager

variable {D : Nat}

/-- On a manager whose region stacks are consistent, `getRegion` returns the iterated
expansion and changes nothing but the region cache, which stays consistent. -/
theorem getRegion_eq (T : Topology D) (pm : PartitionManager D) (n w : Nat)
    (hok : StacksOK T pm.partition pm.simulationArea.dimensions pm.ghostZoneWidth pm.regions)
    (hw : w ≤ pm.ghostZoneWidth) :
    ∃ R, StacksOK T pm.partition pm.simulationArea.dimensions pm.ghostZoneWidth R ∧
      getRegion T pm n w =
        (expandSteps pm.simulationArea.dimensions T w (pm.partition.getRegion n),
          { pm with regions := R }) := by
  unfold getRegion
  by_cases h : pm.regions.count n = 0
  · refine ⟨pm.regions.insert n (regionStack pm.simulationArea.dimensions T pm.ghostZoneWidth
      (pm.partition.getRegion n)), ?_, ?_⟩
    · intro m st hm
      rw [RegionVecMap.lookup_insert] at hm
      by_cases hmn : (m : Int) = (n : Int)
      · rw [if_pos hmn] at hm
        have : m = n := by exact_mod_cast hmn
        subst this
        exact (Option.some.inj hm).symm
      · rw [if_neg hmn] at hm
        exact hok m st hm
    · simp only [h, if_true, fillRegion_eq, RegionVecMap.get_insert_self,
        vecAt_regionStack _ _ _ hw]
  · refine ⟨pm.regions, hok, ?_⟩
    simp only [h, if_false]
    unfold RegionVecMap.count at h
    cases hl : pm.regions.lookup n with
    | none => simp [hl] at h
    | some st =>
      have := hok n st hl
      simp only [RegionVecMap.get, hl, Option.getD_some, this, vecAt_regionStack _ _ _ hw]

/-- One pass of the loop of `intersect` on a consistent manager. -/
theorem intersectStep_eq (T : Topology D) (pm : PartitionManager D) (node i : Nat)
    (og ig : List (Region D))
    (hok : StacksOK T pm.partition pm.simulationArea.dimensions pm.ghostZoneWidth pm.regions)
    (hi : i ≤ pm.ghostZoneWidth) :
    ∃ R, StacksOK T pm.partition pm.simulationArea.dimensions pm.ghostZoneWidth R ∧
      intersectStep T node (pm, og, ig) i =
        ({ pm with regions := R },
          og.set i (expandSteps pm.simulationArea.dimensions T i (pm.partition.getRegion pm.myRank) ∩
            pm.partition.getRegion node),
          ig.set i (pm.partition.getRegion pm.myRank ∩
            expandSteps pm.simulationArea.dimensions T i (pm.partition.getRegion node))) := by
  obtain ⟨R1, ok1, e1⟩ := getRegion_eq T pm pm.myRank i hok hi
  obtain ⟨R2, ok2, e2⟩ := getRegion_eq T { pm with regions := R1 } node 0 ok1 (Nat.zero_le _)
  obtain ⟨R3, ok3, e3⟩ := getRegion_eq T { pm with regions := R2 } pm.myRank 0 ok2 (Nat.zero_le _)
  obtain ⟨R4, ok4, e4⟩ := getRegion_eq T { pm with regions := R3 } node i ok3 hi
  refine ⟨R4, ok4, ?_⟩
  simp only [intersectStep, e1, e2, e3, e4]
  rfl

end PartitionManager

namespace PartitionManager

variable {D : Nat}

/-- The loop of `intersect` after `k` passes. -/
theorem intersectLoop_spec (T : Topology D) (pm : PartitionManager D) (node : Nat)
    (og ig : List (Region D))
    (hok : StacksOK T pm.partition pm.simulationArea.dimensions pm.ghostZoneWidth pm.regions)
    (hog : og.length = pm.ghostZoneWidth + 1) (hig : ig.length = pm.ghostZoneWidth + 1) :
    ∀ k, k ≤ pm.ghostZoneWidth + 1 →
      ∃ (R : RegionVecMap D) (og2 ig2 : List (Region D)),
        StacksOK T pm.partition pm.simulationArea.dimensions pm.ghostZoneWidth R ∧
        (List.range k).foldl (intersectStep T node) (pm, og, ig) =
          ({ pm with regions := R }, og2, ig2) ∧
        og2.length = pm.ghostZoneWidth + 1 ∧ ig2.length = pm.ghostZoneWidth + 1 ∧
        ∀ j, j < k →
          vecAt og2 j = expandSteps pm.simulationArea.dimensions T j
            (pm.partition.getRegion pm.myRank) ∩ pm.partition.getRegion node ∧
          vecAt ig2 j = pm.partition.getRegion pm.myRank ∩
            expandSteps pm.simulationArea.dimensions T j (pm.partition.getRegion node) := by
  intro k
  induction k with
  | zero =>
    intro _
    exact ⟨pm.regions, og, ig, hok, rfl, hog, hig, fun j hj => absurd hj (Nat.not_lt_zero j)⟩
  | succ k ih =>
    intro hk
    obtain ⟨R, og2, ig2, ok, e, l1, l2, hv⟩ := ih (by omega)
    obtain ⟨R2, ok2, e2⟩ := intersectStep_eq T { pm with regions := R } node k og2 ig2 ok
      (by show k ≤ pm.ghostZoneWidth; omega)
    refine ⟨R2,
      og2.set k (expandSteps pm.simulationArea.dimensions T k (pm.partition.getRegion pm.myRank) ∩
        pm.partition.getRegion node),
      ig2.set k (pm.partition.getRegion pm.myRank ∩
        expandSteps pm.simulationArea.dimensions T k (pm.partition.getRegion node)),
      ok2, ?_, ?_, ?_, ?_⟩
    · rw [List.range_succ, List.foldl_append, e]
      simp only [List.foldl_cons, List.foldl_nil]
      exact e2
    · rw [List.length_set]; exact l1
    · rw [List.length_set]; exact l2
    · intro j hj
      by_cases hjk : j = k
      · subst hjk
        exact ⟨vecAt_set_self _ (by omega), vecAt_set_self _ (by omega)⟩
      · rw [vecAt_set_ne _ (fun h => hjk h.symm), vecAt_set_ne _ (fun h => hjk h.symm)]
        exact hv j (by omega)

/-- The method `intersect` on a consistent manager assigns the two closed-form stacks. -/
theorem intersect_eq (T : Topology D) (pm : PartitionManager D) (node : Nat)
    (hok : StacksOK T pm.partition pm.simulationArea.dimensions pm.ghostZoneWidth pm.regions) :
    ∃ R, StacksOK T pm.partition pm.simulationArea.dimensions pm.ghostZoneWidth R ∧
      intersect T pm node =
        { pm with
          regions := R
          outerGhostZoneFragments := (pm.outerGhostZoneFragments.insert node
            (outerStack T pm.partition pm.simulationArea.dimensions pm.ghostZoneWidth pm.myRank node))
          innerGhostZoneFragments := (pm.innerGhostZoneFragments.insert node
            (innerStack T pm.partition pm.simulationArea.dimensions pm.ghostZoneWidth pm.myRank node)) } := by
  obtain ⟨R, og2, ig2, ok, e, l1, l2, hv⟩ := intersectLoop_spec T pm node
    (resize (pm.outerGhostZoneFragments.get node) (pm.ghostZoneWidth + 1))
    (resize (pm.innerGhostZoneFragments.get node) (pm.ghostZoneWidth + 1)) hok
    (resize_length _ _) (resize_length _ _) (pm.ghostZoneWidth + 1) (le_refl _)
  refine ⟨R, ok, ?_⟩
  have ho : og2 = outerStack T pm.partition pm.simulationArea.dimensions pm.ghostZoneWidth
      pm.myRank node := eq_map_range_of_vecAt _ l1 (fun j hj => (hv j hj).1)
  have hi : ig2 = innerStack T pm.partition pm.simulationArea.dimensions pm.ghostZoneWidth
      pm.myRank node := eq_map_range_of_vecAt _ l2 (fun j hj => (hv j hj).2)
  unfold intersect getGhostZoneWidth
  simp only [e, ho, hi]

/-- The body of the first loop of `resetGhostZones` on a consistent manager. -/
theorem ghostZoneStep_eq (T : Topology D) (bb : CoordBox D) (pm : PartitionManager D) (i : Nat)
    (hok : StacksOK T pm.partition pm.simulationArea.dimensions pm.ghostZoneWidth pm.regions) :
    ∃ R, StacksOK T pm.partition pm.simulationArea.dimensions pm.ghostZoneWidth R ∧
      ghostZoneStep T bb pm i =
        if sharesGhostZone T pm.partition pm.simulationArea.dimensions pm.ghostZoneWidth
            pm.myRank pm.boundingBoxes bb i then
          { pm with
            regions := R
            outerGhostZoneFragments := (pm.outerGhostZoneFragments.insert i
              (outerStack T pm.partition pm.simulationArea.dimensions pm.ghostZoneWidth pm.myRank i))
            innerGhostZoneFragments := (pm.innerGhostZoneFragments.insert i
              (innerStack T pm.partition pm.simulationArea.dimensions pm.ghostZoneWidth pm.myRank i)) }
        else { pm with regions := R } := by
  unfold ghostZoneStep sharesGhostZone
  by_cases hc : i ≠ pm.myRank ∧
      ((pm.boundingBoxes.getD i ⟨fun _ => 0, fun _ => 0⟩).intersects bb) = true
  · obtain ⟨R1, ok1, e1⟩ := getRegion_eq T pm pm.myRank pm.ghostZoneWidth hok (le_refl _)
    obtain ⟨R2, ok2, e2⟩ := getRegion_eq T { pm with regions := R1 } i 0 ok1 (Nat.zero_le _)
    dsimp only at ok2 e2
    have z : expandSteps pm.simulationArea.dimensions T 0 (pm.partition.getRegion i) =
        pm.partition.getRegion i := rfl
    rw [z] at e2
    rw [if_pos hc]
    simp only [e1, e2]
    by_cases ha : expandSteps pm.simulationArea.dimensions T pm.ghostZoneWidth
        (pm.partition.getRegion pm.myRank) ∩ pm.partition.getRegion i ≠ ∅
    · obtain ⟨R, ok, e⟩ := intersect_eq T { pm with regions := R2 } i ok2
      refine ⟨R, ok, ?_⟩
      rw [if_pos ha, if_pos ⟨hc, Or.inl ha⟩]
      exact e
    · obtain ⟨R3, ok3, e3⟩ := getRegion_eq T { pm with regions := R2 } i pm.ghostZoneWidth ok2
        (le_refl _)
      obtain ⟨R4, ok4, e4⟩ := getRegion_eq T { pm with regions := R3 } pm.myRank 0 ok3
        (Nat.zero_le _)
      dsimp only at ok3 e3 ok4 e4
      have z2 : expandSteps pm.simulationArea.dimensions T 0 (pm.partition.getRegion pm.myRank) =
          pm.partition.getRegion pm.myRank := rfl
      rw [z2] at e4
      rw [if_neg ha]
      simp only [e3, e4]
      by_cases hb : expandSteps pm.simulationArea.dimensions T pm.ghostZoneWidth
          (pm.partition.getRegion i) ∩ pm.partition.getRegion pm.myRank ≠ ∅
      · obtain ⟨R, ok, e⟩ := intersect_eq T { pm with regions := R4 } i ok4
        refine ⟨R, ok, ?_⟩
        rw [if_pos hb, if_pos ⟨hc, Or.inr hb⟩]
        exact e
      · refine ⟨R4, ok4, ?_⟩
        rw [if_neg hb, if_neg (fun h => h.2.elim ha hb)]
  · refine ⟨pm.regions, hok, ?_⟩
    rw [if_neg hc, if_neg (fun h => hc h.1)]

end PartitionManager

namespace PartitionManager

variable {D : Nat}

/-- The first loop of `resetGhostZones` after the ranks below `k`. -/
theorem ghostZoneLoop_spec (T : Topology D) (bb : CoordBox D) (pm : PartitionManager D)
    (hok : StacksOK T pm.partition pm.simulationArea.dimensions pm.ghostZoneWidth pm.regions) :
    ∀ k, ∃ R, StacksOK T pm.partition pm.simulationArea.dimensions pm.ghostZoneWidth R ∧
      (List.range k).foldl (ghostZoneStep T bb) pm =
        { pm with
          regions := R
          outerGhostZoneFragments := (peerFragments
            (sharesGhostZone T pm.partition pm.simulationArea.dimensions pm.ghostZoneWidth
              pm.myRank pm.boundingBoxes bb)
            (outerStack T pm.partition pm.simulationArea.dimensions pm.ghostZoneWidth pm.myRank)
            pm.outerGhostZoneFragments k)
          innerGhostZoneFragments := (peerFragments
            (sharesGhostZone T pm.partition pm.simulationArea.dimensions pm.ghostZoneWidth
              pm.myRank pm.boundingBoxes bb)
            (innerStack T pm.partition pm.simulationArea.dimensions pm.ghostZoneWidth pm.myRank)
            pm.innerGhostZoneFragments k) } := by
  intro k
  induction k with
  | zero => exact ⟨pm.regions, hok, rfl⟩
  | succ k ih =>
    obtain ⟨R, ok, e⟩ := ih
    rw [List.range_succ, List.foldl_append, e]
    simp only [List.foldl_cons, List.foldl_nil]
    obtain ⟨R2, ok2, e2⟩ := ghostZoneStep_eq T bb
      { pm with
        regions := R
        outerGhostZoneFragments := (peerFragments
          (sharesGhostZone T pm.partition pm.simulationArea.dimensions pm.ghostZoneWidth
            pm.myRank pm.boundingBoxes bb)
          (outerStack T pm.partition pm.simulationArea.dimensions pm.ghostZoneWidth pm.myRank)
          pm.outerGhostZoneFragments k)
        innerGhostZoneFragments := (peerFragments
          (sharesGhostZone T pm.partition pm.simulationArea.dimensions pm.ghostZoneWidth
            pm.myRank pm.boundingBoxes bb)
          (innerStack T pm.partition pm.simulationArea.dimensions pm.ghostZoneWidth pm.myRank)
          pm.innerGhostZoneFragments k) } k ok
    refine ⟨R2, ok2, ?_⟩
    rw [e2]
    dsimp only
    by_cases hs : sharesGhostZone T pm.partition pm.simulationArea.dimensions pm.ghostZoneWidth
        pm.myRank pm.boundingBoxes bb k
    · simp only [hs, if_true, peerFragments]
    · simp only [hs, if_false, peerFragments]

/-- Closed form of `resetGhostZones` on a consistent manager. -/
theorem resetGhostZones_eq (T : Topology D) (pm : PartitionManager D)
    (boxes : List (CoordBox D))
    (hok : StacksOK T pm.partition pm.simulationArea.dimensions pm.ghostZoneWidth pm.regions) :
    ∃ R, StacksOK T pm.partition pm.simulationArea.dimensions pm.ghostZoneWidth R ∧
      resetGhostZones T pm boxes =
        { pm with
          boundingBoxes := boxes
          regions := R
          outerGhostZoneFragments :=
            ((peerFragments
              (sharesGhostZone T pm.partition pm.simulationArea.dimensions pm.ghostZoneWidth
                pm.myRank boxes (boundingBox pm.ownExpandedRegion))
              (outerStack T pm.partition pm.simulationArea.dimensions pm.ghostZoneWidth pm.myRank)
              pm.outerGhostZoneFragments boxes.length).insert OUTGROUP
              (List.replicate (pm.ghostZoneWidth + 1)
                (subtractPeerFragments (peerFragments
                  (sharesGhostZone T pm.partition pm.simulationArea.dimensions pm.ghostZoneWidth
                    pm.myRank boxes (boundingBox pm.ownExpandedRegion))
                  (outerStack T pm.partition pm.simulationArea.dimensions pm.ghostZoneWidth
                    pm.myRank)
                  pm.outerGhostZoneFragments boxes.length) pm.outerRim)))
          innerGhostZoneFragments :=
            ((peerFragments
              (sharesGhostZone T pm.partition pm.simulationArea.dimensions pm.ghostZoneWidth
                pm.myRank boxes (boundingBox pm.ownExpandedRegion))
              (innerStack T pm.partition pm.simulationArea.dimensions pm.ghostZoneWidth pm.myRank)
              pm.innerGhostZoneFragments boxes.length).insert OUTGROUP
              (List.replicate (pm.ghostZoneWidth + 1)
                (subtractPeerFragments (peerFragments
                  (sharesGhostZone T pm.partition pm.simulationArea.dimensions pm.ghostZoneWidth
                    pm.myRank boxes (boundingBox pm.ownExpandedRegion))
                  (innerStack T pm.partition pm.simulationArea.dimensions pm.ghostZoneWidth
                    pm.myRank)
                  pm.innerGhostZoneFragments boxes.length)
                  (vecAt pm.ownRims pm.ghostZoneWidth)))) } := by
  obtain ⟨R, ok, e⟩ := ghostZoneLoop_spec T (boundingBox pm.ownExpandedRegion)
    { pm with boundingBoxes := boxes } hok boxes.length
  refine ⟨R, ok, ?_⟩
  unfold resetGhostZones
  dsimp only at e ⊢
  have hx : ownExpandedRegion { pm with boundingBoxes := boxes } = pm.ownExpandedRegion := rfl
  rw [hx, e]
  rfl

/-- The region cache after `resetRegions` is consistent. -/
theorem stacksOK_resetRegions (T : Topology D) (sa : CoordBox D) (part : Partition D)
    (me G : Nat) :
    StacksOK T part sa.dimensions G
      [((me : Int), regionStack sa.dimensions T G (part.getRegion me))] := by
  intro n st h
  simp only [RegionVecMap.lookup] at h
  by_cases hn : (me : Int) = (n : Int)
  · rw [if_pos hn] at h
    have : me = n := by exact_mod_cast hn
    subst this
    exact (Option.some.inj h).symm
  · rw [if_neg hn] at h
    exact absurd h (by simp)

end PartitionManager

section PeerFragmentLemmas

variable {D : Nat}

theorem mem_peerFragments {test : Nat → Prop} [DecidablePred test]
    {stack : Nat → List (Region D)} {m : RegionVecMap D} {k : Nat}
    {e : Int × List (Region D)} (h : e ∈ peerFragments test stack m k) :
    e ∈ m ∨ ∃ i, i < k ∧ test i ∧ e = ((i : Int), stack i) := by
  induction k with
  | zero => exact Or.inl h
  | succ k ih =>
    simp only [peerFragments] at h
    by_cases ht : test k
    · rw [if_pos ht] at h
      rcases RegionVecMap.mem_insert h with h | h
      · exact Or.inr ⟨k, Nat.lt_succ_self k, ht, h⟩
      · rcases ih h with h | ⟨i, hi, hti, he⟩
        · exact Or.inl h
        · exact Or.inr ⟨i, Nat.lt_succ_of_lt hi, hti, he⟩
    · rw [if_neg ht] at h
      rcases ih h with h | ⟨i, hi, hti, he⟩
      · exact Or.inl h
      · exact Or.inr ⟨i, Nat.lt_succ_of_lt hi, hti, he⟩

theorem lookup_peerFragments (test : Nat → Prop) [DecidablePred test]
    (stack : Nat → List (Region D)) (m : RegionVecMap D) (k i : Nat) :
    (peerFragments test stack m k).lookup (i : Int) =
      if i < k ∧ test i then some (stack i) else m.lookup (i : Int) := by
  induction k with
  | zero => simp [peerFragments]
  | succ k ih =>
    simp only [peerFragments]
    by_cases ht : test k
    · rw [if_pos ht, RegionVecMap.lookup_insert, ih]
      by_cases hik : i = k
      · subst hik
        simp [ht]
      · have hne : ¬ ((i : Int) = (k : Int)) := fun h => hik (by exact_mod_cast h)
        rw [if_neg hne]
        have hiff : (i < k + 1 ∧ test i) ↔ (i < k ∧ test i) := by
          constructor
          · rintro ⟨h1, h2⟩; exact ⟨by omega, h2⟩
          · rintro ⟨h1, h2⟩; exact ⟨by omega, h2⟩
        simp only [hiff]
    · rw [if_neg ht, ih]
      have hiff : (i < k + 1 ∧ test i) ↔ (i < k ∧ test i) := by
        constructor
        · rintro ⟨h1, h2⟩
          refine ⟨?_, h2⟩
          by_contra hlt
          have : i = k := by omega
          subst this
          exact ht h2
        · rintro ⟨h1, h2⟩; exact ⟨by omega, h2⟩
      simp only [hiff]

theorem mem_peerUnion {m : RegionVecMap D} {w : Nat} {c : Coord D} :
    c ∈ peerUnion m w ↔ ∃ e ∈ m, e.1 ≠ OUTGROUP ∧ c ∈ vecAt e.2 w := by
  induction m with
  | nil => simp [peerUnion]
  | cons e rest ih =>
    have hstep : peerUnion (e :: rest) w =
        if e.1 ≠ OUTGROUP then vecAt e.2 w ∪ peerUnion rest w else peerUnion rest w := rfl
    rw [hstep]
    by_cases he : e.1 ≠ OUTGROUP
    · rw [if_pos he, Finset.mem_union, ih]
      constructor
      · rintro (h | ⟨e2, h2, h3⟩)
        · exact ⟨e, List.mem_cons_self _ _, he, h⟩
        · exact ⟨e2, List.mem_cons_of_mem _ h2, h3⟩
      · rintro ⟨e2, h2, h3⟩
        rcases List.mem_cons.1 h2 with h | h
        · left; rw [← h]; exact h3.2
        · right; exact ⟨e2, h, h3⟩
    · rw [if_neg he, ih]
      constructor
      · rintro ⟨e2, h2, h3⟩
        exact ⟨e2, List.mem_cons_of_mem _ h2, h3⟩
      · rintro ⟨e2, h2, h3⟩
        rcases List.mem_cons.1 h2 with h | h
        · rw [h] at h3; exact absurd h3.1 he
        · exact ⟨e2, h, h3⟩

theorem mem_subtractPeerFragments {m : RegionVecMap D} {s : Region D} {c : Coord D} :
    c ∈ PartitionManager.subtractPeerFragments m s ↔
      c ∈ s ∧ ∀ e ∈ m, e.1 ≠ OUTGROUP → c ∉ vecBack e.2 := by
  unfold PartitionManager.subtractPeerFragments
  induction m generalizing s with
  | nil => simp
  | cons e rest ih =>
    rw [List.foldl_cons, ih]
    by_cases he : e.1 ≠ OUTGROUP
    · rw [if_pos he, Finset.mem_sdiff]
      constructor
      · rintro ⟨⟨h1, h2⟩, h3⟩
        refine ⟨h1, ?_⟩
        intro e2 h4 h5
        rcases List.mem_cons.1 h4 with h | h
        · rw [h]; exact h2
        · exact h3 e2 h h5
      · rintro ⟨h1, h2⟩
        exact ⟨⟨h1, h2 e (List.mem_cons_self _ _) he⟩,
          fun e2 h4 h5 => h2 e2 (List.mem_cons_of_mem _ h4) h5⟩
    · rw [if_neg he]
      constructor
      · rintro ⟨h1, h3⟩
        refine ⟨h1, ?_⟩
        intro e2 h4 h5
        rcases List.mem_cons.1 h4 with h | h
        · rw [h] at h5; exact absurd h5 he
        · exact h3 e2 h h5
      · rintro ⟨h1, h2⟩
        exact ⟨h1, fun e2 h4 h5 => h2 e2 (List.mem_cons_of_mem _ h4) h5⟩

theorem RegionVecMap.mem_insert_of_ne {m : RegionVecMap D} {k : Int} {v : List (Region D)}
    {e : Int × List (Region D)} (h : e ∈ m) (hk : e.1 ≠ k) : e ∈ m.insert k v := by
  induction m with
  | nil => simp at h
  | cons e2 rest ih =>
    simp only [RegionVecMap.insert]
    by_cases h1 : k < e2.1
    · rw [if_pos h1]; exact List.mem_cons_of_mem _ h
    · rw [if_neg h1]
      by_cases h3 : k = e2.1
      · rw [if_pos h3]
        rcases List.mem_cons.1 h with h | h
        · rw [h] at hk; exact absurd h3.symm hk
        · exact List.mem_cons_of_mem _ h
      · rw [if_neg h3]
        rcases List.mem_cons.1 h with h | h
        · rw [h]; exact List.mem_cons_self _ _
        · exact List.mem_cons_of_mem _ (ih h)

theorem vecBack_replicate (n : Nat) (x : Region D) :
    vecBack (List.replicate (n + 1) x) = x := by
  unfold vecBack vecAt
  simp [List.getD_eq_getElem?_getD, List.getElem?_replicate]

end PeerFragmentLemmas

namespace PartitionManager

variable {D : Nat}

/-- Closed form of the state after `resetRegions` followed by `resetGhostZones`. -/
theorem afterReset_eq (T : Topology D) (pm0 : PartitionManager D) (sa : CoordBox D)
    (part : Partition D) (me G : Nat) (boxes : List (CoordBox D)) :
    ∃ R, StacksOK T part sa.dimensions G R ∧
      resetGhostZones T (resetRegions T pm0 sa part me G) boxes =
        { partition := part
          simulationArea := sa
          outerRim := expandSteps sa.dimensions T G (part.getRegion me) \ part.getRegion me
          volatileKernel := innerSetOf sa.dimensions T (part.getRegion me) G ∩
            rimOf sa.dimensions T G (part.getRegion me) 0
          innerRim := innerSetOf sa.dimensions T (part.getRegion me) G ∩
            rimOf sa.dimensions T G (part.getRegion me) 0
          regions := R
          outerGhostZoneFragments := (outerPeers T part sa G me boxes).insert OUTGROUP
            (List.replicate (G + 1) (subtractPeerFragments (outerPeers T part sa G me boxes)
              (expandSteps sa.dimensions T G (part.getRegion me) \ part.getRegion me)))
          innerGhostZoneFragments := (innerPeers T part sa G me boxes).insert OUTGROUP
            (List.replicate (G + 1) (subtractPeerFragments (innerPeers T part sa G me boxes)
              (rimOf sa.dimensions T G (part.getRegion me) G)))
          ownRims := (List.range (G + 1)).map (rimOf sa.dimensions T G (part.getRegion me))
          ownInnerSets := (List.range (G + 1)).map (innerSetOf sa.dimensions T (part.getRegion me))
          myRank := me
          ghostZoneWidth := G
          boundingBoxes := boxes } := by
  have hok : StacksOK T (resetRegions T pm0 sa part me G).partition
      (resetRegions T pm0 sa part me G).simulationArea.dimensions
      (resetRegions T pm0 sa part me G).ghostZoneWidth
      (resetRegions T pm0 sa part me G).regions := by
    rw [resetRegions_eq]
    exact stacksOK_resetRegions T sa part me G
  obtain ⟨R, ok, e⟩ := resetGhostZones_eq T (resetRegions T pm0 sa part me G) boxes hok
  rw [resetRegions_eq] at ok e
  dsimp only at ok e
  refine ⟨R, ok, ?_⟩
  rw [resetRegions_eq, e]
  have h1 : vecBack (RegionVecMap.get
      [((me : Int), regionStack sa.dimensions T G (part.getRegion me))] (me : Int)) =
      expandSteps sa.dimensions T G (part.getRegion me) := by
    simp only [RegionVecMap.get, RegionVecMap.lookup, if_true, Option.getD_some,
      vecBack_regionStack]
  have h2 : vecAt ((List.range (G + 1)).map (rimOf sa.dimensions T G (part.getRegion me))) G =
      rimOf sa.dimensions T G (part.getRegion me) G := vecAt_map_range _ (Nat.lt_succ_self G)
  simp only [ownExpandedRegion, h1, h2, outerPeers, innerPeers]

end PartitionManager

namespace PartitionManager

variable {D : Nat}

/-- After `resetRegions` and `resetGhostZones`, `getRegion(n, w)` is the partition's region
of node `n` after `w` successive one-step expansions. -/
theorem getRegion_afterReset (T : Topology D) (pm0 : PartitionManager D) (sa : CoordBox D)
    (part : Partition D) (me G : Nat) (boxes : List (CoordBox D)) (n w : Nat) (hw : w ≤ G) :
    (getRegion T (resetGhostZones T (resetRegions T pm0 sa part me G) boxes) n w).1 =
      expandSteps sa.dimensions T w (part.getRegion n) := by
  obtain ⟨R, ok, e⟩ := afterReset_eq T pm0 sa part me G boxes
  rw [e]
  obtain ⟨R2, _, e2⟩ := getRegion_eq T
    { partition := part
      simulationArea := sa
      outerRim := expandSteps sa.dimensions T G (part.getRegion me) \ part.getRegion me
      volatileKernel := innerSetOf sa.dimensions T (part.getRegion me) G ∩
        rimOf sa.dimensions T G (part.getRegion me) 0
      innerRim := innerSetOf sa.dimensions T (part.getRegion me) G ∩
        rimOf sa.dimensions T G (part.getRegion me) 0
      regions := R
      outerGhostZoneFragments := (outerPeers T part sa G me boxes).insert OUTGROUP
        (List.replicate (G + 1) (subtractPeerFragments (outerPeers T part sa G me boxes)
          (expandSteps sa.dimensions T G (part.getRegion me) \ part.getRegion me)))
      innerGhostZoneFragments := (innerPeers T part sa G me boxes).insert OUTGROUP
        (List.replicate (G + 1) (subtractPeerFragments (innerPeers T part sa G me boxes)
          (rimOf sa.dimensions T G (part.getRegion me) G)))
      ownRims := (List.range (G + 1)).map (rimOf sa.dimensions T G (part.getRegion me))
      ownInnerSets := (List.range (G + 1)).map (innerSetOf sa.dimensions T (part.getRegion me))
      myRank := me
      ghostZoneWidth := G
      boundingBoxes := boxes } n w ok hw
  rw [e2]

/-- After `resetRegions`, `getRegion(n, w)` is the partition's region of node `n` after `w`
successive one-step expansions. -/
theorem getRegion_resetRegions (T : Topology D) (pm0 : PartitionManager D) (sa : CoordBox D)
    (part : Partition D) (me G : Nat) (n w : Nat) (hw : w ≤ G) :
    (getRegion T (resetRegions T pm0 sa part me G) n w).1 =
      expandSteps sa.dimensions T w (part.getRegion n) := by
  have hok : StacksOK T (resetRegions T pm0 sa part me G).partition
      (resetRegions T pm0 sa part me G).simulationArea.dimensions
      (resetRegions T pm0 sa part me G).ghostZoneWidth
      (resetRegions T pm0 sa part me G).regions := by
    rw [resetRegions_eq]
    exact stacksOK_resetRegions T sa part me G
  obtain ⟨R2, _, e2⟩ := getRegion_eq T (resetRegions T pm0 sa part me G) n w hok
    (by rw [resetRegions_eq]; exact hw)
  rw [e2, resetRegions_eq]

/-- A recorded entry of the outer peer map is the closed-form stack of a tested rank. -/
theorem lookup_outerPeers {T : Topology D} {part : Partition D} {sa : CoordBox D} {G me : Nat}
    {boxes : List (CoordBox D)} {p : Int} {st : List (Region D)}
    (h : (outerPeers T part sa G me boxes).lookup p = some st) :
    ∃ i : Nat, p = (i : Int) ∧ i < boxes.length ∧
      sharesGhostZone T part sa.dimensions G me boxes
        (boundingBox (expandSteps sa.dimensions T G (part.getRegion me))) i ∧
      st = outerStack T part sa.dimensions G me i := by
  rcases mem_peerFragments (RegionVecMap.mem_of_lookup h) with h | ⟨i, hi, hti, he⟩
  · simp at h
  · exact ⟨i, (Prod.mk.inj he).1, hi, hti, (Prod.mk.inj he).2⟩

/-- A recorded entry of the inner peer map is the closed-form stack of a tested rank. -/
theorem lookup_innerPeers {T : Topology D} {part : Partition D} {sa : CoordBox D} {G me : Nat}
    {boxes : List (CoordBox D)} {p : Int} {st : List (Region D)}
    (h : (innerPeers T part sa G me boxes).lookup p = some st) :
    ∃ i : Nat, p = (i : Int) ∧ i < boxes.length ∧
      sharesGhostZone T part sa.dimensions G me boxes
        (boundingBox (expandSteps sa.dimensions T G (part.getRegion me))) i ∧
      st = innerStack T part sa.dimensions G me i := by
  rcases mem_peerFragments (RegionVecMap.mem_of_lookup h) with h | ⟨i, hi, hti, he⟩
  · simp at h
  · exact ⟨i, (Prod.mk.inj he).1, hi, hti, (Prod.mk.inj he).2⟩

/-- C1: after `resetRegions` and `resetGhostZones`, for every key `p` other than `OUTGROUP`
that is recorded in a fragment map and every width `w ≤ G`, the outer fragment of `p` at `w`
is `getRegion(me, w) ∩ getRegion(p, 0)` and the inner fragment is
`getRegion(me, 0) ∩ getRegion(p, w)`, where `getRegion(n, w)` is the partition's region of
`n` after `w` successive one-step expansions. -/
theorem ghostFragments_eq_intersections (T : Topology D) (pm0 pm : PartitionManager D)
    (sa : CoordBox D) (part : Partition D) (me G : Nat) (boxes : List (CoordBox D))
    (p : Int) (w : Nat)
    (hpm : pm = resetGhostZones T (resetRegions T pm0 sa part me G) boxes)
    (hp : p ≠ OUTGROUP) (hw : w ≤ G) :
    (∀ st, pm.getOuterGhostZoneFragments.lookup p = some st →
      vecAt st w = (getRegion T pm me w).1 ∩ (getRegion T pm p.toNat 0).1) ∧
    (∀ st, pm.getInnerGhostZoneFragments.lookup p = some st →
      vecAt st w = (getRegion T pm me 0).1 ∩ (getRegion T pm p.toNat w).1) ∧
    (∀ n, (getRegion T pm n w).1 = expandSteps sa.dimensions T w (part.getRegion n)) := by
  subst hpm
  obtain ⟨R, ok, e⟩ := afterReset_eq T pm0 sa part me G boxes
  have hg := getRegion_afterReset T pm0 sa part me G boxes
  have z : ∀ n, expandSteps sa.dimensions T 0 (part.getRegion n) = part.getRegion n :=
    fun _ => rfl
  refine ⟨?_, ?_, fun n => hg n w hw⟩
  · intro st hst
    rw [hg me w hw, hg p.toNat 0 (Nat.zero_le _), z]
    rw [e] at hst
    simp only [getOuterGhostZoneFragments] at hst
    rw [RegionVecMap.lookup_insert, if_neg hp] at hst
    obtain ⟨i, hpi, _, _, hsi⟩ := lookup_outerPeers hst
    subst hpi hsi
    rw [Int.toNat_ofNat]
    exact vecAt_map_range _ (by omega)
  · intro st hst
    rw [hg me 0 (Nat.zero_le _), hg p.toNat w hw, z]
    rw [e] at hst
    simp only [getInnerGhostZoneFragments] at hst
    rw [RegionVecMap.lookup_insert, if_neg hp] at hst
    obtain ⟨i, hpi, _, _, hsi⟩ := lookup_innerPeers hst
    subst hpi hsi
    rw [Int.toNat_ofNat]
    exact vecAt_map_range _ (by omega)

/-- C2: after `resetRegions` and one call `resetGhostZones(boxes)`, rank `i` has an entry in
the outer map, and likewise in the inner map, if and only if `i < |boxes|`, `i ≠ myRank`,
`boxes[i]` intersects the bounding box of `ownExpandedRegion()`, and
`(getRegion(myRank, G) ∩ getRegion(i, 0)) ∪ (getRegion(i, G) ∩ getRegion(myRank, 0))` is not
empty. -/
theorem peer_recorded_iff (T : Topology D) (pm0 : PartitionManager D)
    (sa : CoordBox D) (part : Partition D) (me G : Nat) (boxes : List (CoordBox D)) (i : Nat) :
    ((resetGhostZones T (resetRegions T pm0 sa part me G) boxes).getOuterGhostZoneFragments.count
        (i : Int) = 1 ↔
      (i < boxes.length ∧ i ≠ me ∧
        ((boxes.getD i ⟨fun _ => 0, fun _ => 0⟩).intersects
          (boundingBox (resetRegions T pm0 sa part me G).ownExpandedRegion)) = true ∧
        ((getRegion T (resetGhostZones T (resetRegions T pm0 sa part me G) boxes) me G).1 ∩
            (getRegion T (resetGhostZones T (resetRegions T pm0 sa part me G) boxes) i 0).1) ∪
          ((getRegion T (resetGhostZones T (resetRegions T pm0 sa part me G) boxes) i G).1 ∩
            (getRegion T (resetGhostZones T (resetRegions T pm0 sa part me G) boxes) me 0).1)
          ≠ ∅)) ∧
    ((resetGhostZones T (resetRegions T pm0 sa part me G) boxes).getInnerGhostZoneFragments.count
        (i : Int) = 1 ↔
      (i < boxes.length ∧ i ≠ me ∧
        ((boxes.getD i ⟨fun _ => 0, fun _ => 0⟩).intersects
          (boundingBox (resetRegions T pm0 sa part me G).ownExpandedRegion)) = true ∧
        ((getRegion T (resetGhostZones T (resetRegions T pm0 sa part me G) boxes) me G).1 ∩
            (getRegion T (resetGhostZones T (resetRegions T pm0 sa part me G) boxes) i 0).1) ∪
          ((getRegion T (resetGhostZones T (resetRegions T pm0 sa part me G) boxes) i G).1 ∩
            (getRegion T (resetGhostZones T (resetRegions T pm0 sa part me G) boxes) me 0).1)
          ≠ ∅)) := by
  have hg := getRegion_afterReset T pm0 sa part me G boxes
  have z : ∀ n, expandSteps sa.dimensions T 0 (part.getRegion n) = part.getRegion n :=
    fun _ => rfl
  rw [hg me G (le_refl _), hg i 0 (Nat.zero_le _), hg i G (le_refl _), hg me 0 (Nat.zero_le _),
    z, z]
  have hx : (resetRegions T pm0 sa part me G).ownExpandedRegion =
      expandSteps sa.dimensions T G (part.getRegion me) := by
    rw [resetRegions_eq]
    simp only [ownExpandedRegion, RegionVecMap.get, RegionVecMap.lookup, if_true,
      Option.getD_some, vecBack_regionStack]
  rw [hx]
  obtain ⟨R, ok, e⟩ := afterReset_eq T pm0 sa part me G boxes
  rw [e]
  have hne : ¬ ((i : Int) = OUTGROUP) := by unfold OUTGROUP; omega
  have hcond : (i < boxes.length ∧
      sharesGhostZone T part sa.dimensions G me boxes
        (boundingBox (expandSteps sa.dimensions T G (part.getRegion me))) i) ↔
      (i < boxes.length ∧ i ≠ me ∧
        ((boxes.getD i ⟨fun _ => 0, fun _ => 0⟩).intersects
          (boundingBox (expandSteps sa.dimensions T G (part.getRegion me)))) = true ∧
        (expandSteps sa.dimensions T G (part.getRegion me) ∩ part.getRegion i) ∪
          (expandSteps sa.dimensions T G (part.getRegion i) ∩ part.getRegion me) ≠ ∅) := by
    have hu : ∀ A B : Region D, (A ∪ B ≠ ∅) ↔ (A ≠ ∅ ∨ B ≠ ∅) := by
      intro A B
      rw [Ne, Finset.union_eq_empty, not_and_or]
    unfold sharesGhostZone
    rw [hu]
    tauto
  simp only [getOuterGhostZoneFragments, getInnerGhostZoneFragments, RegionVecMap.count,
    RegionVecMap.lookup_insert, if_neg hne, outerPeers, innerPeers, lookup_peerFragments,
    ← hcond]
  constructor
  · by_cases hc : i < boxes.length ∧ sharesGhostZone T part sa.dimensions G me boxes
        (boundingBox (expandSteps sa.dimensions T G (part.getRegion me))) i
    · simp [hc]
    · simp [hc, RegionVecMap.lookup]
  · by_cases hc : i < boxes.length ∧ sharesGhostZone T part sa.dimensions G me boxes
        (boundingBox (expandSteps sa.dimensions T G (part.getRegion me))) i
    · simp [hc]
    · simp [hc, RegionVecMap.lookup]

end PartitionManager

section StepLemmas

variable {D : Nat}

theorem expandSteps_zero (dims : Coord D) (T : Topology D) (r : Region D) :
    expandSteps dims T 0 r = r := rfl

theorem expandSteps_succ (dims : Coord D) (T : Topology D) (w : Nat) (r : Region D) :
    expandSteps dims T (w + 1) r = expandWithTopology 1 dims T (expandSteps dims T w r) := by
  unfold expandSteps
  rw [Function.iterate_succ_apply']

theorem expandSteps_succ_inner (dims : Coord D) (T : Topology D) (w : Nat) (r : Region D) :
    expandSteps dims T (w + 1) r = expandSteps dims T w (expandWithTopology 1 dims T r) := by
  unfold expandSteps
  rw [Function.iterate_succ_apply]

theorem inBounds_of_mem_expandSteps {dims : Coord D} {T : Topology D} {w : Nat} {r : Region D}
    {c : Coord D} (hw : 1 ≤ w) (h : c ∈ expandSteps dims T w r) : inBounds dims c := by
  obtain ⟨v, rfl⟩ : ∃ v, w = v + 1 := ⟨w - 1, by omega⟩
  rw [expandSteps_succ] at h
  exact inBounds_of_mem_expand h

theorem expandSteps_mono {dims : Coord D} {T : Topology D} (w : Nat) {r s : Region D}
    (h : r ⊆ s) : expandSteps dims T w r ⊆ expandSteps dims T w s := by
  induction w with
  | zero => exact h
  | succ w ih =>
    rw [expandSteps_succ, expandSteps_succ]
    exact expand_mono ih

theorem expandSteps_subset_succ {dims : Coord D} {T : Topology D} {w : Nat} (r : Region D)
    (hw : 1 ≤ w) : expandSteps dims T w r ⊆ expandSteps dims T (w + 1) r := by
  intro c hc
  rw [expandSteps_succ]
  exact mem_expand_of_mem hc (inBounds_of_mem_expandSteps hw hc)

theorem expandSteps_subset_of_le {dims : Coord D} {T : Topology D} {w G : Nat} (r : Region D)
    (hw : 1 ≤ w) (hG : w ≤ G) : expandSteps dims T w r ⊆ expandSteps dims T G r := by
  induction G with
  | zero => omega
  | succ G ih =>
    by_cases h : w = G + 1
    · rw [h]
    · exact fun c hc => expandSteps_subset_succ r (by omega) (ih (by omega) hc)

/-- A region inside the box is contained in each of its iterated expansions. -/
theorem subset_expandSteps {dims : Coord D} {T : Topology D} (w : Nat) {r : Region D}
    (hbox : ∀ c ∈ r, inBounds dims c) : r ⊆ expandSteps dims T w r := by
  induction w with
  | zero => exact fun c hc => hc
  | succ w ih =>
    intro c hc
    rw [expandSteps_succ]
    exact mem_expand_of_mem (ih hc) (hbox c hc)

/-- Iterated one-step expansions stay inside the single expansion of the same width. -/
theorem expandSteps_subset_expand {dims : Coord D} {T : Topology D} {j : Nat} (r : Region D)
    (hj : 1 ≤ j) : expandSteps dims T j r ⊆ expandWithTopology j dims T r := by
  induction j with
  | zero => omega
  | succ j ih =>
    by_cases h : j = 0
    · subst h
      exact fun c hc => hc
    · rw [expandSteps_succ]
      exact fun c hc => expand_expand_subset (expand_mono (ih (by omega)) hc)

/-- A cell of the region that an outside region reaches in `w` one-step expansions lies
within `w` steps of the region's surface. -/
theorem inter_expandSteps_subset {dims : Coord D} {T : Topology D} {own P : Region D}
    (hdisj : Disjoint own P) (hbox : ∀ c ∈ P, inBounds dims c) (w : Nat) :
    own ∩ expandSteps dims T w P ⊆ expandWithTopology w dims T (surfaceOf dims T own) := by
  induction w with
  | zero =>
    intro c hc
    rw [expandSteps_zero, Finset.mem_inter] at hc
    exact absurd hc.2 (Finset.disjoint_left.1 hdisj hc.1)
  | succ w ih =>
    intro c hc
    rw [Finset.mem_inter, expandSteps_succ] at hc
    obtain ⟨hown, hexp⟩ := hc
    obtain ⟨hb, x, hx, o, ho, hxo⟩ := mem_expandWithTopology.1 hexp
    by_cases hxown : x ∈ own
    · have hxs := ih (Finset.mem_inter.2 ⟨hxown, hx⟩)
      apply expand_expand_subset
      exact mem_expandWithTopology.2 ⟨hb, x, hxs, o, ho, hxo⟩
    · have hxb : inBounds dims x := by
        by_cases hw0 : w = 0
        · subst hw0
          exact hbox x hx
        · exact inBounds_of_mem_expandSteps (by omega) hx
      have hxe : x ∈ expandWithTopology 1 dims T own :=
        mem_expand_of_step_to hxb ho (by rw [hxo]; exact hown)
      have hxs : x ∈ surfaceOf dims T own := Finset.mem_sdiff.2 ⟨hxe, hxown⟩
      apply expand_mono_width (Nat.succ_le_succ (Nat.zero_le w))
      exact mem_expandWithTopology.2 ⟨hb, x, hxs, o, ho, hxo⟩

theorem rimOf_self (dims : Coord D) (T : Topology D) (G : Nat) (own : Region D) :
    rimOf dims T G own G = own ∩ expandWithTopology G dims T (surfaceOf dims T own) := by
  unfold rimOf kernelOf
  rw [Nat.sub_self, expandSteps_zero]
  ext c
  simp only [Finset.mem_sdiff, Finset.mem_inter]
  tauto

theorem mem_innerSetOf {dims : Coord D} {T : Topology D} {own : Region D} {d : Nat}
    {c : Coord D} :
    c ∈ innerSetOf dims T own d ↔
      c ∈ own ∧ ∀ j, 1 ≤ j → j ≤ d → c ∉ expandSteps dims T j (surfaceOf dims T own) := by
  induction d with
  | zero =>
    simp only [innerSetOf]
    exact ⟨fun h => ⟨h, fun j h1 h2 => by omega⟩, fun h => h.1⟩
  | succ d ih =>
    simp only [innerSetOf, Finset.mem_sdiff, ih]
    constructor
    · rintro ⟨⟨h1, h2⟩, h3⟩
      refine ⟨h1, fun j hj1 hj2 => ?_⟩
      by_cases hj : j = d + 1
      · rw [hj]; exact h3
      · exact h2 j hj1 (by omega)
    · rintro ⟨h1, h2⟩
      exact ⟨⟨h1, fun j hj1 hj2 => h2 j hj1 (by omega)⟩, h2 (d + 1) (by omega) (le_refl _)⟩

end StepLemmas

namespace PartitionManager

variable {D : Nat}

theorem outer_fragment_subset {dims : Coord D} {T : Topology D} {own P : Region D} {w G : Nat}
    (hdisj : Disjoint own P) (hw : w ≤ G) :
    expandSteps dims T w own ∩ P ⊆ expandSteps dims T G own \ own := by
  intro c hc
  rw [Finset.mem_inter] at hc
  have hnot : c ∉ own := fun h => Finset.disjoint_left.1 hdisj h hc.2
  refine Finset.mem_sdiff.2 ⟨?_, hnot⟩
  by_cases h0 : w = 0
  · subst h0
    exact absurd hc.1 hnot
  · exact expandSteps_subset_of_le own (by omega) hw hc.1

theorem inner_fragment_subset {dims : Coord D} {T : Topology D} {own P : Region D} {w G : Nat}
    (hdisj : Disjoint own P) (hbox : ∀ c ∈ P, inBounds dims c) (hw : w ≤ G) :
    own ∩ expandSteps dims T w P ⊆ rimOf dims T G own G := by
  intro c hc
  rw [rimOf_self, Finset.mem_inter]
  exact ⟨(Finset.mem_inter.1 hc).1,
    expand_mono_width hw (inter_expandSteps_subset hdisj hbox w hc)⟩

theorem mem_outerPeers {T : Topology D} {part : Partition D} {sa : CoordBox D} {G me : Nat}
    {boxes : List (CoordBox D)} {e : Int × List (Region D)}
    (h : e ∈ outerPeers T part sa G me boxes) :
    ∃ i : Nat, i ≠ me ∧ e = ((i : Int), outerStack T part sa.dimensions G me i) := by
  rcases mem_peerFragments h with h | ⟨i, _, hti, he⟩
  · simp at h
  · exact ⟨i, hti.1.1, he⟩

theorem mem_innerPeers {T : Topology D} {part : Partition D} {sa : CoordBox D} {G me : Nat}
    {boxes : List (CoordBox D)} {e : Int × List (Region D)}
    (h : e ∈ innerPeers T part sa G me boxes) :
    ∃ i : Nat, i ≠ me ∧ e = ((i : Int), innerStack T part sa.dimensions G me i) := by
  rcases mem_peerFragments h with h | ⟨i, _, hti, he⟩
  · simp at h
  · exact ⟨i, hti.1.1, he⟩

/-- The peers' fragments of width `G` together with the `OUTGROUP` fragment make up the
region the `OUTGROUP` fragment was cut from, when every peer fragment lies in it. -/
theorem peerUnion_union_outgroup {O : RegionVecMap D} {G : Nat} {s : Region D}
    (hlen : ∀ e ∈ O, e.1 ≠ OUTGROUP → vecBack e.2 = vecAt e.2 G)
    (hsub : ∀ e ∈ O, e.1 ≠ OUTGROUP → vecAt e.2 G ⊆ s) :
    peerUnion (O.insert OUTGROUP (List.replicate (G + 1) (subtractPeerFragments O s))) G ∪
      vecBack ((O.insert OUTGROUP
        (List.replicate (G + 1) (subtractPeerFragments O s))).get OUTGROUP) = s := by
  rw [RegionVecMap.get_insert_self, vecBack_replicate]
  ext c
  rw [Finset.mem_union, mem_peerUnion, mem_subtractPeerFragments]
  constructor
  · rintro (⟨e, he, hne, hc⟩ | ⟨hc, _⟩)
    · rcases RegionVecMap.mem_insert he with h | h
      · rw [h] at hne; exact absurd rfl hne
      · exact hsub e h hne hc
    · exact hc
  · intro hc
    by_cases hex : ∃ e ∈ O, e.1 ≠ OUTGROUP ∧ c ∈ vecAt e.2 G
    · obtain ⟨e, he, hne, hce⟩ := hex
      exact Or.inl ⟨e, RegionVecMap.mem_insert_of_ne he hne, hne, hce⟩
    · refine Or.inr ⟨hc, fun e he hne hcb => hex ⟨e, he, hne, ?_⟩⟩
      rw [← hlen e he hne]
      exact hcb

/-- C3: for a partition whose node regions are pairwise disjoint subsets of the simulation
box (the box of extents `simulationArea.dimensions`), after `resetRegions` and
`resetGhostZones` the union over the recorded peers of their outer fragment of width `G`
together with the outer `OUTGROUP` fragment is `getOuterRim()`, and the union of the inner
fragments of width `G` together with the inner `OUTGROUP` fragment is `rim(G)`. -/
theorem fragments_cover_rims (T : Topology D) (pm0 pm : PartitionManager D)
    (sa : CoordBox D) (part : Partition D) (me G : Nat) (boxes : List (CoordBox D))
    (hpm : pm = resetGhostZones T (resetRegions T pm0 sa part me G) boxes)
    (hdisj : ∀ n m, n ≠ m → Disjoint (part.getRegion n) (part.getRegion m))
    (hbox : ∀ n, ∀ c ∈ part.getRegion n, inBounds sa.dimensions c) :
    peerUnion pm.getOuterGhostZoneFragments G ∪ pm.getOuterOutgroupGhostZoneFragment =
        pm.getOuterRim ∧
      peerUnion pm.getInnerGhostZoneFragments G ∪ pm.getInnerOutgroupGhostZoneFragment =
        pm.rim G := by
  subst hpm
  obtain ⟨R, ok, e⟩ := afterReset_eq T pm0 sa part me G boxes
  rw [e]
  simp only [getOuterGhostZoneFragments, getOuterOutgroupGhostZoneFragment, getOuterRim,
    getInnerGhostZoneFragments, getInnerOutgroupGhostZoneFragment, rim,
    vecAt_map_range _ (Nat.lt_succ_self G)]
  constructor
  · apply peerUnion_union_outgroup
    · intro e2 he2 _
      obtain ⟨i, _, rfl⟩ := mem_outerPeers he2
      show vecBack (outerStack T part sa.dimensions G me i) =
        vecAt (outerStack T part sa.dimensions G me i) G
      unfold outerStack
      rw [vecBack_map_range, vecAt_map_range _ (Nat.lt_succ_self G)]
    · intro e2 he2 _
      obtain ⟨i, hi, rfl⟩ := mem_outerPeers he2
      have : vecAt (outerStack T part sa.dimensions G me i) G =
          expandSteps sa.dimensions T G (part.getRegion me) ∩ part.getRegion i :=
        vecAt_map_range _ (Nat.lt_succ_self G)
      rw [this]
      exact outer_fragment_subset (hdisj me i (fun h => hi h.symm)) (le_refl G)
  · apply peerUnion_union_outgroup
    · intro e2 he2 _
      obtain ⟨i, _, rfl⟩ := mem_innerPeers he2
      show vecBack (innerStack T part sa.dimensions G me i) =
        vecAt (innerStack T part sa.dimensions G me i) G
      unfold innerStack
      rw [vecBack_map_range, vecAt_map_range _ (Nat.lt_succ_self G)]
    · intro e2 he2 _
      obtain ⟨i, hi, rfl⟩ := mem_innerPeers he2
      have : vecAt (innerStack T part sa.dimensions G me i) G =
          part.getRegion me ∩ expandSteps sa.dimensions T G (part.getRegion i) :=
        vecAt_map_range _ (Nat.lt_succ_self G)
      rw [this]
      exact inner_fragment_subset (hdisj me i (fun h => hi h.symm)) (hbox i) (le_refl G)

/-- C4: for a partition whose node regions are pairwise disjoint, every recorded peer `p`
and every width `w ≤ G`, the outer fragment of `p` at `w` is a subset of `getOuterRim()`,
which is `ownExpandedRegion()` minus `ownRegion()`. -/
theorem outerFragment_subset_outerRim (T : Topology D) (pm0 pm : PartitionManager D)
    (sa : CoordBox D) (part : Partition D) (me G : Nat) (boxes : List (CoordBox D))
    (p : Int) (w : Nat) (st : List (Region D))
    (hpm : pm = resetGhostZones T (resetRegions T pm0 sa part me G) boxes)
    (hdisj : ∀ n m, n ≠ m → Disjoint (part.getRegion n) (part.getRegion m))
    (hp : p ≠ OUTGROUP) (hw : w ≤ G)
    (hst : pm.getOuterGhostZoneFragments.lookup p = some st) :
    vecAt st w ⊆ pm.getOuterRim ∧
      pm.getOuterRim = (resetRegions T pm0 sa part me G).ownExpandedRegion \
        (resetRegions T pm0 sa part me G).ownRegion 0 := by
  subst hpm
  have hx : (resetRegions T pm0 sa part me G).ownExpandedRegion =
      expandSteps sa.dimensions T G (part.getRegion me) := by
    rw [resetRegions_eq]
    simp only [ownExpandedRegion, RegionVecMap.get, RegionVecMap.lookup, if_true,
      Option.getD_some, vecBack_regionStack]
  have hy : (resetRegions T pm0 sa part me G).ownRegion 0 = part.getRegion me := by
    rw [resetRegions_eq]
    simp only [ownRegion, RegionVecMap.get, RegionVecMap.lookup, if_true,
      Option.getD_some, vecAt_regionStack _ _ _ (Nat.zero_le G), expandSteps_zero]
  rw [hx, hy]
  obtain ⟨R, ok, e⟩ := afterReset_eq T pm0 sa part me G boxes
  rw [e] at hst ⊢
  simp only [getOuterGhostZoneFragments, getOuterRim] at hst ⊢
  rw [RegionVecMap.lookup_insert, if_neg hp] at hst
  obtain ⟨i, _, _, hti, rfl⟩ := lookup_outerPeers hst
  have hne : i ≠ me := hti.1.1
  refine ⟨?_, trivial⟩
  have : vecAt (outerStack T part sa.dimensions G me i) w =
      expandSteps sa.dimensions T w (part.getRegion me) ∩ part.getRegion i :=
    vecAt_map_range _ (by omega)
  rw [this]
  exact outer_fragment_subset (hdisj me i (fun h => hne h.symm)) hw

end PartitionManager

section FirstStep

variable {D : Nat}

theorem manhattanNorm_update_add_one (o : Coord D) (a : Fin D) (v : Int)
    (hv : v.natAbs + 1 = (o a).natAbs) :
    manhattanNorm (Function.update o a v) + 1 = manhattanNorm o := by
  unfold manhattanNorm
  rw [← Finset.add_sum_erase Finset.univ (fun b => (Function.update o a v b).natAbs)
      (Finset.mem_univ a),
    ← Finset.add_sum_erase Finset.univ (fun b => (o b).natAbs) (Finset.mem_univ a)]
  have hrest : ∑ b ∈ Finset.univ.erase a, (Function.update o a v b).natAbs =
      ∑ b ∈ Finset.univ.erase a, (o b).natAbs := by
    apply Finset.sum_congr rfl
    intro b hb
    rw [Function.update_noteq (Finset.ne_of_mem_erase hb)]
  simp only [Function.update_same]
  rw [hrest]
  omega

theorem manhattanNorm_single (a : Fin D) (s : Int) :
    manhattanNorm (Function.update (0 : Coord D) a s) = s.natAbs := by
  unfold manhattanNorm
  rw [← Finset.add_sum_erase Finset.univ
    (fun b => (Function.update (0 : Coord D) a s b).natAbs) (Finset.mem_univ a)]
  have hrest : ∑ b ∈ Finset.univ.erase a, (Function.update (0 : Coord D) a s b).natAbs = 0 := by
    apply Finset.sum_eq_zero
    intro b hb
    rw [Function.update_noteq (Finset.ne_of_mem_erase hb)]
    rfl
  simp only [Function.update_same]
  rw [hrest, Nat.add_zero]

theorem exists_ne_zero_of_manhattanNorm_pos {o : Coord D} (h : 0 < manhattanNorm o) :
    ∃ a, o a ≠ 0 := by
  by_contra hcon
  have hall : ∀ a, o a = 0 := fun a => by
    by_contra ha
    exact hcon ⟨a, ha⟩
  have : manhattanNorm o = 0 := by
    unfold manhattanNorm
    apply Finset.sum_eq_zero
    intro a _
    rw [hall a]
    rfl
  omega

/-- Inside the box a walk of at most `k + 1` steps that ends in the box starts with one step
that stays in the box and goes on with at most `k` steps. -/
theorem exists_first_step {dims : Coord D} (T : Topology D) {x o : Coord D} {k : Nat}
    (hx : inBounds dims x) (ho : manhattanNorm o ≤ k + 1)
    (hy : inBounds dims (T.normalize dims (x + o))) :
    ∃ o1 o2, manhattanNorm o1 ≤ 1 ∧ manhattanNorm o2 ≤ k ∧
      inBounds dims (T.normalize dims (x + o1)) ∧
      T.normalize dims (T.normalize dims (x + o1) + o2) = T.normalize dims (x + o) := by
  by_cases hk : manhattanNorm o ≤ k
  · refine ⟨0, o, ?_, hk, ?_, ?_⟩
    · rw [manhattanNorm_zero]; exact Nat.zero_le _
    · rw [add_zero, normalize_of_inBounds T hx]; exact hx
    · rw [normalize_normalize_add, add_zero]
  · obtain ⟨a, ha⟩ := exists_ne_zero_of_manhattanNorm_pos (o := o) (by omega)
    have hs : ∃ s : Int, s.natAbs = 1 ∧ (o a - s).natAbs + 1 = (o a).natAbs ∧
        ((0 < o a ∧ s = 1) ∨ (o a < 0 ∧ s = -1)) := by
      rcases lt_or_gt_of_ne ha with h | h
      · exact ⟨-1, by decide, by omega, Or.inr ⟨h, rfl⟩⟩
      · exact ⟨1, by decide, by omega, Or.inl ⟨h, rfl⟩⟩
    obtain ⟨s, hs1, hs2, hs3⟩ := hs
    have hsum : Function.update (0 : Coord D) a s + Function.update o a (o a - s) = o := by
      funext b
      by_cases hb : b = a
      · subst hb
        simp
      · simp [Function.update_noteq hb]
    refine ⟨Function.update 0 a s, Function.update o a (o a - s), ?_, ?_, ?_, ?_⟩
    · rw [manhattanNorm_single, hs1]
    · have := manhattanNorm_update_add_one o a (o a - s) hs2
      omega
    · intro b
      have hyb := hy b
      have hxb := hx b
      unfold Topology.normalize at hyb ⊢
      by_cases hb : b = a
      · subst hb
        simp only [Pi.add_apply, Function.update_same] at hyb ⊢
        by_cases hwrap : T.wrapsAxis b = true
        · rw [if_pos hwrap]
          have hpos : 0 < dims b := lt_of_le_of_lt hxb.1 hxb.2
          exact ⟨Int.emod_nonneg _ (ne_of_gt hpos), Int.emod_lt_of_pos _ hpos⟩
        · rw [if_neg hwrap] at hyb ⊢
          rcases hs3 with ⟨h1, h2⟩ | ⟨h1, h2⟩
          · subst h2; constructor <;> omega
          · subst h2; constructor <;> omega
      · simp only [Pi.add_apply, Function.update_noteq hb, Pi.zero_apply, add_zero]
        by_cases hwrap : T.wrapsAxis b = true
        · rw [if_pos hwrap, Int.emod_eq_of_lt hxb.1 hxb.2]
          exact hxb
        · rw [if_neg hwrap]
          exact hxb
    · rw [normalize_normalize_add, add_assoc, hsum]

end FirstStep

namespace PartitionManager

variable {D : Nat}

theorem ownRegion_resetRegions (T : Topology D) (pm0 : PartitionManager D) (sa : CoordBox D)
    (part : Partition D) (me G : Nat) {w : Nat} (hw : w ≤ G) :
    (resetRegions T pm0 sa part me G).ownRegion w =
      expandSteps sa.dimensions T w (part.getRegion me) := by
  rw [resetRegions_eq]
  simp only [ownRegion, RegionVecMap.get, RegionVecMap.lookup, if_true, Option.getD_some,
    vecAt_regionStack _ _ _ hw]

theorem rim_resetRegions (T : Topology D) (pm0 : PartitionManager D) (sa : CoordBox D)
    (part : Partition D) (me G : Nat) {d : Nat} (hd : d ≤ G) :
    (resetRegions T pm0 sa part me G).rim d = rimOf sa.dimensions T G (part.getRegion me) d := by
  rw [resetRegions_eq]
  exact vecAt_map_range _ (by omega)

theorem innerSet_resetRegions (T : Topology D) (pm0 : PartitionManager D) (sa : CoordBox D)
    (part : Partition D) (me G : Nat) {d : Nat} (hd : d ≤ G) :
    (resetRegions T pm0 sa part me G).innerSet d =
      innerSetOf sa.dimensions T (part.getRegion me) d := by
  rw [resetRegions_eq]
  exact vecAt_map_range _ (by omega)

theorem eq_zero_of_manhattanNorm_le_zero {o : Coord D} (h : manhattanNorm o ≤ 0) : o = 0 := by
  funext a
  have := natAbs_le_manhattanNorm o a
  have h0 : (o a).natAbs = 0 := by omega
  exact Int.natAbs_eq_zero.1 h0

/-- From a cell of the region that no iterated expansion of the surface up to width `d`
reaches, every walk of at most `d` steps that ends in the box ends in the region. -/
theorem walk_stays_owned {dims : Coord D} (T : Topology D) (own : Region D) :
    ∀ (d : Nat) (c o : Coord D), c ∈ own → inBounds dims c →
      (∀ j, 1 ≤ j → j ≤ d → c ∉ expandSteps dims T j (surfaceOf dims T own)) →
      manhattanNorm o ≤ d → inBounds dims (T.normalize dims (c + o)) →
      T.normalize dims (c + o) ∈ own := by
  intro d
  induction d with
  | zero =>
    intro c o hc hb _ ho _
    rw [eq_zero_of_manhattanNorm_le_zero ho, add_zero, normalize_of_inBounds T hb]
    exact hc
  | succ d ih =>
    intro c o hc hb hfree ho hy
    obtain ⟨o1, o2, h1, h2, hz, hzy⟩ := exists_first_step T hb ho hy
    have hback : ∀ s : Region D, T.normalize dims (c + o1) ∈ s →
        c ∈ expandWithTopology 1 dims T s := fun s hs => mem_expand_of_step_to hb h1 hs
    have hzown : T.normalize dims (c + o1) ∈ own := by
      by_contra hnot
      have hze : T.normalize dims (c + o1) ∈ expandWithTopology 1 dims T own :=
        mem_expandWithTopology.2 ⟨hz, c, hc, o1, h1, rfl⟩
      have hzs : T.normalize dims (c + o1) ∈ surfaceOf dims T own :=
        Finset.mem_sdiff.2 ⟨hze, hnot⟩
      exact hfree 1 (le_refl 1) (by omega) (hback _ hzs)
    have hzfree : ∀ j, 1 ≤ j → j ≤ d →
        T.normalize dims (c + o1) ∉ expandSteps dims T j (surfaceOf dims T own) := by
      intro j hj1 hj2 hmem
      apply hfree (j + 1) (by omega) (by omega)
      rw [expandSteps_succ]
      exact hback _ hmem
    rw [← hzy]
    apply ih _ o2 hzown hz hzfree h2
    rw [hzy]
    exact hy

/-- C5 (amended): for a partition whose node regions are pairwise disjoint, every recorded
peer `p` whose region lies in the simulation box and every width `w ≤ G`, the inner fragment
of `p` at `w`, which is `ownRegion(0)` intersected with the peer's region expanded `w`
times, is a subset of `rim(G)`, which is `ownRegion(0)` minus the kernel. -/
theorem innerFragment_subset_rim (T : Topology D) (pm0 pm : PartitionManager D)
    (sa : CoordBox D) (part : Partition D) (me G : Nat) (boxes : List (CoordBox D))
    (p : Int) (w : Nat) (st : List (Region D))
    (hpm : pm = resetGhostZones T (resetRegions T pm0 sa part me G) boxes)
    (hdisj : ∀ n m, n ≠ m → Disjoint (part.getRegion n) (part.getRegion m))
    (hbox : ∀ c ∈ part.getRegion p.toNat, inBounds sa.dimensions c)
    (hp : p ≠ OUTGROUP) (hw : w ≤ G)
    (hst : pm.getInnerGhostZoneFragments.lookup p = some st) :
    vecAt st w ⊆ pm.rim G ∧
      vecAt st w = part.getRegion me ∩ expandSteps sa.dimensions T w (part.getRegion p.toNat) ∧
      pm.rim G = part.getRegion me \ (part.getRegion me \
        expandWithTopology G sa.dimensions T
          (expandWithTopology 1 sa.dimensions T (part.getRegion me) \ part.getRegion me)) := by
  subst hpm
  obtain ⟨R, ok, e⟩ := afterReset_eq T pm0 sa part me G boxes
  rw [e] at hst ⊢
  simp only [getInnerGhostZoneFragments, rim, vecAt_map_range _ (Nat.lt_succ_self G)] at hst ⊢
  rw [RegionVecMap.lookup_insert, if_neg hp] at hst
  obtain ⟨i, hpi, _, hti, rfl⟩ := lookup_innerPeers hst
  subst hpi
  rw [Int.toNat_ofNat] at hbox ⊢
  have hne : i ≠ me := hti.1.1
  have hv : vecAt (innerStack T part sa.dimensions G me i) w =
      part.getRegion me ∩ expandSteps sa.dimensions T w (part.getRegion i) :=
    vecAt_map_range _ (by omega)
  rw [hv]
  refine ⟨inner_fragment_subset (hdisj me i (fun h => hne h.symm)) hbox hw, rfl, ?_⟩
  unfold rimOf kernelOf surfaceOf
  rw [Nat.sub_self, expandSteps_zero]

/-- C6 (amended): after `resetRegions` with ghost zone width `G` on an own region that lies
in the simulation box, for every `d ≤ G` the expansion of `innerSet(d)` by `d` steps, as one
expansion of width `d` and as `d` one-step expansions, is contained in `ownRegion(0)`. -/
theorem innerSet_expansion_owned (T : Topology D) (pm0 : PartitionManager D)
    (sa : CoordBox D) (part : Partition D) (me G d : Nat)
    (hbox : ∀ c ∈ part.getRegion me, inBounds sa.dimensions c) (hd : d ≤ G) :
    expandWithTopology d sa.dimensions T ((resetRegions T pm0 sa part me G).innerSet d) ⊆
        (resetRegions T pm0 sa part me G).ownRegion 0 ∧
      expandSteps sa.dimensions T d ((resetRegions T pm0 sa part me G).innerSet d) ⊆
        (resetRegions T pm0 sa part me G).ownRegion 0 := by
  rw [innerSet_resetRegions T pm0 sa part me G hd,
    ownRegion_resetRegions T pm0 sa part me G (Nat.zero_le G), expandSteps_zero]
  have hone : expandWithTopology d sa.dimensions T
      (innerSetOf sa.dimensions T (part.getRegion me) d) ⊆ part.getRegion me := by
    intro y hy
    obtain ⟨hyb, c, hc, o, ho, rfl⟩ := mem_expandWithTopology.1 hy
    obtain ⟨hcown, hfree⟩ := mem_innerSetOf.1 hc
    exact walk_stays_owned T (part.getRegion me) d c o hcown (hbox c hcown) hfree ho hyb
  refine ⟨hone, ?_⟩
  by_cases h0 : d = 0
  · subst h0
    exact fun c hc => hc
  · exact fun c hc => hone (expandSteps_subset_expand _ (by omega) hc)

/-- C8: after `resetRegions` with ghost zone width `G`,
`rim(G) ∪ innerSet(G) = ownRegion(0)`. -/
theorem rim_union_innerSet (T : Topology D) (pm0 : PartitionManager D)
    (sa : CoordBox D) (part : Partition D) (me G : Nat) :
    (resetRegions T pm0 sa part me G).rim G ∪ (resetRegions T pm0 sa part me G).innerSet G =
      (resetRegions T pm0 sa part me G).ownRegion 0 := by
  rw [rim_resetRegions T pm0 sa part me G (le_refl G),
    innerSet_resetRegions T pm0 sa part me G (le_refl G),
    ownRegion_resetRegions T pm0 sa part me G (Nat.zero_le G), expandSteps_zero, rimOf_self]
  ext c
  rw [Finset.mem_union, Finset.mem_inter, mem_innerSetOf]
  constructor
  · rintro (h | h)
    · exact h.1
    · exact h.1
  · intro hc
    by_cases hx : c ∈ expandWithTopology G sa.dimensions T
        (surfaceOf sa.dimensions T (part.getRegion me))
    · exact Or.inl ⟨hc, hx⟩
    · refine Or.inr ⟨hc, fun j hj1 hj2 hmem => hx ?_⟩
      exact expand_mono_width hj2 (expandSteps_subset_expand _ hj1 hmem)

/-- C9 (amended): after `resetRegions` with ghost zone width `G`, for every `d ≤ G` the
region `rim(d)` lies in the own region expanded `G - d` times,
`rim(d) ⊆ ownRegion(G - d)`; in particular `rim(G) ⊆ ownRegion(0)`. -/
theorem rim_subset_ownRegion (T : Topology D) (pm0 : PartitionManager D)
    (sa : CoordBox D) (part : Partition D) (me G d : Nat) (hd : d ≤ G) :
    (resetRegions T pm0 sa part me G).rim d ⊆
      (resetRegions T pm0 sa part me G).ownRegion (G - d) := by
  rw [rim_resetRegions T pm0 sa part me G hd,
    ownRegion_resetRegions T pm0 sa part me G (Nat.sub_le G d)]
  unfold rimOf
  exact expandSteps_mono _ Finset.sdiff_subset

/-- C10 (amended): after `resetRegions` with ghost zone width `G`, for every node `n` and
every `i < G`, `getRegion(n, i + 1)` is exactly the one-step expansion of `getRegion(n, i)`,
so the two differences agree, and `getRegion(n, i) ⊆ getRegion(n, i + 1)` when `i ≥ 1` or
the partition's region of `n` lies in the simulation box; `ownRegion(w)` is
`getRegion(myRank, w)`. -/
theorem expansion_chain (T : Topology D) (pm0 : PartitionManager D)
    (sa : CoordBox D) (part : Partition D) (me G n i : Nat) (hi : i < G)
    (hbox : i = 0 → ∀ c ∈ part.getRegion n, inBounds sa.dimensions c) :
    (getRegion T (resetRegions T pm0 sa part me G) n i).1 ⊆
        (getRegion T (resetRegions T pm0 sa part me G) n (i + 1)).1 ∧
      (getRegion T (resetRegions T pm0 sa part me G) n (i + 1)).1 \
          (getRegion T (resetRegions T pm0 sa part me G) n i).1 =
        expandWithTopology 1 sa.dimensions T
            (getRegion T (resetRegions T pm0 sa part me G) n i).1 \
          (getRegion T (resetRegions T pm0 sa part me G) n i).1 ∧
      (getRegion T (resetRegions T pm0 sa part me G) n (i + 1)).1 =
        expandWithTopology 1 sa.dimensions T
          (getRegion T (resetRegions T pm0 sa part me G) n i).1 ∧
      (resetRegions T pm0 sa part me G).ownRegion i =
        (getRegion T (resetRegions T pm0 sa part me G) me i).1 ∧
      (resetRegions T pm0 sa part me G).ownRegion (i + 1) =
        (getRegion T (resetRegions T pm0 sa part me G) me (i + 1)).1 := by
  rw [getRegion_resetRegions T pm0 sa part me G n i (by omega),
    getRegion_resetRegions T pm0 sa part me G n (i + 1) (by omega),
    getRegion_resetRegions T pm0 sa part me G me i (by omega),
    getRegion_resetRegions T pm0 sa part me G me (i + 1) (by omega),
    ownRegion_resetRegions T pm0 sa part me G (by omega : i ≤ G),
    ownRegion_resetRegions T pm0 sa part me G (by omega : i + 1 ≤ G), expandSteps_succ]
  refine ⟨?_, rfl, rfl, rfl, rfl⟩
  by_cases h0 : i = 0
  · subst h0
    intro c hc
    exact mem_expand_of_mem hc (hbox rfl c hc)
  · have := @expandSteps_subset_succ D sa.dimensions T i (part.getRegion n) (by omega)
    rw [expandSteps_succ] at this
    exact this

end PartitionManager

namespace Example

theorem stripes_disjoint :
    ∀ n m : Nat, n ≠ m → Disjoint (stripes.getRegion n) (stripes.getRegion m) := by
  intro n m h
  unfold stripes
  simp only
  split_ifs <;> first | omega | simp | decide

theorem stripes_inBox : ∀ n : Nat, ∀ c ∈ stripes.getRegion n, inBounds box10.dimensions c := by
  intro n
  unfold stripes
  simp only
  split_ifs <;> decide

theorem stray_disjoint :
    ∀ n m : Nat, n ≠ m → Disjoint (stray.getRegion n) (stray.getRegion m) := by
  intro n m h
  unfold stray
  simp only
  split_ifs <;> first | omega | simp | decide

end Example

namespace PartitionManager

/-- Witness of C1: rank 0 of the two stripes records peer 1, and the theorem gives its
fragments of width 2. -/
theorem ghostFragments_eq_intersections_witness :
    ((1 : Int) ≠ OUTGROUP ∧ 2 ≤ 2 ∧
      (Example.rank0.getOuterGhostZoneFragments.lookup 1).isSome = true ∧
      (Example.rank0.getInnerGhostZoneFragments.lookup 1).isSome = true) ∧
    ((∀ st, Example.rank0.getOuterGhostZoneFragments.lookup 1 = some st →
      vecAt st 2 = (getRegion (Topology.cube 1) Example.rank0 0 2).1 ∩
        (getRegion (Topology.cube 1) Example.rank0 (1 : Int).toNat 0).1) ∧
    (∀ st, Example.rank0.getInnerGhostZoneFragments.lookup 1 = some st →
      vecAt st 2 = (getRegion (Topology.cube 1) Example.rank0 0 0).1 ∩
        (getRegion (Topology.cube 1) Example.rank0 (1 : Int).toNat 2).1) ∧
    (∀ n, (getRegion (Topology.cube 1) Example.rank0 n 2).1 =
      expandSteps Example.box10.dimensions (Topology.cube 1) 2 (Example.stripes.getRegion n))) :=
  ⟨⟨by decide, by decide, by decide, by decide⟩,
    ghostFragments_eq_intersections (Topology.cube 1) Example.blank Example.rank0
      Example.box10 Example.stripes 0 2 Example.stripeBoxes 1 2 rfl (by decide) (by decide)⟩

/-- Witness of C3: the two stripes are pairwise disjoint subsets of the box of ten cells. -/
theorem fragments_cover_rims_witness :
    ((∀ n m, n ≠ m → Disjoint (Example.stripes.getRegion n) (Example.stripes.getRegion m)) ∧
      (∀ n, ∀ c ∈ Example.stripes.getRegion n, inBounds Example.box10.dimensions c)) ∧
    (peerUnion Example.rank0.getOuterGhostZoneFragments 2 ∪
        Example.rank0.getOuterOutgroupGhostZoneFragment = Example.rank0.getOuterRim ∧
      peerUnion Example.rank0.getInnerGhostZoneFragments 2 ∪
        Example.rank0.getInnerOutgroupGhostZoneFragment = Example.rank0.rim 2) :=
  ⟨⟨Example.stripes_disjoint, Example.stripes_inBox⟩,
    fragments_cover_rims (Topology.cube 1) Example.blank Example.rank0 Example.box10
      Example.stripes 0 2 Example.stripeBoxes rfl Example.stripes_disjoint
      Example.stripes_inBox⟩

/-- Witness of C4: the outer fragment of width 2 that rank 0 of the two stripes records for
peer 1 lies in the outer rim. -/
theorem outerFragment_subset_outerRim_witness :
    ∃ st, Example.rank0.getOuterGhostZoneFragments.lookup 1 = some st ∧
      (vecAt st 2 ⊆ Example.rank0.getOuterRim ∧
        Example.rank0.getOuterRim = Example.rank0Regions.ownExpandedRegion \
          Example.rank0Regions.ownRegion 0) :=
  ⟨(Example.rank0.getOuterGhostZoneFragments.lookup 1).get (by decide),
    (Option.some_get _).symm,
    outerFragment_subset_outerRim (Topology.cube 1) Example.blank Example.rank0 Example.box10
      Example.stripes 0 2 Example.stripeBoxes 1 2 _ rfl Example.stripes_disjoint (by decide)
      (by decide) (Option.some_get _).symm⟩

/-- Counterexample to C5 as stated: in the partition with the stray cell the regions are
pairwise disjoint, rank 0 records peer 1, and the inner fragment of width 1 is not a subset
of `rim(1)`. -/
theorem innerFragment_subset_rim_counterexample :
    (∀ n m, n ≠ m → Disjoint (Example.stray.getRegion n) (Example.stray.getRegion m)) ∧
    ∃ st, Example.strayRank0.getInnerGhostZoneFragments.lookup 1 = some st ∧
      ¬ (vecAt st 1 ⊆ Example.strayRank0.rim 1) :=
  ⟨Example.stray_disjoint,
    (Example.strayRank0.getInnerGhostZoneFragments.lookup 1).get (by decide),
    (Option.some_get _).symm, by decide⟩

/-- Witness of C5 (amended): the inner fragment of width 2 that rank 0 of the two stripes
records for peer 1 lies in `rim(2)`. -/
theorem innerFragment_subset_rim_witness :
    ∃ st, Example.rank0.getInnerGhostZoneFragments.lookup 1 = some st ∧
      vecAt st 2 ⊆ Example.rank0.rim 2 :=
  ⟨(Example.rank0.getInnerGhostZoneFragments.lookup 1).get (by decide),
    (Option.some_get _).symm,
    (innerFragment_subset_rim (Topology.cube 1) Example.blank Example.rank0 Example.box10
      Example.stripes 0 2 Example.stripeBoxes 1 2 _ rfl Example.stripes_disjoint
      (Example.stripes_inBox _) (by decide) (by decide) (Option.some_get _).symm).1⟩

/-- Counterexample to C6 as stated: rank 1 of the partition with the stray cell owns the
cell `-1`, which is in `innerSet(1)`, and its one-step expansion holds the cell `0`, which
rank 1 does not own. -/
theorem innerSet_expansion_owned_counterexample :
    ¬ (expandWithTopology 1 Example.box5.dimensions (Topology.cube 1)
        (Example.strayRank1.innerSet 1) ⊆ Example.strayRank1.ownRegion 0) ∧
    ¬ (expandSteps Example.box5.dimensions (Topology.cube 1) 1
        (Example.strayRank1.innerSet 1) ⊆ Example.strayRank1.ownRegion 0) := by
  decide

/-- Witness of C6 (amended): rank 0 of the two stripes at distance 2. -/
theorem innerSet_expansion_owned_witness :
    (∀ c ∈ Example.stripes.getRegion 0, inBounds Example.box10.dimensions c) ∧ 2 ≤ 2 ∧
    expandWithTopology 2 Example.box10.dimensions (Topology.cube 1)
      (Example.rank0Regions.innerSet 2) ⊆ Example.rank0Regions.ownRegion 0 :=
  ⟨Example.stripes_inBox 0, le_refl 2,
    (innerSet_expansion_owned (Topology.cube 1) Example.blank Example.box10 Example.stripes
      0 2 2 (Example.stripes_inBox 0) (le_refl 2)).1⟩

/-- Counterexample to C7 as stated: on rank 0 of the two stripes with ghost zone width 2,
`rim(2) ∩ innerSet(2)` is empty and the volatile kernel is not. -/
theorem rim_inter_innerSet_counterexample :
    Example.rank0Regions.rim 2 ∩ Example.rank0Regions.innerSet 2 = ∅ ∧
    Example.rank0Regions.rim 2 ∩ Example.rank0Regions.innerSet 2 ≠
      Example.rank0Regions.getVolatileKernel := by
  decide

/-- Counterexample to C9 as stated: on rank 0 of the two stripes with ghost zone width 2,
`rim(0)` holds the cell `5`, which rank 0 does not own. -/
theorem rim_subset_ownRegion_counterexample :
    Example.cell 5 ∈ Example.rank0Regions.rim 0 ∧
    ¬ (Example.rank0Regions.rim 0 ⊆ Example.rank0Regions.ownRegion 0) := by
  decide

/-- Witness of C9 (amended): rank 0 of the two stripes at distance 1. -/
theorem rim_subset_ownRegion_witness :
    1 ≤ 2 ∧ Example.rank0Regions.rim 1 ⊆ Example.rank0Regions.ownRegion (2 - 1) :=
  ⟨by decide,
    rim_subset_ownRegion (Topology.cube 1) Example.blank Example.box10 Example.stripes 0 2 1
      (by decide)⟩

/-- Counterexample to C10 as stated: rank 1 of the partition with the stray cell owns the
cell `-1`, which its one-step expansion `ownRegion(1)` does not hold. -/
theorem expansion_chain_counterexample :
    0 < 1 ∧ ¬ (Example.strayRank1.ownRegion 0 ⊆ Example.strayRank1.ownRegion (0 + 1)) := by
  decide

/-- Witness of C10 (amended): rank 0 of the two stripes, node 1, from width 0 to width 1. -/
theorem expansion_chain_witness :
    (0 < 2 ∧ ((0 : Nat) = 0 → ∀ c ∈ Example.stripes.getRegion 1,
      inBounds Example.box10.dimensions c)) ∧
    (getRegion (Topology.cube 1) Example.rank0Regions 1 0).1 ⊆
      (getRegion (Topology.cube 1) Example.rank0Regions 1 (0 + 1)).1 :=
  ⟨⟨by decide, fun _ => Example.stripes_inBox 1⟩,
    (expansion_chain (Topology.cube 1) Example.blank Example.box10 Example.stripes 0 2 1 0
      (by decide) (fun _ => Example.stripes_inBox 1)).1⟩

end PartitionManager

section SingleExpansion

variable {D : Nat}

/-- Inside the box the single expansion of width `w` is reached by `w` one-step
expansions. -/
theorem expand_subset_expandSteps {dims : Coord D} (T : Topology D) :
    ∀ (w : Nat) (r : Region D), (∀ c ∈ r, inBounds dims c) →
      expandWithTopology w dims T r ⊆ expandSteps dims T w r := by
  intro w
  induction w with
  | zero =>
    intro r hbox y hy
    obtain ⟨_, c, hc, o, ho, rfl⟩ := mem_expandWithTopology.1 hy
    rw [PartitionManager.eq_zero_of_manhattanNorm_le_zero ho, add_zero,
      normalize_of_inBounds T (hbox c hc)]
    exact hc
  | succ w ih =>
    intro r hbox y hy
    obtain ⟨hyb, c, hc, o, ho, rfl⟩ := mem_expandWithTopology.1 hy
    obtain ⟨o1, o2, h1, h2, hz, hzy⟩ := exists_first_step T (hbox c hc) ho hyb
    rw [expandSteps_succ_inner]
    apply ih _ (fun c hc => inBounds_of_mem_expand hc)
    rw [← hzy] at hyb ⊢
    exact mem_expandWithTopology.2
      ⟨hyb, _, mem_expandWithTopology.2 ⟨hz, c, hc, o1, h1, rfl⟩, o2, h2, rfl⟩

/-- For a region inside the box the single expansion of width `w` and `w` one-step
expansions agree. -/
theorem expand_eq_expandSteps {dims : Coord D} (T : Topology D) (w : Nat) {r : Region D}
    (hbox : ∀ c ∈ r, inBounds dims c) :
    expandWithTopology w dims T r = expandSteps dims T w r := by
  apply Finset.Subset.antisymm (expand_subset_expandSteps T w r hbox)
  by_cases h0 : w = 0
  · subst h0
    exact fun c hc => mem_expand_of_mem hc (hbox c hc)
  · exact expandSteps_subset_expand r (by omega)

theorem expandSteps_add (dims : Coord D) (T : Topology D) (i j : Nat) (r : Region D) :
    expandSteps dims T j (expandSteps dims T i r) = expandSteps dims T (i + j) r := by
  unfold expandSteps
  rw [Nat.add_comm, Function.iterate_add_apply]

theorem inBounds_of_mem_expandSteps_of_box {dims : Coord D} {T : Topology D} {w : Nat}
    {r : Region D} (hbox : ∀ c ∈ r, inBounds dims c) :
    ∀ c ∈ expandSteps dims T w r, inBounds dims c := by
  intro c hc
  by_cases h0 : w = 0
  · subst h0
    exact hbox c hc
  · exact inBounds_of_mem_expandSteps (by omega) hc

end SingleExpansion

namespace PartitionManager

variable {D : Nat}

/-- C11 (amended): for every topology, in particular the cube, every node `n` whose
partition region lies in the simulation box and every `w ≤ G`, `getRegion(n, w)`, built by
`w` successive clipped one-step expansions, is the single expansion of width `w` of the
partition's region; expansion by 0 is the identity on such a region, and expanding by `i`
and then by `j` is expanding by `i + j`. -/
theorem getRegion_eq_single_expansion (T : Topology D) (pm0 : PartitionManager D)
    (sa : CoordBox D) (part : Partition D) (me G n w : Nat)
    (hbox : ∀ c ∈ part.getRegion n, inBounds sa.dimensions c) (hw : w ≤ G) :
    (getRegion T (resetRegions T pm0 sa part me G) n w).1 =
        expandWithTopology w sa.dimensions T (part.getRegion n) ∧
      expandWithTopology 0 sa.dimensions T (part.getRegion n) = part.getRegion n ∧
      ∀ i j, expandWithTopology j sa.dimensions T
          (expandWithTopology i sa.dimensions T (part.getRegion n)) =
        expandWithTopology (i + j) sa.dimensions T (part.getRegion n) := by
  refine ⟨?_, ?_, ?_⟩
  · rw [getRegion_resetRegions T pm0 sa part me G n w hw, expand_eq_expandSteps T w hbox]
  · rw [expand_eq_expandSteps T 0 hbox, expandSteps_zero]
  · intro i j
    rw [expand_eq_expandSteps T i hbox, expand_eq_expandSteps T (i + j) hbox,
      expand_eq_expandSteps T j (inBounds_of_mem_expandSteps_of_box hbox), expandSteps_add]

/-- C12: after `resetRegions` with ghost zone width `G`, `innerSet(0) = ownRegion(0)`, and
for every `i < G`, `innerSet(i + 1) ⊆ innerSet(i)`. -/
theorem innerSet_chain (T : Topology D) (pm0 : PartitionManager D)
    (sa : CoordBox D) (part : Partition D) (me G i : Nat) (hi : i < G) :
    (resetRegions T pm0 sa part me G).innerSet 0 =
        (resetRegions T pm0 sa part me G).ownRegion 0 ∧
      (resetRegions T pm0 sa part me G).innerSet (i + 1) ⊆
        (resetRegions T pm0 sa part me G).innerSet i := by
  rw [innerSet_resetRegions T pm0 sa part me G (Nat.zero_le G),
    innerSet_resetRegions T pm0 sa part me G (by omega : i + 1 ≤ G),
    innerSet_resetRegions T pm0 sa part me G (by omega : i ≤ G),
    ownRegion_resetRegions T pm0 sa part me G (Nat.zero_le G), expandSteps_zero]
  exact ⟨rfl, Finset.sdiff_subset⟩

/-- C13: after every `resetRegions`, `getVolatileKernel()` and `getInnerRim()` are both
`innerSet(G) ∩ rim(0)`, hence equal to each other. -/
theorem volatileKernel_eq_innerRim (T : Topology D) (pm0 : PartitionManager D)
    (sa : CoordBox D) (part : Partition D) (me G : Nat) :
    (resetRegions T pm0 sa part me G).getVolatileKernel =
        (resetRegions T pm0 sa part me G).innerSet G ∩
          (resetRegions T pm0 sa part me G).rim 0 ∧
      (resetRegions T pm0 sa part me G).getInnerRim =
        (resetRegions T pm0 sa part me G).innerSet G ∩
          (resetRegions T pm0 sa part me G).rim 0 ∧
      (resetRegions T pm0 sa part me G).getVolatileKernel =
        (resetRegions T pm0 sa part me G).getInnerRim := by
  rw [rim_resetRegions T pm0 sa part me G (Nat.zero_le G),
    innerSet_resetRegions T pm0 sa part me G (le_refl G), resetRegions_eq]
  exact ⟨rfl, rfl, rfl⟩

end PartitionManager

section CacheLemmas

variable {D : Nat}

theorem CacheStep.step_refl (R : RegionVecMap D) : CacheStep R R (fun _ => False) :=
  ⟨fun _ h => h, fun _ h => h.elim, fun _ => rfl⟩

theorem CacheStep.step_trans {R R2 R3 : RegionVecMap D} {t1 t2 : Nat → Prop}
    (h1 : CacheStep R R2 t1) (h2 : CacheStep R2 R3 t2) :
    CacheStep R R3 (fun n => t1 n ∨ t2 n) := by
  refine ⟨fun k hk => h2.1 k (h1.1 k hk), ?_, ?_⟩
  · rintro n (h | h)
    · exact h2.1 _ (h1.2.1 n h)
    · exact h2.2.1 n h
  · intro hall
    have e1 : R2 = R := h1.2.2 (fun n hn => hall n (Or.inl hn))
    have e2 : R3 = R2 := h2.2.2 (fun n hn => by rw [e1]; exact hall n (Or.inr hn))
    rw [e2, e1]

theorem CacheStep.step_congr {R R2 : RegionVecMap D} {t1 t2 : Nat → Prop}
    (h : CacheStep R R2 t1) (ht : ∀ n, t1 n ↔ t2 n) : CacheStep R R2 t2 :=
  ⟨h.1, fun n hn => h.2.1 n ((ht n).2 hn), fun hall => h.2.2 (fun n hn => hall n ((ht n).1 hn))⟩

theorem SameSetup.setup_refl (pm : PartitionManager D) : SameSetup pm pm :=
  ⟨rfl, rfl, rfl, rfl, rfl⟩

theorem SameSetup.setup_trans {pm pm2 pm3 : PartitionManager D} (h1 : SameSetup pm pm2)
    (h2 : SameSetup pm2 pm3) : SameSetup pm pm3 :=
  ⟨h2.1.trans h1.1, h2.2.1.trans h1.2.1, h2.2.2.1.trans h1.2.2.1,
    h2.2.2.2.1.trans h1.2.2.2.1, h2.2.2.2.2.trans h1.2.2.2.2⟩

end CacheLemmas

namespace PartitionManager

variable {D : Nat}

theorem getRegion_cache (T : Topology D) (pm : PartitionManager D) (n w : Nat) :
    CacheStep pm.regions (getRegion T pm n w).2.regions (fun m => m = n) ∧
      SameSetup pm (getRegion T pm n w).2 := by
  unfold getRegion
  by_cases h : pm.regions.count n = 0
  · simp only [h, if_true, fillRegion_eq]
    refine ⟨⟨?_, ?_, ?_⟩, SameSetup.setup_refl pm⟩
    · intro k hk
      rw [RegionVecMap.lookup_insert]
      split
      · rfl
      · exact hk
    · intro m hm
      rw [hm, RegionVecMap.lookup_insert, if_pos rfl]
      rfl
    · intro hall
      have := hall n rfl
      unfold RegionVecMap.count at h
      rw [if_pos this] at h
      exact absurd h (by decide)
  · simp only [h, if_false]
    refine ⟨⟨fun _ hk => hk, ?_, fun _ => rfl⟩, SameSetup.setup_refl pm⟩
    intro m hm
    rw [hm]
    unfold RegionVecMap.count at h
    by_contra hcon
    rw [if_neg hcon] at h
    exact h rfl

theorem intersectStep_cache (T : Topology D) (node : Nat)
    (s : PartitionManager D × List (Region D) × List (Region D)) (i : Nat) :
    CacheStep s.1.regions (intersectStep T node s i).1.regions
        (fun m => m = s.1.myRank ∨ m = node) ∧
      SameSetup s.1 (intersectStep T node s i).1 := by
  unfold intersectStep
  dsimp only
  generalize hA : getRegion T s.1 s.1.myRank i = A
  have ha := getRegion_cache T s.1 s.1.myRank i
  rw [hA] at ha
  generalize hB : getRegion T A.2 node 0 = B
  have hb := getRegion_cache T A.2 node 0
  rw [hB] at hb
  generalize hC : getRegion T B.2 B.2.myRank 0 = C
  have hc := getRegion_cache T B.2 B.2.myRank 0
  rw [hC] at hc
  generalize hD : getRegion T C.2 node i = Dd
  have hd := getRegion_cache T C.2 node i
  rw [hD] at hd
  have hrank : B.2.myRank = s.1.myRank := (ha.2.setup_trans hb.2).2.2.1
  refine ⟨?_, ((ha.2.setup_trans hb.2).setup_trans hc.2).setup_trans hd.2⟩
  apply (((ha.1.step_trans hb.1).step_trans hc.1).step_trans hd.1).step_congr
  intro m
  rw [hrank]
  tauto

theorem intersectLoop_cache (T : Topology D) (node : Nat) (k : Nat)
    (s : PartitionManager D × List (Region D) × List (Region D)) :
    CacheStep s.1.regions ((List.range (k + 1)).foldl (intersectStep T node) s).1.regions
        (fun m => m = s.1.myRank ∨ m = node) ∧
      SameSetup s.1 ((List.range (k + 1)).foldl (intersectStep T node) s).1 := by
  induction k with
  | zero =>
    have h1 : List.range (0 + 1) = [0] := rfl
    rw [h1]
    simp only [List.foldl_cons, List.foldl_nil]
    exact intersectStep_cache T node s 0
  | succ k ih =>
    rw [List.range_succ, List.foldl_append]
    simp only [List.foldl_cons, List.foldl_nil]
    have hstep := intersectStep_cache T node
      ((List.range (k + 1)).foldl (intersectStep T node) s) (k + 1)
    refine ⟨?_, ih.2.setup_trans hstep.2⟩
    apply (ih.1.step_trans hstep.1).step_congr
    intro m
    rw [ih.2.2.2.1]
    tauto

theorem intersect_cache (T : Topology D) (pm : PartitionManager D) (node : Nat) :
    CacheStep pm.regions (intersect T pm node).regions (fun m => m = pm.myRank ∨ m = node) ∧
      SameSetup pm (intersect T pm node) := by
  have h := intersectLoop_cache T node pm.getGhostZoneWidth
    (pm, resize (pm.outerGhostZoneFragments.get node) (pm.getGhostZoneWidth + 1),
      resize (pm.innerGhostZoneFragments.get node) (pm.getGhostZoneWidth + 1))
  unfold intersect
  dsimp only at h ⊢
  generalize hS : (List.range (pm.getGhostZoneWidth + 1)).foldl (intersectStep T node)
    (pm, resize (pm.outerGhostZoneFragments.get node) (pm.getGhostZoneWidth + 1),
      resize (pm.innerGhostZoneFragments.get node) (pm.getGhostZoneWidth + 1)) = S at h ⊢
  exact ⟨h.1, h.2⟩

/-- The first two tests of the loop of `resetGhostZones`: rank `i` is not the own rank and
its bounding box meets the own one. -/
theorem ghostZoneStep_cache (T : Topology D) (bb : CoordBox D) (pm : PartitionManager D)
    (i : Nat) :
    CacheStep pm.regions (ghostZoneStep T bb pm i).regions
        (fun m => (i ≠ pm.myRank ∧
          ((pm.boundingBoxes.getD i ⟨fun _ => 0, fun _ => 0⟩).intersects bb) = true) ∧
          (m = pm.myRank ∨ m = i)) ∧
      SameSetup pm (ghostZoneStep T bb pm i) := by
  unfold ghostZoneStep
  by_cases hc : i ≠ pm.myRank ∧
      ((pm.boundingBoxes.getD i ⟨fun _ => 0, fun _ => 0⟩).intersects bb) = true
  · rw [if_pos hc]
    dsimp only
    generalize hA : getRegion T pm pm.myRank pm.ghostZoneWidth = A
    have ha := getRegion_cache T pm pm.myRank pm.ghostZoneWidth
    rw [hA] at ha
    generalize hB : getRegion T A.2 i 0 = B
    have hb := getRegion_cache T A.2 i 0
    rw [hB] at hb
    have hab := ha.1.step_trans hb.1
    have sab := ha.2.setup_trans hb.2
    split
    · have hi := intersect_cache T B.2 i
      refine ⟨?_, sab.setup_trans hi.2⟩
      apply (hab.step_trans hi.1).step_congr
      intro m
      rw [sab.2.2.1]
      tauto
    · generalize hC : getRegion T B.2 i B.2.ghostZoneWidth = C
      have hc2 := getRegion_cache T B.2 i B.2.ghostZoneWidth
      rw [hC] at hc2
      generalize hD : getRegion T C.2 C.2.myRank 0 = Dd
      have hd := getRegion_cache T C.2 C.2.myRank 0
      rw [hD] at hd
      have habcd := (hab.step_trans hc2.1).step_trans hd.1
      have sabcd := (sab.setup_trans hc2.2).setup_trans hd.2
      have hr1 : C.2.myRank = pm.myRank := (sab.setup_trans hc2.2).2.2.1
      split
      · have hi := intersect_cache T Dd.2 i
        refine ⟨?_, sabcd.setup_trans hi.2⟩
        apply (habcd.step_trans hi.1).step_congr
        intro m
        rw [sabcd.2.2.1, hr1]
        tauto
      · refine ⟨?_, sabcd⟩
        apply habcd.step_congr
        intro m
        rw [hr1]
        tauto
  · rw [if_neg hc]
    refine ⟨?_, SameSetup.setup_refl pm⟩
    apply (CacheStep.step_refl pm.regions).step_congr
    intro m
    tauto

theorem ghostZoneLoop_cache (T : Topology D) (bb : CoordBox D) (pm : PartitionManager D)
    (k : Nat) :
    CacheStep pm.regions ((List.range k).foldl (ghostZoneStep T bb) pm).regions
        (fun m => ∃ i, i < k ∧ (i ≠ pm.myRank ∧
          ((pm.boundingBoxes.getD i ⟨fun _ => 0, fun _ => 0⟩).intersects bb) = true) ∧
          (m = pm.myRank ∨ m = i)) ∧
      SameSetup pm ((List.range k).foldl (ghostZoneStep T bb) pm) := by
  induction k with
  | zero =>
    refine ⟨?_, SameSetup.setup_refl pm⟩
    apply (CacheStep.step_refl pm.regions).step_congr
    intro m
    constructor
    · exact fun h => h.elim
    · rintro ⟨i, hi, _⟩
      omega
  | succ k ih =>
    rw [List.range_succ, List.foldl_append]
    simp only [List.foldl_cons, List.foldl_nil]
    have hstep := ghostZoneStep_cache T bb ((List.range k).foldl (ghostZoneStep T bb) pm) k
    refine ⟨?_, ih.2.setup_trans hstep.2⟩
    apply (ih.1.step_trans hstep.1).step_congr
    intro m
    rw [ih.2.2.2.1, ih.2.2.2.2.2]
    constructor
    · rintro (⟨i, hi, h⟩ | h)
      · exact ⟨i, by omega, h⟩
      · exact ⟨k, by omega, h⟩
    · rintro ⟨i, hi, h⟩
      by_cases hik : i = k
      · subst hik
        exact Or.inr h
      · exact Or.inl ⟨i, by omega, h⟩

end PartitionManager

section SortedLemmas

variable {D : Nat}

theorem RegionVecMap.key_of_mem_insert {m : RegionVecMap D} {k : Int} {v : List (Region D)}
    {e : Int × List (Region D)} (h : e ∈ m.insert k v) : e.1 = k ∨ e ∈ m := by
  rcases RegionVecMap.mem_insert h with h | h
  · left; rw [h]
  · exact Or.inr h

theorem keysSorted_insert {m : RegionVecMap D} (k : Int) (v : List (Region D))
    (h : KeysSorted m) : KeysSorted (m.insert k v) := by
  unfold KeysSorted at h ⊢
  induction m with
  | nil => simp [RegionVecMap.insert]
  | cons e rest ih =>
    rw [List.pairwise_cons] at h
    simp only [RegionVecMap.insert]
    by_cases h1 : k < e.1
    · rw [if_pos h1, List.pairwise_cons, List.pairwise_cons]
      refine ⟨?_, h.1, h.2⟩
      intro a ha
      rcases List.mem_cons.1 ha with ha | ha
      · rw [ha]; exact h1
      · exact lt_trans h1 (h.1 a ha)
    · rw [if_neg h1]
      by_cases h3 : k = e.1
      · rw [if_pos h3, List.pairwise_cons]
        refine ⟨?_, h.2⟩
        intro a ha
        show k < a.1
        rw [h3]
        exact h.1 a ha
      · rw [if_neg h3, List.pairwise_cons]
        refine ⟨?_, ih h.2⟩
        intro a ha
        rcases RegionVecMap.key_of_mem_insert ha with ha | ha
        · rw [ha]; omega
        · exact h.1 a ha

theorem RegionVecMap.insert_eq_self {m : RegionVecMap D} {k : Int} {v : List (Region D)}
    (hs : KeysSorted m) (h : m.lookup k = some v) : m.insert k v = m := by
  unfold KeysSorted at hs
  induction m with
  | nil => simp [RegionVecMap.lookup] at h
  | cons e rest ih =>
    rw [List.pairwise_cons] at hs
    simp only [RegionVecMap.lookup] at h
    simp only [RegionVecMap.insert]
    by_cases he : e.1 = k
    · rw [if_pos he] at h
      have hv : e.2 = v := Option.some.inj h
      have hlt : ¬ k < e.1 := by omega
      rw [if_neg hlt, if_pos he.symm]
      congr 1
      rw [← he, ← hv]
    · rw [if_neg he] at h
      have hmem := RegionVecMap.mem_of_lookup h
      have hlt : e.1 < k := hs.1 _ hmem
      rw [if_neg (by omega), if_neg (fun h2 => he h2.symm), ih hs.2 h]

theorem RegionVecMap.insert_front {m : RegionVecMap D} {k : Int} (v : List (Region D))
    (h : ∀ e ∈ m, k < e.1) : m.insert k v = (k, v) :: m := by
  cases m with
  | nil => rfl
  | cons e rest =>
    simp only [RegionVecMap.insert]
    rw [if_pos (h e (List.mem_cons_self _ _))]

theorem keysSorted_peerFragments (test : Nat → Prop) [DecidablePred test]
    (stack : Nat → List (Region D)) {m : RegionVecMap D} (h : KeysSorted m) (k : Nat) :
    KeysSorted (peerFragments test stack m k) := by
  induction k with
  | zero => exact h
  | succ k ih =>
    simp only [peerFragments]
    split
    · exact keysSorted_insert _ _ ih
    · exact ih

theorem peerFragments_eq_self (test : Nat → Prop) [DecidablePred test]
    (stack : Nat → List (Region D)) {m : RegionVecMap D} (hs : KeysSorted m) (k : Nat)
    (h : ∀ i, i < k → test i → m.lookup (i : Int) = some (stack i)) :
    peerFragments test stack m k = m := by
  induction k with
  | zero => rfl
  | succ k ih =>
    simp only [peerFragments]
    rw [ih (fun i hi => h i (by omega))]
    split
    · rename_i ht
      exact RegionVecMap.insert_eq_self hs (h k (Nat.lt_succ_self k) ht)
    · rfl

theorem subtractPeerFragments_outgroup_cons (v : List (Region D)) (m : RegionVecMap D)
    (s : Region D) :
    PartitionManager.subtractPeerFragments ((OUTGROUP, v) :: m) s =
      PartitionManager.subtractPeerFragments m s := by
  unfold PartitionManager.subtractPeerFragments
  rw [List.foldl_cons, if_neg (fun h => h rfl)]

theorem RegionVecMap.lookup_cons_ne {m : RegionVecMap D} {k k2 : Int} (v : List (Region D))
    (h : k ≠ k2) : RegionVecMap.lookup ((k, v) :: m) k2 = m.lookup k2 := by
  simp only [RegionVecMap.lookup]
  rw [if_neg h]

end SortedLemmas

namespace PartitionManager

variable {D : Nat}

theorem resetGhostZones_cache (T : Topology D) (pm : PartitionManager D)
    (boxes : List (CoordBox D)) :
    CacheStep pm.regions (resetGhostZones T pm boxes).regions
      (fun m => ∃ i, i < boxes.length ∧ (i ≠ pm.myRank ∧
        ((boxes.getD i ⟨fun _ => 0, fun _ => 0⟩).intersects
          (boundingBox pm.ownExpandedRegion)) = true) ∧ (m = pm.myRank ∨ m = i)) := by
  have h := (ghostZoneLoop_cache T (boundingBox pm.ownExpandedRegion)
    { pm with boundingBoxes := boxes } boxes.length).1
  unfold resetGhostZones
  dsimp only at h ⊢
  exact h

/-- A second run of the loops of `resetGhostZones` over a fragment map that a first run has
filled reproduces the map. -/
theorem fragments_fixed (test : Nat → Prop) [DecidablePred test]
    (stack : Nat → List (Region D)) (n G : Nat) (s : Region D) :
    (peerFragments test stack
        ((peerFragments test stack [] n).insert OUTGROUP
          (List.replicate (G + 1) (subtractPeerFragments (peerFragments test stack [] n) s)))
        n).insert OUTGROUP
      (List.replicate (G + 1) (subtractPeerFragments
        (peerFragments test stack
          ((peerFragments test stack [] n).insert OUTGROUP
            (List.replicate (G + 1)
              (subtractPeerFragments (peerFragments test stack [] n) s))) n) s)) =
      (peerFragments test stack [] n).insert OUTGROUP
        (List.replicate (G + 1) (subtractPeerFragments (peerFragments test stack [] n) s)) := by
  have hkeys : ∀ e ∈ peerFragments test stack [] n, OUTGROUP < e.1 := by
    intro e he
    rcases mem_peerFragments he with h | ⟨i, _, _, rfl⟩
    · simp at h
    · show (-1 : Int) < (i : Int)
      omega
  have hsorted : KeysSorted (peerFragments test stack ([] : RegionVecMap D) n) :=
    keysSorted_peerFragments test stack List.Pairwise.nil n
  rw [RegionVecMap.insert_front _ hkeys]
  have hM : KeysSorted ((OUTGROUP, List.replicate (G + 1)
      (subtractPeerFragments (peerFragments test stack [] n) s)) ::
      peerFragments test stack [] n) := List.pairwise_cons.2 ⟨hkeys, hsorted⟩
  rw [peerFragments_eq_self test stack hM n, subtractPeerFragments_outgroup_cons]
  · simp only [RegionVecMap.insert, lt_irrefl, if_false, if_true]
  · intro i hi hti
    rw [RegionVecMap.lookup_cons_ne _ (by unfold OUTGROUP; omega), lookup_peerFragments,
      if_pos ⟨hi, hti⟩]

/-- C14: `resetGhostZones` is idempotent: on the state reached by `resetRegions` followed by
`resetGhostZones(boxes)`, a second call `resetGhostZones(boxes)` leaves every member of the
manager unchanged (fragment maps with the `OUTGROUP` stacks, bounding boxes, region cache,
rims, inner sets, outer rim, volatile kernel and inner rim). -/
theorem resetGhostZones_idempotent (T : Topology D) (pm0 : PartitionManager D)
    (sa : CoordBox D) (part : Partition D) (me G : Nat) (boxes : List (CoordBox D)) :
    resetGhostZones T (resetGhostZones T (resetRegions T pm0 sa part me G) boxes) boxes =
      resetGhostZones T (resetRegions T pm0 sa part me G) boxes := by
  obtain ⟨R, ok, e⟩ := afterReset_eq T pm0 sa part me G boxes
  -- the region cache after the first call
  have hc1 := resetGhostZones_cache T (resetRegions T pm0 sa part me G) boxes
  have hx : (resetRegions T pm0 sa part me G).ownExpandedRegion =
      expandSteps sa.dimensions T G (part.getRegion me) := by
    rw [resetRegions_eq]
    simp only [ownExpandedRegion, RegionVecMap.get, RegionVecMap.lookup, if_true,
      Option.getD_some, vecBack_regionStack]
  rw [hx, e] at hc1
  rw [resetRegions_eq] at hc1
  dsimp only at hc1
  have hme : (R.lookup (me : Int)).isSome = true := by
    apply hc1.1
    simp [RegionVecMap.lookup]
  have hstack : R.get (me : Int) = regionStack sa.dimensions T G (part.getRegion me) := by
    cases hl : R.lookup (me : Int) with
    | none => rw [hl] at hme; exact absurd hme (by simp)
    | some st => rw [RegionVecMap.get, hl, Option.getD_some, ok me st hl]
  -- the second call
  have hok : StacksOK T (resetGhostZones T (resetRegions T pm0 sa part me G) boxes).partition
      (resetGhostZones T (resetRegions T pm0 sa part me G) boxes).simulationArea.dimensions
      (resetGhostZones T (resetRegions T pm0 sa part me G) boxes).ghostZoneWidth
      (resetGhostZones T (resetRegions T pm0 sa part me G) boxes).regions := by
    rw [e]
    exact ok
  obtain ⟨R2, _, e2⟩ := resetGhostZones_eq T
    (resetGhostZones T (resetRegions T pm0 sa part me G) boxes) boxes hok
  have hc2 := resetGhostZones_cache T
    (resetGhostZones T (resetRegions T pm0 sa part me G) boxes) boxes
  rw [e2] at hc2 ⊢
  rw [e] at hc2 ⊢
  have hx2 : ∀ (O I : RegionVecMap D) (bs : List (CoordBox D)),
      ownExpandedRegion
        { partition := part
          simulationArea := sa
          outerRim := expandSteps sa.dimensions T G (part.getRegion me) \ part.getRegion me
          volatileKernel := innerSetOf sa.dimensions T (part.getRegion me) G ∩
            rimOf sa.dimensions T G (part.getRegion me) 0
          innerRim := innerSetOf sa.dimensions T (part.getRegion me) G ∩
            rimOf sa.dimensions T G (part.getRegion me) 0
          regions := R
          outerGhostZoneFragments := O
          innerGhostZoneFragments := I
          ownRims := (List.range (G + 1)).map (rimOf sa.dimensions T G (part.getRegion me))
          ownInnerSets :=
            (List.range (G + 1)).map (innerSetOf sa.dimensions T (part.getRegion me))
          myRank := me
          ghostZoneWidth := G
          boundingBoxes := bs } = expandSteps sa.dimensions T G (part.getRegion me) := by
    intro O I bs
    simp only [ownExpandedRegion, hstack, vecBack_regionStack]
  dsimp only at hc2 ⊢
  simp only [hx2] at hc2 ⊢
  have hR2 : R2 = R := by
    apply hc2.2.2
    rintro m ⟨i, hi, hcond, hm | hm⟩
    · rw [hm]; exact hme
    · rw [hm]; exact hc1.2.1 i ⟨i, hi, hcond, Or.inr rfl⟩
  have h2 : vecAt ((List.range (G + 1)).map (rimOf sa.dimensions T G (part.getRegion me))) G =
      rimOf sa.dimensions T G (part.getRegion me) G := vecAt_map_range _ (Nat.lt_succ_self G)
  rw [hR2, h2]
  unfold outerPeers innerPeers
  rw [fragments_fixed, fragments_fixed]

end PartitionManager

section SlabLemmas

variable {D : Nat}

theorem mem_boxCells_zero {dims c : Coord D} :
    c ∈ boxCells (fun _ => 0) dims ↔ inBounds dims c := by
  unfold boxCells inBounds
  simp only [Fintype.mem_piFinset, Finset.mem_Ico, zero_add]

theorem mem_slab {dims : Coord D} {k : Fin D} {a b : Int} {c : Coord D} :
    c ∈ slab dims k a b ↔ inBounds dims c ∧ a ≤ c k ∧ c k < b := by
  unfold slab
  rw [Finset.mem_filter, mem_boxCells_zero]

theorem inBounds_of_mem_slab {dims : Coord D} {k : Fin D} {a b : Int} :
    ∀ c ∈ slab dims k a b, inBounds dims c :=
  fun _ hc => (mem_slab.1 hc).1

theorem slab_eq_empty {dims : Coord D} {k : Fin D} {a b : Int}
    (h : min b (dims k) ≤ max a 0) : slab dims k a b = ∅ := by
  ext c
  rw [mem_slab]
  simp only [Finset.not_mem_empty, iff_false]
  rintro ⟨hb, h1, h2⟩
  have := hb k
  omega

theorem expand_empty (w : Nat) (dims : Coord D) (T : Topology D) :
    expandWithTopology w dims T ∅ = ∅ := by
  ext c
  rw [mem_expandWithTopology]
  simp

theorem expand_union (w : Nat) (dims : Coord D) (T : Topology D) (A B : Region D) :
    expandWithTopology w dims T (A ∪ B) =
      expandWithTopology w dims T A ∪ expandWithTopology w dims T B := by
  ext y
  simp only [mem_expandWithTopology, Finset.mem_union]
  constructor
  · rintro ⟨hb, c, hc | hc, rest⟩
    · exact Or.inl ⟨hb, c, hc, rest⟩
    · exact Or.inr ⟨hb, c, hc, rest⟩
  · rintro (⟨hb, c, hc, rest⟩ | ⟨hb, c, hc, rest⟩)
    · exact ⟨hb, c, Or.inl hc, rest⟩
    · exact ⟨hb, c, Or.inr hc, rest⟩

theorem expandSteps_empty (w : Nat) (dims : Coord D) (T : Topology D) :
    expandSteps dims T w ∅ = ∅ := by
  induction w with
  | zero => rfl
  | succ w ih => rw [expandSteps_succ, ih, expand_empty]

theorem expandSteps_union (w : Nat) (dims : Coord D) (T : Topology D) (A B : Region D) :
    expandSteps dims T w (A ∪ B) = expandSteps dims T w A ∪ expandSteps dims T w B := by
  induction w with
  | zero => rfl
  | succ w ih => rw [expandSteps_succ, ih, expand_union, ← expandSteps_succ, ← expandSteps_succ]

/-- Expansion of a slab across a non-wrapping axis: the slab grows by the width on both
sides (and stays clipped to the box). -/
theorem expand_slab {dims : Coord D} {T : Topology D} {k : Fin D} {a b : Int} (w : Nat)
    (hk : T.wrapsAxis k = false) (hne : max a 0 < min b (dims k)) :
    expandWithTopology w dims T (slab dims k a b) = slab dims k (a - w) (b + w) := by
  ext y
  rw [mem_expandWithTopology, mem_slab]
  constructor
  · rintro ⟨hyb, c, hc, o, ho, rfl⟩
    obtain ⟨_, h1, h2⟩ := mem_slab.1 hc
    refine ⟨hyb, ?_⟩
    have hok := natAbs_le_manhattanNorm o k
    unfold Topology.normalize
    simp only [hk, Pi.add_apply]
    constructor <;> (simp only [Bool.false_eq_true, if_false]; omega)
  · rintro ⟨hyb, h1, h2⟩
    have hyk := hyb k
    -- the cell of the slab closest to `y`
    obtain ⟨t, ht1, ht2, ht3, ht4, ht5⟩ : ∃ t : Int, a ≤ t ∧ t < b ∧ 0 ≤ t ∧ t < dims k ∧
        (y k - t).natAbs ≤ w := by
      by_cases hlo : y k < a
      · exact ⟨a, le_refl a, by omega, by omega, by omega, by omega⟩
      · by_cases hhi : b ≤ y k
        · exact ⟨b - 1, by omega, by omega, by omega, by omega, by omega⟩
        · exact ⟨y k, by omega, by omega, hyk.1, hyk.2, by simp⟩
    refine ⟨hyb, Function.update y k t, ?_, Function.update 0 k (y k - t), ?_, ?_⟩
    · rw [mem_slab]
      refine ⟨?_, by simp only [Function.update_same]; exact ht1,
        by simp only [Function.update_same]; exact ht2⟩
      intro j
      by_cases hj : j = k
      · subst hj
        simp only [Function.update_same]
        exact ⟨ht3, ht4⟩
      · rw [Function.update_noteq hj]
        exact hyb j
    · rw [manhattanNorm_single]
      exact ht5
    · have hsum : Function.update y k t + Function.update (0 : Coord D) k (y k - t) = y := by
        funext j
        by_cases hj : j = k
        · subst hj
          simp
        · simp [Function.update_noteq hj]
      rw [hsum]
      exact normalize_of_inBounds T hyb

theorem expandSteps_slab {dims : Coord D} {T : Topology D} {k : Fin D} {a b : Int} (w : Nat)
    (hk : T.wrapsAxis k = false) (hne : max a 0 < min b (dims k)) :
    expandSteps dims T w (slab dims k a b) = slab dims k (a - w) (b + w) := by
  rw [← expand_eq_expandSteps T w inBounds_of_mem_slab, expand_slab w hk hne]

end SlabLemmas

section StripeGeometry

variable {D : Nat}

/-- Members of the expansion of a slab across a non-wrapping axis, the empty slab
included. -/
theorem mem_expand_slab {dims : Coord D} {T : Topology D} {k : Fin D} {a b : Int} (w : Nat)
    (hk : T.wrapsAxis k = false) {c : Coord D} :
    c ∈ expandWithTopology w dims T (slab dims k a b) ↔
      inBounds dims c ∧ max a 0 < min b (dims k) ∧ a - w ≤ c k ∧ c k < b + w := by
  by_cases hne : max a 0 < min b (dims k)
  · rw [expand_slab w hk hne, mem_slab]
    tauto
  · rw [slab_eq_empty (not_lt.1 hne), expand_empty]
    simp only [Finset.not_mem_empty, false_iff]
    tauto

theorem mem_expandSteps_slab {dims : Coord D} {T : Topology D} {k : Fin D} {a b : Int}
    (w : Nat) (hk : T.wrapsAxis k = false) {c : Coord D} :
    c ∈ expandSteps dims T w (slab dims k a b) ↔
      inBounds dims c ∧ max a 0 < min b (dims k) ∧ a - w ≤ c k ∧ c k < b + w := by
  rw [← expand_eq_expandSteps T w inBounds_of_mem_slab, mem_expand_slab w hk]

/-- The surface of a slab across a non-wrapping axis: the layer before it and the layer
after it, as far as the box has them. -/
theorem surfaceOf_slab {dims : Coord D} {T : Topology D} {k : Fin D} {s e : Int}
    (hk : T.wrapsAxis k = false) (hs : 0 ≤ s) (hse : s < e) (he : e ≤ dims k) :
    surfaceOf dims T (slab dims k s e) = slab dims k (s - 1) s ∪ slab dims k e (e + 1) := by
  ext c
  unfold surfaceOf
  rw [Finset.mem_sdiff, mem_expand_slab 1 hk, Finset.mem_union, mem_slab, mem_slab, mem_slab]
  constructor
  · rintro ⟨⟨hb, _, h1, h2⟩, hn⟩
    by_cases hc : c k < s
    · exact Or.inl ⟨hb, by push_cast at h1; omega, hc⟩
    · refine Or.inr ⟨hb, ?_, by push_cast at h2; omega⟩
      by_contra hlt
      exact hn ⟨hb, by omega, by omega⟩
  · rintro (⟨hb, h1, h2⟩ | ⟨hb, h1, h2⟩)
    · exact ⟨⟨hb, by omega, by push_cast; omega, by push_cast; omega⟩, fun h => by omega⟩
    · exact ⟨⟨hb, by omega, by push_cast; omega, by push_cast; omega⟩, fun h => by omega⟩

theorem mem_expand_surface_slab {dims : Coord D} {T : Topology D} {k : Fin D} {s e : Int}
    (w : Nat) (hk : T.wrapsAxis k = false) (hs : 0 ≤ s) (hse : s < e) (he : e ≤ dims k)
    {c : Coord D} :
    c ∈ expandWithTopology w dims T (surfaceOf dims T (slab dims k s e)) ↔
      inBounds dims c ∧ ((1 ≤ s ∧ s - 1 - w ≤ c k ∧ c k < s + w) ∨
        (e < dims k ∧ e - w ≤ c k ∧ c k < e + 1 + w)) := by
  rw [surfaceOf_slab hk hs hse he, expand_union, Finset.mem_union, mem_expand_slab w hk,
    mem_expand_slab w hk]
  constructor
  · rintro (⟨hb, h0, h1, h2⟩ | ⟨hb, h0, h1, h2⟩)
    · exact ⟨hb, Or.inl ⟨by omega, h1, h2⟩⟩
    · exact ⟨hb, Or.inr ⟨by omega, h1, h2⟩⟩
  · rintro ⟨hb, ⟨h0, h1, h2⟩ | ⟨h0, h1, h2⟩⟩
    · exact Or.inl ⟨hb, by omega, h1, h2⟩
    · exact Or.inr ⟨hb, by omega, h1, h2⟩

theorem mem_expandSteps_surface_slab {dims : Coord D} {T : Topology D} {k : Fin D}
    {s e : Int} (w : Nat) (hk : T.wrapsAxis k = false) (hs : 0 ≤ s) (hse : s < e)
    (he : e ≤ dims k) {c : Coord D} :
    c ∈ expandSteps dims T w (surfaceOf dims T (slab dims k s e)) ↔
      inBounds dims c ∧ ((1 ≤ s ∧ s - 1 - w ≤ c k ∧ c k < s + w) ∨
        (e < dims k ∧ e - w ≤ c k ∧ c k < e + 1 + w)) := by
  have hbox : ∀ c ∈ surfaceOf dims T (slab dims k s e), inBounds dims c := by
    intro c hc
    unfold surfaceOf at hc
    exact inBounds_of_mem_expand (Finset.mem_sdiff.1 hc).1
  rw [← expand_eq_expandSteps T w hbox, mem_expand_surface_slab w hk hs hse he]

/-- The rim of width `G` of a slab: the `G` layers at its start and the `G` layers at its
end, as far as the box goes on beyond them. -/
theorem rimOf_self_slab {dims : Coord D} {T : Topology D} {k : Fin D} {s e : Int} (G : Nat)
    (hk : T.wrapsAxis k = false) (hs : 0 ≤ s) (hse : s < e) (he : e ≤ dims k) :
    rimOf dims T G (slab dims k s e) G =
      (if 1 ≤ s then slab dims k s (min (s + G) e) else ∅) ∪
        (if e < dims k then slab dims k (max (e - G) s) e else ∅) := by
  ext c
  rw [rimOf_self, Finset.mem_inter, mem_expand_surface_slab G hk hs hse he, mem_slab,
    Finset.mem_union]
  constructor
  · rintro ⟨⟨hb, h1, h2⟩, _, ⟨h3, h4, h5⟩ | ⟨h3, h4, h5⟩⟩
    · left
      rw [if_pos h3, mem_slab]
      exact ⟨hb, h1, by omega⟩
    · right
      rw [if_pos h3, mem_slab]
      exact ⟨hb, by omega, h2⟩
  · rintro (h | h)
    · by_cases h3 : 1 ≤ s
      · rw [if_pos h3, mem_slab] at h
        exact ⟨⟨h.1, h.2.1, by omega⟩, h.1, Or.inl ⟨h3, by omega, by omega⟩⟩
      · rw [if_neg h3] at h
        exact absurd h (Finset.not_mem_empty c)
    · by_cases h3 : e < dims k
      · rw [if_pos h3, mem_slab] at h
        exact ⟨⟨h.1, by omega, h.2.2⟩, h.1, Or.inr ⟨h3, by omega, by omega⟩⟩
      · rw [if_neg h3] at h
        exact absurd h (Finset.not_mem_empty c)

/-- Members of `rim(i)` of a slab of at least `G ≥ 1` layers. -/
theorem mem_rimOf_slab {dims : Coord D} {T : Topology D} {k : Fin D} {s e : Int} {G i : Nat}
    (hk : T.wrapsAxis k = false) (hs : 0 ≤ s) (hG : 1 ≤ G) (hse : s + G ≤ e) (he : e ≤ dims k)
    (hi : i ≤ G) {c : Coord D} :
    c ∈ rimOf dims T G (slab dims k s e) i ↔
      inBounds dims c ∧ ((1 ≤ s ∧ s - (G - i) ≤ c k ∧ c k < s + G + (G - i)) ∨
        (e < dims k ∧ e - G - (G - i) ≤ c k ∧ c k < e + (G - i))) := by
  have hrim : rimOf dims T G (slab dims k s e) i =
      expandSteps dims T (G - i) (rimOf dims T G (slab dims k s e) G) := by
    unfold rimOf
    rw [Nat.sub_self, expandSteps_zero]
  rw [hrim, rimOf_self_slab G hk hs (by omega) he, expandSteps_union, Finset.mem_union]
  have hcast : ((G - i : Nat) : Int) = (G : Int) - (i : Int) := by omega
  constructor
  · rintro (h | h)
    · by_cases h3 : 1 ≤ s
      · rw [if_pos h3, mem_expandSteps_slab _ hk] at h
        obtain ⟨hb, _, h1, h2⟩ := h
        exact ⟨hb, Or.inl ⟨h3, by omega, by omega⟩⟩
      · rw [if_neg h3, expandSteps_empty] at h
        exact absurd h (Finset.not_mem_empty c)
    · by_cases h3 : e < dims k
      · rw [if_pos h3, mem_expandSteps_slab _ hk] at h
        obtain ⟨hb, _, h1, h2⟩ := h
        exact ⟨hb, Or.inr ⟨h3, by omega, by omega⟩⟩
      · rw [if_neg h3, expandSteps_empty] at h
        exact absurd h (Finset.not_mem_empty c)
  · rintro ⟨hb, ⟨h3, h1, h2⟩ | ⟨h3, h1, h2⟩⟩
    · left
      rw [if_pos h3, mem_expandSteps_slab _ hk]
      exact ⟨hb, by omega, by omega, by omega⟩
    · right
      rw [if_pos h3, mem_expandSteps_slab _ hk]
      exact ⟨hb, by omega, by omega, by omega⟩

/-- Members of `innerSet(d)` of a slab: `d` layers are taken off at each end beyond which
the box goes on. -/
theorem mem_innerSetOf_slab {dims : Coord D} {T : Topology D} {k : Fin D} {s e : Int}
    (d : Nat) (hk : T.wrapsAxis k = false) (hs : 0 ≤ s) (hse : s < e) (he : e ≤ dims k)
    {c : Coord D} :
    c ∈ innerSetOf dims T (slab dims k s e) d ↔
      inBounds dims c ∧ s ≤ c k ∧ c k < e ∧ (1 ≤ s → s + d ≤ c k) ∧
        (e < dims k → c k < e - d) := by
  rw [mem_innerSetOf, mem_slab]
  constructor
  · rintro ⟨⟨hb, h1, h2⟩, hfree⟩
    refine ⟨hb, h1, h2, ?_, ?_⟩
    · intro h3
      by_contra hlt
      have hd : 1 ≤ d := by omega
      exact hfree d hd (le_refl d)
        ((mem_expandSteps_surface_slab d hk hs hse he).2 ⟨hb, Or.inl ⟨h3, by omega, by omega⟩⟩)
    · intro h3
      by_contra hlt
      have hd : 1 ≤ d := by omega
      exact hfree d hd (le_refl d)
        ((mem_expandSteps_surface_slab d hk hs hse he).2 ⟨hb, Or.inr ⟨h3, by omega, by omega⟩⟩)
  · rintro ⟨hb, h1, h2, h3, h4⟩
    refine ⟨⟨hb, h1, h2⟩, ?_⟩
    intro j hj1 hj2 hmem
    rcases (mem_expandSteps_surface_slab j hk hs hse he).1 hmem with ⟨_, ⟨h5, h6, h7⟩ | ⟨h5, h6, h7⟩⟩
    · have := h3 h5
      omega
    · have := h4 h5
      omega

end StripeGeometry

section RowLemmas

theorem mem_rows {W H a b : Int} {c : Coord 2} :
    c ∈ rows W H a b ↔ inBounds ![W, H] c ∧ a ≤ c 1 ∧ c 1 < b := by
  unfold rows
  exact mem_slab

/-- With ghost zone width 0 the rim is empty: the surface has no cell of the region. -/
theorem rimOf_zero_zero {D : Nat} (dims : Coord D) (T : Topology D) (own : Region D) :
    rimOf dims T 0 own 0 = ∅ := by
  have hbox : ∀ c ∈ surfaceOf dims T own, inBounds dims c := by
    intro c hc
    unfold surfaceOf at hc
    exact inBounds_of_mem_expand (Finset.mem_sdiff.1 hc).1
  rw [rimOf_self, expand_eq_expandSteps T 0 hbox, expandSteps_zero]
  unfold surfaceOf
  ext c
  simp only [Finset.mem_inter, Finset.mem_sdiff, Finset.not_mem_empty, iff_false]
  tauto

end RowLemmas

namespace PartitionManager

/-- C18: in a non-wrapping 2-D box of width `W` and height `H`, for a rank that owns the
full rows `[s, e)` with `G ≤ s`, `s + 2G ≤ e` and `e ≤ H`, after `resetRegions` with ghost
zone width `G` and for every `i ≤ G`: when the stripe ends at the box border (`e = H`),
`rim(i)` is the rows `[s - G + i, s + 2G - i)`; when it does not (`e < H`), `rim(i)` is these
rows united with the rows `[e - 2G + i, e + G - i)`. -/
theorem rim_rows (pm0 : PartitionManager 2) (o : Coord 2) (part : Partition 2)
    (me G i : Nat) (W H s e : Int)
    (hown : part.getRegion me = rows W H s e) (hs : (G : Int) ≤ s) (hlen : s + 2 * G ≤ e)
    (he : e ≤ H) (hi : i ≤ G) :
    (e = H → (resetRegions (Topology.cube 2) pm0 ⟨o, ![W, H]⟩ part me G).rim i =
      rows W H (s - G + i) (s + 2 * G - i)) ∧
    (e < H → (resetRegions (Topology.cube 2) pm0 ⟨o, ![W, H]⟩ part me G).rim i =
      rows W H (s - G + i) (s + 2 * G - i) ∪ rows W H (e - 2 * G + i) (e + G - i)) := by
  rw [rim_resetRegions _ _ _ _ _ _ hi, hown]
  rcases Nat.eq_zero_or_pos G with hG | hG
  · subst hG
    have hi0 : i = 0 := by omega
    subst hi0
    rw [rimOf_zero_zero]
    constructor
    · intro _
      ext c
      simp only [Finset.not_mem_empty, false_iff, mem_rows]
      omega
    · intro _
      ext c
      simp only [Finset.not_mem_empty, false_iff, mem_rows, Finset.mem_union]
      omega
  · have hH : (![W, H] : Coord 2) 1 = H := rfl
    have hmem : ∀ c : Coord 2, c ∈ rimOf ![W, H] (Topology.cube 2) G (rows W H s e) i ↔
        inBounds ![W, H] c ∧ ((1 ≤ s ∧ s - (G - i) ≤ c 1 ∧ c 1 < s + G + (G - i)) ∨
          (e < H ∧ e - G - (G - i) ≤ c 1 ∧ c 1 < e + (G - i))) := by
      intro c
      have h := @mem_rimOf_slab 2 ![W, H] (Topology.cube 2) 1 s e G i rfl (by omega) hG
        (by omega) he hi c
      rw [hH] at h
      exact h
    constructor
    · intro heH
      ext c
      rw [hmem, mem_rows]
      constructor
      · rintro ⟨hb, ⟨_, h1, h2⟩ | ⟨h0, _, _⟩⟩
        · exact ⟨hb, by omega, by omega⟩
        · omega
      · rintro ⟨hb, h1, h2⟩
        exact ⟨hb, Or.inl ⟨by omega, by omega, by omega⟩⟩
    · intro heH
      ext c
      rw [hmem, Finset.mem_union, mem_rows, mem_rows]
      constructor
      · rintro ⟨hb, ⟨_, h1, h2⟩ | ⟨_, h1, h2⟩⟩
        · exact Or.inl ⟨hb, by omega, by omega⟩
        · exact Or.inr ⟨hb, by omega, by omega⟩
      · rintro (⟨hb, h1, h2⟩ | ⟨hb, h1, h2⟩)
        · exact ⟨hb, Or.inl ⟨by omega, by omega, by omega⟩⟩
        · exact ⟨hb, Or.inr ⟨heH, by omega, by omega⟩⟩

/-- C19: in a non-wrapping 2-D box of width `W` and height `H`, for a rank that owns the
full rows `[s, e)` with `G ≤ s`, `s + 2G ≤ e` and `e ≤ H`, after `resetRegions` with ghost
zone width `G` and for every `i ≤ G`: `innerSet(i)` is the rows `[s + i, e - i)` when the
stripe ends inside the box (`e < H`) and the rows `[s + i, e)` for the last rank
(`e = H`). -/
theorem innerSet_rows (pm0 : PartitionManager 2) (o : Coord 2) (part : Partition 2)
    (me G i : Nat) (W H s e : Int)
    (hown : part.getRegion me = rows W H s e) (hs : (G : Int) ≤ s) (hlen : s + 2 * G ≤ e)
    (he : e ≤ H) (hi : i ≤ G) :
    (e < H → (resetRegions (Topology.cube 2) pm0 ⟨o, ![W, H]⟩ part me G).innerSet i =
      rows W H (s + i) (e - i)) ∧
    (e = H → (resetRegions (Topology.cube 2) pm0 ⟨o, ![W, H]⟩ part me G).innerSet i =
      rows W H (s + i) e) := by
  rw [innerSet_resetRegions _ _ _ _ _ _ hi, hown]
  rcases Nat.eq_zero_or_pos i with hi0 | hi0
  · subst hi0
    simp [innerSetOf]
  · have hH : (![W, H] : Coord 2) 1 = H := rfl
    have hmem : ∀ c : Coord 2, c ∈ innerSetOf ![W, H] (Topology.cube 2) (rows W H s e) i ↔
        inBounds ![W, H] c ∧ s ≤ c 1 ∧ c 1 < e ∧ (1 ≤ s → s + i ≤ c 1) ∧
          (e < H → c 1 < e - i) := by
      intro c
      have h := @mem_innerSetOf_slab 2 ![W, H] (Topology.cube 2) 1 s e i rfl (by omega)
        (by omega) he c
      rw [hH] at h
      exact h
    constructor
    · intro heH
      ext c
      rw [hmem, mem_rows]
      constructor
      · rintro ⟨hb, h1, h2, h3, h4⟩
        have := h3 (by omega)
        have := h4 heH
        exact ⟨hb, by omega, by omega⟩
      · rintro ⟨hb, h1, h2⟩
        exact ⟨hb, by omega, by omega, fun _ => h1, fun _ => h2⟩
    · intro heH
      ext c
      rw [hmem, mem_rows]
      constructor
      · rintro ⟨hb, h1, h2, h3, h4⟩
        have := h3 (by omega)
        exact ⟨hb, by omega, by omega⟩
      · rintro ⟨hb, h1, h2⟩
        exact ⟨hb, by omega, by omega, fun _ => h1, fun h => by omega⟩

end PartitionManager

section StripingLemmas

theorem linearIndex_two (W H : Int) (c : Coord 2) :
    linearIndex ![W, H] c = c 0 + c 1 * W := by
  unfold linearIndex
  rw [Fin.sum_univ_two]
  have h0 : (Finset.univ.filter (fun b : Fin 2 => b < 0)) = ∅ := by decide
  have h1 : (Finset.univ.filter (fun b : Fin 2 => b < 1)) = {0} := by decide
  rw [h0, h1]
  simp

theorem mem_stripingPartition {D : Nat} {dimensions : Coord D} {offset : Nat}
    {weights : List Nat} {node : Nat} {c : Coord D} :
    c ∈ (stripingPartition (fun _ => 0) dimensions offset weights).getRegion node ↔
      inBounds dimensions c ∧
        ((offset + (weights.take node).sum : Nat) : Int) ≤ linearIndex dimensions c ∧
        linearIndex dimensions c < ((offset + (weights.take (node + 1)).sum : Nat) : Int) := by
  unfold stripingPartition
  simp only [Finset.mem_filter, mem_boxCells_zero]
  have hc : c - (fun _ => (0 : Int)) = c := by
    funext a
    simp
  rw [hc]

/-- A stripe of a 2-D striping partition whose bounds are multiples of the width is a span
of full rows. -/
theorem stripingPartition_rows (W H : Int) (offset : Nat) (weights : List Nat) (node : Nat)
    (a b : Int) (hW : 0 < W)
    (ha : ((offset + (weights.take node).sum : Nat) : Int) = W * a)
    (hb : ((offset + (weights.take (node + 1)).sum : Nat) : Int) = W * b) :
    (stripingPartition (fun _ => 0) ![W, H] offset weights).getRegion node = rows W H a b := by
  ext c
  rw [mem_stripingPartition, mem_rows, ha, hb, linearIndex_two]
  constructor
  · rintro ⟨hbox, h1, h2⟩
    have hx := hbox 0
    simp only [Matrix.cons_val_zero] at hx
    refine ⟨hbox, ?_, ?_⟩
    · by_contra hlt
      have : W * (c 1 + 1) ≤ W * a := mul_le_mul_of_nonneg_left (by omega) hW.le
      nlinarith
    · by_contra hlt
      have : W * b ≤ W * c 1 := mul_le_mul_of_nonneg_left (by omega) hW.le
      nlinarith
  · rintro ⟨hbox, h1, h2⟩
    have hx := hbox 0
    simp only [Matrix.cons_val_zero] at hx
    refine ⟨hbox, ?_, ?_⟩
    · have : W * a ≤ W * c 1 := mul_le_mul_of_nonneg_left h1 hW.le
      nlinarith
    · have : W * (c 1 + 1) ≤ W * b := mul_le_mul_of_nonneg_left (by omega) hW.le
      nlinarith

end StripingLemmas

section EmptyRegionLemmas

variable {D : Nat}

theorem innerSetOf_empty (dims : Coord D) (T : Topology D) (d : Nat) :
    innerSetOf dims T ∅ d = ∅ := by
  induction d with
  | zero => rfl
  | succ d ih => simp only [innerSetOf, ih, Finset.empty_sdiff]

theorem rimOf_empty (dims : Coord D) (T : Topology D) (G d : Nat) :
    rimOf dims T G ∅ d = ∅ := by
  unfold rimOf
  rw [Finset.empty_sdiff, expandSteps_empty]

theorem vecAt_eq_empty {v : List (Region D)} (h : ∀ x ∈ v, x = ∅) (w : Nat) :
    vecAt v w = ∅ := by
  unfold vecAt
  rw [List.getD_eq_getElem?_getD]
  cases hx : v[w]? with
  | none => rfl
  | some x => exact h x (List.getElem?_mem hx)

theorem sum_take_singleton_zero (k : Nat) : (List.take k [0]).sum = 0 := by
  cases k with
  | zero => rfl
  | succ k => simp

/-- A striping partition with the single weight 0 gives every node the empty region. -/
theorem stripingPartition_zero_weight (origin dimensions : Coord D) (node : Nat) :
    (stripingPartition origin dimensions 0 [0]).getRegion node = ∅ := by
  unfold stripingPartition
  simp only [sum_take_singleton_zero]
  ext c
  simp only [Finset.mem_filter, Finset.not_mem_empty, iff_false]
  omega

end EmptyRegionLemmas

namespace PartitionManager

variable {D : Nat}

theorem volatileKernel_resetRegions (T : Topology D) (pm0 : PartitionManager D)
    (sa : CoordBox D) (part : Partition D) (me G : Nat) :
    (resetRegions T pm0 sa part me G).getVolatileKernel =
      innerSetOf sa.dimensions T (part.getRegion me) G ∩
        rimOf sa.dimensions T G (part.getRegion me) 0 := by
  rw [resetRegions_eq]
  rfl

/-- The volatile kernel of a rank that owns the full rows `[s, e)` with `1 ≤ G ≤ s`,
`s + 3G ≤ e` and `e < H`: the `G` rows after the first `G` rows of the stripe and the `G`
rows before its last `G` rows. -/
theorem volatileKernel_rows_closed (pm0 : PartitionManager 2) (o : Coord 2)
    (part : Partition 2) (me G : Nat) (W H s e : Int)
    (hown : part.getRegion me = rows W H s e) (hG : 1 ≤ G) (hs : (G : Int) ≤ s)
    (hlen : s + 3 * G ≤ e) (he : e < H) :
    (resetRegions (Topology.cube 2) pm0 ⟨o, ![W, H]⟩ part me G).getVolatileKernel =
      rows W H (s + G) (s + 2 * G) ∪ rows W H (e - 2 * G) (e - G) := by
  rw [volatileKernel_resetRegions, hown]
  have hH : (![W, H] : Coord 2) 1 = H := rfl
  ext c
  have h1 := @mem_rimOf_slab 2 ![W, H] (Topology.cube 2) 1 s e G 0 rfl (by omega) hG
    (by omega) (le_of_lt he) (Nat.zero_le G) c
  have h2 := @mem_innerSetOf_slab 2 ![W, H] (Topology.cube 2) 1 s e G rfl (by omega)
    (by omega) (le_of_lt he) c
  rw [hH] at h1 h2
  rw [Finset.mem_inter, Finset.mem_union, mem_rows, mem_rows]
  unfold rows
  rw [h1, h2]
  constructor
  · rintro ⟨⟨hb, _, _, h3, h4⟩, _, ⟨_, _, h5⟩ | ⟨_, h5, _⟩⟩
    · have := h3 (by omega)
      exact Or.inl ⟨hb, by omega, by omega⟩
    · have := h4 he
      exact Or.inr ⟨hb, by omega, by omega⟩
  · rintro (⟨hb, h3, h4⟩ | ⟨hb, h3, h4⟩)
    · exact ⟨⟨hb, by omega, by omega, fun _ => by omega, fun _ => by omega⟩, hb,
        Or.inl ⟨by omega, by omega, by omega⟩⟩
    · exact ⟨⟨hb, by omega, by omega, fun _ => by omega, fun _ => by omega⟩, hb,
        Or.inr ⟨he, by omega, by omega⟩⟩

/-- The state the constructor builds over a box without cells. -/
theorem construct_of_size_zero (T : Topology D) (sa : CoordBox D) (hempty : sa.size = 0) :
    ∃ pm : PartitionManager D, construct T sa = Except.ok pm ∧
      pm.getGhostZoneWidth = 1 ∧ pm.myRank = 0 ∧
      pm.ownRims.length = 2 ∧ pm.ownInnerSets.length = 2 ∧
      (∀ w, pm.ownRegion w = ∅ ∧ pm.rim w = ∅ ∧ pm.innerSet w = ∅) ∧
      pm.getOuterRim = ∅ ∧ pm.getVolatileKernel = ∅ ∧ pm.getInnerRim = ∅ ∧
      pm.getOuterGhostZoneFragments = [(OUTGROUP, [∅, ∅])] ∧
      pm.getInnerGhostZoneFragments = [(OUTGROUP, [∅, ∅])] := by
  refine ⟨_, rfl, ?_⟩
  dsimp only
  rw [hempty]
  obtain ⟨R, ok, e⟩ := afterReset_eq T (fresh D) sa
    (stripingPartition (fun _ => 0) sa.dimensions 0 [0]) 0 1 [⟨fun _ => 0, fun _ => 0⟩]
  rw [e]
  have hown : (stripingPartition (fun _ => 0) sa.dimensions 0 [0]).getRegion 0 = ∅ :=
    stripingPartition_zero_weight _ _ 0
  have hO : outerPeers T (stripingPartition (fun _ => 0) sa.dimensions 0 [0]) sa 1 0
      [⟨fun _ => 0, fun _ => 0⟩] = [] := by
    unfold outerPeers
    simp [peerFragments, sharesGhostZone]
  have hI : innerPeers T (stripingPartition (fun _ => 0) sa.dimensions 0 [0]) sa 1 0
      [⟨fun _ => 0, fun _ => 0⟩] = [] := by
    unfold innerPeers
    simp [peerFragments, sharesGhostZone]
  simp only [getGhostZoneWidth, ownRegion, rim, innerSet, getOuterRim, getVolatileKernel,
    getInnerRim, getOuterGhostZoneFragments, getInnerGhostZoneFragments, hown, hO, hI,
    expandSteps_empty, Finset.empty_sdiff, innerSetOf_empty, rimOf_empty, Finset.inter_empty,
    List.length_map, List.length_range, subtractPeerFragments, List.foldl_nil,
    RegionVecMap.insert, true_and]
  have hvec : ∀ (f : Nat → Region D) (n w : Nat), (∀ j, f j = ∅) →
      vecAt ((List.range n).map f) w = ∅ := by
    intro f n w hf
    apply vecAt_eq_empty
    intro x hx
    obtain ⟨j, _, hj⟩ := List.mem_map.1 hx
    rw [← hj, hf j]
  refine ⟨?_, rfl, rfl⟩
  intro w
  refine ⟨?_, ?_, ?_⟩
  · cases hl : R.lookup ((0 : Nat) : Int) with
    | none =>
      simp only [RegionVecMap.get, hl]
      rfl
    | some st =>
      have hst := ok 0 st hl
      rw [hown] at hst
      simp only [RegionVecMap.get, hl, Option.getD_some, hst, regionStack]
      exact hvec _ _ _ (fun j => expandSteps_empty _ _ _)
  · exact hvec _ _ _ (fun j => rimOf_empty _ _ _ j)
  · exact hvec _ _ _ (fun j => innerSetOf_empty _ _ j)

/-- C15 (amended): over a simulation box without cells the constructor reports no error; it
returns a manager for rank 0 with ghost zone width 1 whose rim and inner set stacks have two
entries, whose own region, rims, inner sets, outer rim, volatile kernel and inner rim are
empty and whose fragment maps hold only the `OUTGROUP` key with empty fragments. -/
theorem construct_empty_box (T : Topology D) (sa : CoordBox D) (hempty : sa.size = 0) :
    ∃ pm : PartitionManager D, construct T sa = Except.ok pm ∧
      pm.getGhostZoneWidth = 1 ∧ pm.myRank = 0 ∧
      pm.ownRims.length = 2 ∧ pm.ownInnerSets.length = 2 ∧
      (∀ w, pm.ownRegion w = ∅ ∧ pm.rim w = ∅ ∧ pm.innerSet w = ∅) ∧
      pm.getOuterRim = ∅ ∧ pm.getVolatileKernel = ∅ ∧ pm.getInnerRim = ∅ ∧
      pm.getOuterGhostZoneFragments = [(OUTGROUP, [∅, ∅])] ∧
      pm.getInnerGhostZoneFragments = [(OUTGROUP, [∅, ∅])] :=
  construct_of_size_zero T sa hempty

end PartitionManager

section BoundingBoxLemmas

variable {D : Nat}

/-- A cell of a region lies in the bounding box of the region. -/
theorem mem_boundingBox {A : Region D} {c : Coord D} (hA : c ∈ A) (a : Fin D) :
    (boundingBox A).origin a ≤ c a ∧
      c a < (boundingBox A).origin a + (boundingBox A).dimensions a := by
  have hAne : A.Nonempty := ⟨c, hA⟩
  have hm : c a ∈ A.image (fun c => c a) := Finset.mem_image_of_mem (fun c => c a) hA
  have h1 := Finset.min'_le (A.image (fun c => c a)) (c a) hm
  have h2 := Finset.le_max' (A.image (fun c => c a)) (c a) hm
  unfold boundingBox
  rw [dif_pos hAne]
  dsimp only
  generalize (A.image (fun c => c a)).min' _ = lo at h1 ⊢
  generalize (A.image (fun c => c a)).max' _ = hi at h2 ⊢
  omega

/-- Two regions with a common cell have intersecting bounding boxes. -/
theorem intersects_boundingBox_of_mem {A B : Region D} {c : Coord D} (hA : c ∈ A)
    (hB : c ∈ B) : (boundingBox A).intersects (boundingBox B) = true := by
  unfold CoordBox.intersects
  rw [decide_eq_true_eq]
  intro a
  have h1 := mem_boundingBox hA a
  have h2 := mem_boundingBox hB a
  generalize (boundingBox A).origin a = oA at h1 ⊢
  generalize (boundingBox A).dimensions a = dA at h1 ⊢
  generalize (boundingBox B).origin a = oB at h2 ⊢
  generalize (boundingBox B).dimensions a = dB at h2 ⊢
  rw [max_lt_iff, lt_min_iff, lt_min_iff]
  omega

theorem getD_map_range {α : Type} (f : Nat → α) (d : α) {K i : Nat} (hi : i < K) :
    ((List.range K).map f).getD i d = f i := by
  rw [List.getD_eq_getElem?_getD, List.getElem?_map, List.getElem?_range hi]
  rfl

end BoundingBoxLemmas

section StripedLemmas

variable {D : Nat} {dims : Coord D} {k : Fin D} {part : Partition D} {K G : Nat}
  {s : Nat → Int}

/-- The starts of non-empty stripes ascend. -/
theorem stripes_mono {s : Nat → Int} {K : Nat} (hne : ∀ r, r < K → s r < s (r + 1))
    {i j : Nat} (hij : i ≤ j) (hj : j ≤ K) : s i ≤ s j := by
  induction j with
  | zero =>
    have : i = 0 := by omega
    rw [this]
  | succ j ih =>
    rcases Nat.eq_or_lt_of_le hij with he | hlt
    · rw [he]
    · have h1 := ih (by omega) (by omega)
      have h2 := hne j (by omega)
      omega

theorem Striped.mono (h : Striped dims k part K G s) {i j : Nat} (hij : i ≤ j) (hj : j ≤ K) :
    s i ≤ s j :=
  stripes_mono h.nonempty hij hj

theorem Striped.lower (h : Striped dims k part K G s) {r : Nat} (hr : r ≤ K) : 0 ≤ s r :=
  le_trans h.first (h.mono (Nat.zero_le r) hr)

theorem Striped.upper (h : Striped dims k part K G s) {r : Nat} (hr : r ≤ K) :
    s r ≤ dims k :=
  le_trans (h.mono hr (le_refl K)) h.last

/-- Stripes that are not neighbours are at least `G` layers apart. -/
theorem Striped.gap (h : Striped dims k part K G s) {i j : Nat} (hij : i + 1 < j)
    (hj : j ≤ K) : s (i + 1) + G ≤ s j := by
  have h1 := h.layers (i + 1) (by omega)
  have h2 := h.mono (by omega : i + 1 + 1 ≤ j) hj
  omega

theorem Striped.mem_region (h : Striped dims k part K G s) {r : Nat} (hr : r < K)
    {c : Coord D} :
    c ∈ part.getRegion r ↔ inBounds dims c ∧ s r ≤ c k ∧ c k < s (r + 1) := by
  rw [h.region r hr, mem_slab]

theorem Striped.mem_expandSteps (h : Striped dims k part K G s) {T : Topology D}
    (hk : T.wrapsAxis k = false) {r : Nat} (hr : r < K) (w : Nat) {c : Coord D} :
    c ∈ expandSteps dims T w (part.getRegion r) ↔
      inBounds dims c ∧ s r - w ≤ c k ∧ c k < s (r + 1) + w := by
  rw [h.region r hr, mem_expandSteps_slab w hk]
  have h1 := h.lower (le_of_lt hr)
  have h2 := h.upper (by omega : r + 1 ≤ K)
  have h3 := h.nonempty r hr
  constructor
  · rintro ⟨hb, _, h4, h5⟩
    exact ⟨hb, h4, h5⟩
  · rintro ⟨hb, h4, h5⟩
    exact ⟨hb, by omega, h4, h5⟩

/-- A cell of the box in layer `x`. -/
theorem Striped.exists_cell (h : Striped dims k part K G s) {x : Int} (h0 : 0 ≤ x)
    (h1 : x < dims k) : ∃ c : Coord D, inBounds dims c ∧ c k = x := by
  refine ⟨Function.update (fun _ => 0) k x, ?_, by simp⟩
  intro a
  by_cases ha : a = k
  · subst ha
    simp only [Function.update_same]
    exact ⟨h0, h1⟩
  · simp only [Function.update_noteq ha]
    exact ⟨le_refl 0, h.positive a⟩

/-- The test of the first loop of `resetGhostZones` on a striped decomposition with
`G ≥ 1`, with the bounding boxes of the ranks' regions: exactly the two neighbours pass. -/
theorem Striped.sharesGhostZone_iff (h : Striped dims k part K G s) {T : Topology D}
    (hk : T.wrapsAxis k = false) (hG : 1 ≤ G) {me i : Nat} (hme : me < K) (hi : i < K) :
    sharesGhostZone T part dims G me
        ((List.range K).map (fun j => boundingBox (part.getRegion j)))
        (boundingBox (expandSteps dims T G (part.getRegion me))) i ↔
      (i + 1 = me ∨ i = me + 1) := by
  unfold sharesGhostZone
  rw [getD_map_range _ _ hi]
  constructor
  · rintro ⟨⟨hne, _⟩, hor⟩
    by_contra hnb
    rcases hor with hor | hor
    · apply hor
      ext c
      simp only [Finset.mem_inter, Finset.not_mem_empty, iff_false, not_and]
      intro h1 h2
      rw [h.mem_expandSteps hk hme G] at h1
      rw [h.mem_region hi] at h2
      rcases Nat.lt_or_gt_of_ne hne with hlt | hgt
      · have := h.gap (by omega : i + 1 < me) (le_of_lt hme)
        omega
      · have := h.gap (by omega : me + 1 < i) (le_of_lt hi)
        have := h.nonempty me hme
        have := h.layers me hme
        have := h.layers (me + 1) (by omega)
        have := h.mono (by omega : me + 1 + 1 ≤ i) (le_of_lt hi)
        omega
    · apply hor
      ext c
      simp only [Finset.mem_inter, Finset.not_mem_empty, iff_false, not_and]
      intro h1 h2
      rw [h.mem_expandSteps hk hi G] at h1
      rw [h.mem_region hme] at h2
      rcases Nat.lt_or_gt_of_ne hne with hlt | hgt
      · have := h.gap (by omega : i + 1 < me) (le_of_lt hme)
        omega
      · have := h.layers me hme
        have := h.layers (me + 1) (by omega)
        have := h.mono (by omega : me + 1 + 1 ≤ i) (le_of_lt hi)
        omega
  · intro hnb
    have hcell : ∃ c, c ∈ expandSteps dims T G (part.getRegion me) ∧ c ∈ part.getRegion i := by
      rcases hnb with hnb | hnb
      · obtain ⟨c, hb, hc⟩ := h.exists_cell (x := s me - 1)
          (by have := h.lower (le_of_lt hi); have := h.nonempty i hi; rw [← hnb]; omega)
          (by have := h.upper (le_of_lt hme); omega)
        refine ⟨c, (h.mem_expandSteps hk hme G).2 ⟨hb, by omega, ?_⟩,
          (h.mem_region hi).2 ⟨hb, ?_, ?_⟩⟩
        · have := h.nonempty me hme
          omega
        · have := h.nonempty i hi
          rw [hnb] at this
          omega
        · rw [hnb]
          omega
      · obtain ⟨c, hb, hc⟩ := h.exists_cell (x := s (me + 1))
          (h.lower (by omega)) (by
            have := h.nonempty i hi
            have := h.upper (by omega : i + 1 ≤ K)
            rw [hnb] at *
            omega)
        refine ⟨c, (h.mem_expandSteps hk hme G).2 ⟨hb, ?_, by omega⟩,
          (h.mem_region hi).2 ⟨hb, ?_, ?_⟩⟩
        · have := h.nonempty me hme
          omega
        · rw [hnb]
          omega
        · have := h.nonempty i hi
          rw [hnb] at this ⊢
          omega
    obtain ⟨c, hc1, hc2⟩ := hcell
    refine ⟨⟨by omega, intersects_boundingBox_of_mem hc2 hc1⟩, Or.inl ?_⟩
    intro hempty
    have : c ∈ expandSteps dims T G (part.getRegion me) ∩ part.getRegion i :=
      Finset.mem_inter.2 ⟨hc1, hc2⟩
    rw [hempty] at this
    exact absurd this (Finset.not_mem_empty c)

end StripedLemmas

section StripedFragments

variable {D : Nat} {k : Fin D} {part : Partition D} {K G : Nat} {s : Nat → Int}
  {T : Topology D} {sa : CoordBox D}

/-- The entries of a fragment map of a striped decomposition after the first loop of
`resetGhostZones`, for any stack function: the two neighbours are recorded, no other
rank is. -/
theorem Striped.lookup_peers (h : Striped sa.dimensions k part K G s)
    (hk : T.wrapsAxis k = false) (hG : 1 ≤ G) {me : Nat} (hme : me < K)
    (stack : Nat → List (Region D)) (i : Nat) :
    (peerFragments
        (sharesGhostZone T part sa.dimensions G me
          ((List.range K).map (fun j => boundingBox (part.getRegion j)))
          (boundingBox (expandSteps sa.dimensions T G (part.getRegion me))))
        stack [] K).lookup (i : Int) =
      if i < K ∧ (i + 1 = me ∨ i = me + 1) then some (stack i) else none := by
  rw [lookup_peerFragments]
  by_cases hi : i < K
  · by_cases hnb : i + 1 = me ∨ i = me + 1
    · rw [if_pos ⟨hi, (h.sharesGhostZone_iff hk hG hme hi).2 hnb⟩, if_pos ⟨hi, hnb⟩]
    · rw [if_neg (fun hc => hnb ((h.sharesGhostZone_iff hk hG hme hi).1 hc.2)),
        if_neg (fun hc => hnb hc.2)]
      rfl
  · rw [if_neg (fun hc => hi hc.1), if_neg (fun hc => hi hc.1)]
    rfl

/-- A property holds for every recorded peer stack of a striped decomposition exactly when
it holds for the stacks of the neighbours. -/
theorem Striped.forall_mem_peers (h : Striped sa.dimensions k part K G s)
    (hk : T.wrapsAxis k = false) (hG : 1 ≤ G) {me : Nat} (hme : me < K)
    (stack : Nat → List (Region D)) (P : List (Region D) → Prop) :
    (∀ e ∈ peerFragments
        (sharesGhostZone T part sa.dimensions G me
          ((List.range K).map (fun j => boundingBox (part.getRegion j)))
          (boundingBox (expandSteps sa.dimensions T G (part.getRegion me))))
        stack [] K, e.1 ≠ OUTGROUP → P e.2) ↔
      ∀ i, i < K → (i + 1 = me ∨ i = me + 1) → P (stack i) := by
  constructor
  · intro hall i hi hnb
    have hl := h.lookup_peers hk hG hme stack i
    rw [if_pos ⟨hi, hnb⟩] at hl
    have hne : ((i : Int), stack i).1 ≠ OUTGROUP := by
      unfold OUTGROUP
      simp only
      omega
    exact hall _ (RegionVecMap.mem_of_lookup hl) hne
  · intro hall e he _
    rcases mem_peerFragments he with he | ⟨i, hi, hti, he⟩
    · simp at he
    · rw [he]
      exact hall i hi ((h.sharesGhostZone_iff hk hG hme hi).1 hti)

/-- Members of the outer fragment of width `w` towards rank `i` on a striped
decomposition. -/
theorem Striped.mem_outerStack (h : Striped sa.dimensions k part K G s)
    (hk : T.wrapsAxis k = false) {me i : Nat} (hme : me < K) (hi : i < K) {w : Nat}
    (hw : w ≤ G) {c : Coord D} :
    c ∈ vecAt (outerStack T part sa.dimensions G me i) w ↔
      inBounds sa.dimensions c ∧ (s me - w ≤ c k ∧ c k < s (me + 1) + w) ∧
        s i ≤ c k ∧ c k < s (i + 1) := by
  unfold outerStack
  rw [vecAt_map_range _ (by omega), Finset.mem_inter, h.mem_expandSteps hk hme w,
    h.mem_region hi]
  tauto

/-- Members of the inner fragment of width `w` towards rank `i` on a striped
decomposition. -/
theorem Striped.mem_innerStack (h : Striped sa.dimensions k part K G s)
    (hk : T.wrapsAxis k = false) {me i : Nat} (hme : me < K) (hi : i < K) {w : Nat}
    (hw : w ≤ G) {c : Coord D} :
    c ∈ vecAt (innerStack T part sa.dimensions G me i) w ↔
      inBounds sa.dimensions c ∧ (s me ≤ c k ∧ c k < s (me + 1)) ∧
        s i - w ≤ c k ∧ c k < s (i + 1) + w := by
  unfold innerStack
  rw [vecAt_map_range _ (by omega), Finset.mem_inter, h.mem_expandSteps hk hi w,
    h.mem_region hme]
  tauto

theorem outerStack_length (T : Topology D) (part : Partition D) (dims : Coord D)
    (G me i : Nat) : (outerStack T part dims G me i).length = G + 1 := by
  unfold outerStack
  rw [List.length_map, List.length_range]

theorem innerStack_length (T : Topology D) (part : Partition D) (dims : Coord D)
    (G me i : Nat) : (innerStack T part dims G me i).length = G + 1 := by
  unfold innerStack
  rw [List.length_map, List.length_range]

theorem vecBack_eq_vecAt {v : List (Region D)} {G : Nat} (hl : v.length = G + 1) :
    vecBack v = vecAt v G := by
  unfold vecBack
  rw [hl, Nat.add_sub_cancel]

/-- Members of the outer `OUTGROUP` fragment of a striped decomposition: the `G` layers
before the first stripe on rank 0 and the `G` layers after the last stripe on the last
rank. -/
theorem Striped.mem_outerOutgroup (h : Striped sa.dimensions k part K G s)
    (hk : T.wrapsAxis k = false) (hG : 1 ≤ G) {me : Nat} (hme : me < K) {c : Coord D} :
    c ∈ PartitionManager.subtractPeerFragments
        (outerPeers T part sa G me ((List.range K).map (fun j => boundingBox (part.getRegion j))))
        (expandSteps sa.dimensions T G (part.getRegion me) \ part.getRegion me) ↔
      inBounds sa.dimensions c ∧ ((me = 0 ∧ s 0 - G ≤ c k ∧ c k < s 0) ∨
        (me + 1 = K ∧ s K ≤ c k ∧ c k < s K + G)) := by
  rw [mem_subtractPeerFragments]
  unfold outerPeers
  rw [List.length_map, List.length_range,
    h.forall_mem_peers hk hG hme _ (fun st => c ∉ vecBack st), Finset.mem_sdiff,
    h.mem_expandSteps hk hme G, h.mem_region hme]
  have hlay := h.layers me hme
  have hne := h.nonempty me hme
  constructor
  · rintro ⟨⟨⟨hb, h1, h2⟩, h3⟩, hall⟩
    refine ⟨hb, ?_⟩
    by_cases hlow : c k < s me
    · left
      rcases Nat.eq_zero_or_pos me with h0 | h0
      · subst h0
        exact ⟨rfl, h1, hlow⟩
      · exfalso
        have hi : me - 1 < K := by omega
        refine hall (me - 1) hi (Or.inl (by omega)) ?_
        rw [vecBack_eq_vecAt (outerStack_length _ _ _ _ _ _),
          h.mem_outerStack hk hme hi (le_refl G)]
        have e1 : me - 1 + 1 = me := by omega
        have := h.layers (me - 1) hi
        rw [e1] at this ⊢
        exact ⟨hb, ⟨h1, h2⟩, by omega, hlow⟩
    · right
      have hup : s (me + 1) ≤ c k := by
        by_contra hlt
        exact h3 ⟨hb, by omega, by omega⟩
      by_cases hK : me + 1 = K
      · subst hK
        exact ⟨rfl, hup, h2⟩
      · exfalso
        have hi : me + 1 < K := by omega
        refine hall (me + 1) hi (Or.inr rfl) ?_
        rw [vecBack_eq_vecAt (outerStack_length _ _ _ _ _ _),
          h.mem_outerStack hk hme hi (le_refl G)]
        have := h.layers (me + 1) hi
        exact ⟨hb, ⟨h1, h2⟩, hup, by omega⟩
  · rintro ⟨hb, ⟨h0, h1, h2⟩ | ⟨h0, h1, h2⟩⟩
    · subst h0
      refine ⟨⟨⟨hb, h1, by omega⟩, fun hc => by omega⟩, ?_⟩
      intro i hi hnb hc
      rw [vecBack_eq_vecAt (outerStack_length _ _ _ _ _ _),
        h.mem_outerStack hk hme hi (le_refl G)] at hc
      have := h.mono (Nat.zero_le i) (le_of_lt hi)
      omega
    · subst h0
      refine ⟨⟨⟨hb, by omega, h2⟩, fun hc => by omega⟩, ?_⟩
      intro i hi hnb hc
      rw [vecBack_eq_vecAt (outerStack_length _ _ _ _ _ _),
        h.mem_outerStack hk hme hi (le_refl G)] at hc
      have := h.mono (by omega : i + 1 ≤ me + 1) (le_refl _)
      omega

/-- Members of the inner `OUTGROUP` fragment of a striped decomposition: the cells of
`rim(G)` that are `G` layers away from every neighbour's stripe. -/
theorem Striped.mem_innerOutgroup (h : Striped sa.dimensions k part K G s)
    (hk : T.wrapsAxis k = false) (hG : 1 ≤ G) {me : Nat} (hme : me < K) {c : Coord D} :
    c ∈ PartitionManager.subtractPeerFragments
        (innerPeers T part sa G me ((List.range K).map (fun j => boundingBox (part.getRegion j))))
        (rimOf sa.dimensions T G (part.getRegion me) G) ↔
      inBounds sa.dimensions c ∧ (s me ≤ c k ∧ c k < s (me + 1)) ∧
        ((1 ≤ s me ∧ c k < s me + G) ∨ (s (me + 1) < sa.dimensions k ∧ s (me + 1) - G ≤ c k)) ∧
        (1 ≤ me → s me + G ≤ c k) ∧ (me + 1 < K → c k < s (me + 1) - G) := by
  rw [mem_subtractPeerFragments]
  unfold innerPeers
  rw [List.length_map, List.length_range,
    h.forall_mem_peers hk hG hme _ (fun st => c ∉ vecBack st), h.region me hme,
    rimOf_self_slab G hk (h.lower (le_of_lt hme)) (h.nonempty me hme)
      (h.upper (by omega : me + 1 ≤ K)), Finset.mem_union]
  have hlay := h.layers me hme
  have hne := h.nonempty me hme
  have hin : ∀ i, i < K → (c ∈ vecBack (innerStack T part sa.dimensions G me i) ↔
      inBounds sa.dimensions c ∧ (s me ≤ c k ∧ c k < s (me + 1)) ∧
        s i - G ≤ c k ∧ c k < s (i + 1) + G) := by
    intro i hi
    rw [vecBack_eq_vecAt (innerStack_length _ _ _ _ _ _),
      h.mem_innerStack hk hme hi (le_refl G)]
  have hrim : (c ∈ (if 1 ≤ s me then slab sa.dimensions k (s me) (min (s me + G) (s (me + 1)))
        else ∅) ∨
      c ∈ (if s (me + 1) < sa.dimensions k then
        slab sa.dimensions k (max (s (me + 1) - G) (s me)) (s (me + 1)) else ∅)) ↔
      inBounds sa.dimensions c ∧ (s me ≤ c k ∧ c k < s (me + 1)) ∧
        ((1 ≤ s me ∧ c k < s me + G) ∨
          (s (me + 1) < sa.dimensions k ∧ s (me + 1) - G ≤ c k)) := by
    constructor
    · rintro (hc | hc)
      · by_cases h1 : 1 ≤ s me
        · rw [if_pos h1, mem_slab] at hc
          exact ⟨hc.1, ⟨hc.2.1, by omega⟩, Or.inl ⟨h1, by omega⟩⟩
        · rw [if_neg h1] at hc
          exact absurd hc (Finset.not_mem_empty c)
      · by_cases h1 : s (me + 1) < sa.dimensions k
        · rw [if_pos h1, mem_slab] at hc
          exact ⟨hc.1, ⟨by omega, hc.2.2⟩, Or.inr ⟨h1, by omega⟩⟩
        · rw [if_neg h1] at hc
          exact absurd hc (Finset.not_mem_empty c)
    · rintro ⟨hb, ⟨h1, h2⟩, ⟨h3, h4⟩ | ⟨h3, h4⟩⟩
      · left
        rw [if_pos h3, mem_slab]
        exact ⟨hb, h1, by omega⟩
      · right
        rw [if_pos h3, mem_slab]
        exact ⟨hb, by omega, h2⟩
  rw [hrim]
  constructor
  · rintro ⟨⟨hb, hown, hor⟩, hall⟩
    refine ⟨hb, hown, hor, ?_, ?_⟩
    · intro h1
      by_contra hlt
      have hi : me - 1 < K := by omega
      refine hall (me - 1) hi (Or.inl (by omega)) ((hin _ hi).2 ⟨hb, hown, ?_⟩)
      have e1 : me - 1 + 1 = me := by omega
      have := h.layers (me - 1) hi
      rw [e1] at this ⊢
      omega
    · intro h1
      by_contra hlt
      refine hall (me + 1) h1 (Or.inr rfl) ((hin _ h1).2 ⟨hb, hown, ?_⟩)
      have := h.layers (me + 1) h1
      omega
  · rintro ⟨hb, hown, hor, h1, h2⟩
    refine ⟨⟨hb, hown, hor⟩, ?_⟩
    intro i hi hnb hc
    rw [hin i hi] at hc
    rcases hnb with hnb | hnb
    · have := h1 (by omega)
      rw [hnb] at hc
      omega
    · have := h2 (by omega)
      rw [hnb] at hc
      omega

end StripedFragments

namespace PartitionManager

variable {D : Nat}

theorem outerOutgroup_afterReset (T : Topology D) (pm0 : PartitionManager D)
    (sa : CoordBox D) (part : Partition D) (me G : Nat) (boxes : List (CoordBox D)) :
    (resetGhostZones T (resetRegions T pm0 sa part me G)
        boxes).getOuterOutgroupGhostZoneFragment =
      subtractPeerFragments (outerPeers T part sa G me boxes)
        (expandSteps sa.dimensions T G (part.getRegion me) \ part.getRegion me) := by
  obtain ⟨R, _, e⟩ := afterReset_eq T pm0 sa part me G boxes
  rw [e]
  simp only [getOuterOutgroupGhostZoneFragment]
  rw [RegionVecMap.get_insert_self, vecBack_replicate]

theorem innerOutgroup_afterReset (T : Topology D) (pm0 : PartitionManager D)
    (sa : CoordBox D) (part : Partition D) (me G : Nat) (boxes : List (CoordBox D)) :
    (resetGhostZones T (resetRegions T pm0 sa part me G)
        boxes).getInnerOutgroupGhostZoneFragment =
      subtractPeerFragments (innerPeers T part sa G me boxes)
        (rimOf sa.dimensions T G (part.getRegion me) G) := by
  obtain ⟨R, _, e⟩ := afterReset_eq T pm0 sa part me G boxes
  rw [e]
  simp only [getInnerOutgroupGhostZoneFragment]
  rw [RegionVecMap.get_insert_self, vecBack_replicate]

theorem natCast_ne_OUTGROUP (i : Nat) : (i : Int) ≠ OUTGROUP := by
  unfold OUTGROUP
  omega

/-- The peer entries of the two fragment maps of a striped decomposition with `G ≥ 1`
after `resetRegions` and `resetGhostZones` with the bounding boxes of the regions: the
neighbours hold the closed-form stacks, no other rank has an entry. -/
theorem lookup_afterReset_striped {k : Fin D} {part : Partition D} {K G : Nat}
    {s : Nat → Int} {T : Topology D} {sa : CoordBox D}
    (h : Striped sa.dimensions k part K G s) (hk : T.wrapsAxis k = false) (hG : 1 ≤ G)
    {me : Nat} (hme : me < K) (pm0 : PartitionManager D) (i : Nat) :
    (resetGhostZones T (resetRegions T pm0 sa part me G)
        ((List.range K).map
          (fun j => boundingBox (part.getRegion j)))).getOuterGhostZoneFragments.lookup i =
      (if i < K ∧ (i + 1 = me ∨ i = me + 1) then
        some (outerStack T part sa.dimensions G me i) else none) ∧
    (resetGhostZones T (resetRegions T pm0 sa part me G)
        ((List.range K).map
          (fun j => boundingBox (part.getRegion j)))).getInnerGhostZoneFragments.lookup i =
      (if i < K ∧ (i + 1 = me ∨ i = me + 1) then
        some (innerStack T part sa.dimensions G me i) else none) := by
  obtain ⟨R, _, e⟩ := afterReset_eq T pm0 sa part me G
    ((List.range K).map (fun j => boundingBox (part.getRegion j)))
  rw [e]
  simp only [getOuterGhostZoneFragments, getInnerGhostZoneFragments]
  rw [RegionVecMap.lookup_insert, RegionVecMap.lookup_insert, if_neg (natCast_ne_OUTGROUP i)]
  unfold outerPeers innerPeers
  rw [List.length_map, List.length_range]
  exact ⟨h.lookup_peers hk hG hme _ i, h.lookup_peers hk hG hme _ i⟩

end PartitionManager

section RowStripes

/-- Row stripes of a 2-D box are a striped decomposition across axis 1. -/
theorem striped_rows {part : Partition 2} {K G : Nat} {W H : Int} {s : Nat → Int}
    (hW : 0 < W) (hK : 0 < K)
    (hrows : ∀ r, r < K → part.getRegion r = rows W H (s r) (s (r + 1)))
    (hlen : ∀ r, r < K → s r + G ≤ s (r + 1))
    (hne : ∀ r, r < K → s r < s (r + 1))
    (hs0 : 0 ≤ s 0) (hsK : s K ≤ H) :
    Striped ![W, H] 1 part K G s := by
  have hH : 0 < H := by
    have h2 := stripes_mono hne (by omega : 0 + 1 ≤ K) (le_refl K)
    have h3 := hne 0 hK
    omega
  refine ⟨hrows, hlen, hne, hs0, hsK, ?_⟩
  intro a
  fin_cases a
  · exact hW
  · exact hH

end RowStripes

namespace PartitionManager

/-- C17: row-striped decomposition of a non-wrapping 2-D box of width `W > 0` and height
`H` among `K` ranks with ghost zone width `G ≥ 1`: rank `r < K` owns the full rows
`[s r, s (r + 1))`, every stripe has at least `G` rows, `G ≤ s 0`, the last stripe ends
inside the box and `boxes[i]` is the bounding box of the region of rank `i`. Then on every
rank `me < K`, after `resetRegions` and `resetGhostZones(boxes)`: the neighbour `i = me - 1`
has fragment stacks of `G + 1` entries, the outer one with the rows `[s me - w, s me)` and
the inner one with the rows `[s me, s me + w)` at every width `w ≤ G`; the neighbour
`i = me + 1 < K` has stacks of `G + 1` entries, the outer one with the rows
`[e, e + w)` and the inner one with the rows `[e - w, e)` for `e = s (me + 1)`; every other
rank has no entry in the outer fragment map. -/
theorem fragments_rows (pm0 pm : PartitionManager 2) (o : Coord 2) (part : Partition 2)
    (K me G : Nat) (W H : Int) (s : Nat → Int) (boxes : List (CoordBox 2)) (i : Nat)
    (hpm : pm = resetGhostZones (Topology.cube 2)
      (resetRegions (Topology.cube 2) pm0 ⟨o, ![W, H]⟩ part me G) boxes)
    (hW : 0 < W) (hG : 1 ≤ G)
    (hrows : ∀ r, r < K → part.getRegion r = rows W H (s r) (s (r + 1)))
    (hlen : ∀ r, r < K → s r + G ≤ s (r + 1))
    (hs0 : (G : Int) ≤ s 0) (hsK : s K ≤ H)
    (hboxes : boxes = (List.range K).map (fun j => boundingBox (part.getRegion j)))
    (hme : me < K) :
    (i + 1 = me → ∃ outer inner,
      pm.getOuterGhostZoneFragments.lookup i = some outer ∧
      pm.getInnerGhostZoneFragments.lookup i = some inner ∧
      outer.length = G + 1 ∧ inner.length = G + 1 ∧
      ∀ w, w ≤ G → vecAt outer w = rows W H (s me - w) (s me) ∧
        vecAt inner w = rows W H (s me) (s me + w)) ∧
    (i = me + 1 → i < K → ∃ outer inner,
      pm.getOuterGhostZoneFragments.lookup i = some outer ∧
      pm.getInnerGhostZoneFragments.lookup i = some inner ∧
      outer.length = G + 1 ∧ inner.length = G + 1 ∧
      ∀ w, w ≤ G → vecAt outer w = rows W H (s (me + 1)) (s (me + 1) + w) ∧
        vecAt inner w = rows W H (s (me + 1) - w) (s (me + 1))) ∧
    (i + 1 ≠ me → i ≠ me + 1 → pm.getOuterGhostZoneFragments.count i = 0) := by
  have hne : ∀ r, r < K → s r < s (r + 1) := fun r hr => by
    have := hlen r hr
    omega
  have h : Striped (⟨o, ![W, H]⟩ : CoordBox 2).dimensions 1 part K G s :=
    striped_rows hW (by omega) hrows hlen hne (by omega) hsK
  have hk : (Topology.cube 2).wrapsAxis 1 = false := rfl
  have hl := lookup_afterReset_striped h hk hG hme pm0 i
  rw [← hboxes, ← hpm] at hl
  obtain ⟨hl1, hl2⟩ := hl
  have hlay := hlen me hme
  refine ⟨?_, ?_, ?_⟩
  · intro hnb
    have hi : i < K := by omega
    rw [if_pos ⟨hi, Or.inl hnb⟩] at hl1 hl2
    refine ⟨_, _, hl1, hl2, outerStack_length _ _ _ _ _ _, innerStack_length _ _ _ _ _ _, ?_⟩
    intro w hw
    have hli := hlen i hi
    rw [hnb] at hli
    constructor
    · ext c
      rw [h.mem_outerStack hk hme hi hw, mem_rows, hnb]
      constructor
      · rintro ⟨hb, ⟨h1, h2⟩, h3, h4⟩
        exact ⟨hb, h1, h4⟩
      · rintro ⟨hb, h1, h2⟩
        exact ⟨hb, ⟨h1, by omega⟩, by omega, h2⟩
    · ext c
      rw [h.mem_innerStack hk hme hi hw, mem_rows, hnb]
      constructor
      · rintro ⟨hb, ⟨h1, h2⟩, h3, h4⟩
        exact ⟨hb, h1, h4⟩
      · rintro ⟨hb, h1, h2⟩
        exact ⟨hb, ⟨h1, by omega⟩, by omega, h2⟩
  · intro hnb hi
    rw [if_pos ⟨hi, Or.inr hnb⟩] at hl1 hl2
    refine ⟨_, _, hl1, hl2, outerStack_length _ _ _ _ _ _, innerStack_length _ _ _ _ _ _, ?_⟩
    intro w hw
    have hli := hlen i hi
    rw [hnb] at hli
    constructor
    · ext c
      rw [h.mem_outerStack hk hme hi hw, mem_rows, hnb]
      constructor
      · rintro ⟨hb, ⟨h1, h2⟩, h3, h4⟩
        exact ⟨hb, h3, h2⟩
      · rintro ⟨hb, h1, h2⟩
        exact ⟨hb, ⟨by omega, h2⟩, h1, by omega⟩
    · ext c
      rw [h.mem_innerStack hk hme hi hw, mem_rows, hnb]
      constructor
      · rintro ⟨hb, ⟨h1, h2⟩, h3, h4⟩
        exact ⟨hb, h3, h2⟩
      · rintro ⟨hb, h1, h2⟩
        exact ⟨hb, ⟨by omega, h2⟩, h1, by omega⟩
  · intro h1 h2
    rw [if_neg (fun hc => hc.2.elim h1 h2)] at hl1
    unfold RegionVecMap.count
    rw [hl1]
    rfl

end PartitionManager

namespace Example

/-- The four stripes of scenario 4 are the slabs of 25 columns each. -/
theorem quarters_region (r : Nat) (hr : r < 4) :
    quarters.getRegion r =
      slab box100.dimensions 0 (quarterStart r) (quarterStart (r + 1)) := by
  ext c
  unfold quarters box100 quarterStart
  rw [mem_stripingPartition, mem_slab, linearIndex_two]
  have hsum : (((0 + (List.take r [25, 25, 25, 25]).sum : Nat) : Int) = 25 * (r : Int)) ∧
      (((0 + (List.take (r + 1) [25, 25, 25, 25]).sum : Nat) : Int) =
        25 * ((r + 1 : Nat) : Int)) := by
    interval_cases r <;> exact ⟨rfl, rfl⟩
  rw [hsum.1, hsum.2]
  constructor
  · rintro ⟨hb, h1, h2⟩
    have hy := hb 1
    simp only [Matrix.cons_val_one, Matrix.head_cons] at hy
    exact ⟨hb, by omega, by omega⟩
  · rintro ⟨hb, h1, h2⟩
    have hy := hb 1
    simp only [Matrix.cons_val_one, Matrix.head_cons] at hy
    exact ⟨hb, by omega, by omega⟩

theorem striped_quarters :
    Striped box100.dimensions 0 quarters 4 2 quarterStart := by
  refine ⟨quarters_region, ?_, ?_, ?_, ?_, ?_⟩
  · intro r _
    unfold quarterStart
    omega
  · intro r _
    unfold quarterStart
    omega
  · decide
  · decide
  · intro a
    fin_cases a <;> decide

/-- On rank 0 of scenario 4 both `OUTGROUP` fragments are empty: the two cells 23 and 24 of
`rim(G)` are the inner fragment of rank 1, and the own region starts at the box border. -/
theorem quarterRank0_outgroups :
    quarterRank0.getInnerOutgroupGhostZoneFragment = ∅ ∧
      quarterRank0.getOuterOutgroupGhostZoneFragment = ∅ := by
  have hk : (Topology.cube 2).wrapsAxis 0 = false := rfl
  unfold quarterRank0 quarterBoxes
  rw [PartitionManager.innerOutgroup_afterReset, PartitionManager.outerOutgroup_afterReset]
  constructor
  · ext c
    rw [striped_quarters.mem_innerOutgroup hk (by decide) (by decide)]
    simp only [Finset.not_mem_empty, iff_false]
    rintro ⟨_, ⟨h1, h2⟩, hor, _, h4⟩
    have := h4 (by decide)
    unfold quarterStart at h1 h2 hor this
    omega
  · ext c
    rw [striped_quarters.mem_outerOutgroup hk (by decide) (by decide)]
    simp only [Finset.not_mem_empty, iff_false]
    rintro ⟨hb, hor⟩
    have hx := hb 0
    unfold quarterStart at hor
    omega

end Example

namespace PartitionManager

/-- C16 (amended): for rank 0 of 4 on the 100×1 non-wrapping grid with ghost zone width 2
and the striping partition with 25 cells per rank, after `resetRegions` and
`resetGhostZones` with the four bounding boxes, `getInnerOutgroupGhostZoneFragment()` is
empty and `getOuterOutgroupGhostZoneFragment()` is empty. -/
theorem outgroup_scenario4 :
    Example.quarterRank0.getInnerOutgroupGhostZoneFragment = ∅ ∧
      Example.quarterRank0.getOuterOutgroupGhostZoneFragment = ∅ :=
  Example.quarterRank0_outgroups

end PartitionManager

namespace Example

/-- In the unit test rank `r` owns the full rows from `startingLine(r)` up to
`startingLine(r + 1)`. -/
theorem testPartition_rows (r : Nat) (hr : r < 9) :
    testPartition.getRegion r = rows 20 400 (startingLine r) (startingLine (r + 1)) := by
  unfold testPartition testDimensions
  apply stripingPartition_rows 20 400 2600 testWeights r _ _ (by decide)
  · interval_cases r <;> rfl
  · interval_cases r <;> rfl

theorem startingLine_step (r : Nat) (hr : r < 9) :
    startingLine r + ((6 : Nat) : Int) ≤ startingLine (r + 1) := by
  interval_cases r <;> decide

end Example

namespace PartitionManager

/-- Counterexample to C11 as stated: rank 1 of the partition with the stray cell owns the
cell `-1` outside the box; `getRegion(1, 0)` holds it, the expansion of width 0 clips it,
so expansion by 0 is not the identity there. -/
theorem getRegion_eq_single_expansion_counterexample :
    (getRegion (Topology.cube 1) Example.strayRank1 1 0).1 ≠
        expandWithTopology 0 Example.box5.dimensions (Topology.cube 1)
          (Example.stray.getRegion 1) ∧
      expandWithTopology 0 Example.box5.dimensions (Topology.cube 1)
          (Example.stray.getRegion 1) ≠ Example.stray.getRegion 1 := by
  decide

/-- Witness of C11 (amended): node 1 of the two stripes at width 1 on rank 0. -/
theorem getRegion_eq_single_expansion_witness :
    ((∀ c ∈ Example.stripes.getRegion 1, inBounds Example.box10.dimensions c) ∧ 1 ≤ 2) ∧
    ((getRegion (Topology.cube 1)
        (resetRegions (Topology.cube 1) Example.blank Example.box10 Example.stripes 0 2)
        1 1).1 =
        expandWithTopology 1 Example.box10.dimensions (Topology.cube 1)
          (Example.stripes.getRegion 1) ∧
      expandWithTopology 0 Example.box10.dimensions (Topology.cube 1)
        (Example.stripes.getRegion 1) = Example.stripes.getRegion 1 ∧
      ∀ i j, expandWithTopology j Example.box10.dimensions (Topology.cube 1)
          (expandWithTopology i Example.box10.dimensions (Topology.cube 1)
            (Example.stripes.getRegion 1)) =
        expandWithTopology (i + j) Example.box10.dimensions (Topology.cube 1)
          (Example.stripes.getRegion 1)) :=
  ⟨⟨Example.stripes_inBox 1, by decide⟩,
    getRegion_eq_single_expansion (Topology.cube 1) Example.blank Example.box10
      Example.stripes 0 2 1 1 (Example.stripes_inBox 1) (by decide)⟩

/-- Witness of C12: rank 0 of the two stripes with ghost zone width 2, from distance 1 to
distance 2. -/
theorem innerSet_chain_witness :
    1 < 2 ∧
    ((resetRegions (Topology.cube 1) Example.blank Example.box10 Example.stripes 0 2).innerSet
        0 =
      (resetRegions (Topology.cube 1) Example.blank Example.box10 Example.stripes 0
        2).ownRegion 0 ∧
    (resetRegions (Topology.cube 1) Example.blank Example.box10 Example.stripes 0 2).innerSet
        (1 + 1) ⊆
      (resetRegions (Topology.cube 1) Example.blank Example.box10 Example.stripes 0
        2).innerSet 1) :=
  ⟨by decide,
    innerSet_chain (Topology.cube 1) Example.blank Example.box10 Example.stripes 0 2 1
      (by decide)⟩

/-- Counterexample to C15 as stated: the default-constructed box of the unit test has no
cells, the constructor reports no error over it and returns a manager. -/
theorem construct_empty_box_counterexample :
    (⟨fun _ => 0, fun _ => 0⟩ : CoordBox 2).size = 0 ∧
    (¬ ∃ err, construct (Topology.cube 2) ⟨fun _ => 0, fun _ => 0⟩ = Except.error err) ∧
    ∃ pm, construct (Topology.cube 2) ⟨fun _ => 0, fun _ => 0⟩ = Except.ok pm :=
  ⟨by decide, fun h => h.elim (fun _ he => nomatch he),
    (construct_of_size_zero (Topology.cube 2) ⟨fun _ => 0, fun _ => 0⟩ (by decide)).imp
      (fun _ hp => hp.1)⟩

/-- Witness of C15 (amended): a box of three columns and no row. -/
theorem construct_empty_box_witness :
    (⟨fun _ => 0, ![3, 0]⟩ : CoordBox 2).size = 0 ∧
    ∃ pm : PartitionManager 2,
      construct (Topology.cube 2) ⟨fun _ => 0, ![3, 0]⟩ = Except.ok pm ∧
      pm.getGhostZoneWidth = 1 ∧ pm.myRank = 0 ∧
      pm.ownRims.length = 2 ∧ pm.ownInnerSets.length = 2 ∧
      (∀ w, pm.ownRegion w = ∅ ∧ pm.rim w = ∅ ∧ pm.innerSet w = ∅) ∧
      pm.getOuterRim = ∅ ∧ pm.getVolatileKernel = ∅ ∧ pm.getInnerRim = ∅ ∧
      pm.getOuterGhostZoneFragments = [(OUTGROUP, [∅, ∅])] ∧
      pm.getInnerGhostZoneFragments = [(OUTGROUP, [∅, ∅])] :=
  ⟨by decide, construct_empty_box (Topology.cube 2) ⟨fun _ => 0, ![3, 0]⟩ (by decide)⟩

/-- Counterexample to C16 as stated: the inner `OUTGROUP` fragment of rank 0 in scenario 4
is not the set of the cells 0 and 1. -/
theorem outgroup_scenario4_counterexample :
    Example.quarterRank0.getInnerOutgroupGhostZoneFragment ≠ {![0, 0], ![1, 0]} := by
  rw [Example.quarterRank0_outgroups.1]
  exact (Finset.insert_ne_empty _ _).symm

end PartitionManager

namespace PartitionManager

/-- Witness of C17: rank 1 of the nine ranks of the unit test (grid of 20 columns and 400
rows, first stripe at row 130, ghost zone width 6) and its neighbour rank 0. -/
theorem fragments_rows_witness :
    ((0 : Int) < 20 ∧ 1 ≤ 6 ∧
      (∀ r, r < 9 → Example.testPartition.getRegion r =
        rows 20 400 (Example.startingLine r) (Example.startingLine (r + 1))) ∧
      (∀ r, r < 9 → Example.startingLine r + ((6 : Nat) : Int) ≤ Example.startingLine (r + 1)) ∧
      ((6 : Nat) : Int) ≤ Example.startingLine 0 ∧ Example.startingLine 9 ≤ 400 ∧ 1 < 9) ∧
    ∃ outer inner,
      (resetGhostZones (Topology.cube 2)
        (resetRegions (Topology.cube 2) (fresh 2) ⟨fun _ => 0, ![20, 400]⟩
          Example.testPartition 1 6)
        ((List.range 9).map (fun j => boundingBox (Example.testPartition.getRegion j)))
        ).getOuterGhostZoneFragments.lookup ((0 : Nat) : Int) = some outer ∧
      (resetGhostZones (Topology.cube 2)
        (resetRegions (Topology.cube 2) (fresh 2) ⟨fun _ => 0, ![20, 400]⟩
          Example.testPartition 1 6)
        ((List.range 9).map (fun j => boundingBox (Example.testPartition.getRegion j)))
        ).getInnerGhostZoneFragments.lookup ((0 : Nat) : Int) = some inner ∧
      outer.length = 6 + 1 ∧ inner.length = 6 + 1 ∧
      ∀ w, w ≤ 6 →
        vecAt outer w =
          rows 20 400 (Example.startingLine 1 - (w : Int)) (Example.startingLine 1) ∧
        vecAt inner w =
          rows 20 400 (Example.startingLine 1) (Example.startingLine 1 + (w : Int)) :=
  ⟨⟨by decide, by decide, Example.testPartition_rows, Example.startingLine_step, by decide,
      by decide, by decide⟩,
    (fragments_rows (fresh 2) _ (fun _ => 0) Example.testPartition 9 1 6 20 400
      Example.startingLine _ 0 rfl (by decide) (by decide) Example.testPartition_rows
      Example.startingLine_step (by decide) (by decide) rfl (by decide)).1 rfl⟩

/-- Witness of C18: rank 0 of the unit test (rows 130 to 159, ghost zone width 6) at
distance 2; the stripe ends inside the box. -/
theorem rim_rows_witness :
    (Example.testPartition.getRegion 0 =
        rows 20 400 (Example.startingLine 0) (Example.startingLine 1) ∧
      ((6 : Nat) : Int) ≤ Example.startingLine 0 ∧
      Example.startingLine 0 + 2 * ((6 : Nat) : Int) ≤ Example.startingLine 1 ∧
      Example.startingLine 1 < 400 ∧ 2 ≤ 6) ∧
    (resetRegions (Topology.cube 2) (fresh 2) ⟨fun _ => 0, ![20, 400]⟩
        Example.testPartition 0 6).rim 2 =
      rows 20 400 (Example.startingLine 0 - ((6 : Nat) : Int) + ((2 : Nat) : Int))
          (Example.startingLine 0 + 2 * ((6 : Nat) : Int) - ((2 : Nat) : Int)) ∪
        rows 20 400 (Example.startingLine 1 - 2 * ((6 : Nat) : Int) + ((2 : Nat) : Int))
          (Example.startingLine 1 + ((6 : Nat) : Int) - ((2 : Nat) : Int)) :=
  ⟨⟨Example.testPartition_rows 0 (by decide), by decide, by decide, by decide, by decide⟩,
    (rim_rows (fresh 2) (fun _ => 0) Example.testPartition 0 6 2 20 400
      (Example.startingLine 0) (Example.startingLine 1)
      (Example.testPartition_rows 0 (by decide)) (by decide) (by decide) (by decide)
      (by decide)).2 (by decide)⟩

/-- Witness of C19: rank 0 of the unit test (rows 130 to 159, ghost zone width 6) at
distance 2; the stripe ends inside the box. -/
theorem innerSet_rows_witness :
    (Example.testPartition.getRegion 0 =
        rows 20 400 (Example.startingLine 0) (Example.startingLine 1) ∧
      ((6 : Nat) : Int) ≤ Example.startingLine 0 ∧
      Example.startingLine 0 + 2 * ((6 : Nat) : Int) ≤ Example.startingLine 1 ∧
      Example.startingLine 1 < 400 ∧ 2 ≤ 6) ∧
    (resetRegions (Topology.cube 2) (fresh 2) ⟨fun _ => 0, ![20, 400]⟩
        Example.testPartition 0 6).innerSet 2 =
      rows 20 400 (Example.startingLine 0 + ((2 : Nat) : Int))
        (Example.startingLine 1 - ((2 : Nat) : Int)) :=
  ⟨⟨Example.testPartition_rows 0 (by decide), by decide, by decide, by decide, by decide⟩,
    (innerSet_rows (fresh 2) (fun _ => 0) Example.testPartition 0 6 2 20 400
      (Example.startingLine 0) (Example.startingLine 1)
      (Example.testPartition_rows 0 (by decide)) (by decide) (by decide) (by decide)
      (by decide)).1 (by decide)⟩

/-- C20: on rank 0 of the unit test (grid of 20 columns and 400 rows, rank 0 owning the
rows 130 to 159, ghost zone width 6) the code computes the volatile kernel
`innerSet(6) ∩ rim(0)`, the rows `[136, 142)` and `[148, 154)`; the rows `[136, 141)` and
`[149, 154)` that `testVolatileKernel` expects lack the rows 141 and 148. -/
theorem volatileKernel_rows_test :
    (resetRegions (Topology.cube 2) (fresh 2) ⟨fun _ => 0, ![20, 400]⟩
        Example.testPartition 0 6).getVolatileKernel =
      rows 20 400 136 142 ∪ rows 20 400 148 154 ∧
    (resetRegions (Topology.cube 2) (fresh 2) ⟨fun _ => 0, ![20, 400]⟩
        Example.testPartition 0 6).getVolatileKernel ≠
      rows 20 400 136 141 ∪ rows 20 400 149 154 := by
  have h := volatileKernel_rows_closed (fresh 2) (fun _ => 0) Example.testPartition 0 6 20 400
    (Example.startingLine 0) (Example.startingLine 1)
    (Example.testPartition_rows 0 (by decide)) (by decide) (by decide) (by decide) (by decide)
  have e0 : Example.startingLine 0 = 130 := by decide
  have e1 : Example.startingLine 1 = 160 := by decide
  have a1 : (130 : Int) + ((6 : Nat) : Int) = 136 := by decide
  have a2 : (130 : Int) + 2 * ((6 : Nat) : Int) = 142 := by decide
  have a3 : (160 : Int) - 2 * ((6 : Nat) : Int) = 148 := by decide
  have a4 : (160 : Int) - ((6 : Nat) : Int) = 154 := by decide
  rw [e0, e1, a1, a2, a3, a4] at h
  refine ⟨h, ?_⟩
  rw [h]
  intro heq
  have key : (![0, 141] : Coord 2) ∈ rows 20 400 136 142 ∪ rows 20 400 148 154 ↔
      (![0, 141] : Coord 2) ∈ rows 20 400 136 141 ∪ rows 20 400 149 154 := by
    rw [heq]
  rw [Finset.mem_union, mem_rows, mem_rows, Finset.mem_union, mem_rows, mem_rows] at key
  revert key
  decide

end PartitionManager

namespace PartitionManager

variable {D : Nat}

theorem ownExpandedRegion_resetRegions (T : Topology D) (pm0 : PartitionManager D)
    (sa : CoordBox D) (part : Partition D) (me G : Nat) :
    (resetRegions T pm0 sa part me G).ownExpandedRegion =
      expandSteps sa.dimensions T G (part.getRegion me) := by
  rw [resetRegions_eq]
  simp only [ownExpandedRegion, RegionVecMap.get, RegionVecMap.lookup, if_true,
    Option.getD_some, vecBack_regionStack]

/-- C22: in a non-wrapping 2-D box of width `W` and height `H`, for a rank that owns the
full rows `[s, e)` with `G ≤ s`, `s < e` and `e ≤ H`, after `resetRegions` with ghost zone
width `G`: `ownRegion()` is the rows `[s, e)` and `ownExpandedRegion()` is the rows
`[s - G, min(e + G, H))`. -/
theorem ownExpanded_rows (pm0 : PartitionManager 2) (o : Coord 2) (part : Partition 2)
    (me G : Nat) (W H s e : Int)
    (hown : part.getRegion me = rows W H s e) (hs : (G : Int) ≤ s) (hse : s < e)
    (he : e ≤ H) :
    (resetRegions (Topology.cube 2) pm0 ⟨o, ![W, H]⟩ part me G).ownRegion 0 =
        rows W H s e ∧
      (resetRegions (Topology.cube 2) pm0 ⟨o, ![W, H]⟩ part me G).ownExpandedRegion =
        rows W H (s - G) (min (e + G) H) := by
  rw [ownRegion_resetRegions _ _ _ _ _ _ (Nat.zero_le G), ownExpandedRegion_resetRegions,
    expandSteps_zero, hown]
  refine ⟨rfl, ?_⟩
  have hk : (Topology.cube 2).wrapsAxis 1 = false := rfl
  have hH : (![W, H] : Coord 2) 1 = H := rfl
  ext c
  have h := @mem_expandSteps_slab 2 ![W, H] (Topology.cube 2) 1 s e G hk c
  rw [hH] at h
  rw [mem_rows]
  unfold rows
  rw [h]
  constructor
  · rintro ⟨hb, _, h1, h2⟩
    have := (hb 1).2
    rw [hH] at this
    exact ⟨hb, h1, by omega⟩
  · rintro ⟨hb, h1, h2⟩
    exact ⟨hb, by omega, h1, by omega⟩

end PartitionManager

namespace PartitionManager

variable {D : Nat}

/-- With ghost zone width 0 both `OUTGROUP` fragments are empty: the outer rim and `rim(0)`
are. -/
theorem outgroup_width_zero (T : Topology D) (pm0 : PartitionManager D) (sa : CoordBox D)
    (part : Partition D) (me : Nat) (boxes : List (CoordBox D)) :
    (resetGhostZones T (resetRegions T pm0 sa part me 0)
        boxes).getOuterOutgroupGhostZoneFragment = ∅ ∧
      (resetGhostZones T (resetRegions T pm0 sa part me 0)
        boxes).getInnerOutgroupGhostZoneFragment = ∅ := by
  rw [outerOutgroup_afterReset, innerOutgroup_afterReset, rimOf_zero_zero, expandSteps_zero]
  constructor
  · ext c
    rw [mem_subtractPeerFragments]
    simp
  · ext c
    rw [mem_subtractPeerFragments]
    simp

/-- C21 (amended): row-striped decomposition of a non-wrapping 2-D box of width `W > 0` and
height `H` among `K` ranks: rank `r < K` owns the full rows `[s r, s (r + 1))`, every
stripe has at least `G` rows and at least one, `G ≤ s 0`, the last stripe ends at the last
row of the box, the stripe of rank 0 has at least `2G` rows when there is a second rank,
and `boxes[i]` is the bounding box of the region of rank `i`. After `resetRegions` and
`resetGhostZones(boxes)`, on rank 0 the outer `OUTGROUP` fragment is the rows
`[s 0 - G, s 0)` and the inner one the rows `[s 0, s 0 + G)`; on every other rank both are
empty. -/
theorem outgroup_rows (pm0 pm : PartitionManager 2) (o : Coord 2) (part : Partition 2)
    (K me G : Nat) (W H : Int) (s : Nat → Int) (boxes : List (CoordBox 2))
    (hpm : pm = resetGhostZones (Topology.cube 2)
      (resetRegions (Topology.cube 2) pm0 ⟨o, ![W, H]⟩ part me G) boxes)
    (hW : 0 < W)
    (hrows : ∀ r, r < K → part.getRegion r = rows W H (s r) (s (r + 1)))
    (hlen : ∀ r, r < K → s r + G ≤ s (r + 1))
    (hne : ∀ r, r < K → s r < s (r + 1))
    (hs0 : (G : Int) ≤ s 0) (hsK : s K = H)
    (hfirst : 1 < K → s 0 + 2 * G ≤ s 1)
    (hboxes : boxes = (List.range K).map (fun j => boundingBox (part.getRegion j)))
    (hme : me < K) :
    (me = 0 → pm.getOuterOutgroupGhostZoneFragment = rows W H (s 0 - G) (s 0) ∧
      pm.getInnerOutgroupGhostZoneFragment = rows W H (s 0) (s 0 + G)) ∧
    (me ≠ 0 → pm.getOuterOutgroupGhostZoneFragment = ∅ ∧
      pm.getInnerOutgroupGhostZoneFragment = ∅) := by
  subst hpm
  rcases Nat.eq_zero_or_pos G with hG | hG
  · subst hG
    have hz := outgroup_width_zero (Topology.cube 2) pm0 ⟨o, ![W, H]⟩ part me boxes
    rw [hz.1, hz.2]
    refine ⟨fun _ => ⟨?_, ?_⟩, fun _ => ⟨rfl, rfl⟩⟩
    · ext c
      rw [mem_rows]
      simp only [Finset.not_mem_empty, false_iff]
      omega
    · ext c
      rw [mem_rows]
      simp only [Finset.not_mem_empty, false_iff]
      omega
  · have h : Striped (⟨o, ![W, H]⟩ : CoordBox 2).dimensions 1 part K G s :=
      striped_rows hW (by omega) hrows hlen hne (by omega) (le_of_eq hsK)
    have hk : (Topology.cube 2).wrapsAxis 1 = false := rfl
    have hH : (⟨o, ![W, H]⟩ : CoordBox 2).dimensions 1 = H := rfl
    rw [outerOutgroup_afterReset, innerOutgroup_afterReset, hboxes]
    have hout := fun c => @Striped.mem_outerOutgroup 2 1 part K G s (Topology.cube 2)
      ⟨o, ![W, H]⟩ h hk hG me hme c
    have hin := fun c => @Striped.mem_innerOutgroup 2 1 part K G s (Topology.cube 2)
      ⟨o, ![W, H]⟩ h hk hG me hme c
    rw [hH] at hin
    refine ⟨?_, ?_⟩
    · intro h0
      subst h0
      constructor
      · ext c
        rw [hout c, mem_rows]
        constructor
        · rintro ⟨hb, ⟨_, h1, h2⟩ | ⟨_, h1, _⟩⟩
          · exact ⟨hb, h1, h2⟩
          · have hc : c 1 < H := (hb 1).2
            rw [← hsK] at hc
            omega
        · rintro ⟨hb, h1, h2⟩
          exact ⟨hb, Or.inl ⟨rfl, h1, h2⟩⟩
      · ext c
        rw [hin c, mem_rows]
        have hl0 := hlen 0 hme
        constructor
        · rintro ⟨hb, ⟨h1, h2⟩, hor, _, h4⟩
          refine ⟨hb, h1, ?_⟩
          rcases hor with ⟨_, h5⟩ | ⟨h5, h6⟩
          · exact h5
          · have hK : 0 + 1 < K := by
              by_contra hnot
              have e1 : 0 + 1 = K := by omega
              rw [e1, hsK] at h5
              omega
            have := h4 hK
            omega
        · rintro ⟨hb, h1, h2⟩
          refine ⟨hb, ⟨h1, by omega⟩, Or.inl ⟨by omega, h2⟩, fun hc => by omega, ?_⟩
          intro hK
          have hf : s 0 + 2 * (G : Int) ≤ s (0 + 1) := hfirst (by omega)
          omega
    · intro h0
      constructor
      · ext c
        rw [hout c]
        simp only [Finset.not_mem_empty, iff_false]
        rintro ⟨hb, ⟨h1, _⟩ | ⟨h1, h2, _⟩⟩
        · exact h0 h1
        · have hc : c 1 < H := (hb 1).2
          rw [← hsK] at hc
          omega
      · ext c
        rw [hin c]
        simp only [Finset.not_mem_empty, iff_false]
        rintro ⟨hb, ⟨h1, h2⟩, hor, h3, h4⟩
        have := h3 (by omega)
        rcases hor with ⟨_, h5⟩ | ⟨h5, h6⟩
        · omega
        · have hK : me + 1 < K := by
            by_contra hnot
            have e1 : me + 1 = K := by omega
            rw [e1, hsK] at h5
            omega
          have := h4 hK
          omega

/-- Counterexample to C21 as stated: two stripes of one row each below row 0 of a box of
three rows, ghost zone width 1. On rank 0 the row 1 is `rim(1)` and also the inner fragment
of rank 1, so the inner `OUTGROUP` fragment is empty and not the row `[1, 2)`. -/
theorem outgroup_rows_counterexample :
    Example.thinRank0.getInnerOutgroupGhostZoneFragment = ∅ ∧
      Example.thinRank0.getInnerOutgroupGhostZoneFragment ≠ rows 1 3 1 (1 + 1) := by
  decide

end PartitionManager

namespace Grid

variable {CELL : Type} {D : Nat}

theorem boundingBox_inBounds (g : Grid CELL D) (c : Coord D) :
    g.boundingBox.inBounds c ↔ inBounds g.dimensions c := by
  unfold CoordBox.inBounds Grid.boundingBox inBounds
  simp only [zero_add]

theorem locate_of_inBounds (T : Topology D) {dims c : Coord D} (h : inBounds dims c) :
    T.locate dims c = some c := by
  unfold Topology.locate
  rw [normalize_of_inBounds T h, if_pos h]

theorem normalize_cube (dims c : Coord D) : (Topology.cube D).normalize dims c = c := by
  funext a
  simp [Topology.normalize, Topology.cube]

theorem locate_cube_of_not_inBounds {dims c : Coord D} (h : ¬ inBounds dims c) :
    (Topology.cube D).locate dims c = none := by
  unfold Topology.locate
  rw [normalize_cube, if_neg h]

theorem dimensions_assign (T : Topology D) (g : Grid CELL D) (c : Coord D) (v : CELL) :
    (assign T g c v).dimensions = g.dimensions := by
  unfold assign
  cases T.locate g.dimensions c <;> rfl

theorem assign_of_inBounds (T : Topology D) (g : Grid CELL D) {c : Coord D} (v : CELL)
    (h : inBounds g.dimensions c) :
    assign T g c v = { g with cellMatrix := Function.update g.cellMatrix c v } := by
  unfold assign
  rw [locate_of_inBounds T h]

theorem read_of_inBounds (T : Topology D) (g : Grid CELL D) {c : Coord D}
    (h : inBounds g.dimensions c) : read T g c = g.cellMatrix c := by
  unfold read
  rw [locate_of_inBounds T h]

/-- C28: for every topology, in particular a non-wrapping one, every coordinate `c` inside
`boundingBox()` and every cell `v`: after `set(c, v)`, `get(c)` returns `v`, `get(c2)` is
unchanged for every other coordinate `c2` inside the bounding box, and the edge cell, the
dimensions and the bounding box are unchanged. -/
theorem get_set (T : Topology D) (g : Grid CELL D) (c : Coord D) (v : CELL)
    (hc : g.boundingBox.inBounds c) :
    (g.set T c v).get T c = v ∧
    (∀ c2, g.boundingBox.inBounds c2 → c2 ≠ c → (g.set T c v).get T c2 = g.get T c2) ∧
    (g.set T c v).getEdge = g.getEdge ∧
    (g.set T c v).getDimensions = g.getDimensions ∧
    (g.set T c v).boundingBox = g.boundingBox := by
  rw [boundingBox_inBounds] at hc
  unfold Grid.set Grid.get
  rw [assign_of_inBounds T g v hc]
  refine ⟨?_, ?_, rfl, rfl, rfl⟩
  · unfold read
    dsimp only
    rw [locate_of_inBounds T hc]
    exact Function.update_same _ _ _
  · intro c2 hc2 hne
    rw [boundingBox_inBounds] at hc2
    unfold read
    dsimp only
    rw [locate_of_inBounds T hc2]
    exact Function.update_noteq hne _ _

/-- C29: on the non-wrapping (cube) topology, for every coordinate `c` outside
`boundingBox()`: `get(c)` returns `getEdge()`; after `set(c, v)`, `getEdge()` is `v`, `get`
returns `v` at every coordinate outside the bounding box, and `get` is unchanged at every
coordinate inside it; dimensions and bounding box stay. -/
theorem get_set_edge (g : Grid CELL D) (c : Coord D) (v : CELL)
    (hc : ¬ g.boundingBox.inBounds c) :
    g.get (Topology.cube D) c = g.getEdge ∧
    (g.set (Topology.cube D) c v).getEdge = v ∧
    (∀ c2, ¬ g.boundingBox.inBounds c2 → (g.set (Topology.cube D) c v).get (Topology.cube D) c2 = v) ∧
    (∀ c3, g.boundingBox.inBounds c3 →
      (g.set (Topology.cube D) c v).get (Topology.cube D) c3 = g.get (Topology.cube D) c3) ∧
    (g.set (Topology.cube D) c v).getDimensions = g.getDimensions ∧
    (g.set (Topology.cube D) c v).boundingBox = g.boundingBox := by
  rw [boundingBox_inBounds] at hc
  have hset : g.set (Topology.cube D) c v = { g with edgeCell := v } := by
    unfold Grid.set assign
    rw [locate_cube_of_not_inBounds hc]
  rw [hset]
  refine ⟨?_, rfl, ?_, ?_, rfl, rfl⟩
  · unfold Grid.get read
    rw [locate_cube_of_not_inBounds hc]
    rfl
  · intro c2 hc2
    rw [boundingBox_inBounds] at hc2
    unfold Grid.get read
    rw [locate_cube_of_not_inBounds hc2]
  · intro c3 hc3
    rw [boundingBox_inBounds] at hc3
    unfold Grid.get read
    dsimp only
    rw [locate_of_inBounds _ hc3]

end Grid

namespace Grid

variable {CELL : Type} {D : Nat}

theorem cursor_x [NeZero D] (streak : Streak D) (k : Nat) :
    cursor streak k 0 = streak.origin 0 + (k : Int) := by
  unfold cursor
  exact Function.update_same _ _ _

theorem cursor_injective [NeZero D] (streak : Streak D) {j k : Nat}
    (h : cursor streak j = cursor streak k) : j = k := by
  have h0 := congrFun h 0
  rw [cursor_x, cursor_x] at h0
  omega

/-- The cursor stays inside the extents while it runs over a streak that lies inside
them. -/
theorem inBounds_cursor [NeZero D] {dims : Coord D} {streak : Streak D}
    (hin : inBounds dims streak.origin) (hend : streak.endX ≤ dims 0) {k : Nat}
    (hk : k < passes streak) : inBounds dims (cursor streak k) := by
  intro a
  unfold passes at hk
  by_cases ha : a = 0
  · subst ha
    rw [cursor_x]
    have := hin 0
    omega
  · unfold cursor
    rw [Function.update_noteq ha]
    exact hin a

/-- The grid after the first `n` passes of the loop of `set(streak, cells)` over cells
inside the extents. -/
theorem setStreak_passes [NeZero D] [Inhabited CELL] (T : Topology D) (g : Grid CELL D)
    (streak : Streak D) (cells : List CELL) (n : Nat)
    (hbox : ∀ k, k < n → inBounds g.dimensions (cursor streak k)) :
    ((List.range n).foldl
        (fun grid k => assign T grid (cursor streak k) (cells.getD k default)) g).dimensions =
      g.dimensions ∧
    ((List.range n).foldl
        (fun grid k => assign T grid (cursor streak k) (cells.getD k default)) g).edgeCell =
      g.edgeCell ∧
    (∀ k, k < n → ((List.range n).foldl
        (fun grid k => assign T grid (cursor streak k) (cells.getD k default)) g).cellMatrix
          (cursor streak k) = cells.getD k default) ∧
    (∀ c, (∀ k, k < n → c ≠ cursor streak k) → ((List.range n).foldl
        (fun grid k => assign T grid (cursor streak k) (cells.getD k default)) g).cellMatrix c =
          g.cellMatrix c) := by
  induction n with
  | zero =>
    exact ⟨rfl, rfl, fun k hk => absurd hk (Nat.not_lt_zero k), fun c _ => rfl⟩
  | succ n ih =>
    obtain ⟨h1, h2, h3, h4⟩ := ih (fun k hk => hbox k (Nat.lt_succ_of_lt hk))
    rw [List.range_succ, List.foldl_append]
    simp only [List.foldl_cons, List.foldl_nil]
    generalize (List.range n).foldl
      (fun grid k => assign T grid (cursor streak k) (cells.getD k default)) g = g1 at h1 h2 h3 h4
    have hb : inBounds g1.dimensions (cursor streak n) := by
      rw [h1]
      exact hbox n (Nat.lt_succ_self n)
    rw [assign_of_inBounds T g1 _ hb]
    refine ⟨h1, h2, ?_, ?_⟩
    · intro k hk
      dsimp only
      rcases Nat.eq_or_lt_of_le (Nat.le_of_lt_succ hk) with he | hlt
      · rw [he]
        exact Function.update_same _ _ _
      · rw [Function.update_noteq (fun hc => absurd (cursor_injective streak hc) (by omega))]
        exact h3 k hlt
    · intro c hc
      dsimp only
      rw [Function.update_noteq (hc n (Nat.lt_succ_self n))]
      exact h4 c (fun k hk => hc k (Nat.lt_succ_of_lt hk))

/-- The buffer after the first `n` passes of the loop of `get(streak, cells)`. -/
theorem getStreak_passes (f : Nat → CELL) (out : List CELL) (n : Nat) :
    ((List.range n).foldl (fun buffer k => buffer.set k (f k)) out).length = out.length ∧
    ∀ k, ((List.range n).foldl (fun buffer k => buffer.set k (f k)) out)[k]? =
      if k < n ∧ k < out.length then some (f k) else out[k]? := by
  induction n with
  | zero => simp
  | succ n ih =>
    rw [List.range_succ, List.foldl_append]
    simp only [List.foldl_cons, List.foldl_nil]
    generalize (List.range n).foldl (fun buffer k => buffer.set k (f k)) out = b at ih
    obtain ⟨hl, hget⟩ := ih
    refine ⟨by rw [List.length_set, hl], ?_⟩
    intro k
    rw [List.getElem?_set]
    by_cases hk : n = k
    · subst hk
      rw [if_pos rfl, hl]
      by_cases hlt : n < out.length
      · rw [if_pos hlt, if_pos ⟨Nat.lt_succ_self n, hlt⟩]
      · rw [if_neg hlt, if_neg (fun hc => hlt hc.2)]
        exact (List.getElem?_eq_none (by omega)).symm
    · rw [if_neg hk, hget k]
      by_cases hc : k < n ∧ k < out.length
      · rw [if_pos hc, if_pos ⟨by omega, hc.2⟩]
      · rw [if_neg hc, if_neg (fun h2 => hc ⟨by omega, h2.2⟩)]

/-- C30: for every topology, every streak that lies inside `boundingBox()` and every buffer
`buf` of the length `endX - origin.x` of the streak: after `set(streak, buf)`, the call
`get(streak, out)` into a buffer `out` of at least that length yields `out[k] = buf[k]` for
every `k` below the length and leaves the rest of `out` alone, `get` at the `k`-th cell of
the streak returns `buf[k]`, `get` is unchanged at every coordinate of the bounding box
outside the streak, and the edge cell and the dimensions are unchanged. -/
theorem streak_roundtrip [NeZero D] [Inhabited CELL] (T : Topology D) (g : Grid CELL D)
    (streak : Streak D) (buf out : List CELL)
    (hin : g.boundingBox.inBounds streak.origin)
    (hend : streak.endX ≤ g.boundingBox.origin 0 + g.boundingBox.dimensions 0)
    (hlen : (buf.length : Int) = streak.endX - streak.origin 0)
    (hout : buf.length ≤ out.length) :
    (∀ k, k < buf.length →
      (getStreak T (setStreak T g streak buf) streak out)[k]? = buf[k]?) ∧
    (∀ k, buf.length ≤ k →
      (getStreak T (setStreak T g streak buf) streak out)[k]? = out[k]?) ∧
    (∀ k, k < buf.length →
      some ((setStreak T g streak buf).get T (cursor streak k)) = buf[k]?) ∧
    (∀ c, g.boundingBox.inBounds c → (∀ k, k < buf.length → c ≠ cursor streak k) →
      (setStreak T g streak buf).get T c = g.get T c) ∧
    (setStreak T g streak buf).getEdge = g.getEdge ∧
    (setStreak T g streak buf).getDimensions = g.getDimensions := by
  rw [boundingBox_inBounds] at hin
  have hend2 : streak.endX ≤ g.dimensions 0 := by
    have : g.boundingBox.origin 0 + g.boundingBox.dimensions 0 = g.dimensions 0 := by
      simp [Grid.boundingBox]
    rw [this] at hend
    exact hend
  have hn : passes streak = buf.length := by
    unfold passes
    omega
  have hbox : ∀ k, k < passes streak → inBounds g.dimensions (cursor streak k) :=
    fun k hk => inBounds_cursor hin hend2 hk
  obtain ⟨h1, h2, h3, h4⟩ := setStreak_passes T g streak buf (passes streak) hbox
  have hval : ∀ k, k < buf.length →
      read T (setStreak T g streak buf) (cursor streak k) = buf.getD k default := by
    intro k hk
    have hb : inBounds (setStreak T g streak buf).dimensions (cursor streak k) := by
      unfold setStreak
      rw [h1]
      exact hbox k (by omega)
    rw [read_of_inBounds T _ hb]
    exact h3 k (by omega)
  have hgetD : ∀ k, k < buf.length → some (buf.getD k default) = buf[k]? := by
    intro k hk
    rw [List.getD_eq_getElem?_getD, List.getElem?_eq_getElem hk]
    rfl
  obtain ⟨_, hg⟩ := getStreak_passes
    (fun k => read T (setStreak T g streak buf) (cursor streak k)) out (passes streak)
  refine ⟨?_, ?_, ?_, ?_, h2, h1⟩
  · intro k hk
    unfold getStreak
    rw [hg k, if_pos ⟨by omega, by omega⟩, hval k hk]
    exact hgetD k hk
  · intro k hk
    unfold getStreak
    rw [hg k, if_neg (fun hc => by omega)]
  · intro k hk
    unfold Grid.get
    rw [hval k hk]
    exact hgetD k hk
  · intro c hc hne
    rw [boundingBox_inBounds] at hc
    unfold Grid.get
    have hb : inBounds (setStreak T g streak buf).dimensions c := by
      unfold setStreak
      rw [h1]
      exact hc
    rw [read_of_inBounds T _ hb, read_of_inBounds T g hc]
    exact h4 c (fun k hk => hne k (by omega))

end Grid

namespace PartitionManager

variable {D : Nat}

/-- The state after `resetRegions` and `resetGhostZones` does not depend on the state the
manager was in before. -/
theorem afterReset_independent (T : Topology D) (pmA pmB : PartitionManager D)
    (sa : CoordBox D) (part : Partition D) (me G : Nat) (boxes : List (CoordBox D)) :
    resetGhostZones T (resetRegions T pmA sa part me G) boxes =
      resetGhostZones T (resetRegions T pmB sa part me G) boxes := by
  rw [resetRegions_eq, resetRegions_eq]
  rfl

end PartitionManager

namespace UpdateGroup

variable {A P : Type} {D : Nat}

theorem foldl_senderStep (first : Int) (G : Nat) (m : RegionVecMap D)
    (acc : List (PatchAccepterPtr A D)) (links : List (PatchLink D)) :
    m.foldl (senderStep first G) (acc, links) =
      (acc ++ (senderLinks first G m).map PatchAccepterPtr.link,
        links ++ senderLinks first G m) := by
  induction m generalizing acc links with
  | nil => simp [senderLinks, fragmentLinks]
  | cons e rest ih =>
    rw [List.foldl_cons]
    by_cases he : vecBack e.2 ≠ ∅
    · have hstep : senderStep first G (acc, links) e =
          (acc ++ [PatchAccepterPtr.link
            ⟨LinkKind.accepter, vecBack e.2, e.1, [⟨first, ENDLESS, G⟩]⟩],
            links ++ [⟨LinkKind.accepter, vecBack e.2, e.1, [⟨first, ENDLESS, G⟩]⟩]) := by
        unfold senderStep
        rw [if_pos he]
        rfl
      rw [hstep, ih]
      simp [senderLinks, fragmentLinks, List.filter_cons, he]
    · have hstep : senderStep first G (acc, links) e = (acc, links) := by
        unfold senderStep
        rw [if_neg he]
      rw [hstep, ih]
      simp [senderLinks, fragmentLinks, List.filter_cons, he]

theorem foldl_receiverStep (first : Int) (G : Nat) (m : RegionVecMap D)
    (s : Stepper A P D) (links : List (PatchLink D)) :
    m.foldl (receiverStep first G) (s, links) =
      ({ s with patchProviders := (s.patchProviders ++
          (receiverLinks first G m).map (fun l => (PatchProviderPtr.link l, PatchType.GHOST))) },
        links ++ receiverLinks first G m) := by
  induction m generalizing s links with
  | nil => simp [receiverLinks, fragmentLinks]
  | cons e rest ih =>
    rw [List.foldl_cons]
    by_cases he : vecBack e.2 ≠ ∅
    · have hstep : receiverStep first G (s, links) e =
          ({ s with patchProviders := (s.patchProviders ++ [(PatchProviderPtr.link
            ⟨LinkKind.provider, vecBack e.2, e.1, [⟨first, ENDLESS, G⟩]⟩, PatchType.GHOST)]) },
            links ++ [⟨LinkKind.provider, vecBack e.2, e.1, [⟨first, ENDLESS, G⟩]⟩]) := by
        unfold receiverStep
        rw [if_pos he]
        rfl
      rw [hstep, ih]
      simp [receiverLinks, fragmentLinks, List.filter_cons, he]
    · have hstep : receiverStep first G (s, links) e = (s, links) := by
        unfold receiverStep
        rw [if_neg he]
      rw [hstep, ih]
      simp [receiverLinks, fragmentLinks, List.filter_cons, he]

theorem foldl_addPatchProvider (t : PatchType) (l : List P) (ug : UpdateGroup A P D) :
    l.foldl (fun g i => g.addPatchProvider (PatchProviderPtr.external i) t) ug =
      { ug with stepper := { ug.stepper with patchProviders := (ug.stepper.patchProviders ++
          l.map (fun i => (PatchProviderPtr.external i, t))) } } := by
  induction l generalizing ug with
  | nil => simp
  | cons i rest ih =>
    rw [List.foldl_cons, ih]
    simp [addPatchProvider, Stepper.addPatchProvider]

/-- Closed form of the update group that the constructor returns. -/
theorem construct_eq (T : Topology D) (N : Nat) (partition : Partition D)
    (box : CoordBox D) (G : Nat) (initializer : Initializer D)
    (aG aI : List A) (pG pI : List P) (layer : MPILayer D) :
    construct T N partition box G initializer aG aI pG pI layer =
      Except.ok
        { stepper :=
            { partitionManager := managerOf T partition box G layer
              initializer := initializer
              ghostPatchAccepters := (aG.map PatchAccepterPtr.external ++
                (senderLinks (firstSync initializer N G) G
                  (managerOf T partition box G layer).getInnerGhostZoneFragments).map
                  PatchAccepterPtr.link)
              innerPatchAccepters := aI.map PatchAccepterPtr.external
              patchProviders :=
                ((receiverLinks (firstSync initializer N G) G
                  (managerOf T partition box G layer).getOuterGhostZoneFragments).map
                  (fun l => (PatchProviderPtr.link l, PatchType.GHOST)) ++
                pG.map (fun i => (PatchProviderPtr.external i, PatchType.GHOST)) ++
                pI.map (fun i => (PatchProviderPtr.external i, PatchType.INNER_SET))) }
          partitionManager := managerOf T partition box G layer
          patchLinks :=
            (senderLinks (firstSync initializer N G) G
              (managerOf T partition box G layer).getInnerGhostZoneFragments ++
            receiverLinks (firstSync initializer N G) G
              (managerOf T partition box G layer).getOuterGhostZoneFragments)
          ghostZoneWidth := G
          initializer := initializer
          mpiLayer := layer
          rank := layer.rank } := by
  unfold construct
  simp only [PartitionManager.construct, bind, Except.bind, pure, Except.pure]
  rw [PartitionManager.ownRegion_resetRegions _ _ _ _ _ _ (Nat.zero_le G), expandSteps_zero,
    PartitionManager.afterReset_independent T _ (PartitionManager.fresh D)]
  rw [foldl_senderStep, foldl_receiverStep, foldl_addPatchProvider, foldl_addPatchProvider]
  simp [Stepper.construct, managerOf, firstSync]

end UpdateGroup

section SortedMapLemmas

variable {D : Nat}

theorem lookup_eq_none_of_keys_ne {m : RegionVecMap D} {k : Int} (h : ∀ e ∈ m, e.1 ≠ k) :
    m.lookup k = none := by
  induction m with
  | nil => rfl
  | cons e rest ih =>
    simp only [RegionVecMap.lookup]
    rw [if_neg (h e (List.mem_cons_self _ _))]
    exact ih (fun e2 he2 => h e2 (List.mem_cons_of_mem _ he2))

end SortedMapLemmas

namespace UpdateGroup

variable {A P : Type} {D : Nat}

theorem mem_fragmentLinks {kind : LinkKind} {first : Int} {G : Nat} {m : RegionVecMap D}
    {l : PatchLink D} :
    l ∈ fragmentLinks kind first G m ↔
      ∃ e ∈ m, vecBack e.2 ≠ ∅ ∧ l = ⟨kind, vecBack e.2, e.1, [⟨first, ENDLESS, G⟩]⟩ := by
  unfold fragmentLinks
  simp only [List.mem_map, List.mem_filter, decide_eq_true_eq]
  constructor
  · rintro ⟨e, ⟨he, hne⟩, hl⟩
    exact ⟨e, he, hne, hl.symm⟩
  · rintro ⟨e, he, hne, hl⟩
    exact ⟨e, ⟨he, hne⟩, hl.symm⟩

/-- The links of one class that name the peer `k`, for a map with ascending keys: the one
link of the entry under `k` when its back fragment is not empty, none otherwise. -/
theorem filter_fragmentLinks (kind : LinkKind) (first : Int) (G : Nat) {m : RegionVecMap D}
    (hs : KeysSorted m) (k : Int) :
    (fragmentLinks kind first G m).filter (fun l => l.peer = k) =
      match m.lookup k with
      | some st =>
        if vecBack st ≠ ∅ then [⟨kind, vecBack st, k, [⟨first, ENDLESS, G⟩]⟩] else []
      | none => [] := by
  unfold KeysSorted at hs
  induction m with
  | nil => rfl
  | cons e rest ih =>
    rw [List.pairwise_cons] at hs
    have hrest := ih hs.2
    by_cases hk : e.1 = k
    · have hnone : RegionVecMap.lookup rest k = none :=
        lookup_eq_none_of_keys_ne (fun e2 he2 => by
          have := hs.1 e2 he2
          omega)
      rw [hnone] at hrest
      have hl : RegionVecMap.lookup (e :: rest) k = some e.2 := by
        simp only [RegionVecMap.lookup]
        rw [if_pos hk]
      rw [hl]
      dsimp only
      by_cases hne : vecBack e.2 ≠ ∅
      · rw [if_pos hne]
        have : fragmentLinks kind first G (e :: rest) =
            ⟨kind, vecBack e.2, e.1, [⟨first, ENDLESS, G⟩]⟩ :: fragmentLinks kind first G rest := by
          simp [fragmentLinks, List.filter_cons, hne]
        rw [this, List.filter_cons, hrest]
        simp [hk]
      · rw [if_neg hne]
        have : fragmentLinks kind first G (e :: rest) = fragmentLinks kind first G rest := by
          simp [fragmentLinks, List.filter_cons, hne]
        rw [this, hrest]
    · have hl : RegionVecMap.lookup (e :: rest) k = RegionVecMap.lookup rest k := by
        simp only [RegionVecMap.lookup]
        rw [if_neg hk]
      rw [hl, ← hrest]
      by_cases hne : vecBack e.2 ≠ ∅
      · have : fragmentLinks kind first G (e :: rest) =
            ⟨kind, vecBack e.2, e.1, [⟨first, ENDLESS, G⟩]⟩ :: fragmentLinks kind first G rest := by
          simp [fragmentLinks, List.filter_cons, hne]
        rw [this, List.filter_cons]
        simp [hk]
      · have : fragmentLinks kind first G (e :: rest) = fragmentLinks kind first G rest := by
          simp [fragmentLinks, List.filter_cons, hne]
        rw [this]

end UpdateGroup

namespace PartitionManager

variable {D : Nat}

/-- After `resetRegions` and `resetGhostZones` the keys of both fragment maps ascend and
every stack in them has `G + 1` entries. -/
theorem fragmentMaps_afterReset (T : Topology D) (pm0 : PartitionManager D)
    (sa : CoordBox D) (part : Partition D) (me G : Nat) (boxes : List (CoordBox D)) :
    (KeysSorted (resetGhostZones T (resetRegions T pm0 sa part me G)
        boxes).getOuterGhostZoneFragments ∧
      KeysSorted (resetGhostZones T (resetRegions T pm0 sa part me G)
        boxes).getInnerGhostZoneFragments) ∧
    (∀ e ∈ (resetGhostZones T (resetRegions T pm0 sa part me G)
        boxes).getOuterGhostZoneFragments, e.2.length = G + 1) ∧
    (∀ e ∈ (resetGhostZones T (resetRegions T pm0 sa part me G)
        boxes).getInnerGhostZoneFragments, e.2.length = G + 1) := by
  obtain ⟨R, _, e⟩ := afterReset_eq T pm0 sa part me G boxes
  rw [e]
  simp only [getOuterGhostZoneFragments, getInnerGhostZoneFragments]
  refine ⟨⟨?_, ?_⟩, ?_, ?_⟩
  · exact keysSorted_insert _ _ (keysSorted_peerFragments _ _ List.Pairwise.nil _)
  · exact keysSorted_insert _ _ (keysSorted_peerFragments _ _ List.Pairwise.nil _)
  · intro e he
    rcases RegionVecMap.mem_insert he with h | h
    · rw [h, List.length_replicate]
    · obtain ⟨i, _, hi⟩ := mem_outerPeers h
      rw [hi]
      exact outerStack_length _ _ _ _ _ _
  · intro e he
    rcases RegionVecMap.mem_insert he with h | h
    · rw [h, List.length_replicate]
    · obtain ⟨i, _, hi⟩ := mem_innerPeers h
      rw [hi]
      exact innerStack_length _ _ _ _ _ _

end PartitionManager

section ChargeLemmas

/-- A schedule without last step fires at the steps `first + k·stride`. -/
theorem Charge.fires_endless (first : Int) (stride : Nat) (step : Int) :
    (Charge.mk first ENDLESS stride).fires step ↔
      ∃ k : Nat, step = first + (k : Int) * (stride : Int) := by
  unfold Charge.fires ENDLESS
  simp

end ChargeLemmas

namespace UpdateGroup

variable {A P : Type} {D : Nat}

theorem kind_of_mem_fragmentLinks {kind : LinkKind} {first : Int} {G : Nat}
    {m : RegionVecMap D} {l : PatchLink D} (h : l ∈ fragmentLinks kind first G m) :
    l.kind = kind ∧ l.region ≠ ∅ ∧ l.charges = [⟨first, ENDLESS, G⟩] := by
  obtain ⟨e, _, hne, hl⟩ := mem_fragmentLinks.1 h
  rw [hl]
  exact ⟨rfl, hne, rfl⟩

theorem filter_kind_fragmentLinks (kind kind2 : LinkKind) (first : Int) (G : Nat)
    (m : RegionVecMap D) (k : Int) :
    (fragmentLinks kind first G m).filter (fun l => l.kind = kind2 ∧ l.peer = k) =
      if kind = kind2 then (fragmentLinks kind first G m).filter (fun l => l.peer = k)
      else [] := by
  by_cases hk : kind = kind2
  · rw [if_pos hk]
    apply List.filter_congr
    intro l hl
    have := (kind_of_mem_fragmentLinks hl).1
    simp [this, hk]
  · rw [if_neg hk, List.filter_eq_nil_iff]
    intro l hl
    have := (kind_of_mem_fragmentLinks hl).1
    simp [this, hk]

/-- C24 (amended): every patch link that the constructor of `UpdateGroup` creates is
charged once, with the stride `G`, the ghost zone width (not `G·N`), no last step and the
first sync point `firstSync`, the `unsigned` value of `startStep·N + G` (the sum modulo
`2^32`, which is the sum itself when that is below `2^32`), so it fires exactly at the
steps `firstSync + k·G` for `k = 0, 1, 2, ...`. -/
theorem links_stride (T : Topology D) (N : Nat) (partition : Partition D)
    (box : CoordBox D) (G : Nat) (initializer : Initializer D)
    (aG aI : List A) (pG pI : List P) (layer : MPILayer D) :
    ∃ ug, construct T N partition box G initializer aG aI pG pI layer = Except.ok ug ∧
      ∀ l ∈ ug.patchLinks, ∃ c, l.charges = [c] ∧
        c.first = (((initializer.startStep * N + G) % 2 ^ 32 : Nat) : Int) ∧
        (initializer.startStep * N + G < 2 ^ 32 →
          c.first = ((initializer.startStep * N + G : Nat) : Int)) ∧
        c.last = ENDLESS ∧ c.stride = G ∧
        ∀ step, c.fires step ↔ ∃ k : Nat, step = c.first + (k : Int) * (G : Int) := by
  refine ⟨_, construct_eq T N partition box G initializer aG aI pG pI layer, ?_⟩
  intro l hl
  dsimp only at hl
  have hc : l.charges = [⟨firstSync initializer N G, ENDLESS, G⟩] := by
    rcases List.mem_append.1 hl with h | h
    · exact (kind_of_mem_fragmentLinks h).2.2
    · exact (kind_of_mem_fragmentLinks h).2.2
  refine ⟨_, hc, rfl, fun h => ?_, rfl, rfl, fun step => Charge.fires_endless _ _ _⟩
  show firstSync initializer N G = _
  unfold firstSync
  rw [Nat.mod_eq_of_lt h]

/-- C25: every link that the constructor of `UpdateGroup` creates, sender or receiver, is
charged exactly once, with the first sync point `startStep·N + G` as the source computes
it, in the type `unsigned` (the sum modulo `2^32`, which is the sum itself when that is
below `2^32`), the last step `ENDLESS` and the stride `G`; the links handed to the stepper
are these links. Two update groups that are constructed on different ranks with the same
initializer, `N` and `G` charge all their links with the same schedule. -/
theorem links_charged_once (T : Topology D) (N : Nat) (partition : Partition D)
    (box : CoordBox D) (G : Nat) (initializer : Initializer D)
    (aG aI aG2 aI2 : List A) (pG pI pG2 pI2 : List P) (layer layer2 : MPILayer D) :
    ∃ ug ug2,
      construct T N partition box G initializer aG aI pG pI layer = Except.ok ug ∧
      construct T N partition box G initializer aG2 aI2 pG2 pI2 layer2 = Except.ok ug2 ∧
      (∀ l ∈ ug.patchLinks,
        l.charges = [⟨(((initializer.startStep * N + G) % 2 ^ 32 : Nat) : Int), ENDLESS, G⟩]) ∧
      (initializer.startStep * N + G < 2 ^ 32 → ∀ l ∈ ug.patchLinks,
        l.charges = [⟨((initializer.startStep * N + G : Nat) : Int), ENDLESS, G⟩]) ∧
      (∀ l, PatchAccepterPtr.link l ∈ ug.stepper.ghostPatchAccepters →
        l ∈ ug.patchLinks ∧ l.kind = LinkKind.accepter) ∧
      (∀ l t, (PatchProviderPtr.link l, t) ∈ ug.stepper.patchProviders →
        l ∈ ug.patchLinks ∧ l.kind = LinkKind.provider) ∧
      (∀ l ∈ ug.patchLinks, ∀ l2 ∈ ug2.patchLinks, l.charges = l2.charges) := by
  refine ⟨_, _, construct_eq T N partition box G initializer aG aI pG pI layer,
    construct_eq T N partition box G initializer aG2 aI2 pG2 pI2 layer2, ?_, ?_, ?_, ?_, ?_⟩
  · intro l hl
    dsimp only at hl
    rcases List.mem_append.1 hl with h | h
    · exact (kind_of_mem_fragmentLinks h).2.2
    · exact (kind_of_mem_fragmentLinks h).2.2
  · intro hlt l hl
    dsimp only at hl
    have hf : firstSync initializer N G = ((initializer.startStep * N + G : Nat) : Int) := by
      unfold firstSync
      rw [Nat.mod_eq_of_lt hlt]
    rw [← hf]
    rcases List.mem_append.1 hl with h | h
    · exact (kind_of_mem_fragmentLinks h).2.2
    · exact (kind_of_mem_fragmentLinks h).2.2
  · intro l hl
    dsimp only at hl ⊢
    rcases List.mem_append.1 hl with h | h
    · simp at h
    · obtain ⟨l2, hl2, he⟩ := List.mem_map.1 h
      have : l2 = l := PatchAccepterPtr.link.inj he
      rw [← this]
      exact ⟨List.mem_append_left _ hl2, (kind_of_mem_fragmentLinks hl2).1⟩
  · intro l t hl
    dsimp only at hl ⊢
    rcases List.mem_append.1 hl with h | h
    · rcases List.mem_append.1 h with h | h
      · obtain ⟨l2, hl2, he⟩ := List.mem_map.1 h
        have : l2 = l := PatchProviderPtr.link.inj (Prod.mk.inj he).1
        rw [← this]
        exact ⟨List.mem_append_right _ hl2, (kind_of_mem_fragmentLinks hl2).1⟩
      · simp at h
    · simp at h
  · intro l hl l2 hl2
    dsimp only at hl hl2
    have h1 : l.charges = [⟨firstSync initializer N G, ENDLESS, G⟩] := by
      rcases List.mem_append.1 hl with h | h
      · exact (kind_of_mem_fragmentLinks h).2.2
      · exact (kind_of_mem_fragmentLinks h).2.2
    have h2 : l2.charges = [⟨firstSync initializer N G, ENDLESS, G⟩] := by
      rcases List.mem_append.1 hl2 with h | h
      · exact (kind_of_mem_fragmentLinks h).2.2
      · exact (kind_of_mem_fragmentLinks h).2.2
    rw [h1, h2]

end UpdateGroup

namespace Example

theorem startingLine_lt (r : Nat) (hr : r < 9) : startingLine r < startingLine (r + 1) := by
  interval_cases r <;> decide

end Example

namespace UpdateGroup

/-- Counterexample to C24 as stated: the update group of rank 0 of the two stripes with
ghost zone width 2 and three nano steps per step has a link whose stride is 2, not
`2·3`; it fires two steps after its first sync point, which a link of stride 6 does
not. -/
theorem links_stride_counterexample :
    ∃ ug, Example.pairGroup = Except.ok ug ∧
      ∃ l ∈ ug.patchLinks, ∃ c ∈ l.charges,
        c.stride ≠ 2 * 3 ∧ c.fires (c.first + 2) ∧
          ¬ (Charge.mk c.first c.last (2 * 3)).fires (c.first + 2) :=
  ⟨_, construct_eq (Topology.cube 1) 3 Example.stripes Example.box10 2
    Example.pairInitializer [] [] [] [] Example.pairLayer, by decide⟩

end UpdateGroup

namespace PartitionManager

/-- Witness of C21 (amended): rank 0 of the nine ranks of the unit test. -/
theorem outgroup_rows_witness :
    ((0 : Int) < 20 ∧
      (∀ r, r < 9 → Example.testPartition.getRegion r =
        rows 20 400 (Example.startingLine r) (Example.startingLine (r + 1))) ∧
      (∀ r, r < 9 → Example.startingLine r + ((6 : Nat) : Int) ≤ Example.startingLine (r + 1)) ∧
      (∀ r, r < 9 → Example.startingLine r < Example.startingLine (r + 1)) ∧
      ((6 : Nat) : Int) ≤ Example.startingLine 0 ∧ Example.startingLine 9 = 400 ∧
      (1 < 9 → Example.startingLine 0 + 2 * ((6 : Nat) : Int) ≤ Example.startingLine 1) ∧
      0 < 9) ∧
    ((resetGhostZones (Topology.cube 2)
        (resetRegions (Topology.cube 2) (fresh 2) ⟨fun _ => 0, ![20, 400]⟩
          Example.testPartition 0 6)
        ((List.range 9).map (fun j => boundingBox (Example.testPartition.getRegion j)))
        ).getOuterOutgroupGhostZoneFragment =
        rows 20 400 (Example.startingLine 0 - ((6 : Nat) : Int)) (Example.startingLine 0) ∧
      (resetGhostZones (Topology.cube 2)
        (resetRegions (Topology.cube 2) (fresh 2) ⟨fun _ => 0, ![20, 400]⟩
          Example.testPartition 0 6)
        ((List.range 9).map (fun j => boundingBox (Example.testPartition.getRegion j)))
        ).getInnerOutgroupGhostZoneFragment =
        rows 20 400 (Example.startingLine 0) (Example.startingLine 0 + ((6 : Nat) : Int))) :=
  ⟨⟨by decide, Example.testPartition_rows, Example.startingLine_step,
      Example.startingLine_lt, by decide, by decide, fun _ => by decide, by decide⟩,
    (outgroup_rows (fresh 2) _ (fun _ => 0) Example.testPartition 9 0 6 20 400
      Example.startingLine _ rfl (by decide) Example.testPartition_rows
      Example.startingLine_step Example.startingLine_lt (by decide) (by decide)
      (fun _ => by decide) rfl (by decide)).1 rfl⟩

/-- Witness of C22: the last rank of the unit test (rows 370 to 399, ghost zone width 6),
whose expansion is clipped at the last row of the box. -/
theorem ownExpanded_rows_witness :
    (Example.testPartition.getRegion 8 =
        rows 20 400 (Example.startingLine 8) (Example.startingLine 9) ∧
      ((6 : Nat) : Int) ≤ Example.startingLine 8 ∧
      Example.startingLine 8 < Example.startingLine 9 ∧ Example.startingLine 9 ≤ 400) ∧
    ((resetRegions (Topology.cube 2) (fresh 2) ⟨fun _ => 0, ![20, 400]⟩
        Example.testPartition 8 6).ownRegion 0 =
        rows 20 400 (Example.startingLine 8) (Example.startingLine 9) ∧
      (resetRegions (Topology.cube 2) (fresh 2) ⟨fun _ => 0, ![20, 400]⟩
        Example.testPartition 8 6).ownExpandedRegion =
        rows 20 400 (Example.startingLine 8 - ((6 : Nat) : Int))
          (min (Example.startingLine 9 + ((6 : Nat) : Int)) 400)) :=
  ⟨⟨Example.testPartition_rows 8 (by decide), by decide, by decide, by decide⟩,
    ownExpanded_rows (fresh 2) (fun _ => 0) Example.testPartition 8 6 20 400
      (Example.startingLine 8) (Example.startingLine 9)
      (Example.testPartition_rows 8 (by decide)) (by decide) (by decide) (by decide)⟩

end PartitionManager

namespace Grid

/-- Witness of C28: cell 2 of the grid of four cells is set to 7. -/
theorem get_set_witness :
    Example.lineGrid.boundingBox.inBounds (Example.cell 2) ∧
    ((Example.lineGrid.set (Topology.cube 1) (Example.cell 2) 7).get (Topology.cube 1)
        (Example.cell 2) = 7 ∧
    (∀ c2, Example.lineGrid.boundingBox.inBounds c2 → c2 ≠ Example.cell 2 →
      (Example.lineGrid.set (Topology.cube 1) (Example.cell 2) 7).get (Topology.cube 1) c2 =
        Example.lineGrid.get (Topology.cube 1) c2) ∧
    (Example.lineGrid.set (Topology.cube 1) (Example.cell 2) 7).getEdge =
      Example.lineGrid.getEdge ∧
    (Example.lineGrid.set (Topology.cube 1) (Example.cell 2) 7).getDimensions =
      Example.lineGrid.getDimensions ∧
    (Example.lineGrid.set (Topology.cube 1) (Example.cell 2) 7).boundingBox =
      Example.lineGrid.boundingBox) :=
  ⟨by decide, get_set (Topology.cube 1) Example.lineGrid (Example.cell 2) 7 (by decide)⟩

/-- Witness of C29: the coordinate 5 lies outside the grid of four cells. -/
theorem get_set_edge_witness :
    ¬ Example.lineGrid.boundingBox.inBounds (Example.cell 5) ∧
    (Example.lineGrid.get (Topology.cube 1) (Example.cell 5) = Example.lineGrid.getEdge ∧
    (Example.lineGrid.set (Topology.cube 1) (Example.cell 5) 7).getEdge = 7 ∧
    (∀ c2, ¬ Example.lineGrid.boundingBox.inBounds c2 →
      (Example.lineGrid.set (Topology.cube 1) (Example.cell 5) 7).get (Topology.cube 1) c2 =
        7) ∧
    (∀ c3, Example.lineGrid.boundingBox.inBounds c3 →
      (Example.lineGrid.set (Topology.cube 1) (Example.cell 5) 7).get (Topology.cube 1) c3 =
        Example.lineGrid.get (Topology.cube 1) c3) ∧
    (Example.lineGrid.set (Topology.cube 1) (Example.cell 5) 7).getDimensions =
      Example.lineGrid.getDimensions ∧
    (Example.lineGrid.set (Topology.cube 1) (Example.cell 5) 7).boundingBox =
      Example.lineGrid.boundingBox) :=
  ⟨by decide, get_set_edge Example.lineGrid (Example.cell 5) 7 (by decide)⟩

/-- Witness of C30: the cells 1 and 2 of the grid of four cells are set to 7 and 8 and read
back into a buffer of two cells. -/
theorem streak_roundtrip_witness :
    (Example.lineGrid.boundingBox.inBounds Example.lineStreak.origin ∧
      Example.lineStreak.endX ≤
        Example.lineGrid.boundingBox.origin 0 + Example.lineGrid.boundingBox.dimensions 0 ∧
      (([7, 8] : List Nat).length : Int) =
        Example.lineStreak.endX - Example.lineStreak.origin 0 ∧
      ([7, 8] : List Nat).length ≤ ([0, 0] : List Nat).length) ∧
    ((∀ k, k < ([7, 8] : List Nat).length →
      (getStreak (Topology.cube 1)
        (setStreak (Topology.cube 1) Example.lineGrid Example.lineStreak [7, 8])
        Example.lineStreak [0, 0])[k]? = ([7, 8] : List Nat)[k]?) ∧
    (∀ k, ([7, 8] : List Nat).length ≤ k →
      (getStreak (Topology.cube 1)
        (setStreak (Topology.cube 1) Example.lineGrid Example.lineStreak [7, 8])
        Example.lineStreak [0, 0])[k]? = ([0, 0] : List Nat)[k]?) ∧
    (∀ k, k < ([7, 8] : List Nat).length →
      some ((setStreak (Topology.cube 1) Example.lineGrid Example.lineStreak [7, 8]).get
        (Topology.cube 1) (cursor Example.lineStreak k)) = ([7, 8] : List Nat)[k]?) ∧
    (∀ c, Example.lineGrid.boundingBox.inBounds c →
      (∀ k, k < ([7, 8] : List Nat).length → c ≠ cursor Example.lineStreak k) →
      (setStreak (Topology.cube 1) Example.lineGrid Example.lineStreak [7, 8]).get
        (Topology.cube 1) c = Example.lineGrid.get (Topology.cube 1) c) ∧
    (setStreak (Topology.cube 1) Example.lineGrid Example.lineStreak [7, 8]).getEdge =
      Example.lineGrid.getEdge ∧
    (setStreak (Topology.cube 1) Example.lineGrid Example.lineStreak [7, 8]).getDimensions =
      Example.lineGrid.getDimensions) :=
  ⟨⟨by decide, by decide, by decide, by decide⟩,
    streak_roundtrip (Topology.cube 1) Example.lineGrid Example.lineStreak [7, 8] [0, 0]
      (by decide) (by decide) (by decide) (by decide)⟩

end Grid

namespace Grid

variable {CELL : Type} {D : Nat}

/-- No coordinate lies inside the zero extents of the default-constructed coordinate. -/
theorem not_inBounds_zero [NeZero D] (c : Coord D) : ¬ inBounds (fun _ => (0 : Int)) c := by
  intro h
  have h0 : 0 ≤ c 0 ∧ c 0 < 0 := h 0
  omega

/-- C31: after `resize(newDim)` the dimensions are `newDim`, the bounding box is the box at
the origin with extents `newDim`, the edge cell is the one from before, and every in-bounds
cell is the default-constructed cell, whatever the grid held before and also when `newDim`
is the old dimension. -/
theorem resize_spec [NeZero D] [Inhabited CELL] (T : Topology D) (g : Grid CELL D)
    (newDim : Coord D) :
    (g.resize newDim).getDimensions = newDim ∧
    (g.resize newDim).boundingBox = ⟨fun _ => 0, newDim⟩ ∧
    (g.resize newDim).getEdge = g.getEdge ∧
    (∀ c, (g.resize newDim).boundingBox.inBounds c → (g.resize newDim).get T c = default) ∧
    (∀ c, (g.resize g.getDimensions).boundingBox.inBounds c →
      (g.resize g.getDimensions).get T c = default) := by
  have key : ∀ (n : Coord D) (c : Coord D), (g.resize n).boundingBox.inBounds c →
      (g.resize n).get T c = default := by
    intro n c hc
    have hb : inBounds (g.resize n).dimensions c := (boundingBox_inBounds _ c).1 hc
    unfold get read
    rw [locate_of_inBounds T hb]
    show resizeMatrix (fun _ => 0) n (resizeMatrix g.dimensions (fun _ => 0) g.cellMatrix) c =
      default
    unfold resizeMatrix
    rw [if_neg (fun h => not_inBounds_zero c h.1)]
  exact ⟨rfl, rfl, rfl, key newDim, key g.getDimensions⟩

/-- Witness of C31: the line of four cells that hold their x coordinate is resized to its
own dimension; the cell 2, which held 2, then holds the default cell 0 and the edge cell
still holds 99. -/
theorem resize_spec_witness :
    (Example.lineGrid.get (Topology.cube 1) (Example.cell 2) = 2 ∧
      (Example.lineGrid.resize Example.lineGrid.getDimensions).get (Topology.cube 1)
        (Example.cell 2) = 0 ∧
      (Example.lineGrid.resize Example.lineGrid.getDimensions).getEdge = 99) ∧
    ((Example.lineGrid.resize (Example.cell 4)).getDimensions = Example.cell 4 ∧
    (Example.lineGrid.resize (Example.cell 4)).boundingBox = ⟨fun _ => 0, Example.cell 4⟩ ∧
    (Example.lineGrid.resize (Example.cell 4)).getEdge = Example.lineGrid.getEdge ∧
    (∀ c, (Example.lineGrid.resize (Example.cell 4)).boundingBox.inBounds c →
      (Example.lineGrid.resize (Example.cell 4)).get (Topology.cube 1) c = default) ∧
    (∀ c, (Example.lineGrid.resize Example.lineGrid.getDimensions).boundingBox.inBounds c →
      (Example.lineGrid.resize Example.lineGrid.getDimensions).get (Topology.cube 1) c =
        default)) :=
  ⟨⟨by decide, by decide, rfl⟩, resize_spec (Topology.cube 1) Example.lineGrid (Example.cell 4)⟩

end Grid

namespace VarStepInitializerProxy

variable {D : Nat}

/-- C33: for every wrapped initializer `I` and every state `p` of a proxy: `maxSteps()` is
the `unsigned` sum of `startStep()` of the wrapped initializer and `getMaxSteps()`, that is,
the sum modulo `2^32`, and the sum itself when it is below `2^32`; `getMaxSteps()` is
`I.maxSteps()` after construction and `n` after `setMaxSteps(n)`; `startStep()`,
`gridDimensions()` and `gridBox()` are those of the wrapped initializer, which
`setMaxSteps(n)` leaves alone; a fresh proxy reports the sum of `I.startStep()` and
`I.maxSteps()`. -/
theorem maxSteps_spec (I : Initializer D) (p : VarStepInitializerProxy D) (n : Nat) :
    (p.maxSteps = (p.getInitializer.startStep + p.getMaxSteps) % 2 ^ 32 ∧
      (p.getInitializer.startStep + p.getMaxSteps < 2 ^ 32 →
        p.maxSteps = p.getInitializer.startStep + p.getMaxSteps)) ∧
    ((construct I).getInitializer = I ∧ (construct I).getMaxSteps = I.maxSteps) ∧
    ((p.setMaxSteps n).getMaxSteps = n ∧
      (p.setMaxSteps n).getInitializer = p.getInitializer) ∧
    (p.startStep = p.getInitializer.startStep ∧
      p.gridDimensions = p.getInitializer.gridDimensions ∧
      p.gridBox = p.getInitializer.gridBox) ∧
    ((p.setMaxSteps n).startStep = p.startStep ∧
      (p.setMaxSteps n).gridDimensions = p.gridDimensions ∧
      (p.setMaxSteps n).gridBox = p.gridBox) ∧
    ((construct I).maxSteps = (I.startStep + I.maxSteps) % 2 ^ 32 ∧
      (I.startStep + I.maxSteps < 2 ^ 32 →
        (construct I).maxSteps = I.startStep + I.maxSteps)) :=
  ⟨⟨rfl, fun h => Nat.mod_eq_of_lt h⟩, ⟨rfl, rfl⟩, ⟨rfl, rfl⟩, ⟨rfl, rfl, rfl⟩,
    ⟨rfl, rfl, rfl⟩, ⟨rfl, fun h => Nat.mod_eq_of_lt h⟩⟩

/-- Witness of C33: an initializer that starts at step 5 and has 10 steps: the fresh proxy
reports 15 and, after `setMaxSteps(3)`, 8; for an initializer that starts at step
`2^32 - 1` the `unsigned` sum of the start step and one step wraps around to 0. -/
theorem maxSteps_spec_witness :
    ((construct (⟨Example.box10.dimensions, Example.box10, 5, 10⟩ : Initializer 1)).maxSteps =
        15 ∧
      ((construct (⟨Example.box10.dimensions, Example.box10, 5, 10⟩ :
        Initializer 1)).setMaxSteps 3).maxSteps = 8 ∧
      ((construct (⟨Example.box10.dimensions, Example.box10, 4294967295, 10⟩ :
        Initializer 1)).setMaxSteps 1).maxSteps = 0) ∧
    (construct (⟨Example.box10.dimensions, Example.box10, 5, 10⟩ : Initializer 1)).maxSteps =
      5 + 10 :=
  ⟨⟨by decide, by decide, by decide⟩,
    (maxSteps_spec (⟨Example.box10.dimensions, Example.box10, 5, 10⟩ : Initializer 1)
      (construct ⟨Example.box10.dimensions, Example.box10, 5, 10⟩) 0).2.2.2.2.2.2
      (by decide)⟩

end VarStepInitializerProxy

namespace PartitionManager

variable {D : Nat}

/-- After `resetRegions` and `resetGhostZones` both fragment maps hold an entry under
`OUTGROUP`; its back fragment is the `OUTGROUP` fragment the accessors return. -/
theorem lookup_outgroup_afterReset (T : Topology D) (pm0 : PartitionManager D)
    (sa : CoordBox D) (part : Partition D) (me G : Nat) (boxes : List (CoordBox D)) :
    (∃ st, (resetGhostZones T (resetRegions T pm0 sa part me G)
        boxes).getOuterGhostZoneFragments.lookup OUTGROUP = some st ∧
      vecBack st = (resetGhostZones T (resetRegions T pm0 sa part me G)
        boxes).getOuterOutgroupGhostZoneFragment) ∧
    (∃ st, (resetGhostZones T (resetRegions T pm0 sa part me G)
        boxes).getInnerGhostZoneFragments.lookup OUTGROUP = some st ∧
      vecBack st = (resetGhostZones T (resetRegions T pm0 sa part me G)
        boxes).getInnerOutgroupGhostZoneFragment) := by
  obtain ⟨R, _, e⟩ := afterReset_eq T pm0 sa part me G boxes
  rw [e]
  simp only [getOuterGhostZoneFragments, getInnerGhostZoneFragments,
    getOuterOutgroupGhostZoneFragment, getInnerOutgroupGhostZoneFragment,
    RegionVecMap.get_insert_self, RegionVecMap.lookup_insert, if_true]
  exact ⟨⟨_, rfl, rfl⟩, ⟨_, rfl, rfl⟩⟩

end PartitionManager

namespace UpdateGroup

variable {A P : Type} {D : Nat}

/-- The links of one class that name the peer `OUTGROUP`, for the fragment map of the
manager of an update group. -/
theorem filter_outgroup_links (kind : LinkKind) (first : Int) (G : Nat) {m : RegionVecMap D}
    (hs : KeysSorted m) {st : List (Region D)} (hl : m.lookup OUTGROUP = some st) :
    (fragmentLinks kind first G m).filter (fun l => l.kind = kind ∧ l.peer = OUTGROUP) =
      if vecBack st ≠ ∅ then [⟨kind, vecBack st, OUTGROUP, [⟨first, ENDLESS, G⟩]⟩]
      else [] := by
  rw [filter_kind_fragmentLinks, if_pos rfl, filter_fragmentLinks kind first G hs OUTGROUP, hl]

/-- C37: the constructor of `UpdateGroup` does not skip the pseudo-peer `OUTGROUP = -1`:
the stored links of the sender class with peer `OUTGROUP` are exactly one link whose region
is the inner `OUTGROUP` fragment of the manager when that fragment is not empty (and none
when it is empty), and this link is among the ghost accepters of the stepper; likewise the
receiver class, the outer `OUTGROUP` fragment and the `GHOST` providers of the stepper. The
links are charged with the first sync point, the `unsigned` value of `startStep·N + G`
(the sum modulo `2^32`). -/
theorem outgroup_links (T : Topology D) (N : Nat) (partition : Partition D)
    (box : CoordBox D) (G : Nat) (initializer : Initializer D)
    (aG aI : List A) (pG pI : List P) (layer : MPILayer D) :
    ∃ ug, construct T N partition box G initializer aG aI pG pI layer = Except.ok ug ∧
      OUTGROUP = -1 ∧
      (ug.patchLinks.filter (fun l => l.kind = LinkKind.accepter ∧ l.peer = OUTGROUP) =
        if ug.partitionManager.getInnerOutgroupGhostZoneFragment ≠ ∅ then
          [⟨LinkKind.accepter, ug.partitionManager.getInnerOutgroupGhostZoneFragment, OUTGROUP,
            [⟨(((initializer.startStep * N + G) % 2 ^ 32 : Nat) : Int), ENDLESS, G⟩]⟩]
        else []) ∧
      (ug.patchLinks.filter (fun l => l.kind = LinkKind.provider ∧ l.peer = OUTGROUP) =
        if ug.partitionManager.getOuterOutgroupGhostZoneFragment ≠ ∅ then
          [⟨LinkKind.provider, ug.partitionManager.getOuterOutgroupGhostZoneFragment, OUTGROUP,
            [⟨(((initializer.startStep * N + G) % 2 ^ 32 : Nat) : Int), ENDLESS, G⟩]⟩]
        else []) ∧
      (ug.partitionManager.getInnerOutgroupGhostZoneFragment ≠ ∅ →
        PatchAccepterPtr.link
          ⟨LinkKind.accepter, ug.partitionManager.getInnerOutgroupGhostZoneFragment, OUTGROUP,
            [⟨(((initializer.startStep * N + G) % 2 ^ 32 : Nat) : Int), ENDLESS, G⟩]⟩ ∈
          ug.stepper.ghostPatchAccepters) ∧
      (ug.partitionManager.getOuterOutgroupGhostZoneFragment ≠ ∅ →
        (PatchProviderPtr.link
          ⟨LinkKind.provider, ug.partitionManager.getOuterOutgroupGhostZoneFragment, OUTGROUP,
            [⟨(((initializer.startStep * N + G) % 2 ^ 32 : Nat) : Int), ENDLESS, G⟩]⟩, PatchType.GHOST) ∈
          ug.stepper.patchProviders) := by
  refine ⟨_, construct_eq T N partition box G initializer aG aI pG pI layer, rfl, ?_⟩
  dsimp only
  obtain ⟨⟨hso, hsi⟩, _, _⟩ := PartitionManager.fragmentMaps_afterReset T
    (PartitionManager.fresh D) box partition layer.rank G
    (layer.allGather (LibGeoDecomp.boundingBox (partition.getRegion layer.rank)))
  obtain ⟨⟨so, hlo, hbo⟩, ⟨si, hli, hbi⟩⟩ := PartitionManager.lookup_outgroup_afterReset T
    (PartitionManager.fresh D) box partition layer.rank G
    (layer.allGather (LibGeoDecomp.boundingBox (partition.getRegion layer.rank)))
  have hA : (fragmentLinks LinkKind.accepter (firstSync initializer N G) G
      (managerOf T partition box G layer).getInnerGhostZoneFragments).filter
        (fun l => l.kind = LinkKind.accepter ∧ l.peer = OUTGROUP) =
      if (managerOf T partition box G layer).getInnerOutgroupGhostZoneFragment ≠ ∅ then
        [⟨LinkKind.accepter, (managerOf T partition box G
          layer).getInnerOutgroupGhostZoneFragment, OUTGROUP,
          [⟨firstSync initializer N G, ENDLESS, G⟩]⟩]
      else [] := by
    have h := @filter_outgroup_links D LinkKind.accepter (firstSync initializer N G) G _ hsi
      _ hli
    rw [hbi] at h
    exact h
  have hP : (fragmentLinks LinkKind.provider (firstSync initializer N G) G
      (managerOf T partition box G layer).getOuterGhostZoneFragments).filter
        (fun l => l.kind = LinkKind.provider ∧ l.peer = OUTGROUP) =
      if (managerOf T partition box G layer).getOuterOutgroupGhostZoneFragment ≠ ∅ then
        [⟨LinkKind.provider, (managerOf T partition box G
          layer).getOuterOutgroupGhostZoneFragment, OUTGROUP,
          [⟨firstSync initializer N G, ENDLESS, G⟩]⟩]
      else [] := by
    have h := @filter_outgroup_links D LinkKind.provider (firstSync initializer N G) G _ hso
      _ hlo
    rw [hbo] at h
    exact h
  have hAP : ∀ m : RegionVecMap D, (fragmentLinks LinkKind.provider (firstSync initializer N G)
      G m).filter (fun l => l.kind = LinkKind.accepter ∧ l.peer = OUTGROUP) = [] := by
    intro m
    rw [filter_kind_fragmentLinks, if_neg (by decide)]
  have hPA : ∀ m : RegionVecMap D, (fragmentLinks LinkKind.accepter (firstSync initializer N G)
      G m).filter (fun l => l.kind = LinkKind.provider ∧ l.peer = OUTGROUP) = [] := by
    intro m
    rw [filter_kind_fragmentLinks, if_neg (by decide)]
  unfold senderLinks receiverLinks
  refine ⟨?_, ?_, ?_, ?_⟩
  · rw [List.filter_append, hAP, List.append_nil]
    exact hA
  · rw [List.filter_append, hPA, List.nil_append]
    exact hP
  · intro hne
    apply List.mem_append_right
    apply List.mem_map_of_mem
    rw [if_pos hne] at hA
    have hm := List.mem_singleton_self (⟨LinkKind.accepter, (managerOf T partition box G
        layer).getInnerOutgroupGhostZoneFragment, OUTGROUP,
        [⟨firstSync initializer N G, ENDLESS, G⟩]⟩ : PatchLink D)
    rw [← hA] at hm
    exact (List.mem_filter.1 hm).1
  · intro hne
    apply List.mem_append_left
    apply List.mem_append_left
    rw [if_pos hne] at hP
    have hm := List.mem_singleton_self (⟨LinkKind.provider, (managerOf T partition box G
        layer).getOuterOutgroupGhostZoneFragment, OUTGROUP,
        [⟨firstSync initializer N G, ENDLESS, G⟩]⟩ : PatchLink D)
    rw [← hP] at hm
    exact List.mem_map.2 ⟨_, (List.mem_filter.1 hm).1, rfl⟩

/-- An instance of C37: rank 0 of the two stripes in a layer of one rank has no peer, so
its inner `OUTGROUP` fragment is the rim `3, 4` and its outer `OUTGROUP` fragment the outer
rim `5, 6`; the update group holds a sender link and a receiver link with peer `-1` for
them. -/
theorem outgroup_links_witness :
    ∃ ug, Example.soloGroup = Except.ok ug ∧
      ug.partitionManager.getInnerOutgroupGhostZoneFragment = Example.cells [3, 4] ∧
      ug.partitionManager.getOuterOutgroupGhostZoneFragment = Example.cells [5, 6] ∧
      ug.patchLinks.filter (fun l => l.kind = LinkKind.accepter ∧ l.peer = -1) =
        [⟨LinkKind.accepter, Example.cells [3, 4], -1, [⟨2, ENDLESS, 2⟩]⟩] ∧
      ug.patchLinks.filter (fun l => l.kind = LinkKind.provider ∧ l.peer = -1) =
        [⟨LinkKind.provider, Example.cells [5, 6], -1, [⟨2, ENDLESS, 2⟩]⟩] := by
  obtain ⟨ug, hug, _, hA, hP, _, _⟩ := @outgroup_links Unit Unit 1 (Topology.cube 1) 3
    Example.stripes Example.box10 2 Example.pairInitializer [] [] [] [] Example.soloLayer
  have hi : ug.partitionManager.getInnerOutgroupGhostZoneFragment = Example.cells [3, 4] := by
    have := hug.symm.trans (construct_eq (Topology.cube 1) 3 Example.stripes Example.box10 2
      Example.pairInitializer [] [] [] [] Example.soloLayer)
    rw [Except.ok.injEq] at this
    rw [this]
    decide
  have ho : ug.partitionManager.getOuterOutgroupGhostZoneFragment = Example.cells [5, 6] := by
    have := hug.symm.trans (construct_eq (Topology.cube 1) 3 Example.stripes Example.box10 2
      Example.pairInitializer [] [] [] [] Example.soloLayer)
    rw [Except.ok.injEq] at this
    rw [this]
    decide
  rw [hi] at hA
  rw [ho] at hP
  refine ⟨ug, hug, hi, ho, ?_, ?_⟩
  · rw [show ((-1 : Int)) = OUTGROUP from rfl, hA]
    decide
  · rw [show ((-1 : Int)) = OUTGROUP from rfl, hP]
    decide

end UpdateGroup

namespace PartitionManager

variable {D : Nat}

/-- The state after `resetRegions` has no peer entries and a consistent region cache. -/
theorem peersOK_resetRegions (T : Topology D) (pm0 : PartitionManager D) (sa : CoordBox D)
    (part : Partition D) (me G : Nat) : PeersOK T (resetRegions T pm0 sa part me G) := by
  rw [resetRegions_eq]
  refine ⟨stacksOK_resetRegions T sa part me G, ?_, ?_, ?_⟩
  · intro i st h
    simp [RegionVecMap.lookup] at h
  · intro i st h
    simp [RegionVecMap.lookup] at h
  · intro i
    rfl

/-- One call of `resetGhostZones` on a consistent state: the state stays consistent, the
setup is the same, every peer entry is kept with its stacks, and the new `OUTGROUP`
fragments avoid the back fragment of every peer entry. -/
theorem resetGhostZones_keeps (T : Topology D) (pm : PartitionManager D)
    (boxes : List (CoordBox D)) (h : PeersOK T pm) :
    PeersOK T (resetGhostZones T pm boxes) ∧
    ((resetGhostZones T pm boxes).partition = pm.partition ∧
      (resetGhostZones T pm boxes).simulationArea = pm.simulationArea ∧
      (resetGhostZones T pm boxes).myRank = pm.myRank ∧
      (resetGhostZones T pm boxes).ghostZoneWidth = pm.ghostZoneWidth) ∧
    (∀ (i : Nat), (pm.outerGhostZoneFragments.lookup (i : Int)).isSome = true →
      (resetGhostZones T pm boxes).outerGhostZoneFragments.lookup (i : Int) =
        pm.outerGhostZoneFragments.lookup (i : Int)) ∧
    (∀ (i : Nat), (pm.innerGhostZoneFragments.lookup (i : Int)).isSome = true →
      (resetGhostZones T pm boxes).innerGhostZoneFragments.lookup (i : Int) =
        pm.innerGhostZoneFragments.lookup (i : Int)) ∧
    (∀ (i : Nat) (st : List (Region D)),
      (resetGhostZones T pm boxes).outerGhostZoneFragments.lookup (i : Int) = some st →
      ∀ c ∈ (resetGhostZones T pm boxes).getOuterOutgroupGhostZoneFragment, c ∉ vecBack st) ∧
    (∀ (i : Nat) (st : List (Region D)),
      (resetGhostZones T pm boxes).innerGhostZoneFragments.lookup (i : Int) = some st →
      ∀ c ∈ (resetGhostZones T pm boxes).getInnerOutgroupGhostZoneFragment, c ∉ vecBack st) := by
  obtain ⟨hok, hO, hI, hOI⟩ := h
  obtain ⟨R, ok, e⟩ := resetGhostZones_eq T pm boxes hok
  rw [e]
  have hlk : ∀ (X : RegionVecMap D) (v : List (Region D)) (i : Nat),
      (X.insert OUTGROUP v).lookup (i : Int) = X.lookup (i : Int) := by
    intro X v i
    rw [RegionVecMap.lookup_insert, if_neg (natCast_ne_OUTGROUP i)]
  refine ⟨⟨ok, ?_, ?_, ?_⟩, ⟨rfl, rfl, rfl, rfl⟩, ?_, ?_, ?_, ?_⟩
  · intro i st hl
    dsimp only at hl ⊢
    rw [hlk, lookup_peerFragments] at hl
    split_ifs at hl with hc
    · exact (Option.some.inj hl).symm
    · exact hO i st hl
  · intro i st hl
    dsimp only at hl ⊢
    rw [hlk, lookup_peerFragments] at hl
    split_ifs at hl with hc
    · exact (Option.some.inj hl).symm
    · exact hI i st hl
  · intro i
    dsimp only
    rw [hlk, hlk, lookup_peerFragments, lookup_peerFragments]
    split_ifs with hc
    · rfl
    · exact hOI i
  · intro i hs
    dsimp only
    rw [hlk, lookup_peerFragments]
    split_ifs with hc
    · cases hl : pm.outerGhostZoneFragments.lookup (i : Int) with
      | none => rw [hl] at hs; exact absurd hs (by simp)
      | some st => rw [hO i st hl]
    · rfl
  · intro i hs
    dsimp only
    rw [hlk, lookup_peerFragments]
    split_ifs with hc
    · cases hl : pm.innerGhostZoneFragments.lookup (i : Int) with
      | none => rw [hl] at hs; exact absurd hs (by simp)
      | some st => rw [hI i st hl]
    · rfl
  · intro i st hl c hc
    dsimp only at hl
    rw [hlk] at hl
    simp only [getOuterOutgroupGhostZoneFragment, RegionVecMap.get_insert_self,
      vecBack_replicate] at hc
    exact (mem_subtractPeerFragments.1 hc).2 _ (RegionVecMap.mem_of_lookup hl)
      (natCast_ne_OUTGROUP i)
  · intro i st hl c hc
    dsimp only at hl
    rw [hlk] at hl
    simp only [getInnerOutgroupGhostZoneFragment, RegionVecMap.get_insert_self,
      vecBack_replicate] at hc
    exact (mem_subtractPeerFragments.1 hc).2 _ (RegionVecMap.mem_of_lookup hl)
      (natCast_ne_OUTGROUP i)

/-- Any number of calls of `resetGhostZones` on a consistent state: the state stays
consistent and every peer entry is kept with its stacks. -/
theorem resetGhostZones_calls_keep (T : Topology D) (calls : List (List (CoordBox D)))
    (pm : PartitionManager D) (h : PeersOK T pm) :
    PeersOK T (calls.foldl (resetGhostZones T) pm) ∧
    (∀ (i : Nat), (pm.outerGhostZoneFragments.lookup (i : Int)).isSome = true →
      (calls.foldl (resetGhostZones T) pm).outerGhostZoneFragments.lookup (i : Int) =
        pm.outerGhostZoneFragments.lookup (i : Int)) ∧
    (∀ (i : Nat), (pm.innerGhostZoneFragments.lookup (i : Int)).isSome = true →
      (calls.foldl (resetGhostZones T) pm).innerGhostZoneFragments.lookup (i : Int) =
        pm.innerGhostZoneFragments.lookup (i : Int)) := by
  induction calls generalizing pm with
  | nil => exact ⟨h, fun _ _ => rfl, fun _ _ => rfl⟩
  | cons b rest ih =>
    obtain ⟨h1, _, hO, hI, _, _⟩ := resetGhostZones_keeps T pm b h
    obtain ⟨h2, hO2, hI2⟩ := ih (resetGhostZones T pm b) h1
    rw [List.foldl_cons]
    refine ⟨h2, ?_, ?_⟩
    · intro i hs
      rw [hO2 i (by rw [hO i hs]; exact hs), hO i hs]
    · intro i hs
      rw [hI2 i (by rw [hI i hs]; exact hs), hI i hs]

/-- C36: `resetGhostZones` never removes a peer. Let `before` be the state after
`resetRegions` and any calls of `resetGhostZones`, and let rank `p` be recorded in it. After
any further calls and then a call `resetGhostZones(later)` with any list of boxes (also one
whose box of `p` does not intersect the own bounding box, or that has no box for `p`), `p`
is recorded in both maps with the stacks it had in `before`, and the recomputed `OUTGROUP`
fragments avoid its fragments of width `G` (the back of its stacks); `resetRegions` leaves
both maps without entries. -/
theorem peers_persist (T : Topology D) (pm0 : PartitionManager D) (sa : CoordBox D)
    (part : Partition D) (me G : Nat) (earlier between : List (List (CoordBox D)))
    (later : List (CoordBox D)) (p : Nat) (before after : PartitionManager D)
    (hb : before = earlier.foldl (resetGhostZones T) (resetRegions T pm0 sa part me G))
    (ha : after = resetGhostZones T (between.foldl (resetGhostZones T) before) later)
    (hp : before.getOuterGhostZoneFragments.count (p : Int) = 1) :
    (before.getInnerGhostZoneFragments.count (p : Int) = 1 ∧
      after.getOuterGhostZoneFragments.count (p : Int) = 1 ∧
      after.getInnerGhostZoneFragments.count (p : Int) = 1) ∧
    (after.getOuterGhostZoneFragments.get (p : Int) =
        before.getOuterGhostZoneFragments.get (p : Int) ∧
      after.getInnerGhostZoneFragments.get (p : Int) =
        before.getInnerGhostZoneFragments.get (p : Int)) ∧
    ((∀ c ∈ after.getOuterOutgroupGhostZoneFragment,
        c ∉ vecBack (after.getOuterGhostZoneFragments.get (p : Int))) ∧
      (∀ c ∈ after.getInnerOutgroupGhostZoneFragment,
        c ∉ vecBack (after.getInnerGhostZoneFragments.get (p : Int)))) ∧
    (∀ (sa2 : CoordBox D) (part2 : Partition D) (me2 G2 : Nat),
      (resetRegions T after sa2 part2 me2 G2).getOuterGhostZoneFragments = [] ∧
      (resetRegions T after sa2 part2 me2 G2).getInnerGhostZoneFragments = []) := by
  have hB : PeersOK T before := by
    rw [hb]
    exact (resetGhostZones_calls_keep T earlier _ (peersOK_resetRegions T pm0 sa part me G)).1
  obtain ⟨hM, hOm, hIm⟩ := resetGhostZones_calls_keep T between before hB
  obtain ⟨_, _, hOa, hIa, hOo, hIo⟩ :=
    resetGhostZones_keeps T (between.foldl (resetGhostZones T) before) later hM
  rw [← ha] at hOa hIa hOo hIo
  have hso : (before.outerGhostZoneFragments.lookup (p : Int)).isSome = true := by
    unfold getOuterGhostZoneFragments RegionVecMap.count at hp
    by_contra hn
    rw [if_neg hn] at hp
    exact absurd hp (by decide)
  have hsi : (before.innerGhostZoneFragments.lookup (p : Int)).isSome = true := by
    rw [← hB.2.2.2 p]
    exact hso
  have eO : after.outerGhostZoneFragments.lookup (p : Int) =
      before.outerGhostZoneFragments.lookup (p : Int) := by
    rw [hOa p (by rw [hOm p hso]; exact hso), hOm p hso]
  have eI : after.innerGhostZoneFragments.lookup (p : Int) =
      before.innerGhostZoneFragments.lookup (p : Int) := by
    rw [hIa p (by rw [hIm p hsi]; exact hsi), hIm p hsi]
  refine ⟨⟨?_, ?_, ?_⟩, ⟨?_, ?_⟩, ⟨?_, ?_⟩, ?_⟩
  · simp only [getInnerGhostZoneFragments, RegionVecMap.count, hsi, if_true]
  · simp only [getOuterGhostZoneFragments, RegionVecMap.count, eO, hso, if_true]
  · simp only [getInnerGhostZoneFragments, RegionVecMap.count, eI, hsi, if_true]
  · simp only [getOuterGhostZoneFragments, RegionVecMap.get, eO]
  · simp only [getInnerGhostZoneFragments, RegionVecMap.get, eI]
  · intro c hc
    cases hl : after.outerGhostZoneFragments.lookup (p : Int) with
    | none => rw [← eO, hl] at hso; exact absurd hso (by simp)
    | some st =>
      simp only [getOuterGhostZoneFragments, RegionVecMap.get, hl, Option.getD_some]
      exact hOo p st hl c hc
  · intro c hc
    cases hl : after.innerGhostZoneFragments.lookup (p : Int) with
    | none => rw [← eI, hl] at hsi; exact absurd hsi (by simp)
    | some st =>
      simp only [getInnerGhostZoneFragments, RegionVecMap.get, hl, Option.getD_some]
      exact hIo p st hl c hc
  · intro sa2 part2 me2 G2
    rw [resetRegions_eq]
    exact ⟨rfl, rfl⟩

end PartitionManager

namespace PartitionManager

/-- Witness of C36: rank 0 of the two stripes records peer 1; a second call of
`resetGhostZones` with an empty list of boxes keeps the entries of peer 1. -/
theorem peers_persist_witness :
    Example.rank0.getOuterGhostZoneFragments.count ((1 : Nat) : Int) = 1 ∧
    ((Example.rank0.getInnerGhostZoneFragments.count ((1 : Nat) : Int) = 1 ∧
      Example.rank0Again.getOuterGhostZoneFragments.count ((1 : Nat) : Int) = 1 ∧
      Example.rank0Again.getInnerGhostZoneFragments.count ((1 : Nat) : Int) = 1) ∧
    (Example.rank0Again.getOuterGhostZoneFragments.get ((1 : Nat) : Int) =
        Example.rank0.getOuterGhostZoneFragments.get ((1 : Nat) : Int) ∧
      Example.rank0Again.getInnerGhostZoneFragments.get ((1 : Nat) : Int) =
        Example.rank0.getInnerGhostZoneFragments.get ((1 : Nat) : Int)) ∧
    ((∀ c ∈ Example.rank0Again.getOuterOutgroupGhostZoneFragment,
        c ∉ vecBack (Example.rank0Again.getOuterGhostZoneFragments.get ((1 : Nat) : Int))) ∧
      (∀ c ∈ Example.rank0Again.getInnerOutgroupGhostZoneFragment,
        c ∉ vecBack (Example.rank0Again.getInnerGhostZoneFragments.get ((1 : Nat) : Int)))) ∧
    (∀ (sa2 : CoordBox 1) (part2 : Partition 1) (me2 G2 : Nat),
      (resetRegions (Topology.cube 1) Example.rank0Again sa2 part2 me2
        G2).getOuterGhostZoneFragments = [] ∧
      (resetRegions (Topology.cube 1) Example.rank0Again sa2 part2 me2
        G2).getInnerGhostZoneFragments = [])) :=
  ⟨by decide,
    peers_persist (Topology.cube 1) Example.blank Example.box10 Example.stripes 0 2
      [Example.stripeBoxes] [] [] 1 Example.rank0 Example.rank0Again rfl rfl (by decide)⟩

end PartitionManager

section SymmetryLemmas

variable {D : Nat}

/-- The expansion is symmetric inside the box: a cell `c` in the expansion of a region
inside the box is reached from a cell `p` of the region that lies in the expansion of
every region that holds `c`. -/
theorem exists_mem_expandSteps_of_mem {dims : Coord D} (T : Topology D) (w : Nat)
    {A B : Region D} (hA : ∀ c ∈ A, inBounds dims c) {c : Coord D}
    (hc : c ∈ expandSteps dims T w A) (hB : c ∈ B) :
    ∃ p ∈ A, p ∈ expandSteps dims T w B := by
  rw [← expand_eq_expandSteps T w hA] at hc
  obtain ⟨hcb, p, hp, o, ho, hpo⟩ := mem_expandWithTopology.1 hc
  refine ⟨p, hp, ?_⟩
  have hs : ∀ x ∈ ({c} : Region D), inBounds dims x := by
    intro x hx
    rw [Finset.mem_singleton] at hx
    rw [hx]
    exact hcb
  have h1 : p ∈ expandWithTopology w dims T {c} :=
    mem_expand_of_step_to (hA p hp) ho (by rw [hpo]; exact Finset.mem_singleton_self c)
  rw [expand_eq_expandSteps T w hs] at h1
  exact expandSteps_mono w (Finset.singleton_subset_iff.2 hB) h1

end SymmetryLemmas

namespace PartitionManager

variable {D : Nat}

/-- After `resetRegions` and `resetGhostZones(boxes)` rank `i` has an entry in each of the
two fragment maps exactly if `i < |boxes|` and the test of the first loop holds for it. -/
theorem count_afterReset (T : Topology D) (pm0 : PartitionManager D) (sa : CoordBox D)
    (part : Partition D) (me G : Nat) (boxes : List (CoordBox D)) (i : Nat) :
    (resetGhostZones T (resetRegions T pm0 sa part me G) boxes).getOuterGhostZoneFragments.count
        (i : Int) =
      (if i < boxes.length ∧ sharesGhostZone T part sa.dimensions G me boxes
        (boundingBox (expandSteps sa.dimensions T G (part.getRegion me))) i then 1 else 0) ∧
    (resetGhostZones T (resetRegions T pm0 sa part me G) boxes).getInnerGhostZoneFragments.count
        (i : Int) =
      (if i < boxes.length ∧ sharesGhostZone T part sa.dimensions G me boxes
        (boundingBox (expandSteps sa.dimensions T G (part.getRegion me))) i then 1 else 0) := by
  obtain ⟨R, _, e⟩ := afterReset_eq T pm0 sa part me G boxes
  rw [e]
  simp only [getOuterGhostZoneFragments, getInnerGhostZoneFragments, RegionVecMap.count,
    RegionVecMap.lookup_insert, if_neg (natCast_ne_OUTGROUP i), outerPeers, innerPeers,
    lookup_peerFragments]
  by_cases hc : i < boxes.length ∧ sharesGhostZone T part sa.dimensions G me boxes
      (boundingBox (expandSteps sa.dimensions T G (part.getRegion me))) i
  · simp [hc]
  · simp [hc, RegionVecMap.lookup]

/-- C35 (amended): the bounding-box test of `resetGhostZones` does not drop a neighbour
whose region lies inside the simulation box. If `boxes[i]` is the bounding box of
`partition.getRegion(i)`, `i ≠ myRank`, the region of `i` lies inside the box and
`(getRegion(myRank, G) ∩ getRegion(i, 0)) ∪ (getRegion(i, G) ∩ getRegion(myRank, 0))` is
not empty, then `boxes[i]` intersects the bounding box of `ownExpandedRegion()` and `i` is
recorded in both fragment maps. -/
theorem prefilter_keeps_neighbour (T : Topology D) (pm0 pm : PartitionManager D)
    (sa : CoordBox D) (part : Partition D) (me G : Nat) (boxes : List (CoordBox D)) (i : Nat)
    (hpm : pm = resetGhostZones T (resetRegions T pm0 sa part me G) boxes)
    (hi : i < boxes.length)
    (hbox : boxes.getD i ⟨fun _ => 0, fun _ => 0⟩ = boundingBox (part.getRegion i))
    (hne : i ≠ me)
    (hin : ∀ c ∈ part.getRegion i, inBounds sa.dimensions c)
    (hshare : ((getRegion T pm me G).1 ∩ (getRegion T pm i 0).1) ∪
      ((getRegion T pm i G).1 ∩ (getRegion T pm me 0).1) ≠ ∅) :
    ((boxes.getD i ⟨fun _ => 0, fun _ => 0⟩).intersects
      (boundingBox (resetRegions T pm0 sa part me G).ownExpandedRegion)) = true ∧
    pm.getOuterGhostZoneFragments.count (i : Int) = 1 ∧
    pm.getInnerGhostZoneFragments.count (i : Int) = 1 := by
  subst hpm
  have hg := getRegion_afterReset T pm0 sa part me G boxes
  have z : ∀ n, expandSteps sa.dimensions T 0 (part.getRegion n) = part.getRegion n :=
    fun _ => rfl
  rw [hg me G (le_refl _), hg i 0 (Nat.zero_le _), hg i G (le_refl _), hg me 0 (Nat.zero_le _),
    z, z] at hshare
  have hx : (resetRegions T pm0 sa part me G).ownExpandedRegion =
      expandSteps sa.dimensions T G (part.getRegion me) :=
    ownExpandedRegion_resetRegions T pm0 sa part me G
  rw [hx]
  have hsplit : expandSteps sa.dimensions T G (part.getRegion me) ∩ part.getRegion i ≠ ∅ ∨
      expandSteps sa.dimensions T G (part.getRegion i) ∩ part.getRegion me ≠ ∅ := by
    rw [Ne, Finset.union_eq_empty, not_and_or] at hshare
    exact hshare
  -- a cell of the peer's region in the own expanded region
  have hcommon : ∃ p ∈ part.getRegion i,
      p ∈ expandSteps sa.dimensions T G (part.getRegion me) := by
    rcases hsplit with h | h
    · obtain ⟨c, hc⟩ := Finset.nonempty_iff_ne_empty.2 h
      rw [Finset.mem_inter] at hc
      exact ⟨c, hc.2, hc.1⟩
    · obtain ⟨c, hc⟩ := Finset.nonempty_iff_ne_empty.2 h
      rw [Finset.mem_inter] at hc
      exact exists_mem_expandSteps_of_mem T G hin hc.1 hc.2
  obtain ⟨p, hp1, hp2⟩ := hcommon
  have hint : ((boxes.getD i ⟨fun _ => 0, fun _ => 0⟩).intersects
      (boundingBox (expandSteps sa.dimensions T G (part.getRegion me)))) = true := by
    rw [hbox]
    exact intersects_boundingBox_of_mem hp1 hp2
  have hs : i < boxes.length ∧ sharesGhostZone T part sa.dimensions G me boxes
      (boundingBox (expandSteps sa.dimensions T G (part.getRegion me))) i :=
    ⟨hi, ⟨hne, hint⟩, hsplit⟩
  obtain ⟨hO, hI⟩ := count_afterReset T pm0 sa part me G boxes i
  rw [hO, hI, if_pos hs]
  exact ⟨hint, rfl, rfl⟩

/-- Counterexample to C35 as stated: in the box of five cells rank 0 owns `0..2` and rank 1
owns the cell `-1` outside the box, the ghost zone width is 1 and the boxes are the
bounding boxes of the two regions. Only the expansion of the region of rank 1 reaches the
own region (in the cell 0), but the box of rank 1 does not intersect the bounding box of
the own expanded region, and rank 1 is not recorded. -/
theorem prefilter_keeps_neighbour_counterexample :
    (Example.outsideBoxes.length = 2 ∧
      ∀ j, j < 2 → Example.outsideBoxes.getD j ⟨fun _ => 0, fun _ => 0⟩ =
        boundingBox (Example.outside.getRegion j)) ∧
    ((getRegion (Topology.cube 1) Example.outsideRank0 0 1).1 ∩
        (getRegion (Topology.cube 1) Example.outsideRank0 1 0).1 = ∅ ∧
      (getRegion (Topology.cube 1) Example.outsideRank0 1 1).1 ∩
        (getRegion (Topology.cube 1) Example.outsideRank0 0 0).1 = Example.cells [0] ∧
      ((getRegion (Topology.cube 1) Example.outsideRank0 0 1).1 ∩
          (getRegion (Topology.cube 1) Example.outsideRank0 1 0).1) ∪
        ((getRegion (Topology.cube 1) Example.outsideRank0 1 1).1 ∩
          (getRegion (Topology.cube 1) Example.outsideRank0 0 0).1) ≠ ∅) ∧
    ((Example.outsideBoxes.getD 1 ⟨fun _ => 0, fun _ => 0⟩).intersects
      (boundingBox (resetRegions (Topology.cube 1) Example.blank Example.box5 Example.outside
        0 1).ownExpandedRegion)) = false ∧
    Example.outsideRank0.getOuterGhostZoneFragments.count 1 = 0 ∧
    Example.outsideRank0.getInnerGhostZoneFragments.count 1 = 0 := by
  refine ⟨⟨rfl, ?_⟩, ⟨by decide, by decide, by decide⟩, by decide, by decide, by decide⟩
  intro j hj
  interval_cases j <;> rfl

/-- Witness of C35 (amended): rank 0 of the two stripes with ghost zone width 2 and peer
1, whose stripe lies inside the box of ten cells. -/
theorem prefilter_keeps_neighbour_witness :
    (1 < Example.stripeBoxes.length ∧
      Example.stripeBoxes.getD 1 ⟨fun _ => 0, fun _ => 0⟩ =
        boundingBox (Example.stripes.getRegion 1) ∧
      1 ≠ 0 ∧
      (∀ c ∈ Example.stripes.getRegion 1, inBounds Example.box10.dimensions c) ∧
      ((getRegion (Topology.cube 1) Example.rank0 0 2).1 ∩
          (getRegion (Topology.cube 1) Example.rank0 1 0).1) ∪
        ((getRegion (Topology.cube 1) Example.rank0 1 2).1 ∩
          (getRegion (Topology.cube 1) Example.rank0 0 0).1) ≠ ∅) ∧
    (((Example.stripeBoxes.getD 1 ⟨fun _ => 0, fun _ => 0⟩).intersects
      (boundingBox (resetRegions (Topology.cube 1) Example.blank Example.box10 Example.stripes
        0 2).ownExpandedRegion)) = true ∧
    Example.rank0.getOuterGhostZoneFragments.count ((1 : Nat) : Int) = 1 ∧
    Example.rank0.getInnerGhostZoneFragments.count ((1 : Nat) : Int) = 1) :=
  ⟨⟨by decide, rfl, by decide, Example.stripes_inBox 1, by decide⟩,
    prefilter_keeps_neighbour (Topology.cube 1) Example.blank Example.rank0 Example.box10
      Example.stripes 0 2 Example.stripeBoxes 1 rfl (by decide) rfl (by decide)
      (Example.stripes_inBox 1) (by decide)⟩

end PartitionManager

section BoxOrder

/-- The coordinates of a box in iteration order are the cells of the box. -/
theorem CoordBox.mem_coords : ∀ {D : Nat} (b : CoordBox D) (c : Coord D),
    c ∈ b.coords ↔ b.inBounds c := by
  intro D
  induction D with
  | zero =>
    intro b c
    have hc : c = fun _ => 0 := funext (fun a => a.elim0)
    simp only [CoordBox.coords, List.mem_singleton, hc, true_iff]
    intro a
    exact a.elim0
  | succ D ih =>
    intro b c
    simp only [CoordBox.coords, List.mem_flatMap, List.mem_range, List.mem_map, ih]
    constructor
    · rintro ⟨k, hk, c0, hc0, rfl⟩ a
      unfold Coord.snoc
      by_cases ha : a.val < D
      · rw [dif_pos ha]
        exact hc0 ⟨a.val, ha⟩
      · rw [dif_neg ha]
        have hl : a = Fin.last D := Fin.ext (by have := a.isLt; simp only [Fin.val_last]; omega)
        subst hl
        omega
    · intro h
      have hl := h (Fin.last D)
      refine ⟨(c (Fin.last D) - b.origin (Fin.last D)).toNat, by omega, Coord.init c, ?_, ?_⟩
      · intro a
        exact h ⟨a.val, Nat.lt_succ_of_lt a.isLt⟩
      · funext a
        unfold Coord.snoc Coord.init
        by_cases ha : a.val < D
        · rw [dif_pos ha]
        · rw [dif_neg ha]
          have hl2 : a = Fin.last D :=
            Fin.ext (by have := a.isLt; simp only [Fin.val_last]; omega)
          subst hl2
          omega

/-- The number of coordinates of the box of the offsets `-1, 0, 1` on every axis. -/
theorem CoordBox.length_coords_diagonal : ∀ (D : Nat),
    (CoordBox.coords (⟨fun _ => -1, fun _ => 3⟩ : CoordBox D)).length = 3 ^ D := by
  intro D
  induction D with
  | zero => rfl
  | succ D ih =>
    have hb : (⟨Coord.init (fun _ => -1), Coord.init (fun _ => 3)⟩ : CoordBox D) =
        ⟨fun _ => -1, fun _ => 3⟩ := rfl
    simp only [CoordBox.coords, List.length_flatMap, hb, Function.comp_def, List.length_map,
      ih]
    simp [pow_succ, Nat.mul_comm]
    omega

end BoxOrder

namespace NeighborhoodAdapter

variable {Key Cargo : Type} {D : Nat}

/-- The loop of `operator[]` finds nothing exactly if no container of the list other than
the centre holds the id. -/
theorem search_eq_none (hood : NeighborhoodAdapter Key Cargo D) (id : Key)
    (l : List (Coord D)) :
    search hood id l = none ↔ ∀ i ∈ l, i ≠ (fun _ => 0) → hood.neighbors i id = none := by
  induction l with
  | nil => simp [search]
  | cons i rest ih =>
    unfold search
    by_cases hi : i ≠ (fun _ => 0)
    · rw [if_pos hi]
      cases hn : hood.neighbors i id with
      | none =>
        dsimp only
        rw [ih]
        constructor
        · intro h j hj hj0
          rcases List.mem_cons.1 hj with rfl | hj
          · exact hn
          · exact h j hj hj0
        · intro h j hj hj0
          exact h j (List.mem_cons_of_mem _ hj) hj0
      | some r =>
        dsimp only
        constructor
        · intro h
          exact absurd h (by simp)
        · intro h
          have := h i (List.mem_cons_self _ _) hi
          rw [hn] at this
          exact absurd this (by simp)
    · rw [if_neg hi, ih]
      constructor
      · intro h j hj hj0
        rcases List.mem_cons.1 hj with rfl | hj
        · exact absurd hj0 hi
        · exact h j hj hj0
      · intro h j hj hj0
        exact h j (List.mem_cons_of_mem _ hj) hj0

/-- The loop of `operator[]` returns the cargo of the first container of the list, other
than the centre, that holds the id. -/
theorem search_first (hood : NeighborhoodAdapter Key Cargo D) (id : Key)
    (before after : List (Coord D)) (i : Coord D) (r : Cargo)
    (hbefore : ∀ j ∈ before, j ≠ (fun _ => 0) → hood.neighbors j id = none)
    (hi : i ≠ (fun _ => 0)) (hr : hood.neighbors i id = some r) :
    search hood id (before ++ i :: after) = some r := by
  induction before with
  | nil =>
    rw [List.nil_append]
    unfold search
    rw [if_pos hi, hr]
  | cons j rest ih =>
    rw [List.cons_append]
    unfold search
    have ihr := ih (fun k hk => hbefore k (List.mem_cons_of_mem _ hk))
    by_cases hj : j ≠ (fun _ => 0)
    · rw [if_pos hj, hbefore j (List.mem_cons_self _ _) hj]
      exact ihr
    · rw [if_neg hj]
      exact ihr

/-- C32: `operator[](id)` returns the cargo that the centre container stores under `id` if
there is one; otherwise it returns the cargo of the first container, in the iteration order
of the box of the offsets `-1, 0, 1` on every axis and the centre left out, that holds
`id`; it throws `std::logic_error` if and only if none of the `3^DIM` containers of the
neighbourhood holds `id`. -/
theorem subscript_spec (hood : NeighborhoodAdapter Key Cargo D) (id : Key) :
    (∀ r, hood.neighbors (fun _ => 0) id = some r → hood.subscript id = Except.ok r) ∧
    (hood.neighbors (fun _ => 0) id = none →
      ∀ (before after : List (Coord D)) (i : Coord D) (r : Cargo),
        CoordBox.coords ⟨fun _ => -1, fun _ => 3⟩ = before ++ i :: after →
        (∀ j ∈ before, j ≠ (fun _ => 0) → hood.neighbors j id = none) →
        i ≠ (fun _ => 0) → hood.neighbors i id = some r →
        hood.subscript id = Except.ok r) ∧
    (hood.subscript id = Except.error "id not found" ↔
      ∀ o : Coord D, (∀ a, -1 ≤ o a ∧ o a ≤ 1) → hood.neighbors o id = none) ∧
    (CoordBox.coords (⟨fun _ => -1, fun _ => 3⟩ : CoordBox D)).length = 3 ^ D ∧
    (∀ o : Coord D, o ∈ CoordBox.coords (⟨fun _ => -1, fun _ => 3⟩ : CoordBox D) ↔
      ∀ a, -1 ≤ o a ∧ o a ≤ 1) := by
  have hmem : ∀ o : Coord D, o ∈ CoordBox.coords (⟨fun _ => -1, fun _ => 3⟩ : CoordBox D) ↔
      ∀ a, -1 ≤ o a ∧ o a ≤ 1 := by
    intro o
    rw [CoordBox.mem_coords]
    unfold CoordBox.inBounds
    constructor
    · intro h a
      have := h a
      dsimp only at this
      omega
    · intro h a
      have := h a
      dsimp only
      omega
  refine ⟨?_, ?_, ?_, CoordBox.length_coords_diagonal D, hmem⟩
  · intro r hr
    unfold subscript
    rw [hr]
  · intro h0 before after i r hsplit hbefore hi hr
    unfold subscript
    rw [h0]
    dsimp only
    rw [hsplit, search_first hood id before after i r hbefore hi hr]
  · unfold subscript
    cases h0 : hood.neighbors (fun _ => 0) id with
    | some r =>
      dsimp only
      constructor
      · intro hm
        exact absurd hm (by simp)
      · intro h
        have := h (fun _ => 0) (fun _ => ⟨by show (-1 : Int) ≤ 0; decide, by show (0 : Int) ≤ 1; decide⟩)
        rw [h0] at this
        exact absurd this (by simp)
    | none =>
      dsimp only
      cases hs : search hood id (CoordBox.coords ⟨fun _ => -1, fun _ => 3⟩) with
      | some r =>
        dsimp only
        constructor
        · intro hm
          exact absurd hm (by simp)
        · intro h
          have hn : search hood id (CoordBox.coords ⟨fun _ => -1, fun _ => 3⟩) = none := by
            rw [search_eq_none]
            intro i hi _
            exact h i ((hmem i).1 hi)
          rw [hn] at hs
          exact absurd hs (by simp)
      | none =>
        dsimp only
        constructor
        · intro _ o ho
          by_cases hz : o = (fun _ => 0)
          · rw [hz]; exact h0
          · exact (search_eq_none hood id _).1 hs o ((hmem o).2 ho) hz
        · intro _
          rfl

end NeighborhoodAdapter

namespace NeighborhoodAdapter

/-- The test `testBoxCell`: the element stored in the cell `(0, 0)` is found from exactly
the cells `(x, y)` of the grid with `x ≤ 1` and `y ≤ 1`. -/
theorem boxCell_found :
    ∀ (x : Fin 10) (y : Fin 5),
      ((Example.boxCellHood ![(x.val : Int), (y.val : Int)]).subscript 1024).toOption =
        if x.val ≤ 1 ∧ y.val ≤ 1 then some 7 else none := by
  decide

end NeighborhoodAdapter

namespace NeighborhoodAdapter

/-- Witness of C32 on the grid of the test `testBoxCell`: the iteration order of the
offsets in two dimensions; from the cell `(1, 1)`, whose own container is empty, the
element of the cell `(0, 0)` is found in the first container of the order, the one at the
offset `(-1, -1)`; from the cell `(2, 0)` none of the nine containers holds the id and the
exception is thrown. -/
theorem subscript_spec_witness :
    CoordBox.coords (⟨fun _ => -1, fun _ => 3⟩ : CoordBox 2) =
      [![-1, -1], ![0, -1], ![1, -1], ![-1, 0], ![0, 0], ![1, 0], ![-1, 1], ![0, 1],
        ![1, 1]] ∧
    (Example.boxCellHood ![1, 1]).subscript 1024 = Except.ok 7 ∧
    (Example.boxCellHood ![2, 0]).subscript 1024 = Except.error "id not found" :=
  ⟨by decide,
    (subscript_spec (Example.boxCellHood ![1, 1]) 1024).2.1 (by decide) []
      [![0, -1], ![1, -1], ![-1, 0], ![0, 0], ![1, 0], ![-1, 1], ![0, 1], ![1, 1]]
      ![-1, -1] 7 (by decide) (by decide) (by decide) (by decide),
    (subscript_spec (Example.boxCellHood ![2, 0]) 1024).2.2.1.2
      (fun o ho =>
        (by decide : ∀ o ∈ CoordBox.coords (⟨fun _ => -1, fun _ => 3⟩ : CoordBox 2),
          (Example.boxCellHood ![2, 0]).neighbors o 1024 = none) o
          (((subscript_spec (Example.boxCellHood ![2, 0]) 1024).2.2.2.2 o).2 ho))⟩

end NeighborhoodAdapter

namespace StringOps

/-- The tokens the split yields, without the empty ones, are the non-empty pieces between
the delimiter characters; the second equation is the split inside a run of delimiters. -/
theorem splitFrom_runs (p : Char → Bool) : ∀ (s current : List Char),
    del (splitFrom p s current false) [] =
        del ((s.splitOnP p).modifyHead (fun x => current.reverse ++ x)) [] ∧
      del (splitFrom p s [] true) [] = del (s.splitOnP p) [] := by
  intro s
  induction s with
  | nil =>
    intro current
    simp [splitFrom, del]
  | cons c r ih =>
    intro current
    by_cases hp : p c = true
    · have h1 : splitFrom p (c :: r) current false =
          current.reverse :: splitFrom p r [] true := by
        simp [splitFrom, hp]
      have h2 : splitFrom p (c :: r) [] true = splitFrom p r [] true := by
        simp [splitFrom, hp]
      have h3 : (c :: r).splitOnP p = [] :: r.splitOnP p := by
        rw [List.splitOnP_cons, if_pos hp]
      rw [h1, h2, h3]
      have ih2 := (ih []).2
      unfold del at ih2 ⊢
      constructor
      · rw [List.modifyHead_cons, List.append_nil, List.filter_cons, List.filter_cons, ih2]
      · rw [ih2]
        simp
    · have h1 : splitFrom p (c :: r) current false = splitFrom p r (c :: current) false := by
        simp [splitFrom, hp]
      have h2 : splitFrom p (c :: r) [] true = splitFrom p r [c] false := by
        simp [splitFrom, hp]
      have h3 : (c :: r).splitOnP p = (r.splitOnP p).modifyHead (List.cons c) := by
        rw [List.splitOnP_cons, if_neg hp]
      rw [h1, h2, h3, (ih (c :: current)).1, (ih [c]).1, List.modifyHead_modifyHead]
      constructor
      · congr 2
        funext x
        simp
      · congr 2

/-- The function `tokenize` yields the maximal non-empty runs of characters that are not
delimiters. -/
theorem tokenize_eq_tokenRuns (s d : List Char) : tokenize s d = tokenRuns s d := by
  unfold tokenize split tokenRuns
  rw [(splitFrom_runs _ s []).1]
  unfold del
  have : (fun x : List Char => ([] : List Char).reverse ++ x) = id := by
    funext x
    simp
  rw [this]
  cases List.splitOnP (fun c => decide (c ∈ d)) s <;> rfl

/-- A leading delimiter produces no token. -/
theorem tokenRuns_cons_delimiter {c : Char} {d : List Char} (hc : c ∈ d) (s : List Char) :
    tokenRuns (c :: s) d = tokenRuns s d := by
  unfold tokenRuns
  rw [List.splitOnP_cons, if_pos (by simpa using hc)]
  simp

/-- Leading delimiters produce no token. -/
theorem tokenRuns_append_delimiters {pre : List Char} {d : List Char}
    (hpre : ∀ c ∈ pre, c ∈ d) (s : List Char) : tokenRuns (pre ++ s) d = tokenRuns s d := by
  induction pre with
  | nil => rfl
  | cons c rest ih =>
    rw [List.cons_append, tokenRuns_cons_delimiter (hpre c (List.mem_cons_self _ _)),
      ih (fun x hx => hpre x (List.mem_cons_of_mem _ hx))]

/-- A non-empty run of characters that are not delimiters, followed by a delimiter, is
the first token. -/
theorem tokenRuns_run_delimiter {t d : List Char} (ht : t ≠ []) (hfree : ∀ c ∈ t, c ∉ d)
    {c : Char} (hc : c ∈ d) (r : List Char) :
    tokenRuns (t ++ c :: r) d = t :: tokenRuns r d := by
  unfold tokenRuns
  rw [List.splitOnP_first _ _ (by simpa using hfree) c (by simpa using hc)]
  simp [ht]

/-- A non-empty run of characters that are not delimiters is the only token. -/
theorem tokenRuns_run {t d : List Char} (ht : t ≠ []) (hfree : ∀ c ∈ t, c ∉ d) :
    tokenRuns t d = [t] := by
  unfold tokenRuns
  rw [List.splitOnP_eq_single _ _ (by simpa using hfree)]
  simp [ht]

/-- No piece between delimiter characters holds a delimiter character. -/
theorem not_mem_of_mem_splitOnP (p : Char → Bool) : ∀ (s t : List Char),
    t ∈ s.splitOnP p → ∀ c ∈ t, p c = false := by
  intro s
  induction s with
  | nil =>
    intro t ht c hc
    simp at ht
    rw [ht] at hc
    simp at hc
  | cons x r ih =>
    intro t ht c hc
    rw [List.splitOnP_cons] at ht
    by_cases hp : p x = true
    · rw [if_pos hp] at ht
      rcases List.mem_cons.1 ht with h | h
      · rw [h] at hc
        simp at hc
      · exact ih t h c hc
    · rw [if_neg hp] at ht
      cases hl : r.splitOnP p with
      | nil => exact absurd hl (List.splitOnP_ne_nil p r)
      | cons h tl =>
        rw [hl, List.modifyHead_cons] at ht
        rcases List.mem_cons.1 ht with h1 | h1
        · rw [h1] at hc
          rcases List.mem_cons.1 hc with h2 | h2
          · rw [h2]
            simpa using hp
          · exact ih h (by rw [hl]; exact List.mem_cons_self _ _) c h2
        · exact ih t (by rw [hl]; exact List.mem_cons_of_mem _ h1) c hc

/-- Every token is non-empty and free of delimiter characters. -/
theorem mem_tokenRuns {s d t : List Char} (ht : t ∈ tokenRuns s d) :
    t ≠ [] ∧ ∀ c ∈ t, c ∉ d := by
  unfold tokenRuns at ht
  rw [List.mem_filter] at ht
  refine ⟨by simpa using ht.2, ?_⟩
  intro c hc
  have := not_mem_of_mem_splitOnP _ s t ht.1 c hc
  simpa using this

/-- The loop of `join` after the first token. -/
theorem foldl_joinStep (d : List Char) (tokens : List (List Char)) (buffer : List Char) :
    (tokens.foldl (joinStep d) (buffer, false)).1 =
      buffer ++ (tokens.map (fun t => d ++ t)).flatten := by
  induction tokens generalizing buffer with
  | nil => simp
  | cons t rest ih =>
    rw [List.foldl_cons]
    have : joinStep d (buffer, false) t = (buffer ++ d ++ t, false) := by
      simp [joinStep]
    rw [this, ih]
    simp

/-- The string `join` builds: the first token, then every further token after the
delimiter. -/
theorem join_cons (d t : List Char) (tokens : List (List Char)) :
    join (t :: tokens) d = t ++ (tokens.map (fun t => d ++ t)).flatten := by
  unfold join
  rw [List.foldl_cons]
  have : joinStep d ([], true) t = (t, false) := by
    simp [joinStep]
  rw [this, foldl_joinStep]

/-- The tokens of a joined string are the joined tokens. -/
theorem tokenRuns_join {d : List Char} (hd : d ≠ []) : ∀ (tokens : List (List Char)),
    (∀ t ∈ tokens, t ≠ [] ∧ ∀ c ∈ t, c ∉ d) → tokenRuns (join tokens d) d = tokens := by
  have key : ∀ (rest : List (List Char)) (t : List Char),
      (∀ u ∈ t :: rest, u ≠ [] ∧ ∀ c ∈ u, c ∉ d) →
      tokenRuns (t ++ (rest.map (fun u => d ++ u)).flatten) d = t :: rest := by
    intro rest
    induction rest with
    | nil =>
      intro t h
      have ht := h t (List.mem_cons_self _ _)
      simp only [List.map_nil, List.flatten_nil, List.append_nil]
      exact tokenRuns_run ht.1 ht.2
    | cons u rest ih =>
      intro t h
      have ht := h t (List.mem_cons_self _ _)
      obtain ⟨c, d2, rfl⟩ := List.exists_cons_of_ne_nil hd
      rw [List.map_cons, List.flatten_cons, List.cons_append, List.cons_append,
        tokenRuns_run_delimiter ht.1 ht.2 (List.mem_cons_self _ _), List.append_assoc,
        tokenRuns_append_delimiters (fun x hx => List.mem_cons_of_mem _ hx),
        ih u (fun v hv => h v (List.mem_cons_of_mem _ hv))]
  intro tokens h
  cases tokens with
  | nil => rfl
  | cons t rest =>
    rw [join_cons]
    exact key rest t h

/-- C39: `tokenize(s, delims)` returns, in order, the maximal non-empty runs of characters
of `s` that are not in `delims`: no token is empty, no token holds a delimiter character, a
leading delimiter, and hence every run of delimiters, produces no token, a run that ends
at a delimiter or at the end of the string is one token, and the empty string has no
tokens; for tokens that are non-empty and free of the characters of a non-empty delimiter
`d`, `tokenize(join(tokens, d), d) = tokens`. -/
theorem tokenize_spec (s delims : List Char) :
    tokenize s delims = tokenRuns s delims ∧
    (∀ t ∈ tokenize s delims, t ≠ [] ∧ ∀ c ∈ t, c ∉ delims) ∧
    tokenize [] delims = [] ∧
    (∀ c ∈ delims, tokenize (c :: s) delims = tokenize s delims) ∧
    (∀ pre : List Char, (∀ c ∈ pre, c ∈ delims) → tokenize (pre ++ s) delims =
      tokenize s delims) ∧
    (∀ t : List Char, t ≠ [] → (∀ c ∈ t, c ∉ delims) →
      tokenize t delims = [t] ∧
      ∀ c ∈ delims, tokenize (t ++ c :: s) delims = t :: tokenize s delims) ∧
    (∀ tokens : List (List Char), delims ≠ [] →
      (∀ t ∈ tokens, t ≠ [] ∧ ∀ c ∈ t, c ∉ delims) →
      tokenize (join tokens delims) delims = tokens) := by
  refine ⟨tokenize_eq_tokenRuns s delims, ?_, ?_, ?_, ?_, ?_, ?_⟩
  · intro t ht
    rw [tokenize_eq_tokenRuns] at ht
    exact mem_tokenRuns ht
  · rfl
  · intro c hc
    rw [tokenize_eq_tokenRuns, tokenize_eq_tokenRuns, tokenRuns_cons_delimiter hc]
  · intro pre hpre
    rw [tokenize_eq_tokenRuns, tokenize_eq_tokenRuns, tokenRuns_append_delimiters hpre]
  · intro t ht hfree
    refine ⟨?_, ?_⟩
    · rw [tokenize_eq_tokenRuns, tokenRuns_run ht hfree]
    · intro c hc
      rw [tokenize_eq_tokenRuns, tokenize_eq_tokenRuns, tokenRuns_run_delimiter ht hfree hc]
  · intro tokens hd h
    rw [tokenize_eq_tokenRuns, tokenRuns_join hd tokens h]

end StringOps

namespace StringOps

/-- Witness of C39: the tokens of a string with leading, repeated and trailing delimiters,
and the round trip through `join` with a delimiter of two characters. -/
theorem tokenize_spec_witness :
    tokenize " ab  c,d, ".toList " ,".toList = ["ab".toList, "c".toList, "d".toList] ∧
    join ["ab".toList, "c".toList, "d".toList] ", ".toList = "ab, c, d".toList ∧
    tokenize (join ["ab".toList, "c".toList, "d".toList] ", ".toList) ", ".toList =
      ["ab".toList, "c".toList, "d".toList] :=
  ⟨by decide, by decide,
    (tokenize_spec [] ", ".toList).2.2.2.2.2.2 ["ab".toList, "c".toList, "d".toList]
      (by decide) (by decide)⟩

end StringOps

namespace CommandServer

variable {ACTION : Type}

/-- The events of one pass of the loop of `handleInput`, by the four cases of the line. -/
theorem handleLine_cases (s : CommandServer ACTION) (line : List Char) :
    (handleLine s line).actions = s.actions ∧
    ∃ response : List (ServerEvent ACTION),
      (handleLine s line).events = s.events ++ response ∧
      ((line = zeroString ∧ response = []) ∨
        (line ≠ zeroString ∧ StringOps.tokenize line " \n\r".toList = [] ∧
          response = [ServerEvent.sent "no command given\n".toList]) ∨
        (∃ command parameters, line ≠ zeroString ∧
          StringOps.tokenize line " \n\r".toList = command :: parameters ∧
          s.actions.lookup command = none ∧
          response = [ServerEvent.sent
            ("command not found: ".toList ++ command ++ helpHint)]) ∨
        (∃ command parameters action, line ≠ zeroString ∧
          StringOps.tokenize line " \n\r".toList = command :: parameters ∧
          s.actions.lookup command = some action ∧
          response = [ServerEvent.invoked action parameters])) := by
  unfold handleLine
  dsimp only
  by_cases hz : line = zeroString
  · rw [if_pos hz]
    exact ⟨rfl, [], (List.append_nil _).symm, Or.inl ⟨hz, rfl⟩⟩
  · rw [if_neg hz]
    cases ht : StringOps.tokenize line " \n\r".toList with
    | nil => exact ⟨rfl, _, rfl, Or.inr (Or.inl ⟨hz, rfl, rfl⟩)⟩
    | cons command parameters =>
      dsimp only
      cases hl : s.actions.lookup command with
      | none =>
        exact ⟨rfl, _, rfl, Or.inr (Or.inr (Or.inl ⟨command, parameters, hz, rfl, hl, rfl⟩))⟩
      | some action =>
        exact ⟨rfl, _, rfl,
          Or.inr (Or.inr (Or.inr ⟨command, parameters, action, hz, rfl, hl, rfl⟩))⟩

/-- The loop of `handleInput` over any list of lines. -/
theorem foldl_handleLine (lines : List (List Char)) (s : CommandServer ACTION) :
    (lines.foldl handleLine s).actions = s.actions ∧
    ∃ responses : List (List (ServerEvent ACTION)),
      (lines.foldl handleLine s).events = s.events ++ responses.flatten ∧
      List.Forall₂ (fun line response =>
        (line = zeroString ∧ response = []) ∨
        (line ≠ zeroString ∧ StringOps.tokenize line " \n\r".toList = [] ∧
          response = [ServerEvent.sent "no command given\n".toList]) ∨
        (∃ command parameters, line ≠ zeroString ∧
          StringOps.tokenize line " \n\r".toList = command :: parameters ∧
          s.actions.lookup command = none ∧
          response = [ServerEvent.sent
            ("command not found: ".toList ++ command ++ helpHint)]) ∨
        (∃ command parameters action, line ≠ zeroString ∧
          StringOps.tokenize line " \n\r".toList = command :: parameters ∧
          s.actions.lookup command = some action ∧
          response = [ServerEvent.invoked action parameters])) lines responses := by
  induction lines generalizing s with
  | nil => exact ⟨rfl, [], by simp, List.Forall₂.nil⟩
  | cons line rest ih =>
    obtain ⟨ha, response, he, hcase⟩ := handleLine_cases s line
    obtain ⟨ha2, responses, he2, hall⟩ := ih (handleLine s line)
    rw [List.foldl_cons]
    refine ⟨ha2.trans ha, response :: responses, ?_, ?_⟩
    · rw [he2, he, List.flatten_cons, List.append_assoc]
    · rw [ha] at hall
      exact List.Forall₂.cons hcase hall

/-- The map after `addAction`: the key names the new action, every other key names what it
named before. -/
theorem lookup_addAction (s : CommandServer ACTION) (key : List Char) (action : ACTION)
    (k : List Char) :
    (s.addAction key action).actions.lookup k =
      if k = key then some action else s.actions.lookup k := by
  unfold addAction
  dsimp only
  by_cases hk : k = key
  · rw [if_pos hk, hk]
    simp [List.lookup]
  · rw [if_neg hk]
    have hb : (k == key) = false := by simpa using hk
    rw [List.lookup_cons, hb]
    dsimp only
    induction s.actions with
    | nil => rfl
    | cons e rest ih =>
      by_cases he : e.1 = key
      · have hke : (k == e.1) = false := by rw [he]; exact hb
        rw [List.filter_cons_of_neg (by simpa using he), ih]
        obtain ⟨e1, e2⟩ := e
        rw [List.lookup_cons]
        dsimp only at hke
        rw [hke]
      · rw [List.filter_cons_of_pos (by simpa using he)]
        obtain ⟨e1, e2⟩ := e
        rw [List.lookup_cons, List.lookup_cons, ih]

/-- C38: `handleInput` handles the non-empty lines of its input, the maximal runs of
characters other than the line feed, in order, and leaves the registered actions alone;
what it sends and invokes is the concatenation of one response per line, and for each line
exactly one of four cases holds: (a) the line is the single character with code 0 and the
response is empty; (b) the line has no token between blanks, carriage returns and line
feeds and the response is the message `no command given`; (c) the first token is no
registered key and the response is the message `command not found` with the token and the
hint; (d) the response is one invocation of the action registered under the first token
with the remaining tokens, in order, as parameters. A key is registered by `addAction`,
which makes it name the new action and leaves the other keys alone. -/
theorem handleInput_spec (s : CommandServer ACTION) (input : List Char) :
    (∀ line ∈ StringOps.tokenRuns input "\n".toList, line ≠ [] ∧ ∀ c ∈ line, c ≠ Char.ofNat 10) ∧
    (handleInput s input).actions = s.actions ∧
    (∀ (key : List Char) (action : ACTION) (k : List Char),
      (s.addAction key action).actions.lookup k =
        if k = key then some action else s.actions.lookup k) ∧
    ∃ responses : List (List (ServerEvent ACTION)),
      (handleInput s input).events = s.events ++ responses.flatten ∧
      List.Forall₂ (fun line response =>
        (line = zeroString ∧ response = []) ∨
        (line ≠ zeroString ∧ StringOps.tokenize line " \n\r".toList = [] ∧
          response = [ServerEvent.sent "no command given\n".toList]) ∨
        (∃ command parameters, line ≠ zeroString ∧
          StringOps.tokenize line " \n\r".toList = command :: parameters ∧
          s.actions.lookup command = none ∧
          response = [ServerEvent.sent
            ("command not found: ".toList ++ command ++ helpHint)]) ∨
        (∃ command parameters action, line ≠ zeroString ∧
          StringOps.tokenize line " \n\r".toList = command :: parameters ∧
          s.actions.lookup command = some action ∧
          response = [ServerEvent.invoked action parameters]))
        (StringOps.tokenRuns input "\n".toList) responses := by
  have hfold : (handleInput s input) =
      (StringOps.tokenRuns input "\n".toList).foldl handleLine s := by
    unfold handleInput
    rw [StringOps.tokenize_eq_tokenRuns]
  rw [hfold]
  refine ⟨?_, (foldl_handleLine _ s).1, lookup_addAction s, (foldl_handleLine _ s).2⟩
  intro line hline
  obtain ⟨h1, h2⟩ := StringOps.mem_tokenRuns hline
  refine ⟨h1, fun c hc he => h2 c hc ?_⟩
  rw [he]
  decide

/-- Witness of C38: a server with the actions 1 under `ping` and 2 under `get` handles an
input of six lines, one of them empty: the action 2 is invoked with the parameters `a`
and `b`, the line of blanks is answered with `no command given`, the unknown command
`stop` with `command not found`, the line with the single character of code 0 is passed
over, and the action 1 is invoked without parameters. -/
theorem handleInput_spec_witness :
    StringOps.tokenRuns Example.serverInput "\n".toList =
      ["get a  b".toList, "  \r".toList, "stop now".toList, zeroString, "ping".toList] ∧
    (handleInput Example.server Example.serverInput).events =
      [ServerEvent.invoked 2 ["a".toList, "b".toList],
        ServerEvent.sent "no command given\n".toList,
        ServerEvent.sent ("command not found: stop".toList ++ helpHint),
        ServerEvent.invoked 1 []] ∧
    (handleInput Example.server Example.serverInput).actions = Example.server.actions :=
  ⟨by decide, by decide, (handleInput_spec Example.server Example.serverInput).2.1⟩

end CommandServer

namespace SimpleArrayFilter

variable {MEMBER EXTERNAL : Type} {ARITY : Nat}

/-- The layout of `copyStreakOutImpl`: the entries `i·ARITY .. i·ARITY + ARITY - 1` of the
target hold `save` of the buffer of element `i`, the entries from `num·ARITY` on are
untouched. -/
theorem copyStreakOutImpl_layout (f : SimpleArrayFilter MEMBER EXTERNAL ARITY)
    (source : Nat → MEMBER) (target : Nat → EXTERNAL) (stride : Nat) : ∀ (num : Nat),
    (∀ i, i < num → ∀ j : Fin ARITY,
      copyStreakOutImpl f source target num stride (i * ARITY + j.val) =
        f.save (fun k => source (i + k.val * stride)) j) ∧
    (∀ x, num * ARITY ≤ x → copyStreakOutImpl f source target num stride x = target x) := by
  intro num
  induction num with
  | zero =>
    exact ⟨fun i hi => absurd hi (Nat.not_lt_zero i), fun x _ => rfl⟩
  | succ n ih =>
    have hstep : copyStreakOutImpl f source target (n + 1) stride =
        store (copyStreakOutImpl f source target n stride) (n * ARITY)
          (f.save (fun k => source (n + k.val * stride))) := by
      unfold copyStreakOutImpl
      rw [List.range_succ, List.foldl_append]
      rfl
    rw [hstep]
    constructor
    · intro i hi j
      have hj := j.isLt
      unfold store
      by_cases hin : i = n
      · subst hin
        rw [dif_pos ⟨by omega, by omega⟩]
        congr 1
        apply Fin.ext
        show i * ARITY + j.val - i * ARITY = j.val
        omega
      · have hlt : i < n := by omega
        have hmul : (i + 1) * ARITY ≤ n * ARITY := Nat.mul_le_mul_right ARITY hlt
        rw [Nat.add_mul, Nat.one_mul] at hmul
        rw [dif_neg (by omega)]
        exact ih.1 i hlt j
    · intro x hx
      rw [Nat.add_mul, Nat.one_mul] at hx
      unfold store
      rw [dif_neg (by omega)]
      exact ih.2 x (by omega)

/-- The inner loop of `copyStreakInImpl` over a list of distinct component indices. -/
theorem inner_loop (buffer : Fin ARITY → MEMBER) (i stride : Nat) (hs : 0 < stride) :
    ∀ (l : List (Fin ARITY)) (area : Nat → MEMBER), l.Nodup →
      (∀ j ∈ l, l.foldl (fun (t : Nat → MEMBER) (j : Fin ARITY) =>
          Function.update t (i + j.val * stride) (buffer j)) area (i + j.val * stride) =
        buffer j) ∧
      (∀ x, (∀ j ∈ l, x ≠ i + j.val * stride) →
        l.foldl (fun (t : Nat → MEMBER) (j : Fin ARITY) =>
          Function.update t (i + j.val * stride) (buffer j)) area x = area x) := by
  intro l
  induction l with
  | nil =>
    intro area _
    exact ⟨fun j hj => absurd hj (List.not_mem_nil j), fun x _ => rfl⟩
  | cons j0 rest ih =>
    intro area hnd
    rw [List.nodup_cons] at hnd
    obtain ⟨h1, h2⟩ := ih (Function.update area (i + j0.val * stride) (buffer j0)) hnd.2
    rw [List.foldl_cons]
    constructor
    · intro j hj
      rcases List.mem_cons.1 hj with rfl | hj
      · rw [h2]
        · exact Function.update_same _ _ _
        · intro k hk he
          have hmul : j.val * stride = k.val * stride := by omega
          have hv : j.val = k.val := Nat.eq_of_mul_eq_mul_right hs hmul
          exact hnd.1 (by rw [Fin.ext hv]; exact hk)
      · exact h1 j hj
    · intro x hx
      rw [h2 x (fun j hj => hx j (List.mem_cons_of_mem _ hj)),
        Function.update_noteq (hx j0 (List.mem_cons_self _ _))]

/-- The layout of `copyStreakInImpl` for a stride of at least `num`: the entry
`i + j·stride` of the target holds component `j` of `load` of the entries
`i·ARITY .. i·ARITY + ARITY - 1` of the source, every other entry is untouched. -/
theorem copyStreakInImpl_layout (f : SimpleArrayFilter MEMBER EXTERNAL ARITY)
    (source : Nat → EXTERNAL) (target : Nat → MEMBER) (stride : Nat) : ∀ (num : Nat),
    num ≤ stride →
    (∀ i, i < num → ∀ j : Fin ARITY,
      copyStreakInImpl f source target num stride (i + j.val * stride) =
        f.load (window source (i * ARITY)) j) ∧
    (∀ x, (∀ i, i < num → ∀ j : Fin ARITY, x ≠ i + j.val * stride) →
      copyStreakInImpl f source target num stride x = target x) := by
  intro num
  induction num with
  | zero =>
    intro _
    exact ⟨fun i hi => absurd hi (Nat.not_lt_zero i), fun x _ => rfl⟩
  | succ n ih =>
    intro hle
    have hs : 0 < stride := by omega
    obtain ⟨ih1, ih2⟩ := ih (by omega)
    have hstep : copyStreakInImpl f source target (n + 1) stride =
        (List.finRange ARITY).foldl (fun (t : Nat → MEMBER) (j : Fin ARITY) =>
          Function.update t (n + j.val * stride) (f.load (window source (n * ARITY)) j))
          (copyStreakInImpl f source target n stride) := by
      unfold copyStreakInImpl
      rw [List.range_succ, List.foldl_append]
      rfl
    obtain ⟨h1, h2⟩ := inner_loop (f.load (window source (n * ARITY))) n stride hs
      (List.finRange ARITY) (copyStreakInImpl f source target n stride)
      (List.nodup_finRange ARITY)
    rw [hstep]
    constructor
    · intro i hi j
      by_cases hin : i = n
      · subst hin
        exact h1 j (List.mem_finRange j)
      · have hlt : i < n := by omega
        rw [h2]
        · exact ih1 i hlt j
        · intro k _ he
          have hm := congrArg (fun v => v % stride) he
          dsimp only at hm
          rw [Nat.add_mul_mod_self_right, Nat.add_mul_mod_self_right,
            Nat.mod_eq_of_lt (by omega), Nat.mod_eq_of_lt (by omega)] at hm
          omega
    · intro x hx
      rw [h2 x (fun j _ => hx n (by omega) j)]
      exact ih2 x (fun i hi j => hx i (by omega) j)

/-- C40: the layout of the two streak copies and their round trip. `copyStreakOutImpl`
writes `save` of the buffer of element `i`, whose component `j` is `source[i + j·stride]`,
to `target[i·ARITY .. i·ARITY + ARITY - 1]` and leaves the target alone from `num·ARITY`
on; for a stride of at least `num`, `copyStreakInImpl` writes component `j` of `load` of
`source[i·ARITY .. i·ARITY + ARITY - 1]` to `target[i + j·stride]`; and if `load` undoes
`save`, copying out and in again reproduces `source[i + j·stride]` for all `i < num` and
`j < ARITY` and leaves every other entry of the target as it was. -/
theorem streak_copy_roundtrip (f : SimpleArrayFilter MEMBER EXTERNAL ARITY)
    (hload : ∀ m, f.load (f.save m) = m) (source target : Nat → MEMBER)
    (external : Nat → EXTERNAL) (num stride : Nat) (hstride : num ≤ stride) :
    ((∀ i, i < num → ∀ j : Fin ARITY,
        copyStreakOutImpl f source external num stride (i * ARITY + j.val) =
          f.save (fun k => source (i + k.val * stride)) j) ∧
      (∀ x, num * ARITY ≤ x → copyStreakOutImpl f source external num stride x =
        external x)) ∧
    (∀ other : Nat → EXTERNAL,
      (∀ i, i < num → ∀ j : Fin ARITY,
        copyStreakInImpl f other target num stride (i + j.val * stride) =
          f.load (fun k => other (i * ARITY + k.val)) j) ∧
      (∀ x, (∀ i, i < num → ∀ j : Fin ARITY, x ≠ i + j.val * stride) →
        copyStreakInImpl f other target num stride x = target x)) ∧
    ((∀ i, i < num → ∀ j : Fin ARITY,
        copyStreakInImpl f (copyStreakOutImpl f source external num stride) target num stride
          (i + j.val * stride) = source (i + j.val * stride)) ∧
      (∀ x, (∀ i, i < num → ∀ j : Fin ARITY, x ≠ i + j.val * stride) →
        copyStreakInImpl f (copyStreakOutImpl f source external num stride) target num stride
          x = target x)) := by
  have hout := copyStreakOutImpl_layout f source external stride num
  refine ⟨hout, fun other => copyStreakInImpl_layout f other target stride num hstride, ?_, ?_⟩
  · intro i hi j
    rw [(copyStreakInImpl_layout f _ target stride num hstride).1 i hi j]
    have hw : window (copyStreakOutImpl f source external num stride) (i * ARITY) =
        f.save (fun k => source (i + k.val * stride)) := by
      funext k
      exact hout.1 i hi k
    rw [hw, hload]
  · exact (copyStreakInImpl_layout f _ target stride num hstride).2

/-- Witness of C40: the filter that adds one on the way out and takes one away on the way
in, two elements of two components with stride 3. The external array holds the elements
component by component; copying back reproduces the entries 0, 1, 3 and 4 of the source
and leaves the entry 2 of the target as it was. -/
theorem streak_copy_roundtrip_witness :
    ((∀ m, Example.shiftFilter.load (Example.shiftFilter.save m) = m) ∧ 2 ≤ 3) ∧
    ((List.range 5).map (copyStreakOutImpl Example.shiftFilter (fun x => 10 * x)
        (fun _ => 0) 2 3) = [1, 31, 11, 41, 0] ∧
      (List.range 6).map (copyStreakInImpl Example.shiftFilter
        (copyStreakOutImpl Example.shiftFilter (fun x => 10 * x) (fun _ => 0) 2 3)
        (fun _ => 7) 2 3) = [0, 10, 7, 30, 40, 7]) ∧
    (∀ i, i < 2 → ∀ j : Fin 2,
      copyStreakInImpl Example.shiftFilter
        (copyStreakOutImpl Example.shiftFilter (fun x => 10 * x) (fun _ => 0) 2 3)
        (fun _ => 7) 2 3 (i + j.val * 3) = 10 * (i + j.val * 3)) :=
  ⟨⟨fun m => funext (fun j => Nat.add_sub_cancel (m j) 1), by decide⟩, ⟨by decide, by decide⟩,
    (streak_copy_roundtrip Example.shiftFilter (fun m => funext (fun j => Nat.add_sub_cancel (m j) 1))
      (fun x => 10 * x) (fun _ => 7) (fun _ => 0) 2 3 (by decide)).2.2.1⟩

end SimpleArrayFilter

namespace PartitionManager

variable {D : Nat}

/-- C7 (amended): after `resetRegions` with ghost zone width `G`, `rim(G)` and
`innerSet(G)` are disjoint, `rim(G) ∩ innerSet(G) = ∅`, for every decomposition; the
volatile kernel is not their intersection but a part of the inner set inside the widest
rim: `getVolatileKernel() ⊆ rim(0) ∩ innerSet(G)`. -/
theorem rim_inter_innerSet_empty (T : Topology D) (pm0 : PartitionManager D)
    (sa : CoordBox D) (part : Partition D) (me G : Nat) :
    (resetRegions T pm0 sa part me G).rim G ∩ (resetRegions T pm0 sa part me G).innerSet G =
      ∅ ∧
    (resetRegions T pm0 sa part me G).getVolatileKernel ⊆
      (resetRegions T pm0 sa part me G).rim 0 ∩ (resetRegions T pm0 sa part me G).innerSet G := by
  constructor
  · rw [rim_resetRegions T pm0 sa part me G (le_refl G),
      innerSet_resetRegions T pm0 sa part me G (le_refl G), rimOf_self]
    ext c
    simp only [Finset.mem_inter, Finset.not_mem_empty, iff_false]
    rintro ⟨⟨hown, hexp⟩, hin⟩
    have hs : ∀ x ∈ surfaceOf sa.dimensions T (part.getRegion me), inBounds sa.dimensions x :=
      fun x hx => inBounds_of_mem_expand (Finset.mem_sdiff.1 hx).1
    rw [expand_eq_expandSteps T G hs] at hexp
    by_cases hG : G = 0
    · subst hG
      rw [expandSteps_zero] at hexp
      exact (Finset.mem_sdiff.1 hexp).2 hown
    · exact (mem_innerSetOf.1 hin).2 G (by omega) (le_refl G) hexp
  · rw [rim_resetRegions T pm0 sa part me G (Nat.zero_le G),
      innerSet_resetRegions T pm0 sa part me G (le_refl G), volatileKernel_resetRegions]
    intro c hc
    rw [Finset.mem_inter] at hc ⊢
    exact ⟨hc.2, hc.1⟩

end PartitionManager

namespace UpdateGroup

/-- Witness of C25 with a first sync point that wraps around: for the start step
`2^32 - 1`, one nano step per step and the ghost zone width 2, the links of rank 0 of the
two stripes are charged with the first sync point `(2^32 - 1 + 2) mod 2^32 = 1`; for the
start step 0 and three nano steps the first sync point is 2. -/
theorem links_charged_once_witness :
    (∃ ug, construct (Topology.cube 1) 1 Example.stripes Example.box10 2
        (⟨Example.box10.dimensions, Example.box10, 4294967295, 10⟩ : Initializer 1)
        ([] : List Unit) [] ([] : List Unit) [] Example.pairLayer = Except.ok ug ∧
      ug.patchLinks ≠ [] ∧ ∀ l ∈ ug.patchLinks, l.charges = [⟨1, ENDLESS, 2⟩]) ∧
    (∃ ug, Example.pairGroup = Except.ok ug ∧
      ug.patchLinks ≠ [] ∧ ∀ l ∈ ug.patchLinks, l.charges = [⟨2, ENDLESS, 2⟩]) := by
  constructor
  · obtain ⟨ug, _, hug, _, hc, _, _, _, _⟩ := @links_charged_once Unit Unit 1 (Topology.cube 1)
      1 Example.stripes Example.box10 2
      (⟨Example.box10.dimensions, Example.box10, 4294967295, 10⟩ : Initializer 1)
      [] [] [] [] [] [] [] [] Example.pairLayer Example.pairLayer
    refine ⟨ug, hug, ?_, hc⟩
    have he := hug.symm.trans (construct_eq (Topology.cube 1) 1 Example.stripes Example.box10
      2 (⟨Example.box10.dimensions, Example.box10, 4294967295, 10⟩ : Initializer 1)
      ([] : List Unit) [] ([] : List Unit) [] Example.pairLayer)
    rw [Except.ok.injEq] at he
    rw [he]
    decide
  · obtain ⟨ug, _, hug, _, _, hc, _, _, _⟩ := @links_charged_once Unit Unit 1 (Topology.cube 1)
      3 Example.stripes Example.box10 2 Example.pairInitializer
      [] [] [] [] [] [] [] [] Example.pairLayer Example.pairLayer
    refine ⟨ug, hug, ?_, hc (by decide)⟩
    have he := hug.symm.trans (construct_eq (Topology.cube 1) 3 Example.stripes Example.box10
      2 Example.pairInitializer ([] : List Unit) [] ([] : List Unit) [] Example.pairLayer)
    rw [Except.ok.injEq] at he
    rw [he]
    decide

end UpdateGroup

end LibGeoDecomp
